import Mathlib

/-!
# file-structures: BlockFile free list, BlockTable and HashBucket

A shallow embedding of `block/file2/file.go` and `linhash/bucket/bucket.go`.
Byte slices are lists of naturals, Go integers are `Nat`/`Int` with explicit
reduction modulo `2^32` where the source uses `uint32`, run-time panics and
error returns are values of `Except Err`.
-/

namespace FileStructures

/-- The byte slices of the `byteslice` package. -/
abbrev ByteSlice := List Nat

/-- Errors and panics of the two packages. -/
inductive Err where
  | KeyNotFound
  | KeySizeWrong
  | ValueSizeWrong
  | KeyTooBig
  | LastBlock
  | UnsupportedHashSize
  | NotOpen
  | StillOpen
  | BadChecksum
  | TooLarge
  | NoFreeBlocks
  | EOF
  | BadSeek
  | Panic
  | Other (code : Nat)
  deriving DecidableEq, Repr

instance instDecidableEqExcept {α : Type} [DecidableEq α] : DecidableEq (Except Err α) :=
  fun a b =>
    match a, b with
    | .ok x, .ok y =>
      if h : x = y then isTrue (by rw [h]) else isFalse (fun h' => h (Except.ok.inj h'))
    | .error e, .error f =>
      if h : e = f then isTrue (by rw [h]) else isFalse (fun h' => h (Except.error.inj h'))
    | .ok _, .error _ => isFalse (fun h => Except.noConfusion h)
    | .error _, .ok _ => isFalse (fun h => Except.noConfusion h)

/-- Modelled from the spec: `ByteSlice.Eq` of the byteslice package, which is not
among the sources; two slices are equal when they have the same bytes. -/
def ByteSlice.Eq (a b : ByteSlice) : Bool := decide (a = b)

/-- Modelled from the spec: `ByteSlice.Lt` of the byteslice package, which is not
among the sources; the spec calls it the lexicographic compare on raw bytes. -/
def ByteSlice.Lt : ByteSlice → ByteSlice → Bool
  | [], [] => false
  | [], _ :: _ => true
  | _ :: _, [] => false
  | a :: as, b :: bs => decide (a < b) || (decide (a = b) && ByteSlice.Lt as bs)

/-- The decrement `x -= 1` of a `uint32`, which wraps at zero. -/
def uint32_dec (x : Nat) : Nat := if x = 0 then 4294967295 else x - 1

/-- Go's builtin `copy(dst, src)`: the first `min (len dst) (len src)` bytes of
`dst` are overwritten, the rest of `dst` stays. -/
def copy (dst src : ByteSlice) : ByteSlice :=
  src.take dst.length ++ dst.drop src.length

/-- A record slot: views of `keysize` and `valsize` bytes of a block. -/
structure record where
  key : ByteSlice
  value : ByteSlice
  deriving DecidableEq, Repr

/-- The backward walk of `record_slice.find`:
`for j := m; j >= 0; j-- { if j == 0 || !key.Eq(self[j-1].key) { return j } }`. -/
def walkBack (self : List record) (key : ByteSlice) : Nat → Nat
  | 0 => 0
  | j + 1 =>
    match self[j]? with
    | none => j + 1
    | some p => if ByteSlice.Eq key p.key then walkBack self key j else j + 1

/-- The `for l <= r` loop of `record_slice.find`; `none` when the fuel runs out or
an index is out of range. -/
def findLoop (self : List record) (key : ByteSlice) : Nat → Int → Int → Option (Nat × Bool)
  | 0, _, _ => none
  | fuel + 1, l, r =>
    if l ≤ r then
      let m : Int := ((r - l) >>> (1 : Nat)) + l
      if m < 0 then none else
      match self[m.toNat]? with
      | none => none
      | some rec =>
        if ByteSlice.Lt key rec.key then findLoop self key fuel l (m - 1)
        else if ByteSlice.Eq key rec.key then some (walkBack self key m.toNat, true)
        else findLoop self key fuel (m + 1) r
    else some (l.toNat, false)

/-- `record_slice.find`, started with `l = 0`, `r = len(self) - 1`. -/
def record_slice.find (self : List record) (key : ByteSlice) : Option (Nat × Bool) :=
  findLoop self key (self.length + 1) 0 ((self.length : Int) - 1)

/-- Ascending order of the keys of a record slice. -/
def SortedKeys (rs : List record) : Prop :=
  rs.Pairwise (fun a b => ByteSlice.Lt b.key a.key = false)

instance instDecidableSortedKeys (rs : List record) : Decidable (SortedKeys rs) := by
  unfold SortedKeys
  infer_instance

/-- The number of records whose key is strictly below `key`. -/
def countLt (rs : List record) (key : ByteSlice) : Nat :=
  rs.countP (fun r => ByteSlice.Lt r.key key)

/-! ### Block devices, blocks and headers -/

/-- The `file.BlockDevice` interface the bucket package programs against
(`BlockSize`, `Allocate`, `Free`, `ReadBlock`, `WriteBlock`), over an explicit
device state `δ`. Every call returns its result together with the device state
it leaves behind. -/
structure BlockDevice (δ : Type) where
  BlockSize : δ → Nat
  Allocate : δ → Except Err Int × δ
  Free : δ → Int → Except Err Unit × δ
  ReadBlock : δ → Int → Except Err ByteSlice × δ
  WriteBlock : δ → Int → ByteSlice → Except Err Unit × δ

/-- Modelled from the spec: the `header` struct of the bucket package, whose
declaration is not among the sources (`keysize`, `valsize`, `flags` with the
continuation bit, `records`, `blocks`, `next`). -/
structure header where
  keysize : Nat
  valsize : Nat
  flags : Bool
  records : Nat
  blocks : Nat
  next : Int
  deriving DecidableEq, Repr

/-- Modelled from the spec: `new_header(keysize, valsize, continuation)` of the
bucket package, not among the sources: an empty header with no successor. -/
def new_header (keysize valsize : Nat) (continuation : Bool) : header :=
  { keysize := keysize, valsize := valsize, flags := continuation,
    records := 0, blocks := 0, next := 0 }

/-- Modelled from the spec: `BLOCKHEADER`, the byte width of the head header
(keysize u8, valsize u8, flags u8, records u32, blocks u32, next u64). -/
def BLOCKHEADER : Nat := 19

/-- Modelled from the spec: the `block` struct of the bucket package, whose
declaration is not among the sources. `key` is the block offset, `header` what
`Header()` returns and `SetHeader` stores, `datalen` is `len(blk.data)`. The bytes
of the data region are not kept here: they are the record slots viewed by
`BlockTable.records`. -/
structure block where
  key : Int
  header : header
  datalen : Nat
  deriving DecidableEq, Repr

/-- Modelled from the spec: big-endian encoding of the byteslice package
(`ByteSlice32`, `ByteSlice64`), `w` bytes wide. -/
def beBytes : Nat → Nat → ByteSlice
  | 0, _ => []
  | w + 1, x => (x / 256 ^ w) % 256 :: beBytes w x

/-- Modelled from the spec: `ByteSlice32` of the byteslice package. -/
def ByteSlice32 (x : Nat) : ByteSlice := beBytes 4 x

/-- Modelled from the spec: `ByteSlice64` of the byteslice package. -/
def ByteSlice64 (x : Nat) : ByteSlice := beBytes 8 x

/-- Big-endian value of a byte slice. -/
def beValue (b : ByteSlice) : Nat := b.foldl (fun acc x => acc * 256 + x) 0

/-- Modelled from the spec: `ByteSlice.Int64` of the byteslice package (the source
assigns its result to a `uint64`). -/
def ByteSlice.Int64 (b : ByteSlice) : Nat := beValue b % 2 ^ 64

/-- Modelled from the spec: `ByteSlice.Int32` of the byteslice package. -/
def ByteSlice.Int32 (b : ByteSlice) : Nat := beValue b % 2 ^ 32

/-- A record slot of `keysize + valsize` zero bytes. -/
def zeroRecord (keysize valsize : Nat) : record :=
  ⟨List.replicate keysize 0, List.replicate valsize 0⟩

/-- Modelled from the spec: the bytes `blk.WriteBlock` hands to the device, which
the sources do not show: the header fields in the order of the spec, then the
record slots of the block. -/
def blockBytes (h : header) (data : ByteSlice) : ByteSlice :=
  [h.keysize % 256, h.valsize % 256, if h.flags then 1 else 0]
    ++ ByteSlice32 h.records ++ ByteSlice32 h.blocks ++ ByteSlice64 (h.next.toNat)
    ++ data

/-- The bytes of a data region of `datalen` bytes whose leading bytes are viewed
by `slots`; the bytes after the last slot are zero. -/
def slotBytes (datalen : Nat) (slots : List record) : ByteSlice :=
  let b := (slots.map (fun r => r.key ++ r.value)).flatten
  b ++ List.replicate (datalen - b.length) 0

/-- Modelled from the spec: `allocBlock(file)` of the bucket package, not among the
sources: one block from `device.Allocate()`, with an empty header and a data
region of `BlockSize - BLOCKHEADER` bytes. -/
def allocBlock {δ : Type} (D : BlockDevice δ) (file : δ) : Except Err block × δ :=
  match D.Allocate file with
  | (.error e, file) => (.error e, file)
  | (.ok key, file) =>
    (.ok { key := key, header := new_header 0 0 false,
           datalen := D.BlockSize file - BLOCKHEADER }, file)

/-! ### BlockTable -/

/-- `BlockTable` without its `file` field: the device state is passed to and
returned by every method. `records` is the flat view `self.records` on the
record slots; slot `j * R + i` is slot `i` of the `j`-th block the view was
built from, so the slots of the chain blocks are a prefix of it. -/
structure BlockTable where
  key : Int
  header : header
  blocks : List block
  records : List record
  deriving DecidableEq, Repr

/-- `BlockTable.records_per_blk`; indexing an empty chain and dividing by a zero
record size panic. -/
def BlockTable.records_per_blk (self : BlockTable) : Except Err Nat :=
  match self.blocks with
  | [] => .error .Panic
  | blk :: _ =>
    let rec_size := self.header.keysize + self.header.valsize
    if rec_size = 0 then .error .Panic else .ok (blk.datalen / rec_size)

/-- `BlockTable.save`: the live header goes into the head block, then every chain
block is written through the device; `length` slots of the view belong to each. -/
def writeBlocks {δ : Type} (D : BlockDevice δ) (length : Nat) (records : List record) :
    List block → Nat → δ → Except Err Unit × δ
  | [], _, file => (.ok (), file)
  | blk :: rest, j, file =>
    match D.WriteBlock file blk.key
        (blockBytes blk.header (slotBytes blk.datalen ((records.drop (j * length)).take length))) with
    | (.error e, file) => (.error e, file)
    | (.ok _, file) => writeBlocks D length records rest (j + 1) file

/-- `BlockTable.save`. -/
def BlockTable.save {δ : Type} (D : BlockDevice δ) (self : BlockTable) (file : δ) :
    Except Err Unit × BlockTable × δ :=
  match self.blocks with
  | [] => (.error .Panic, self, file)
  | b0 :: rest =>
    let self := { self with blocks := { b0 with header := self.header } :: rest }
    let length := b0.datalen / (self.header.keysize + self.header.valsize)
    match writeBlocks D length self.records self.blocks 0 file with
    | (.error e, file) => (.error e, self, file)
    | (.ok _, file) => (.ok (), self, file)

/-- `BlockTable._records` as `add_block` calls it, after `blk` was appended to a
chain of `n` blocks: the views on the `n` blocks already in the chain are the
first `length * n` entries of the current view, the views on the new block are
`length` fresh slots. Slicing a data region that is too short panics. -/
def BlockTable._records (self : BlockTable) (n : Nat) (blk : block) : Except Err (List record) :=
  match self.records_per_blk with
  | .error e => .error e
  | .ok length =>
    if blk.datalen < length * (self.header.keysize + self.header.valsize) then .error .Panic
    else .ok (self.records.take (length * n)
      ++ List.replicate length (zeroRecord self.header.keysize self.header.valsize))

/-- `h := last_blk.Header(); h.next = next; last_blk.SetHeader(h)` on the last
block of a chain. -/
def setLastNext (blocks : List block) (next : Int) : List block :=
  match blocks.getLast? with
  | none => blocks
  | some last_blk =>
    blocks.dropLast ++ [{ last_blk with header := { last_blk.header with next := next } }]

/-- `BlockTable.add_block`. The successor pointer goes into the live header
when the chain has one block and into the header of the last block otherwise. -/
def BlockTable.add_block {δ : Type} (D : BlockDevice δ) (self : BlockTable) (file : δ) :
    Except Err Unit × BlockTable × δ :=
  match allocBlock D file with
  | (.error e, file) => (.error e, self, file)
  | (.ok blk, file) =>
    let blk : block := { blk with header := { blk.header with flags := true } }
    if self.blocks.length = 0 then (.error .Panic, self, file) else
    let n := self.blocks.length
    let next : Int := if n = 1 then blk.key else self.header.next
    let blocks : List block := if n = 1 then self.blocks else setLastNext self.blocks blk.key
    let self : BlockTable :=
      { key := self.key,
        header := { self.header with next := next,
                                     blocks := (self.header.blocks + 1) % 2 ^ 32 },
        blocks := blocks ++ [blk],
        records := self.records }
    match self._records n blk with
    | .error e => (.error e, self, file)
    | .ok records => BlockTable.save D { self with records := records } file

/-- `BlockTable.remove_block`; the record view is left as it is. -/
def BlockTable.remove_block {δ : Type} (D : BlockDevice δ) (self : BlockTable) (file : δ) :
    Except Err Unit × BlockTable × δ :=
  if self.blocks.length ≤ 1 then (.error .LastBlock, self, file) else
  match self.blocks.getLast? with
  | none => (.error .Panic, self, file)
  | some freed =>
    let blocks : List block := self.blocks.dropLast
    let next : Int := if blocks.length = 1 then 0 else self.header.next
    let blocks : List block := if blocks.length = 1 then blocks else setLastNext blocks 0
    let self : BlockTable :=
      { key := self.key,
        header := { self.header with next := next,
                                     blocks := uint32_dec self.header.blocks },
        blocks := blocks,
        records := self.records }
    match D.Free file freed.key with
    | (.error e, file) => (.error e, self, file)
    | (.ok _, file) => (.ok (), self, file)

/-- `BlockTable.Has`; slicing `all_records[:header.records]` beyond the view panics. -/
def BlockTable.Has (self : BlockTable) (key : ByteSlice) : Except Err Bool :=
  if self.records.length < self.header.records then .error .Panic else
  match record_slice.find (self.records.take self.header.records) key with
  | none => .error .Panic
  | some (_, ok) => .ok ok

/-- `BlockTable.Get` (the debugging print on a miss has no effect on the state). -/
def BlockTable.Get (self : BlockTable) (key : ByteSlice) : Except Err ByteSlice :=
  if self.records.length < self.header.records then .error .Panic else
  match record_slice.find (self.records.take self.header.records) key with
  | none => .error .Panic
  | some (i, ok) =>
    if !ok then .error .KeyNotFound else
    match (self.records.take self.header.records)[i]? with
    | none => .error .Panic
    | some record => .ok record.value

/-- The loop of `put` over the run of records whose key equals `key`, from index
`j` on: the first record for which `doreplace` answers `true` ends it with that
index and the replacement bytes. `doreplace` may change its own state `γ` and
may panic. -/
def replaceLoop {γ : Type} (doreplace : γ → record → Except Err (Bool × ByteSlice) × γ)
    (key : ByteSlice) : List record → Nat → γ → Except Err (Option (Nat × ByteSlice)) × γ
  | [], _, g => (.ok none, g)
  | r :: rest, j, g =>
    if ByteSlice.Eq key r.key then
      match doreplace g r with
      | (.error e, g) => (.error e, g)
      | (.ok (true, tmp), g) => (.ok (some (j, tmp)), g)
      | (.ok (false, _), g) => replaceLoop doreplace key rest (j + 1) g
    else (.ok none, g)

/-- The shifting loop of `put`,
`for ; j > i; j-- { copy(all[j].key, all[j-1].key); copy(all[j].value, all[j-1].value) }`,
entered with the current `j`. -/
def shiftUp (all_records : List record) (i : Nat) : Nat → List record
  | 0 => all_records
  | j + 1 =>
    if i < j + 1 then
      match all_records[j]?, all_records[j + 1]? with
      | some cur, some next =>
        shiftUp (all_records.set (j + 1) ⟨copy next.key cur.key, copy next.value cur.value⟩) i j
      | _, _ => all_records
    else all_records

/-- `BlockTable.put`. The closure `doreplace` has its own state `γ`. -/
def BlockTable.put {δ γ : Type} (D : BlockDevice δ)
    (doreplace : γ → record → Except Err (Bool × ByteSlice) × γ)
    (self : BlockTable) (file : δ) (g : γ) (key value : ByteSlice) :
    Except Err Unit × BlockTable × δ × γ :=
  if key.length ≠ self.header.keysize then (.error .KeySizeWrong, self, file, g) else
  if value.length > self.header.valsize then (.error .ValueSizeWrong, self, file, g) else
  let grown : Except Err Unit × BlockTable × δ :=
    if self.records.length ≤ self.header.records + 1 then self.add_block D file
    else (.ok (), self, file)
  match grown with
  | (.error e, self, file) => (.error e, self, file, g)
  | (.ok _, self, file) =>
    let all_records := self.records
    if all_records.length < self.header.records then (.error .Panic, self, file, g) else
    let records := all_records.take self.header.records
    match record_slice.find records key with
    | none => (.error .Panic, self, file, g)
    | some (i, found) =>
      let looped : Except Err (Option (Nat × ByteSlice)) × γ :=
        if found then replaceLoop doreplace key (records.drop i) i g else (.ok none, g)
      match looped with
      | (.error e, g) => (.error e, self, file, g)
      | (.ok (some (j, bytes)), g) =>
        match all_records[j]? with
        | none => (.error .Panic, self, file, g)
        | some spot =>
          let all_records := all_records.set j ⟨copy spot.key key, copy spot.value bytes⟩
          match BlockTable.save D { self with records := all_records } file with
          | (r, self, file) => (r, self, file, g)
      | (.ok none, g) =>
        let all_records := shiftUp all_records i (all_records.length - 1)
        let self := { self with records := all_records, header :=
                        { self.header with records := (self.header.records + 1) % 2 ^ 32 } }
        match all_records[i]? with
        | none => (.error .Panic, self, file, g)
        | some spot =>
          let all_records := all_records.set i ⟨copy spot.key key, copy spot.value value⟩
          match BlockTable.save D { self with records := all_records } file with
          | (r, self, file) => (r, self, file, g)

/-- `BlockTable.Put`: `put` with a closure that always asks for the replacement. -/
def BlockTable.Put {δ : Type} (D : BlockDevice δ) (self : BlockTable) (file : δ)
    (key value : ByteSlice) : Except Err Unit × BlockTable × δ :=
  match BlockTable.put D (fun (u : Unit) (_ : record) => (Except.ok (true, value), u))
      self file () key value with
  | (r, self, file, _) => (r, self, file)

/-- The shifting loop of `remove_index`,
`for ; i < len(all)-1; i++ { copy(all[i].key, all[i+1].key); copy(all[i].value, all[i+1].value) }`. -/
def shiftDown (all_records : List record) : Nat → Nat → List record
  | 0, _ => all_records
  | fuel + 1, i =>
    if i + 1 < all_records.length then
      match all_records[i]?, all_records[i + 1]? with
      | some cur, some next =>
        shiftDown (all_records.set i ⟨copy cur.key next.key, copy cur.value next.value⟩)
          fuel (i + 1)
      | _, _ => all_records
    else all_records

/-- `BlockTable.remove_index`; the division by `records_per_blk()` panics when a
block has no record slot. -/
def BlockTable.remove_index {δ : Type} (D : BlockDevice δ) (self : BlockTable) (file : δ)
    (i : Nat) : Except Err Unit × BlockTable × δ :=
  let all_records := shiftDown self.records self.records.length i
  let self := { self with records := all_records, header :=
                  { self.header with records := uint32_dec self.header.records } }
  match self.records_per_blk with
  | .error e => (.error e, self, file)
  | .ok per =>
    if per = 0 then (.error .Panic, self, file) else
    if self.header.records / per + 1 < self.blocks.length then
      match self.remove_block D file with
      | (.error e, self, file) => (.error e, self, file)
      | (.ok _, self, file) => self.save D file
    else self.save D file

/-- `BlockTable.Remove`. -/
def BlockTable.Remove {δ : Type} (D : BlockDevice δ) (self : BlockTable) (file : δ)
    (key : ByteSlice) : Except Err Unit × BlockTable × δ :=
  if self.records.length < self.header.records then (.error .Panic, self, file) else
  match record_slice.find (self.records.take self.header.records) key with
  | none => (.error .Panic, self, file)
  | some (i, ok) =>
    if !ok then (.error .KeyNotFound, self, file)
    else self.remove_index D file i

/-- `NewBlockTable`. -/
def NewBlockTable {δ : Type} (D : BlockDevice δ) (file : δ) (keysize valsize : Nat) :
    Except Err BlockTable × δ :=
  if keysize > 8 then (.error .KeyTooBig, file) else
  match allocBlock D file with
  | (.error e, file) => (.error e, file)
  | (.ok blk, file) =>
    let h := { new_header keysize valsize false with blocks := 1 }
    let blk := { blk with header := h }
    match D.WriteBlock file blk.key (blockBytes blk.header (slotBytes blk.datalen [])) with
    | (.error e, file) => (.error e, file)
    | (.ok _, file) =>
      let self : BlockTable := { key := blk.key, header := blk.header, blocks := [blk], records := [] }
      match self.records_per_blk with
      | .error e => (.error e, file)
      | .ok length =>
        (.ok { self with records := List.replicate length (zeroRecord keysize valsize) }, file)

/-- The occupied records: the first `header.records` slots of the view. -/
def BlockTable.occupied (self : BlockTable) : List record :=
  self.records.take self.header.records

/-- The number of record slots of one block, `len(blk.data) / (keysize + valsize)`. -/
def BlockTable.perBlock (self : BlockTable) : Nat :=
  match self.blocks with
  | [] => 0
  | blk :: _ => blk.datalen / (self.header.keysize + self.header.valsize)

/-- The record view `put` works on: `self.records`, or, when `put` first calls
`add_block` (`len(all_records) <= records + 1`), the view `add_block` rebuilds:
the slots of the chain blocks followed by the zero slots of the new block. -/
def BlockTable.putView (self : BlockTable) : List record :=
  if self.records.length ≤ self.header.records + 1 then
    self.records.take (self.perBlock * self.blocks.length)
      ++ List.replicate self.perBlock (zeroRecord self.header.keysize self.header.valsize)
  else self.records

/-- The data-model invariants of a BlockTable: a non-empty chain whose blocks
hold at least one record each, a view that covers every chain block, record
slots of `keysize` and `valsize` bytes, and `records ≤ R * blocks` within the
range of `uint32`. -/
structure BlockTable.WF (t : BlockTable) : Prop where
  recsize : 0 < t.header.keysize + t.header.valsize
  perblk : 0 < t.perBlock
  cover : t.perBlock * t.blocks.length ≤ t.records.length
  fits : t.header.records ≤ t.perBlock * t.blocks.length
  sizes : ∀ r ∈ t.records,
    r.key.length = t.header.keysize ∧ r.value.length = t.header.valsize
  range : t.header.records < 2 ^ 32

/-! ### HashBucket -/

/-- The `KVStore` interface over an explicit store state `κ`. `Get` is a query:
it returns the key and the value behind a handle and leaves the store alone;
`Size` is the fixed width of the handles. -/
structure KVStore (κ : Type) where
  Size : Nat
  Get : κ → ByteSlice → Except Err (ByteSlice × ByteSlice)
  Put : κ → ByteSlice → ByteSlice → Except Err ByteSlice × κ
  Update : κ → ByteSlice → ByteSlice → ByteSlice → Except Err ByteSlice × κ
  Remove : κ → ByteSlice → Except Err Unit × κ

/-- `HashBucket` without its `kv` field: the store state is passed to and
returned by the methods, like the device state. -/
structure HashBucket where
  bt : BlockTable
  deriving DecidableEq, Repr

/-- `NewHashBucket` (a store is always present here, so the `kv == nil` check has
no counterpart). -/
def NewHashBucket {δ κ : Type} (D : BlockDevice δ) (K : KVStore κ) (file : δ)
    (hashsize : Nat) (_kv : κ) : Except Err HashBucket × δ :=
  if hashsize ≠ 8 then (.error .UnsupportedHashSize, file) else
  match NewBlockTable D file hashsize K.Size with
  | (.error e, file) => (.error e, file)
  | (.ok bt, file) => (.ok ⟨bt⟩, file)

/-- `record_slice.find_all`: the run of records whose key equals `key`, from the
index `find` returns. -/
def record_slice.find_all (self : List record) (key : ByteSlice) : Option (List record) :=
  match record_slice.find self key with
  | none => none
  | some (i, ok) =>
    if !ok then some []
    else some ((self.drop i).takeWhile (fun r => ByteSlice.Eq key r.key))

/-- The loop of `HashBucket.Has` over the found records; an error of `kv.Get`
is a panic. -/
def hasLoop {κ : Type} (K : KVStore κ) (kv : κ) (key : ByteSlice) : List record → Except Err Bool
  | [] => .ok false
  | rec :: rest =>
    match K.Get kv rec.value with
    | .error e => .error e
    | .ok (k2, _) => if ByteSlice.Eq key k2 then .ok true else hasLoop K kv key rest

/-- `HashBucket.Has`. -/
def HashBucket.Has {κ : Type} (K : KVStore κ) (self : HashBucket) (kv : κ)
    (hash key : ByteSlice) : Except Err Bool :=
  if self.bt.records.length < self.bt.header.records then .error .Panic else
  match record_slice.find_all (self.bt.records.take self.bt.header.records) hash with
  | none => .error .Panic
  | some found => hasLoop K kv key found

/-- The loop of `HashBucket.Get` over the found records. -/
def getLoop {κ : Type} (K : KVStore κ) (kv : κ) (key : ByteSlice) :
    List record → Except Err ByteSlice
  | [] => .error .KeyNotFound
  | rec :: rest =>
    match K.Get kv rec.value with
    | .error e => .error e
    | .ok (k2, value) => if ByteSlice.Eq key k2 then .ok value else getLoop K kv key rest

/-- `HashBucket.Get`. -/
def HashBucket.Get {κ : Type} (K : KVStore κ) (self : HashBucket) (kv : κ)
    (hash key : ByteSlice) : Except Err ByteSlice :=
  if self.bt.records.length < self.bt.header.records then .error .Panic else
  match record_slice.find_all (self.bt.records.take self.bt.header.records) hash with
  | none => .error .Panic
  | some found => getLoop K kv key found

/-- The closure `HashBucket.Put` hands to `bt.put`. Its state is the store and the
captured variable `updated`; `bytes` is the handle `kv.Put` has just returned. -/
def putDecide {κ : Type} (K : KVStore κ) (key value bytes : ByteSlice) :
    κ × Bool → record → Except Err (Bool × ByteSlice) × (κ × Bool) :=
  fun g rec =>
    match K.Get g.1 rec.value with
    | .error e => (.error e, g)
    | .ok (k2, _) =>
      if ByteSlice.Eq key k2 then
        match K.Update g.1 bytes key value with
        | (.error e, kv) => (.error e, (kv, g.2))
        | (.ok newbytes, kv) => (.ok (true, newbytes), (kv, true))
      else (.ok (false, []), g)

/-- `HashBucket.Put`; a panic inside `bt.put` is recovered into the error. -/
def HashBucket.Put {δ κ : Type} (D : BlockDevice δ) (K : KVStore κ) (self : HashBucket)
    (file : δ) (kv : κ) (hash key value : ByteSlice) :
    Except Err Bool × HashBucket × δ × κ :=
  match K.Put kv key value with
  | (.error e, kv) => (.error e, self, file, kv)
  | (.ok bytes, kv) =>
    match self.bt.put D (putDecide K key value bytes) file (kv, false) hash bytes with
    | (.error e, bt, file, g) => (.error e, ⟨bt⟩, file, g.1)
    | (.ok _, bt, file, g) =>
      match bt.save D file with
      | (.error e, bt, file) => (.error e, ⟨bt⟩, file, g.1)
      | (.ok _, bt, file) => (.ok g.2, ⟨bt⟩, file, g.1)

/-- The partition loop of `Split`: the pointers `mine` and `theirs` are the
indices, in the view of `self`, of the records that stay and that leave. -/
def partitionLoop (stay : ByteSlice → Bool) : List record → Nat → List Nat × List Nat
  | [], _ => ([], [])
  | rec :: rest, p =>
    if stay rec.key then (p :: (partitionLoop stay rest (p + 1)).1, (partitionLoop stay rest (p + 1)).2)
    else ((partitionLoop stay rest (p + 1)).1, p :: (partitionLoop stay rest (p + 1)).2)

/-- The loop `for len(all_records) < len(records) { add_block }` of `write_bucket`.
The fuel runs out only when a block has no record slot, where the source keeps
adding blocks until the device fails. -/
def growLoop {δ : Type} (D : BlockDevice δ) :
    Nat → BlockTable → δ → Nat → Except Err Unit × BlockTable × δ
  | 0, bt, file, n =>
    if bt.records.length < n then (.error .Panic, bt, file) else (.ok (), bt, file)
  | fuel + 1, bt, file, n =>
    if bt.records.length < n then
      match bt.add_block D file with
      | (.error e, bt, file) => (.error e, bt, file)
      | (.ok _, bt, file) => growLoop D fuel bt file n
    else (.ok (), bt, file)

/-- The copy loop of `write_bucket`,
`for i, rec := range records { copy(all[i].key, rec.key); copy(all[i].value, rec.value) }`.
The pointers `records` view the slots `heap` of the bucket being split; with
`heap = none` they view the slots that are being written. -/
def writeLoop (heap : Option (List record)) :
    List record → List Nat → Nat → Except Err Unit × List record
  | all_records, [], _ => (.ok (), all_records)
  | all_records, p :: ps, i =>
    match (heap.getD all_records)[p]?, all_records[i]? with
    | some rec, some dst =>
      writeLoop heap (all_records.set i ⟨copy dst.key rec.key, copy dst.value rec.value⟩) ps (i + 1)
    | _, _ => (.error .Panic, all_records)

/-- The loop `for needed < len(blocks) { remove_block }` of `write_bucket`. -/
def shrinkLoop {δ : Type} (D : BlockDevice δ) :
    Nat → BlockTable → δ → Nat → Except Err Unit × BlockTable × δ
  | 0, bt, file, needed =>
    if needed < bt.blocks.length then (.error .Panic, bt, file) else (.ok (), bt, file)
  | fuel + 1, bt, file, needed =>
    if needed < bt.blocks.length then
      match bt.remove_block D file with
      | (.error e, bt, file) => (.error e, bt, file)
      | (.ok _, bt, file) => shrinkLoop D fuel bt file needed
    else (.ok (), bt, file)

/-- The closure `write_bucket` of `Split`; the division by `records_per_blk()`
panics when a block has no record slot. -/
def write_bucket {δ : Type} (D : BlockDevice δ) (bt : BlockTable) (file : δ)
    (heap : Option (List record)) (records : List Nat) : Except Err Unit × BlockTable × δ :=
  match growLoop D (records.length + 1) bt file records.length with
  | (.error e, bt, file) => (.error e, bt, file)
  | (.ok _, bt, file) =>
    match writeLoop heap bt.records records 0 with
    | (.error e, all_records) => (.error e, { bt with records := all_records }, file)
    | (.ok _, all_records) =>
      let bt : BlockTable :=
        { key := bt.key,
          header := { bt.header with records := records.length % 2 ^ 32 },
          blocks := bt.blocks,
          records := all_records }
      match bt.records_per_blk with
      | .error e => (.error e, bt, file)
      | .ok per =>
        if per = 0 then (.error .Panic, bt, file) else
        match shrinkLoop D bt.blocks.length bt file (bt.header.records / per + 1) with
        | (.error e, bt, file) => (.error e, bt, file)
        | (.ok _, bt, file) => bt.save D file

/-- `HashBucket.Split`; panics are recovered into the error. The result is the
new bucket, next to the bucket `self` has become and the device. -/
def HashBucket.Split {δ κ : Type} (D : BlockDevice δ) (K : KVStore κ) (self : HashBucket)
    (file : δ) (kv : κ) (stay : ByteSlice → Bool) : Except Err HashBucket × HashBucket × δ :=
  if self.bt.records.length < self.bt.header.records then (.error .Panic, self, file) else
  let records := self.bt.records.take self.bt.header.records
  let mine := (partitionLoop stay records 0).1
  let theirs := (partitionLoop stay records 0).2
  match NewHashBucket D K file self.bt.header.keysize kv with
  | (.error e, file) => (.error e, self, file)
  | (.ok other, file) =>
    match write_bucket D other.bt file (some self.bt.records) theirs with
    | (.error e, _, file) => (.error e, self, file)
    | (.ok _, obt, file) =>
      match write_bucket D self.bt file none mine with
      | (.error e, sbt, file) => (.error e, ⟨sbt⟩, file)
      | (.ok _, sbt, file) => (.ok ⟨obt⟩, ⟨sbt⟩, file)

/-- The contract of a store that returns, for each handle it issued, the key and
the value the handle was issued for: handles have the width `Size`, `Put` leaves
what the other handles resolve to, and `Update` changes at most what the updated
and the returned handle resolve to. -/
structure KVStore.Lawful {κ : Type} (K : KVStore κ) : Prop where
  put_get : ∀ kv k v h kv', K.Put kv k v = (Except.ok h, kv') → K.Get kv' h = Except.ok (k, v)
  put_size : ∀ kv k v h kv', K.Put kv k v = (Except.ok h, kv') → h.length = K.Size
  put_frame : ∀ kv k v h kv' h' r, K.Put kv k v = (Except.ok h, kv') →
    K.Get kv h' = Except.ok r → K.Get kv' h' = Except.ok r
  update_get : ∀ kv h k v h2 kv', K.Update kv h k v = (Except.ok h2, kv') →
    K.Get kv' h2 = Except.ok (k, v)
  update_size : ∀ kv h k v h2 kv', K.Update kv h k v = (Except.ok h2, kv') →
    h2.length = K.Size
  update_frame : ∀ kv h k v h2 kv' h', K.Update kv h k v = (Except.ok h2, kv') →
    h' ≠ h → h' ≠ h2 → K.Get kv' h' = K.Get kv h'

/-- A store that keeps a two-byte key and a two-byte value inline in a four-byte
handle, used as a concrete input. -/
def inlineKV : KVStore Unit where
  Size := 4
  Get := fun _ h =>
    if h.length = 4 then .ok (h.take 2, h.drop 2) else .error .KeyNotFound
  Put := fun u k v =>
    (if k.length = 2 ∧ v.length = 2 then .ok (k ++ v) else .error .ValueSizeWrong, u)
  Update := fun u _ k v =>
    (if k.length = 2 ∧ v.length = 2 then .ok (k ++ v) else .error .ValueSizeWrong, u)
  Remove := fun u _ => (.ok (), u)

/-- The occupied records of a bucket. -/
def sbtOcc (b : HashBucket) : List record := b.bt.records.take b.bt.header.records

/-! ### Concrete inputs -/

/-- The state of a small in-memory block device: the number of blocks handed
out and the blocks written so far. -/
structure MemDev where
  next : Nat
  store : List (Int × ByteSlice)
  deriving DecidableEq, Repr

/-- A small in-memory block device with 43-byte blocks (a 19-byte header and
room for three records of eight bytes), used as a concrete input. -/
def memDevice : BlockDevice MemDev where
  BlockSize := fun _ => 43
  Allocate := fun d => (.ok (43 * ((d.next : Int) + 1)), { d with next := d.next + 1 })
  Free := fun d _ => (.ok (), d)
  ReadBlock := fun d p =>
    (match d.store.lookup p with
     | some b => .ok b
     | none => .error .EOF, d)
  WriteBlock := fun d p b => (.ok (), { d with store := (p, b) :: d.store })

/-- A device on which every call fails, used as a concrete input. -/
def failDevice : BlockDevice Unit where
  BlockSize := fun _ => 43
  Allocate := fun d => (.error (.Other 5), d)
  Free := fun d _ => (.error (.Other 5), d)
  ReadBlock := fun d _ => (.error (.Other 5), d)
  WriteBlock := fun d _ _ => (.error (.Other 5), d)

/-- The table `NewBlockTable` builds on `memDevice` for four-byte keys and
four-byte values. -/
def exTable0 : BlockTable :=
  { key := 43,
    header := { keysize := 4, valsize := 4, flags := false, records := 0, blocks := 1, next := 0 },
    blocks := [{ key := 43,
                 header := { keysize := 4, valsize := 4, flags := false, records := 0,
                             blocks := 1, next := 0 },
                 datalen := 24 }],
    records := List.replicate 3 (zeroRecord 4 4) }

/-- The device after `NewBlockTable`. -/
def exDev0 : MemDev := (NewBlockTable memDevice ⟨0, []⟩ 4 4).2

/-- One `Put` on `memDevice`, keeping the table and the device. -/
def exStep (s : BlockTable × MemDev) (key value : ByteSlice) : BlockTable × MemDev :=
  (BlockTable.Put memDevice s.1 s.2 key value).2

/-- The table after `Put(0001, 1111)`. -/
def exState1 : BlockTable × MemDev := exStep (exTable0, exDev0) [0, 0, 0, 1] [1, 1, 1, 1]

/-- The table after `Put(0001, 1111); Put(0003, 3333)`. -/
def exState2 : BlockTable × MemDev := exStep exState1 [0, 0, 0, 3] [3, 3, 3, 3]

/-- The table after `Put(0001, 1111); Put(0003, 3333); Put(0002, 2222)`. -/
def exState3 : BlockTable × MemDev := exStep exState2 [0, 0, 0, 2] [2, 2, 2, 2]

/-- The table after a further `Put(0002, 7)` of a one-byte value. -/
def exState4 : BlockTable × MemDev := exStep exState3 [0, 0, 0, 2] [7]

/-- The table after the same `Put(0002, 7)` once more. -/
def exState5 : BlockTable × MemDev := exStep exState4 [0, 0, 0, 2] [7]

/-- The result of `Remove(0002)` on the three-record table. -/
def exRemoved : Except Err Unit × BlockTable × MemDev :=
  BlockTable.Remove memDevice exState3.1 exState3.2 [0, 0, 0, 2]

/-- The bucket `NewHashBucket` builds on `memDevice` over `inlineKV`. -/
def exBucket0 : HashBucket × MemDev :=
  match NewHashBucket memDevice inlineKV (⟨0, []⟩ : MemDev) 8 () with
  | (.ok b, d) => (b, d)
  | (.error _, d) => (⟨exTable0⟩, d)

/-- One `HashBucket.Put` on `memDevice` over `inlineKV`. -/
def exBucketStep (s : HashBucket × MemDev) (hash key value : ByteSlice) : HashBucket × MemDev :=
  ((HashBucket.Put memDevice inlineKV s.1 s.2 () hash key value).2.1,
   (HashBucket.Put memDevice inlineKV s.1 s.2 () hash key value).2.2.1)

/-- An eight-byte hash ending in 2. -/
def exHashA : ByteSlice := [0, 0, 0, 0, 0, 0, 0, 2]
/-- An eight-byte hash ending in 1. -/
def exHashB : ByteSlice := [0, 0, 0, 0, 0, 0, 0, 1]

/-- After `Put(hashA, 11, 55)`. -/
def exBucket1 : HashBucket × MemDev := exBucketStep exBucket0 exHashA [1, 1] [5, 5]
/-- After a further `Put(hashB, 22, 66)`. -/
def exBucket2 : HashBucket × MemDev := exBucketStep exBucket1 exHashB [2, 2] [6, 6]
/-- After a further `Put(hashA, 33, 77)`: two keys under one hash. -/
def exBucket3 : HashBucket × MemDev := exBucketStep exBucket2 exHashA [3, 3] [7, 7]

/-- The predicate that keeps the records of `exHashA`. -/
def exStay (h : ByteSlice) : Bool := decide (h = exHashA)

/-- `Split(exStay)` on the three-record bucket. -/
def exSplit : Except Err HashBucket × HashBucket × MemDev :=
  HashBucket.Split memDevice inlineKV exBucket3.1 exBucket3.2 () exStay

/-- The bucket `Split` returns on `exBucket3`. -/
def exOther : HashBucket :=
  match exSplit.1 with
  | .ok b => b
  | .error _ => exBucket0.1

/-! ### BlockFile -/

/-- The conversion `uint64(x)` of a Go integer. -/
def uint64 (x : Int) : Nat := (x % 2 ^ 64).toNat

/-- The conversion `int64(x)` of an unsigned 64-bit value. -/
def int64 (x : Nat) : Int :=
  if x % 2 ^ 64 < 2 ^ 63 then ((x % 2 ^ 64 : Nat) : Int) else ((x % 2 ^ 64 : Nat) : Int) - 2 ^ 64

/-- The subtraction `x - y` of two `uint32`, which wraps below zero. -/
def uint32_sub (x y : Nat) : Nat := if y ≤ x then x - y else 4294967296 - (y - x)

/-- The reflected generator polynomial of the IEEE CRC32. -/
def crcPoly : Nat := 0xEDB88320

/-- One shift of the CRC register, least significant bit first. -/
def crcShift (s : Nat) : Nat := if s % 2 = 1 then (s >>> 1) ^^^ crcPoly else s >>> 1

/-- The CRC register after one more byte. -/
def crcByte (s b : Nat) : Nat := Nat.iterate crcShift 8 (s ^^^ (b % 256))

/-- Modelled from the spec: the IEEE CRC32 (`crc32.ChecksumIEEE` of the Go standard
library, not among the sources) in its bit-by-bit form: register preset to
`0xFFFFFFFF`, bytes fed least significant bit first through the reflected
polynomial `0xEDB88320`, result complemented. -/
def ChecksumIEEE (bytes : ByteSlice) : Nat := (bytes.foldl crcByte 0xFFFFFFFF) ^^^ 0xFFFFFFFF

/-- The `ctrlblk` struct. -/
structure ctrlblk where
  blksize : Nat
  free_head : Nat
  free_len : Nat
  userdata : ByteSlice
  deriving DecidableEq, Repr

/-- The constant `CONTROLSIZE`. -/
def CONTROLSIZE : Nat := 20

/-- The statement `copy(bytes[lo:hi], src)`. -/
def copyAt (bytes : ByteSlice) (lo hi : Nat) (src : ByteSlice) : ByteSlice :=
  bytes.take lo ++ copy ((bytes.take hi).drop lo) src ++ bytes.drop hi

/-- `ctrlblk.Bytes`; the slice expressions panic on a block shorter than the
fixed fields. -/
def ctrlblk.Bytes (self : ctrlblk) : Except Err ByteSlice :=
  let bytes := List.replicate self.blksize 0
  if self.blksize < CONTROLSIZE then .error .Panic else
  let bytes := copyAt bytes 4 8 (ByteSlice32 self.blksize)
  let bytes := copyAt bytes 8 16 (ByteSlice64 self.free_head)
  let bytes := copyAt bytes 16 20 (ByteSlice32 self.free_len)
  let bytes := copyAt bytes 20 bytes.length self.userdata
  let bytes := copyAt bytes 0 4 (ByteSlice32 (ChecksumIEEE (bytes.drop 4)))
  .ok bytes

/-- `ctrlblk.Block`. -/
def ctrlblk.Block (self : ctrlblk) : Except Err ByteSlice :=
  match self.Bytes with
  | .error e => .error e
  | .ok bytes => .ok (copy (List.replicate self.blksize 0) bytes)

/-- `load_ctrlblk`; the slice expressions panic on a block that is too short. -/
def load_ctrlblk (bytes : ByteSlice) : Except Err ctrlblk :=
  if bytes.length < 4 then .error .Panic else
  let chksum := ByteSlice.Int32 (bytes.take 4)
  let new_chksum := ChecksumIEEE (bytes.drop 4)
  if new_chksum ≠ chksum then .error .BadChecksum else
  if bytes.length < CONTROLSIZE then .error .Panic else
  .ok { blksize := ByteSlice.Int32 ((bytes.take 8).drop 4),
        free_head := ByteSlice.Int64 ((bytes.take 16).drop 8),
        free_len := ByteSlice.Int32 ((bytes.take 20).drop 16),
        userdata := bytes.drop 20 }

/-- Modelled from the spec: the `buf.Buffer` interface of the buffers package, not
among the sources: a cache keyed by offset and length, over an explicit cache
state `β`. `Read` returns the cached bytes, if any, and the cache state it
leaves behind. -/
structure Buffer (β : Type) where
  Read : β → Int → Nat → Option ByteSlice × β
  Update : β → Int → ByteSlice → β

/-- The `BlockFile` struct. `file` holds the bytes of the file at `path`, which
outlive the handle; `opened` tells whether the handle is there. -/
structure BlockFile (β : Type) where
  opened : Bool
  buf : β
  file : ByteSlice
  ctrl : ctrlblk

/-- `NewBlockFileCustomBlockSize`. -/
def NewBlockFileCustomBlockSize {β : Type} (file : ByteSlice) (buf : β) (size : Nat) :
    Except Err (BlockFile β) :=
  if size % 4096 ≠ 0 then .error .Panic else
  .ok { opened := false, buf := buf, file := file,
        ctrl := { blksize := size, free_head := 0, free_len := 0,
                  userdata := List.replicate (uint32_sub size CONTROLSIZE) 0 } }

/-- The constant `BLOCKSIZE`. -/
def BLOCKSIZE : Nat := 4096

/-- `NewBlockFile`. -/
def NewBlockFile {β : Type} (file : ByteSlice) (buf : β) : Except Err (BlockFile β) :=
  NewBlockFileCustomBlockSize file buf BLOCKSIZE

/-- The calls `file.Seek(p, 0)` and `file.Read(block)` on a buffer of `n` zero
bytes: a negative offset is refused, reading at or after the end of the file is
an end-of-file error, a read that meets the end leaves the rest of the buffer. -/
def pread (file : ByteSlice) (p : Int) (n : Nat) : Except Err ByteSlice :=
  if p < 0 then .error .BadSeek
  else if n = 0 then .ok []
  else if file.length ≤ p.toNat then .error .EOF
  else .ok (copy (List.replicate n 0) (file.drop p.toNat))

/-- The calls `file.Seek(p, 0)` and `file.Write(block)` at a non-negative offset;
a gap after the former end of the file reads as zero bytes. -/
def pwrite (file : ByteSlice) (p : Nat) (block : ByteSlice) : ByteSlice :=
  (file ++ List.replicate (p - file.length) 0).take p ++ block ++ file.drop (p + block.length)

/-- `BlockFile.WriteBlock`. -/
def BlockFile.WriteBlock {β : Type} (B : Buffer β) (self : BlockFile β) (p : Int)
    (block : ByteSlice) : Except Err Unit × BlockFile β :=
  if self.opened = false then (.error .NotOpen, self) else
  let hit := B.Read self.buf p (block.length % 2 ^ 32)
  let self := { self with buf := hit.2 }
  if (match hit.1 with
      | some b => ByteSlice.Eq b block
      | none => false) = true then (.ok (), self) else
  if p < 0 then (.error .BadSeek, self) else
  (.ok (), { self with file := pwrite self.file p.toNat block, buf := B.Update self.buf p block })

/-- `BlockFile.ReadBlock`. -/
def BlockFile.ReadBlock {β : Type} (B : Buffer β) (self : BlockFile β) (p : Int) :
    Except Err ByteSlice × BlockFile β :=
  if self.opened = false then (.error .NotOpen, self) else
  match B.Read self.buf p self.ctrl.blksize with
  | (some b, c) => (.ok b, { self with buf := c })
  | (none, c) =>
    match pread self.file p self.ctrl.blksize with
    | .error e => (.error e, { self with buf := c })
    | .ok block => (.ok block, { self with buf := B.Update c p block })

/-- `BlockFile.ReadBlocks`; a negative `n` makes `make` panic. -/
def BlockFile.ReadBlocks {β : Type} (B : Buffer β) (self : BlockFile β) (p : Int) (n : Int) :
    Except Err ByteSlice × BlockFile β :=
  if self.opened = false then (.error .NotOpen, self) else
  match B.Read self.buf p self.ctrl.blksize with
  | (some b, c) => (.ok b, { self with buf := c })
  | (none, c) =>
    if n < 0 then (.error .Panic, { self with buf := c }) else
    match pread self.file p (self.ctrl.blksize * n.toNat) with
    | .error e => (.error e, { self with buf := c })
    | .ok block => (.ok block, { self with buf := B.Update c p block })

/-- `BlockFile.write_ctrlblk`. -/
def BlockFile.write_ctrlblk {β : Type} (B : Buffer β) (self : BlockFile β) :
    Except Err Unit × BlockFile β :=
  match self.ctrl.Block with
  | .error e => (.error e, self)
  | .ok blk => self.WriteBlock B 0 blk

/-- `BlockFile.read_ctrlblk`. -/
def BlockFile.read_ctrlblk {β : Type} (B : Buffer β) (self : BlockFile β) :
    Except Err Unit × BlockFile β :=
  match self.ReadBlock B 0 with
  | (.error e, self) => (.error e, self)
  | (.ok bytes, self) =>
    match load_ctrlblk bytes with
    | .error e => (.error e, self)
    | .ok cb => (.ok (), { self with ctrl := cb })

/-- `BlockFile.ControlData`. -/
def BlockFile.ControlData {β : Type} (self : BlockFile β) : Except Err ByteSlice :=
  if self.ctrl.userdata.length > uint32_sub self.ctrl.blksize CONTROLSIZE then .error .TooLarge
  else .ok (copy (List.replicate (uint32_sub self.ctrl.blksize CONTROLSIZE) 0) self.ctrl.userdata)

/-- `BlockFile.SetControlData`. -/
def BlockFile.SetControlData {β : Type} (B : Buffer β) (self : BlockFile β) (data : ByteSlice) :
    Except Err Unit × BlockFile β :=
  if data.length > uint32_sub self.ctrl.blksize CONTROLSIZE then (.error .TooLarge, self) else
  let userdata := copy (List.replicate (uint32_sub self.ctrl.blksize CONTROLSIZE) 0) data
  BlockFile.write_ctrlblk B { self with ctrl := { self.ctrl with userdata := userdata } }

/-- `BlockFile.BlockSize`. -/
def BlockFile.BlockSize {β : Type} (self : BlockFile β) : Nat := self.ctrl.blksize

/-- `BlockFile.Size`. -/
def BlockFile.Size {β : Type} (self : BlockFile β) : Except Err Nat :=
  if self.opened = false then .error .NotOpen else .ok (self.file.length % 2 ^ 64)

/-- `BlockFile.resize`: `Truncate` cuts the file or extends it with zero bytes,
and refuses a negative size. -/
def BlockFile.resize {β : Type} (self : BlockFile β) (size : Int) :
    Except Err Unit × BlockFile β :=
  if size < 0 then (.error (.Other 22), self) else
  (.ok (), { self with
    file := self.file.take size.toNat ++ List.replicate (size.toNat - self.file.length) 0 })

/-- `BlockFile.Free`. -/
def BlockFile.Free {β : Type} (B : Buffer β) (self : BlockFile β) (pos : Int) :
    Except Err Unit × BlockFile β :=
  let head := ByteSlice64 self.ctrl.free_head
  let blk := copy (List.replicate self.ctrl.blksize 0) head
  match self.WriteBlock B pos blk with
  | (.error e, self) => (.error e, self)
  | (.ok _, self) =>
    BlockFile.write_ctrlblk B
      { self with ctrl := { self.ctrl with free_head := uint64 pos,
                                           free_len := (self.ctrl.free_len + 1) % 2 ^ 32 } }

/-- `BlockFile.pop_free`. -/
def BlockFile.pop_free {β : Type} (B : Buffer β) (self : BlockFile β) :
    Except Err Int × BlockFile β :=
  if self.ctrl.free_head = 0 ∧ self.ctrl.free_len = 0 then (.error .NoFreeBlocks, self) else
  let pos := int64 self.ctrl.free_head
  match self.ReadBlock B pos with
  | (.error e, self) => (.error e, self)
  | (.ok bytes, self) =>
    if bytes.length < 8 then (.error .Panic, self) else
    match BlockFile.write_ctrlblk B
      { self with ctrl := { self.ctrl with free_head := ByteSlice.Int64 (bytes.take 8),
                                           free_len := uint32_dec self.ctrl.free_len } } with
    | (.error e, self) => (.error e, self)
    | (.ok _, self) => (.ok pos, self)

/-- `BlockFile.alloc`. -/
def BlockFile.alloc {β : Type} (self : BlockFile β) (n : Int) : Except Err Int × BlockFile β :=
  let amt := (self.ctrl.blksize * uint64 n) % 2 ^ 64
  match self.Size with
  | .error e => (.error e, self)
  | .ok size =>
    match self.resize (int64 (size + amt)) with
    | (.error e, self) => (.error e, self)
    | (.ok _, self) => (.ok (int64 size), self)

/-- `BlockFile.Allocate`. -/
def BlockFile.Allocate {β : Type} (B : Buffer β) (self : BlockFile β) :
    Except Err Int × BlockFile β :=
  if self.ctrl.free_len = 0 then self.alloc 1 else self.pop_free B

/-- `BlockFile.AllocateBlocks`. -/
def BlockFile.AllocateBlocks {β : Type} (self : BlockFile β) (n : Int) :
    Except Err Int × BlockFile β :=
  self.alloc n

/-- Modelled from the spec: `BlockFile.open`, which is not among the sources: the
file at `path` is opened for reading and writing, and created empty when it is
not there. -/
def BlockFile.open {β : Type} (self : BlockFile β) : Except Err Unit × BlockFile β :=
  (.ok (), { self with opened := true })

/-- `BlockFile.Open`. -/
def BlockFile.Open {β : Type} (B : Buffer β) (self : BlockFile β) :
    Except Err Unit × BlockFile β :=
  match self.open with
  | (.error e, self) => (.error e, self)
  | (.ok _, self) =>
    match self.Size with
    | .error e => (.error e, self)
    | .ok size =>
      if size = 0 then
        match self.Allocate B with
        | (.error e, self) => (.error e, self)
        | (.ok _, self) => self.write_ctrlblk B
      else self.read_ctrlblk B

/-- `BlockFile.Close`; closing a file that has no handle is an error. -/
def BlockFile.Close {β : Type} (self : BlockFile β) : Except Err Unit × BlockFile β :=
  if self.opened = false then (.error .NotOpen, self) else
  (.ok (), { self with opened := false })

/-- A `BlockFile` as the block device the bucket package programs against. -/
def BlockFile.device {β : Type} (B : Buffer β) : BlockDevice (BlockFile β) where
  BlockSize := fun s => s.BlockSize
  Allocate := fun s => s.Allocate B
  Free := fun s pos => s.Free B pos
  ReadBlock := fun s p => s.ReadBlock B p
  WriteBlock := fun s p b => s.WriteBlock B p b

/-- What a cache must not do: return bytes it was not given. After `Update` the
key `(p, len block)` yields the new block or nothing; reading and updating
bring no bytes under any other key that were not there before. -/
structure Buffer.Lawful {β : Type} (B : Buffer β) : Prop where
  read_sub : ∀ c p n q m b, (B.Read (B.Read c p n).2 q m).1 = some b → (B.Read c q m).1 = some b
  update_same : ∀ c p blk b, (B.Read (B.Update c p blk) p blk.length).1 = some b → b = blk
  update_other : ∀ c p blk q m b, (q ≠ p ∨ m ≠ blk.length) →
    (B.Read (B.Update c p blk) q m).1 = some b → (B.Read c q m).1 = some b

/-- A cache that keeps every update in a list, newest first. -/
def listCache : Buffer (List ((Int × Nat) × ByteSlice)) where
  Read := fun c p n => (c.lookup (p, n), c)
  Update := fun c p blk => ((p, blk.length), blk) :: c

/-- A cache that never holds anything. -/
def noCache : Buffer Unit where
  Read := fun c _ _ => (none, c)
  Update := fun c _ _ => c

/-- The cache agrees with the file on every whole block: what it returns for the
block at `blksize * i` is what a read of the file returns. -/
def BlockFile.Coherent {β : Type} (B : Buffer β) (self : BlockFile β) : Prop :=
  ∀ (i : Nat) (b : ByteSlice),
    (B.Read self.buf ((self.ctrl.blksize * i : Nat) : Int) self.ctrl.blksize).1 = some b →
    pread self.file ((self.ctrl.blksize * i : Nat) : Int) self.ctrl.blksize = .ok b

/-- The block `bytes` with bit `k` of the byte at position `i` flipped. -/
def flipBit (bytes : ByteSlice) (i k : Nat) : ByteSlice :=
  match bytes[i]? with
  | some x => bytes.set i (x ^^^ 2 ^ k)
  | none => bytes
/-- The checksummed bytes of an encoded control block: the three fixed fields
and the user data region. -/
def ctrlblk.payload (c : ctrlblk) : ByteSlice :=
  ByteSlice32 c.blksize ++ (ByteSlice64 c.free_head ++ (ByteSlice32 c.free_len
    ++ copy (List.replicate (c.blksize - CONTROLSIZE) 0) c.userdata))

/-- The byte of a file at position `k`; positions after the end read as zero. -/
def byteAt (f : ByteSlice) (k : Nat) : Nat := (f[k]?).getD 0

/-- The standing assumptions on a `BlockFile` in use: it is open, the cache
agrees with the file on whole blocks, and the block size is a `uint32` that
leaves room for the fixed fields of the control block. -/
structure BlockFile.Good {β : Type} (B : Buffer β) (s : BlockFile β) : Prop where
  opened : s.opened = true
  coh : s.Coherent B
  lo : CONTROLSIZE ≤ s.ctrl.blksize
  hi : s.ctrl.blksize < 2 ^ 32

/-- The checksummed bytes of a control block that records a block size of 8192
in a block of 4096 bytes. -/
def exForgedPayload : ByteSlice :=
  ByteSlice32 8192 ++ (ByteSlice64 0 ++ (ByteSlice32 0 ++ List.replicate 4076 0))

/-- A block of 4096 bytes with a valid checksum that records a block size of
8192. -/
def exForged : ByteSlice := ByteSlice32 (ChecksumIEEE exForgedPayload) ++ exForgedPayload

/-- A file of three blocks of 4096 bytes, open, whose cache holds the block at
offset 4096 as a read of that block leaves it. -/
def exCachedFile : BlockFile (List ((Int × Nat) × ByteSlice)) :=
  { opened := true, buf := [((4096, 4096), List.replicate 4096 1)],
    file := List.replicate 12288 1,
    ctrl := { blksize := 4096, free_head := 0, free_len := 0,
              userdata := List.replicate 4076 0 } }

/-- An open, empty file with 4096-byte blocks and no cache. -/
def exEmptyFile : BlockFile Unit :=
  { opened := true, buf := (), file := [],
    ctrl := { blksize := 4096, free_head := 0, free_len := 0,
              userdata := List.replicate 4076 0 } }

/-- A closed file of one block, `exForged`, as `NewBlockFile` sets it up. -/
def exForgedFile : BlockFile Unit :=
  { opened := false, buf := (), file := exForged,
    ctrl := { blksize := 4096, free_head := 0, free_len := 0,
              userdata := List.replicate 4076 0 } }

/-- The free list as the code threads it through the file: `F` lists the numbers
of the blocks met when following the links from `head` (block `j` is at offset
`n * j`), up to the link 0 that ends the list. -/
def FreeChain (file : ByteSlice) (n : Nat) : Nat → List Nat → Prop
  | head, [] => head = 0
  | head, j :: rest => head = n * j ∧ 0 < j ∧
      ∃ blk, pread file ((n * j : Nat) : Int) n = .ok blk ∧
        FreeChain file n (ByteSlice.Int64 (blk.take 8)) rest

/-- A call of the allocation interface. -/
inductive FileOp where
  | allocate
  | free (pos : Int)

/-- A sequence of `Allocate` and `Free` calls, run while keeping the list of the
live offsets: those returned by `Allocate` and not freed since. The result is
`none` when the sequence applies `Free` to an offset that is not live, and the
error when a call fails. -/
def runOps {β : Type} (B : Buffer β) :
    List FileOp → BlockFile β → List Int → Option (Except Err (BlockFile β × List Int))
  | [], s, live => some (.ok (s, live))
  | .allocate :: ops, s, live =>
    match s.Allocate B with
    | (.error e, _) => some (.error e)
    | (.ok p, s1) => runOps B ops s1 (p :: live)
  | .free p :: ops, s, live =>
    if p ∈ live then
      match s.Free B p with
      | (.error e, _) => some (.error e)
      | (.ok _, s1) => runOps B ops s1 (live.erase p)
    else none

/-- The state of the allocator: the file has `m` blocks, block 0 is the control
block, every other block is either live or on the free list `F`. -/
structure FreeInv {β : Type} (B : Buffer β) (s : BlockFile β) (live : List Int)
    (F : List Nat) (m : Nat) : Prop where
  good : s.Good B
  size : s.file.length = s.ctrl.blksize * m
  count : F.length + live.length + 1 = m
  chain : FreeChain s.file s.ctrl.blksize s.ctrl.free_head F
  len : F.length = s.ctrl.free_len
  nodupF : F.Nodup
  nodupL : live.Nodup
  liveOk : ∀ p ∈ live, ∃ j, p = ((s.ctrl.blksize * j : Nat) : Int) ∧ 0 < j ∧ j < m ∧ j ∉ F
  freeOk : ∀ j ∈ F, j < m
/-- An open file of four blocks of 4096 zero bytes, without cache, whose free
list is empty. -/
def exFourBlocks : BlockFile Unit :=
  { opened := true, buf := (), file := List.replicate 16384 0,
    ctrl := { blksize := 4096, free_head := 0, free_len := 0,
              userdata := List.replicate 4076 0 } }

/-- The test of `remove_index` after the record count was decremented:
`records/records_per_blk + 1 < len(blocks)`, on a table that still holds the
record to remove. -/
def BlockTable.shrinks (t : BlockTable) : Prop :=
  (t.header.records - 1) / t.perBlock + 1 < t.blocks.length

instance instDecidableShrinks (t : BlockTable) : Decidable t.shrinks := by
  unfold BlockTable.shrinks
  exact inferInstance

/-- `Put` of each pair in turn, stopping at the first error. -/
def putAll {δ : Type} (D : BlockDevice δ) :
    List (ByteSlice × ByteSlice) → BlockTable → δ → Except Err Unit × BlockTable × δ
  | [], t, file => (.ok (), t, file)
  | kv :: rest, t, file =>
    match t.Put D file kv.1 kv.2 with
    | (.error e, t, file) => (.error e, t, file)
    | (.ok _, t, file) => putAll D rest t file

/-- A table as `NewBlockTable` and `Put` leave it: the data-model invariants
hold, the occupied records are sorted, the view is the concatenation of the
slots of the chain blocks, and `header.blocks` is the length of the chain. -/
structure BlockTable.Fresh (t : BlockTable) : Prop where
  wf : t.WF
  sorted : SortedKeys t.occupied
  view : t.records.length = t.perBlock * t.blocks.length
  hblocks : t.header.blocks = t.blocks.length

/-- The key `000n` with the value `nnnn`. -/
def exKV (n : Nat) : ByteSlice × ByteSlice := ([0, 0, 0, n], [n, n, n, n])

/-- Four distinct keys put into the new table on `memDevice` (three records to
a block). -/
def exFull : Except Err Unit × BlockTable × MemDev :=
  putAll memDevice [exKV 1, exKV 3, exKV 2, exKV 4] exTable0 exDev0

/-- Then `Remove(0004)`. -/
def exLess : Except Err Unit × BlockTable × MemDev :=
  BlockTable.Remove memDevice exFull.2.1 exFull.2.2 [0, 0, 0, 4]

/-- Then `Remove(0003)`. -/
def exShrunk : Except Err Unit × BlockTable × MemDev :=
  BlockTable.Remove memDevice exLess.2.1 exLess.2.2 [0, 0, 0, 3]

/-- Then `Put(0005, 5555); Put(0006, 6666)`. -/
def exOver : Except Err Unit × BlockTable × MemDev :=
  putAll memDevice [exKV 5, exKV 6] exShrunk.2.1 exShrunk.2.2

/-! ### Reading a BlockTable back -/

/-- Modelled from the spec: the decoding of the 19 header bytes of a block, which
the sources do not show: keysize, valsize and flags (bit 0 is the continuation
bit) of one byte each, then records and blocks of four bytes and next of eight
bytes, big-endian. -/
def parseHeader (bytes : ByteSlice) : header :=
  { keysize := bytes.getD 0 0, valsize := bytes.getD 1 0, flags := decide (bytes.getD 2 0 % 2 = 1),
    records := ByteSlice.Int32 ((bytes.take 7).drop 3),
    blocks := ByteSlice.Int32 ((bytes.take 11).drop 7),
    next := int64 (ByteSlice.Int64 ((bytes.take 19).drop 11)) }

/-- Modelled from the spec: `readBlock(file, key)` of the bucket package, not among
the sources: the block at offset `key` is read through the device; its first
`BLOCKHEADER` bytes are the header, the rest is the data region. The data bytes
are returned next to the block. -/
def readBlock {δ : Type} (D : BlockDevice δ) (file : δ) (key : Int) :
    Except Err (block × ByteSlice) × δ :=
  match D.ReadBlock file key with
  | (.error e, file) => (.error e, file)
  | (.ok bytes, file) =>
    (.ok ({ key := key, header := parseHeader bytes, datalen := bytes.length - BLOCKHEADER },
          bytes.drop BLOCKHEADER), file)

/-- The loop of `blocks`: `n` more blocks are read, each at the `next` pointer of
the header of the block before it. -/
def blocksLoop {δ : Type} (D : BlockDevice δ) :
    Nat → block → δ → Except Err (List (block × ByteSlice)) × δ
  | 0, _, file => (.ok [], file)
  | n + 1, pblk, file =>
    match readBlock D file pblk.header.next with
    | (.error e, file) => (.error e, file)
    | (.ok blk, file) =>
      match blocksLoop D n blk.1 file with
      | (.error e, file) => (.error e, file)
      | (.ok rest, file) => (.ok (blk :: rest), file)

/-- The function `blocks`: the head block, then `header.blocks - 1` blocks along
the next pointers. -/
def blocks {δ : Type} (D : BlockDevice δ) (file : δ) (key : Int) :
    Except Err (List (block × ByteSlice)) × δ :=
  match readBlock D file key with
  | (.error e, file) => (.error e, file)
  | (.ok start_blk, file) =>
    match blocksLoop D (start_blk.1.header.blocks - 1) start_blk.1 file with
    | (.error e, file) => (.error e, file)
    | (.ok rest, file) => (.ok (start_blk :: rest), file)

/-- The inner loop of `_records`: `n` record slots sliced from `data` starting at
`off`; a slice beyond the data panics. -/
def sliceRecords (keysize valsize : Nat) (data : ByteSlice) : Nat → Nat → Except Err (List record)
  | 0, _ => .ok []
  | n + 1, off =>
    if data.length < off + (keysize + valsize) then .error .Panic else
    match sliceRecords keysize valsize data n (off + (keysize + valsize)) with
    | .error e => .error e
    | .ok rest =>
      .ok (⟨(data.drop off).take keysize, (data.drop (off + keysize)).take valsize⟩ :: rest)

/-- The outer loop of `_records`: `length` slots of every block of the chain. -/
def viewOf (keysize valsize length : Nat) : List (block × ByteSlice) → Except Err (List record)
  | [] => .ok []
  | blk :: rest =>
    match sliceRecords keysize valsize blk.2 length 0 with
    | .error e => .error e
    | .ok here =>
      match viewOf keysize valsize length rest with
      | .error e => .error e
      | .ok there => .ok (here ++ there)

/-- `ReadBlockTable`. -/
def ReadBlockTable {δ : Type} (D : BlockDevice δ) (file : δ) (key : Int) :
    Except Err BlockTable × δ :=
  match blocks D file key with
  | (.error e, file) => (.error e, file)
  | (.ok bs, file) =>
    match bs with
    | [] => (.error .Panic, file)
    | b0 :: _ =>
      let h := b0.1.header
      if h.keysize + h.valsize = 0 then (.error .Panic, file) else
      match viewOf h.keysize h.valsize (b0.1.datalen / (h.keysize + h.valsize)) bs with
      | .error e => (.error e, file)
      | .ok records =>
        (.ok { key := b0.1.key, header := h, blocks := bs.map (fun b => b.1),
               records := records }, file)

/-- The header of a head block that claims a chain of two blocks and has the next
pointer 0. -/
def exBrokenHead : header :=
  { keysize := 4, valsize := 4, flags := false, records := 0, blocks := 2, next := 0 }

/-- A device on which the head block at offset 43 claims a chain of two blocks
and has the next pointer 0, and offset 0 holds a block of its own. -/
def exBrokenDev : MemDev :=
  { next := 1,
    store := [(43, blockBytes exBrokenHead (List.replicate 24 0)), (0, List.replicate 43 9)] }

/-- The result of `HashBucket.Put(exHashA, 33, 88)` on the bucket that already
holds the key 33 under that hash. -/
def exBucketUpdate : Except Err Bool × HashBucket × MemDev × Unit :=
  HashBucket.Put memDevice inlineKV exBucket3.1 exBucket3.2 () exHashA [3, 3] [8, 8]

/-! ### BlockDimensions (package keyblock) -/

/-- The mode flags `RECORDS = 1 << iota`, `POINTERS`, `EXTRAPTR`, `EQUAPTRS`, `NODUP`. -/
def RECORDS : Nat := 1

def POINTERS : Nat := 2

def EXTRAPTR : Nat := 4

def EQUAPTRS : Nat := 8

def NODUP : Nat := 16

/-- The sum `a + b` of two `uint32`. -/
def uint32_add (a b : Nat) : Nat := (a + b) % 2 ^ 32

/-- The product `a * b` of two `uint32`. -/
def uint32_mul (a b : Nat) : Nat := (a * b) % 2 ^ 32

/-- The struct `BlockDimensions`: `Mode` is a `uint8`, the sizes are `uint32`. -/
structure BlockDimensions where
  Mode : Nat
  BlockSize : Nat
  KeySize : Nat
  PointerSize : Nat
  RecordFields : List Nat
  record_size : Nat
  deriving DecidableEq, Repr

/-- `calcRecordSize`: the `uint32` sum of the fields. -/
def calcRecordSize (fields : List Nat) : Nat :=
  fields.foldl (fun sum v => uint32_add sum v) 0

/-- `BlockDimensions.RecordSize`. -/
def BlockDimensions.RecordSize (self : BlockDimensions) : Nat := self.record_size

/-- `BlockDimensions.Valid`. The constant `BLOCKHEADER` of the package keyblock is
declared outside the sources and is the parameter `blockheader`. -/
def BlockDimensions.Valid (blockheader : Nat) (self : BlockDimensions) : Bool :=
  if self.KeySize ≤ 0 then false
  else if self.Mode = RECORDS ∨ self.Mode = RECORDS ||| NODUP then
    decide (self.RecordSize > 0 ∧ self.PointerSize = 0 ∧
      self.BlockSize ≥ uint32_add (uint32_add self.RecordSize self.KeySize) blockheader)
  else if self.Mode = POINTERS ∨ self.Mode = POINTERS ||| NODUP then
    decide (self.PointerSize > 0 ∧ self.RecordSize = 0 ∧
      self.BlockSize
        ≥ uint32_add (uint32_add (uint32_mul 2 self.PointerSize) self.KeySize) blockheader)
  else if self.Mode = POINTERS ||| EQUAPTRS ∨ self.Mode = POINTERS ||| EQUAPTRS ||| NODUP then
    decide (self.PointerSize > 0 ∧ self.RecordSize = 0 ∧
      self.BlockSize ≥ uint32_add (uint32_add self.PointerSize self.KeySize) blockheader)
  else if self.Mode = RECORDS ||| EXTRAPTR ∨ self.Mode = RECORDS ||| EXTRAPTR ||| NODUP then
    decide (self.RecordSize > 0 ∧ self.PointerSize > 0 ∧
      self.BlockSize
        ≥ uint32_add (uint32_add (uint32_add self.PointerSize self.RecordSize) self.KeySize)
            blockheader)
  else if self.Mode = RECORDS ||| POINTERS ∨ self.Mode = RECORDS ||| POINTERS ||| NODUP then
    decide (self.RecordSize > 0 ∧ self.PointerSize > 0 ∧
      self.BlockSize
        ≥ uint32_add (uint32_add (uint32_add (uint32_mul 2 self.PointerSize) self.RecordSize)
            self.KeySize) blockheader)
  else if self.Mode = EXTRAPTR ||| RECORDS ||| POINTERS ∨ self.Mode = EXTRAPTR ∨
      self.Mode = POINTERS ||| EXTRAPTR then false
  else false

/-- `NewBlockDimensions`; `none` is the result `(nil, false)`. -/
def NewBlockDimensions (blockheader : Nat) (Mode BlockSize KeySize PointerSize : Nat)
    (RecordFields : List Nat) : Option BlockDimensions :=
  let dim : BlockDimensions :=
    ⟨Mode, BlockSize, KeySize, PointerSize, RecordFields, calcRecordSize RecordFields⟩
  if !dim.Valid blockheader then none else some dim

/-- The quotient `a / b` of two `uint32`; a zero divisor is the run-time panic
`integer divide by zero`. -/
def uint32_div (a b : Nat) : Except Err Nat :=
  if b = 0 then .error .Panic else .ok (a / b)

/-- `BlockDimensions.KeysPerBlock`. The conversion `int(...)` of the `uint32`
quotient is exact where `int` has 64 bits. -/
def BlockDimensions.KeysPerBlock (blockheader : Nat) (self : BlockDimensions) : Except Err Int :=
  if self.Mode &&& (POINTERS ||| EQUAPTRS) = (POINTERS ||| EQUAPTRS) then
    (uint32_div (uint32_sub self.BlockSize blockheader)
      (uint32_add self.KeySize self.PointerSize)).map Int.ofNat
  else if self.Mode &&& EXTRAPTR = EXTRAPTR then
    (uint32_div (uint32_sub (uint32_sub self.BlockSize self.PointerSize) blockheader)
      (uint32_add self.RecordSize self.KeySize)).map Int.ofNat
  else
    (uint32_div (uint32_sub (uint32_sub self.BlockSize self.PointerSize) blockheader)
      (uint32_add (uint32_add self.RecordSize self.KeySize) self.PointerSize)).map Int.ofNat

/-- Dimensions whose record size and key size add up to `2 ^ 32`. -/
def exWrapped : BlockDimensions :=
  ⟨RECORDS, 4294967295, 1, 0, [4294967295], 4294967295⟩

/-! ### Tables and buckets whose record view is stale -/

/-- After `exOver`, `Put(0007, 7777)`: five sorted records over a chain of one
block, in a view of six slots. -/
def exOver7 : Except Err Unit × BlockTable × MemDev :=
  BlockTable.Put memDevice exOver.2.1 exOver.2.2 (exKV 7).1 (exKV 7).2

/-- Then `Put(0008, 8888)`. -/
def exOver8 : Except Err Unit × BlockTable × MemDev :=
  BlockTable.Put memDevice exOver7.2.1 exOver7.2.2 (exKV 8).1 (exKV 8).2

/-- The eight-byte key ending in `n`. -/
def exKey8 (n : Nat) : ByteSlice := [0, 0, 0, 0, 0, 0, 0, n]

/-- The pair of the key `exKey8 n` and the value `nnnn`. -/
def exKV8 (n : Nat) : ByteSlice × ByteSlice := (exKey8 n, [n, n, n, n])

/-- The table `NewBlockTable` builds on `memDevice` for eight-byte keys and
four-byte values (two records to a block). -/
def exWide0 : Except Err BlockTable × MemDev := NewBlockTable memDevice ⟨0, []⟩ 8 4

/-- The table of `exWide0`. -/
def exWideTable : BlockTable :=
  match exWide0.1 with
  | .ok t => t
  | .error _ => exTable0

/-- Three keys put into it. -/
def exWide3 : Except Err Unit × BlockTable × MemDev :=
  putAll memDevice [exKV8 1, exKV8 2, exKV8 3] exWideTable exWide0.2

/-- Then `Remove` of the key 3. -/
def exWide2 : Except Err Unit × BlockTable × MemDev :=
  BlockTable.Remove memDevice exWide3.2.1 exWide3.2.2 (exKey8 3)

/-- Then `Remove` of the key 2, which drops the tail block. -/
def exWide1 : Except Err Unit × BlockTable × MemDev :=
  BlockTable.Remove memDevice exWide2.2.1 exWide2.2.2 (exKey8 2)

/-- Then `Put` of the key 2 again: two sorted records in a chain of one block. -/
def exWideStale : Except Err Unit × BlockTable × MemDev :=
  BlockTable.Put memDevice exWide1.2.1 exWide1.2.2 (exKey8 2) [2, 2, 2, 2]

/-- Then `Put` of the key 9. -/
def exWidePut1 : Except Err Unit × BlockTable × MemDev :=
  BlockTable.Put memDevice exWideStale.2.1 exWideStale.2.2 (exKey8 9) [9, 9, 9, 9]

/-- Then the same `Put` of the key 9 once more. -/
def exWidePut2 : Except Err Unit × BlockTable × MemDev :=
  BlockTable.Put memDevice exWidePut1.2.1 exWidePut1.2.2 (exKey8 9) [9, 9, 9, 9]

/-! ### Buckets whose record view is stale -/

/-- The predicate that keeps the records of `exHashB`. -/
def exStayB (h : ByteSlice) : Bool := decide (h = exHashB)

/-- `Split(exStayB)` on the three-record bucket: one record stays and the tail
block of the bucket is dropped. -/
def exSplitB : Except Err HashBucket × HashBucket × MemDev :=
  HashBucket.Split memDevice inlineKV exBucket3.1 exBucket3.2 () exStayB

/-- Then `Put(hash 3, 44, 66)`. -/
def exStale2 : HashBucket × MemDev :=
  exBucketStep (exSplitB.2.1, exSplitB.2.2) (exKey8 3) [4, 4] [6, 6]

/-- Then `Put(hash 4, 55, 99)`. -/
def exStale3 : HashBucket × MemDev := exBucketStep exStale2 (exKey8 4) [5, 5] [9, 9]

/-- Then `Put(hash 4, 55, 88)`, for the key already stored under that hash. -/
def exStalePut : Except Err Bool × HashBucket × MemDev × Unit :=
  HashBucket.Put memDevice inlineKV exStale3.1 exStale3.2 () (exKey8 4) [5, 5] [8, 8]

/-- A small in-memory block device with 79-byte blocks (a 19-byte header and
room for five records of twelve bytes), used as a concrete input. -/
def memDevice79 : BlockDevice MemDev where
  BlockSize := fun _ => 79
  Allocate := fun d => (.ok (79 * ((d.next : Int) + 1)), { d with next := d.next + 1 })
  Free := fun d _ => (.ok (), d)
  ReadBlock := fun d p =>
    (match d.store.lookup p with
     | some b => .ok b
     | none => .error .EOF, d)
  WriteBlock := fun d p b => (.ok (), { d with store := (p, b) :: d.store })

/-- One `HashBucket.Put(hash n, key, key)` on `memDevice79` over `inlineKV`, with
the eight-byte hash ending in `n`; a failed `Put` leaves the bucket. -/
def exStep79 (s : HashBucket × MemDev) (n : Nat) : HashBucket × MemDev :=
  match HashBucket.Put memDevice79 inlineKV s.1 s.2 () (exKey8 n) [n / 10, n % 10] [n / 10, n % 10] with
  | (.ok _, b, d, _) => (b, d)
  | (.error _, _, _, _) => s

/-- The bucket `NewHashBucket` builds on `memDevice79` over `inlineKV`. -/
def exFive0 : HashBucket × MemDev :=
  match NewHashBucket memDevice79 inlineKV (⟨0, []⟩ : MemDev) 8 () with
  | (.ok b, d) => (b, d)
  | (.error _, d) => (⟨exTable0⟩, d)

/-- After `Put` of the ten hashes 10, 20, ..., 100. -/
def exFive10 : HashBucket × MemDev :=
  [10, 20, 30, 40, 50, 60, 70, 80, 90, 100].foldl exStep79 exFive0

/-- The predicate that keeps every hash but 100. -/
def exStay100 (h : ByteSlice) : Bool := decide (h ≠ exKey8 100)

/-- `Split(exStay100)`: nine records stay and the tail block is dropped. -/
def exFiveSplit : Except Err HashBucket × HashBucket × MemDev :=
  HashBucket.Split memDevice79 inlineKV exFive10.1 exFive10.2 () exStay100

/-- After `Put` of the five further hashes 110, ..., 150. -/
def exFive14 : HashBucket × MemDev :=
  [110, 120, 130, 140, 150].foldl exStep79 (exFiveSplit.2.1, exFiveSplit.2.2)

/-- Then `Put(hash 75, 75, 55)`. -/
def exFivePut : Except Err Bool × HashBucket × MemDev × Unit :=
  HashBucket.Put memDevice79 inlineKV exFive14.1 exFive14.2 () (exKey8 75) [7, 5] [5, 5]

/-- Each block of the list has the offset the `next` pointer of the block before
it holds, starting from the block `p`. -/
def FollowsNext : block → List (block × ByteSlice) → Prop
  | _, [] => True
  | p, b :: rest => b.1.key = p.header.next ∧ FollowsNext b.1 rest

/-- The block `b` is what `readBlock` makes of the bytes some `ReadBlock` call of
the device returned for the offset `b.key`. -/
def ReadFrom {δ : Type} (D : BlockDevice δ) (b : block × ByteSlice) : Prop :=
  ∃ f bytes f', D.ReadBlock f b.1.key = (.ok bytes, f') ∧
    b = ({ key := b.1.key, header := parseHeader bytes, datalen := bytes.length - BLOCKHEADER },
          bytes.drop BLOCKHEADER)

/-- The predicate that keeps the hashes below 40. -/
def exStayLow (h : ByteSlice) : Bool := decide (h.getLastD 0 < 40)

/-- `Split(exStayLow)` on the ten-record bucket: three records stay, seven leave. -/
def exFiveCut : Except Err HashBucket × HashBucket × MemDev :=
  HashBucket.Split memDevice79 inlineKV exFive10.1 exFive10.2 () exStayLow

/-- The bucket `Split` returns on `exFive10`. -/
def exFiveCutOther : HashBucket :=
  match exFiveCut.1 with
  | .ok b => b
  | .error _ => exFive0.1

/-! ## Theorems -/

theorem Lt_irrefl (a : ByteSlice) : ByteSlice.Lt a a = false := by
  induction a with
  | nil => rfl
  | cons x xs ih => simp [ByteSlice.Lt, ih]

theorem Lt_trans : ∀ (a b c : ByteSlice),
    ByteSlice.Lt a b = true → ByteSlice.Lt b c = true → ByteSlice.Lt a c = true
  | [], [], _, h, _ => by simp [ByteSlice.Lt] at h
  | [], _ :: _, [], _, h => by simp [ByteSlice.Lt] at h
  | [], _ :: _, _ :: _, _, _ => by simp [ByteSlice.Lt]
  | _ :: _, [], _, h, _ => by simp [ByteSlice.Lt] at h
  | _ :: _, _ :: _, [], _, h => by simp [ByteSlice.Lt] at h
  | x :: xs, y :: ys, z :: zs, h1, h2 => by
    simp only [ByteSlice.Lt, Bool.or_eq_true, Bool.and_eq_true, decide_eq_true_eq] at h1 h2 ⊢
    rcases h1 with h1 | ⟨h1, h1'⟩
    · rcases h2 with h2 | ⟨h2, _⟩
      · left; omega
      · left; omega
    · rcases h2 with h2 | ⟨h2, h2'⟩
      · left; omega
      · right; exact ⟨by omega, Lt_trans xs ys zs h1' h2'⟩

theorem Lt_total : ∀ (a b : ByteSlice),
    ByteSlice.Lt a b = false → ByteSlice.Lt b a = false → a = b
  | [], [], _, _ => rfl
  | [], _ :: _, h, _ => by simp [ByteSlice.Lt] at h
  | _ :: _, [], _, h => by simp [ByteSlice.Lt] at h
  | x :: xs, y :: ys, h1, h2 => by
    simp only [ByteSlice.Lt, Bool.or_eq_false_iff, Bool.and_eq_false_iff,
      decide_eq_false_iff_not] at h1 h2
    have hxy : x = y := by omega
    subst hxy
    have := Lt_total xs ys (by tauto) (by tauto)
    rw [this]


theorem Lt_asymm (a b : ByteSlice) (h : ByteSlice.Lt a b = true) : ByteSlice.Lt b a = false := by
  cases hb : ByteSlice.Lt b a with
  | false => rfl
  | true =>
    have := Lt_trans a b a h hb
    rw [Lt_irrefl] at this
    exact absurd this (by simp)

/-- `a ≤ b` and `b < c` give `a < c`. -/
theorem Lt_of_le_of_lt (a b c : ByteSlice) (h1 : ByteSlice.Lt b a = false)
    (h2 : ByteSlice.Lt b c = true) : ByteSlice.Lt a c = true := by
  cases hac : ByteSlice.Lt a c with
  | true => rfl
  | false =>
    cases hca : ByteSlice.Lt c a with
    | false =>
      have := Lt_total a c hac hca
      subst this
      rw [h1] at h2; exact absurd h2 (by simp)
    | true =>
      have := Lt_trans b c a h2 hca
      rw [h1] at this; exact absurd this (by simp)

/-- `a < b` and `b ≤ c` give `a < c`. -/
theorem Lt_of_lt_of_le (a b c : ByteSlice) (h1 : ByteSlice.Lt a b = true)
    (h2 : ByteSlice.Lt c b = false) : ByteSlice.Lt a c = true := by
  cases hac : ByteSlice.Lt a c with
  | true => rfl
  | false =>
    cases hca : ByteSlice.Lt c a with
    | false =>
      have := Lt_total a c hac hca
      subst this
      rw [h1] at h2; exact absurd h2 (by simp)
    | true =>
      have := Lt_trans c a b hca h1
      rw [h2] at this; exact absurd this (by simp)

theorem Eq_iff (a b : ByteSlice) : ByteSlice.Eq a b = true ↔ a = b := by
  simp [ByteSlice.Eq]

/-- A split point below which every key is smaller and from which on no key is
smaller is the count of smaller keys. -/
theorem countLt_eq_of_split (rs : List record) (key : ByteSlice) (i : Nat) (hi : i ≤ rs.length)
    (hlo : ∀ p (hp : p < rs.length), p < i → ByteSlice.Lt rs[p].key key = true)
    (hhi : ∀ p (hp : p < rs.length), i ≤ p → ByteSlice.Lt rs[p].key key = false) :
    countLt rs key = i := by
  unfold countLt
  conv_lhs => rw [← List.take_append_drop i rs]
  rw [List.countP_append]
  have h1 : List.countP (fun r => ByteSlice.Lt r.key key) (rs.take i) = (rs.take i).length := by
    rw [List.countP_eq_length]
    intro a ha
    obtain ⟨n, hn, rfl⟩ := List.getElem_of_mem ha
    rw [List.getElem_take]
    rw [List.length_take] at hn
    exact hlo n (by omega) (by omega)
  have h2 : List.countP (fun r => ByteSlice.Lt r.key key) (rs.drop i) = 0 := by
    rw [List.countP_eq_zero]
    intro a ha
    obtain ⟨n, hn, rfl⟩ := List.getElem_of_mem ha
    rw [List.getElem_drop]
    rw [List.length_drop] at hn
    simp [hhi (i + n) (by omega) (by omega)]
  rw [h1, h2, List.length_take]
  omega

theorem sortedKeys_getElem (rs : List record) (hs : SortedKeys rs) (i j : Nat)
    (hi : i < rs.length) (hj : j < rs.length) (hij : i ≤ j) :
    ByteSlice.Lt rs[j].key rs[i].key = false := by
  rcases Nat.lt_or_eq_of_le hij with h | h
  · exact (List.pairwise_iff_getElem.mp hs) i j hi hj h
  · subst h; exact Lt_irrefl _

/-- The backward walk from an index holding `key` ends at the count of smaller keys. -/
theorem walkBack_eq_countLt (rs : List record) (key : ByteSlice) (hs : SortedKeys rs) :
    ∀ (m : Nat) (hm : m < rs.length), rs[m].key = key →
      walkBack rs key m = countLt rs key := by
  intro m
  induction m with
  | zero =>
    intro hm hk
    simp only [walkBack]
    symm
    apply countLt_eq_of_split rs key 0 (by omega)
    · intro p hp h; omega
    · intro p hp _
      have := sortedKeys_getElem rs hs 0 p hm hp (by omega)
      rw [hk] at this
      exact this
  | succ j ih =>
    intro hm hk
    have hj : j < rs.length := by omega
    simp only [walkBack, List.getElem?_eq_getElem hj]
    by_cases he : ByteSlice.Eq key rs[j].key = true
    · rw [if_pos he]
      exact ih hj ((Eq_iff _ _).mp he).symm
    · rw [if_neg he]
      symm
      have hne : key ≠ rs[j].key := fun h => he ((Eq_iff _ _).mpr h)
      have hle : ByteSlice.Lt key rs[j].key = false := by
        have := sortedKeys_getElem rs hs j (j + 1) hj hm (by omega)
        rw [hk] at this; exact this
      have hlt : ByteSlice.Lt rs[j].key key = true := by
        cases h : ByteSlice.Lt rs[j].key key with
        | true => rfl
        | false => exact absurd (Lt_total _ _ hle h) hne
      apply countLt_eq_of_split rs key (j + 1) (by omega)
      · intro p hp hpj
        have := sortedKeys_getElem rs hs p j hp hj (by omega)
        exact Lt_of_le_of_lt _ _ _ this hlt
      · intro p hp hpj
        have := sortedKeys_getElem rs hs (j + 1) p hm hp hpj
        rw [hk] at this
        exact this

/-- Loop invariant of the binary search: everything left of `l` is smaller than
`key`, everything right of `r` is larger, and the fuel covers the interval. -/
theorem findLoop_spec (rs : List record) (key : ByteSlice) (hs : SortedKeys rs) :
    ∀ (fuel : Nat) (l r : Int), 0 ≤ l → r < rs.length → l ≤ r + 1 → r - l + 2 ≤ fuel →
      (∀ p (hp : p < rs.length), (p : Int) < l → ByteSlice.Lt rs[p].key key = true) →
      (∀ p (hp : p < rs.length), r < (p : Int) → ByteSlice.Lt key rs[p].key = true) →
      findLoop rs key fuel l r
        = some (countLt rs key, decide (∃ x ∈ rs, x.key = key)) := by
  intro fuel
  induction fuel with
  | zero => intro l r h0 hr hlr hf; omega
  | succ fuel ih =>
    intro l r h0 hr hlr hf hlo hhi
    unfold findLoop
    by_cases hle : l ≤ r
    · rw [if_pos hle]
      have hm : ((r - l) >>> (1 : Nat)) + l = (r - l) / 2 + l := by
        rw [Int.shiftRight_eq_div_pow]; norm_num
      simp only [hm]
      have hm0 : ¬ ((r - l) / 2 + l < 0) := by omega
      rw [if_neg hm0]
      have hmlt : ((r - l) / 2 + l).toNat < rs.length := by omega
      rw [List.getElem?_eq_getElem hmlt]
      simp only
      by_cases h1 : ByteSlice.Lt key rs[((r - l) / 2 + l).toNat].key = true
      · rw [if_pos h1]
        apply ih l ((r - l) / 2 + l - 1) h0 (by omega) (by omega) (by omega) hlo
        intro p hp hpr
        have := sortedKeys_getElem rs hs ((r - l) / 2 + l).toNat p hmlt hp (by omega)
        exact Lt_of_lt_of_le _ _ _ h1 this
      · rw [if_neg h1]
        by_cases h2 : ByteSlice.Eq key rs[((r - l) / 2 + l).toNat].key = true
        · rw [if_pos h2]
          have hk := ((Eq_iff _ _).mp h2).symm
          rw [walkBack_eq_countLt rs key hs _ hmlt hk]
          have : (∃ x ∈ rs, x.key = key) := ⟨_, List.getElem_mem hmlt, hk⟩
          simp [this]
        · rw [if_neg h2]
          have hne : key ≠ rs[((r - l) / 2 + l).toNat].key := fun h => h2 ((Eq_iff _ _).mpr h)
          have hlt : ByteSlice.Lt rs[((r - l) / 2 + l).toNat].key key = true := by
            cases h : ByteSlice.Lt rs[((r - l) / 2 + l).toNat].key key with
            | true => rfl
            | false => exact absurd (Lt_total _ _ (by simpa using h1) h) hne
          apply ih ((r - l) / 2 + l + 1) r (by omega) hr (by omega) (by omega) _ hhi
          intro p hp hpl
          have := sortedKeys_getElem rs hs p ((r - l) / 2 + l).toNat hp hmlt (by omega)
          exact Lt_of_le_of_lt _ _ _ this hlt
    · rw [if_neg hle]
      have hl : l = r + 1 := by omega
      have hcount : countLt rs key = l.toNat := by
        apply countLt_eq_of_split rs key l.toNat (by omega)
        · intro p hp hpl; exact hlo p hp (by omega)
        · intro p hp hpl
          exact Lt_asymm _ _ (hhi p hp (by omega))
      have hnot : ¬ (∃ x ∈ rs, x.key = key) := by
        rintro ⟨x, hx, hxk⟩
        obtain ⟨n, hn, rfl⟩ := List.getElem_of_mem hx
        by_cases hnl : (n : Int) < l
        · have := hlo n hn hnl
          rw [hxk, Lt_irrefl] at this; exact absurd this (by simp)
        · have := hhi n hn (by omega)
          rw [hxk, Lt_irrefl] at this; exact absurd this (by simp)
      simp [hcount, hnot]


/-- In a sorted slice the records with a smaller key are exactly those at the
indices below `countLt`. -/
theorem lt_countLt_iff : ∀ (rs : List record) (key : ByteSlice), SortedKeys rs →
    ∀ p (hp : p < rs.length), p < countLt rs key ↔ ByteSlice.Lt rs[p].key key = true
  | [], _, _, p, hp => by simp at hp
  | x :: xs, key, hs, p, hp => by
    have hs' : SortedKeys xs := (List.pairwise_cons.mp hs).2
    have hx := (List.pairwise_cons.mp hs).1
    by_cases hlt : ByteSlice.Lt x.key key = true
    · have hc : countLt (x :: xs) key = countLt xs key + 1 := by
        simp [countLt, List.countP_cons, hlt]
      cases p with
      | zero => simp [hc, hlt]
      | succ q =>
        have hq : q < xs.length := by simpa using hp
        rw [hc]
        simp only [List.getElem_cons_succ]
        rw [← lt_countLt_iff xs key hs' q hq]
        omega
    · have hall : ∀ y ∈ xs, ¬ ByteSlice.Lt y.key key = true := by
        intro y hy hyk
        exact hlt (Lt_of_le_of_lt _ _ _ (hx y hy) hyk)
      have hc : countLt (x :: xs) key = 0 := by
        have h0 : countLt xs key = 0 := by
          unfold countLt; rw [List.countP_eq_zero]; exact hall
        have : countLt (x :: xs) key = countLt xs key := by
          simp [countLt, List.countP_cons, hlt]
        omega
      rw [hc]
      cases p with
      | zero => simp [hlt]
      | succ q =>
        have hq : q < xs.length := by simpa using hp
        simp only [List.getElem_cons_succ]
        have := hall xs[q] (List.getElem_mem hq)
        simp [this]

theorem countLt_le_length (rs : List record) (key : ByteSlice) : countLt rs key ≤ rs.length :=
  List.countP_le_length _

/-- When `key` occurs in a sorted slice, `countLt` is the first index holding it. -/
theorem countLt_first_index (rs : List record) (key : ByteSlice) (hs : SortedKeys rs)
    (hex : ∃ x ∈ rs, x.key = key) :
    ∃ h : countLt rs key < rs.length, rs[countLt rs key].key = key ∧
      ∀ j (hj : j < rs.length), rs[j].key = key → countLt rs key ≤ j := by
  obtain ⟨x, hx, hxk⟩ := hex
  obtain ⟨n, hn, rfl⟩ := List.getElem_of_mem hx
  have hmin : ∀ j (hj : j < rs.length), rs[j].key = key → countLt rs key ≤ j := by
    intro j hj hjk
    by_contra hlt
    have := (lt_countLt_iff rs key hs j hj).mp (by omega)
    rw [hjk, Lt_irrefl] at this
    exact absurd this (by simp)
  have hin : countLt rs key ≤ n := hmin n hn hxk
  have hi : countLt rs key < rs.length := by omega
  refine ⟨hi, ?_, hmin⟩
  have h1 : ByteSlice.Lt rs[countLt rs key].key key = false := by
    cases h : ByteSlice.Lt rs[countLt rs key].key key with
    | false => rfl
    | true =>
      have := (lt_countLt_iff rs key hs _ hi).mpr h
      omega
  have h2 : ByteSlice.Lt key rs[countLt rs key].key = false := by
    have := sortedKeys_getElem rs hs _ n hi hn hin
    rw [hxk] at this; exact this
  exact Lt_total _ _ h1 h2

/-- On a sorted slice `find` returns the count of smaller keys and whether the
key occurs. -/
theorem find_sorted (rs : List record) (key : ByteSlice) (hs : SortedKeys rs) :
    record_slice.find rs key = some (countLt rs key, decide (∃ x ∈ rs, x.key = key)) := by
  unfold record_slice.find
  apply findLoop_spec rs key hs
  · omega
  · omega
  · omega
  · omega
  · intro p hp h; omega
  · intro p hp h; omega

/-- C6: `record_slice.find` terminates and is a lower-bound binary search. On every
slice sorted ascending by key and every key `k` it returns a result `(i, found)`
with `i` the number of records whose key is strictly below `k` (so `i ≤ len`),
`found` true exactly when some record has key `k`, and in that case `i` is the
smallest index whose key equals `k`. -/
theorem find_lower_bound (self : List record) (k : ByteSlice) (hs : SortedKeys self) :
    ∃ i found, record_slice.find self k = some (i, found) ∧
      i = countLt self k ∧ i ≤ self.length ∧
      (found = true ↔ ∃ x ∈ self, x.key = k) ∧
      (found = true → ∃ h : i < self.length, self[i].key = k ∧
        ∀ j (hj : j < self.length), self[j].key = k → i ≤ j) := by
  refine ⟨countLt self k, decide (∃ x ∈ self, x.key = k), find_sorted self k hs, rfl,
    countLt_le_length self k, by simp, ?_⟩
  intro hf
  exact countLt_first_index self k hs (by simpa using hf)

/-- Witness for C6: a sorted three-record slice with a repeated key. -/
theorem find_lower_bound_witness :
    SortedKeys [⟨[0, 1], [7]⟩, ⟨[0, 3], [8]⟩, ⟨[0, 3], [9]⟩] ∧
    ∃ i found, record_slice.find [⟨[0, 1], [7]⟩, ⟨[0, 3], [8]⟩, ⟨[0, 3], [9]⟩] [0, 3]
        = some (i, found) ∧
      i = countLt [⟨[0, 1], [7]⟩, ⟨[0, 3], [8]⟩, ⟨[0, 3], [9]⟩] [0, 3] ∧
      i ≤ [(⟨[0, 1], [7]⟩ : record), ⟨[0, 3], [8]⟩, ⟨[0, 3], [9]⟩].length ∧
      (found = true ↔ ∃ x ∈ [(⟨[0, 1], [7]⟩ : record), ⟨[0, 3], [8]⟩, ⟨[0, 3], [9]⟩],
        x.key = [0, 3]) ∧
      (found = true → ∃ h : i < [(⟨[0, 1], [7]⟩ : record), ⟨[0, 3], [8]⟩, ⟨[0, 3], [9]⟩].length,
        [(⟨[0, 1], [7]⟩ : record), ⟨[0, 3], [8]⟩, ⟨[0, 3], [9]⟩][i].key = [0, 3] ∧
        ∀ j (hj : j < [(⟨[0, 1], [7]⟩ : record), ⟨[0, 3], [8]⟩, ⟨[0, 3], [9]⟩].length),
          [(⟨[0, 1], [7]⟩ : record), ⟨[0, 3], [8]⟩, ⟨[0, 3], [9]⟩][j].key = [0, 3] → i ≤ j) :=
  ⟨by simp [SortedKeys, ByteSlice.Lt],
   find_lower_bound _ _ (by simp [SortedKeys, ByteSlice.Lt])⟩

example : record_slice.find [⟨[0, 1], [7]⟩, ⟨[0, 3], [8]⟩, ⟨[0, 3], [9]⟩] [0, 3] = some (1, true) := by
  decide
example : record_slice.find [] [0, 3] = some (0, false) := by
  decide


/-! ### BlockTable: saving and growing -/

/-- `save` changes neither the header, nor the view, nor the length of the chain
or the data length of its head block. -/
theorem save_frame {δ : Type} (D : BlockDevice δ) (t t' : BlockTable) (file file' : δ)
    (r : Except Err Unit) (h : BlockTable.save D t file = (r, t', file')) :
    t'.header = t.header ∧ t'.records = t.records ∧ t'.blocks.length = t.blocks.length ∧
      t'.perBlock = t.perBlock ∧ t'.key = t.key := by
  unfold BlockTable.save at h
  split at h
  · simp only [Prod.mk.injEq] at h
    obtain ⟨_, rfl, _⟩ := h
    exact ⟨rfl, rfl, rfl, rfl, rfl⟩
  · rename_i b0 rest hb
    simp only at h
    split at h
    all_goals
      simp only [Prod.mk.injEq] at h
      obtain ⟨_, rfl, _⟩ := h
      simp [BlockTable.perBlock, hb]


theorem setLastNext_length (bs : List block) (x : Int) :
    (setLastNext bs x).length = bs.length := by
  unfold setLastNext
  split
  · rfl
  · rename_i last hlast
    have hne : bs ≠ [] := by
      intro h; rw [h] at hlast; simp at hlast
    rw [List.length_append, List.length_dropLast, List.length_singleton]
    have : bs.length ≠ 0 := fun h => hne (List.length_eq_zero.mp h)
    omega

theorem setLastNext_head_datalen : ∀ (bs : List block) (x : Int),
    (setLastNext bs x).head?.map (fun b => b.datalen) = bs.head?.map (fun b => b.datalen)
  | [], _ => rfl
  | [b], _ => by simp [setLastNext]
  | b0 :: b1 :: rest, _ => by
    unfold setLastNext
    split
    · rfl
    · simp [List.dropLast]

theorem perBlock_eq (t : BlockTable) :
    t.perBlock = (t.blocks.head?.map (fun b => b.datalen)).getD 0
      / (t.header.keysize + t.header.valsize) := by
  unfold BlockTable.perBlock
  split
  · rename_i h; rw [h]; simp
  · rename_i h; rw [h]; simp

/-- Two tables with the same head data length and record sizes hold the same
number of records per block. -/
theorem perBlock_congr (t t' : BlockTable)
    (hd : t'.blocks.head?.map (fun b => b.datalen) = t.blocks.head?.map (fun b => b.datalen))
    (hk : t'.header.keysize = t.header.keysize) (hv : t'.header.valsize = t.header.valsize) :
    t'.perBlock = t.perBlock := by
  rw [perBlock_eq, perBlock_eq, hd, hk, hv]

theorem head?_append_of_ne_nil (bs : List block) (x : block) (h : bs ≠ []) :
    (bs ++ [x]).head? = bs.head? := by
  cases bs with
  | nil => exact absurd rfl h
  | cons b rest => rfl

theorem records_per_blk_ok (t : BlockTable) (length : Nat)
    (h : t.records_per_blk = Except.ok length) :
    length = t.perBlock ∧ 0 < t.header.keysize + t.header.valsize := by
  unfold BlockTable.records_per_blk at h
  unfold BlockTable.perBlock
  split at h
  · simp at h
  · rename_i blk rest hb
    simp only at h
    split at h
    · simp at h
    · rename_i hz
      simp only [Except.ok.injEq] at h
      exact ⟨h.symm, by omega⟩

/-- The view `_records` builds, when it does not panic. -/
theorem _records_ok (t : BlockTable) (n : Nat) (blk : block) (records : List record)
    (h : t._records n blk = Except.ok records) :
    records = t.records.take (t.perBlock * n)
      ++ List.replicate t.perBlock (zeroRecord t.header.keysize t.header.valsize) := by
  unfold BlockTable._records at h
  split at h
  · simp at h
  · rename_i length hlen
    obtain ⟨hl, _⟩ := records_per_blk_ok t length hlen
    split at h
    · simp at h
    · simp only [Except.ok.injEq] at h
      rw [← h, hl]

/-- A successful `add_block` appends one block, keeps the header fields of the
records and rebuilds the view from the chain. -/
theorem add_block_ok {δ : Type} (D : BlockDevice δ) (t t' : BlockTable) (file file' : δ)
    (h : BlockTable.add_block D t file = (Except.ok (), t', file')) :
    t'.header.keysize = t.header.keysize ∧ t'.header.valsize = t.header.valsize ∧
    t'.header.records = t.header.records ∧
    t'.blocks.length = t.blocks.length + 1 ∧ t'.perBlock = t.perBlock ∧
    t'.key = t.key ∧
    t'.records = t.records.take (t.perBlock * t.blocks.length)
      ++ List.replicate t.perBlock (zeroRecord t.header.keysize t.header.valsize) := by
  unfold BlockTable.add_block at h
  split at h
  · simp at h
  · rename_i blk file1 hal
    simp only at h
    split at h
    · simp at h
    · rename_i hlen0
      have hne : t.blocks ≠ [] := fun hn => hlen0 (by rw [hn]; rfl)
      split at h
      · simp at h
      · rename_i records hrec
        have hs := save_frame D _ _ _ _ _ h
        simp only at hs
        obtain ⟨h1, h2, h3, h4, h5⟩ := hs
        have hr := _records_ok _ _ _ _ hrec
        have hbl : (if t.blocks.length = 1 then t.blocks
            else setLastNext t.blocks blk.key).length = t.blocks.length := by
          split
          · rfl
          · exact setLastNext_length _ _
        have hbh : (if t.blocks.length = 1 then t.blocks
            else setLastNext t.blocks blk.key).head?.map (fun b => b.datalen)
              = t.blocks.head?.map (fun b => b.datalen) := by
          split
          · rfl
          · exact setLastNext_head_datalen _ _
        have hbne : (if t.blocks.length = 1 then t.blocks
            else setLastNext t.blocks blk.key) ≠ [] := by
          intro h0
          have := congrArg List.length h0
          rw [hbl] at this
          exact hlen0 this
        have hp0 : BlockTable.perBlock
            { key := t.key,
              header := { t.header with
                next := if t.blocks.length = 1 then blk.key else t.header.next,
                blocks := (t.header.blocks + 1) % 2 ^ 32 },
              blocks := (if t.blocks.length = 1 then t.blocks
                else setLastNext t.blocks blk.key) ++
                  [{ blk with header := { blk.header with flags := true } }],
              records := t.records } = t.perBlock := by
          apply perBlock_congr
          · show ((if t.blocks.length = 1 then t.blocks
              else setLastNext t.blocks blk.key) ++ [_]).head?.map _ = _
            rw [head?_append_of_ne_nil _ _ hbne, hbh]
          · rfl
          · rfl
        rw [hp0] at hr
        have hp : t'.perBlock = t.perBlock := by
          rw [h4]; exact hp0
        rw [h1, h2, h3, h5, hr]
        refine ⟨rfl, rfl, rfl, ?_, hp, rfl, rfl⟩
        rw [List.length_append, hbl]; rfl

/-! ### The shifting loops -/

theorem copy_eq_of_length (dst src : ByteSlice) (h : dst.length = src.length) :
    copy dst src = src := by
  unfold copy
  rw [h, List.take_length, ← h, List.drop_length, List.append_nil]

theorem copy_length (dst src : ByteSlice) :
    (copy dst src).length = dst.length := by
  unfold copy
  simp only [List.length_append, List.length_take, List.length_drop]
  omega

theorem copy_take (dst src : ByteSlice) (h : src.length ≤ dst.length) :
    (copy dst src).take src.length = src := by
  unfold copy
  rw [List.take_of_length_le h, List.take_left' rfl]

theorem shiftUp_length (i : Nat) : ∀ (j : Nat) (all : List record),
    (shiftUp all i j).length = all.length
  | 0, all => rfl
  | j + 1, all => by
    unfold shiftUp
    split
    · split
      · rw [shiftUp_length i j, List.length_set]
      · rfl
    · rfl

/-- After the shifting loop of `put`, slot `p` with `i < p ≤ j` holds what slot
`p - 1` held, every other slot is unchanged. -/
theorem shiftUp_getElem? (ks vs i : Nat) : ∀ (j : Nat) (all : List record),
    (∀ r ∈ all, r.key.length = ks ∧ r.value.length = vs) → j < all.length →
    ∀ p, (shiftUp all i j)[p]? = if i < p ∧ p ≤ j then all[p - 1]? else all[p]?
  | 0, all, _, _, p => by
    have : ¬ (i < p ∧ p ≤ 0) := by omega
    simp only [shiftUp]
    rw [if_neg this]
  | j + 1, all, hu, hj, p => by
    unfold shiftUp
    by_cases hij : i < j + 1
    · rw [if_pos hij]
      have hj0 : j < all.length := by omega
      rw [List.getElem?_eq_getElem hj0, List.getElem?_eq_getElem hj]
      simp only
      have hk := hu all[j] (List.getElem_mem hj0)
      have hn := hu all[j + 1] (List.getElem_mem hj)
      rw [copy_eq_of_length _ _ (by rw [hk.1, hn.1]), copy_eq_of_length _ _ (by rw [hk.2, hn.2])]
      have hu' : ∀ r ∈ all.set (j + 1) ⟨all[j].key, all[j].value⟩,
          r.key.length = ks ∧ r.value.length = vs := by
        intro r hr
        rcases List.mem_or_eq_of_mem_set hr with h | h
        · exact hu r h
        · subst h; exact hk
      rw [shiftUp_getElem? ks vs i j _ hu' (by rw [List.length_set]; omega) p]
      by_cases hp1 : i < p ∧ p ≤ j
      · rw [if_pos hp1, if_pos (by omega), List.getElem?_set_ne (by omega)]
      · rw [if_neg hp1]
        by_cases hp2 : p = j + 1
        · subst hp2
          rw [if_pos (by omega), List.getElem?_set_self hj]
          simp [List.getElem?_eq_getElem hj0]
        · rw [if_neg (by omega), List.getElem?_set_ne (by omega)]
    · rw [if_neg hij, if_neg (by omega)]

theorem shiftDown_length : ∀ (fuel i : Nat) (all : List record),
    (shiftDown all fuel i).length = all.length
  | 0, _, all => rfl
  | fuel + 1, i, all => by
    unfold shiftDown
    split
    · split
      · rw [shiftDown_length fuel (i + 1), List.length_set]
      · rfl
    · rfl

/-- After the shifting loop of `remove_index`, slot `p` with `i ≤ p < len - 1`
holds what slot `p + 1` held, every other slot is unchanged. -/
theorem shiftDown_getElem? (ks vs : Nat) : ∀ (fuel i : Nat) (all : List record),
    (∀ r ∈ all, r.key.length = ks ∧ r.value.length = vs) → all.length ≤ fuel + i + 1 →
    ∀ p, (shiftDown all fuel i)[p]? = if i ≤ p ∧ p + 1 < all.length then all[p + 1]? else all[p]?
  | 0, i, all, _, hf, p => by
    have : ¬ (i ≤ p ∧ p + 1 < all.length) := by omega
    simp only [shiftDown]
    rw [if_neg this]
  | fuel + 1, i, all, hu, hf, p => by
    unfold shiftDown
    by_cases hi : i + 1 < all.length
    · rw [if_pos hi]
      have hi0 : i < all.length := by omega
      rw [List.getElem?_eq_getElem hi0, List.getElem?_eq_getElem hi]
      simp only
      have hk := hu all[i] (List.getElem_mem hi0)
      have hn := hu all[i + 1] (List.getElem_mem hi)
      rw [copy_eq_of_length _ _ (by rw [hk.1, hn.1]), copy_eq_of_length _ _ (by rw [hk.2, hn.2])]
      have hu' : ∀ r ∈ all.set i ⟨all[i + 1].key, all[i + 1].value⟩,
          r.key.length = ks ∧ r.value.length = vs := by
        intro r hr
        rcases List.mem_or_eq_of_mem_set hr with h | h
        · exact hu r h
        · subst h; exact hn
      rw [shiftDown_getElem? ks vs fuel (i + 1) _ hu' (by rw [List.length_set]; omega) p,
        List.length_set]
      by_cases hp1 : i + 1 ≤ p ∧ p + 1 < all.length
      · rw [if_pos hp1, if_pos (by omega), List.getElem?_set_ne (by omega)]
      · rw [if_neg hp1]
        by_cases hp2 : p = i
        · subst hp2
          rw [if_pos (by omega), List.getElem?_set_self hi0]
          simp [List.getElem?_eq_getElem hi]
        · rw [if_neg (by omega), List.getElem?_set_ne (by omega)]
    · rw [if_neg hi, if_neg (by omega)]


/-! ### BlockTable.put -/

theorem occupied_eq (t : BlockTable) : t.occupied = t.records.take t.header.records := rfl

/-- The growth step at the head of `put`: when it succeeds the occupied records
are untouched, there is a free slot after them, and the view still covers the
chain. -/
theorem grow_ok {δ : Type} (D : BlockDevice δ) (t t1 : BlockTable) (file file1 : δ)
    (hwf : t.WF)
    (hg : (if t.records.length ≤ t.header.records + 1 then t.add_block D file
            else (Except.ok (), t, file)) = (Except.ok (), t1, file1)) :
    t1.header.keysize = t.header.keysize ∧ t1.header.valsize = t.header.valsize ∧
    t1.header.records = t.header.records ∧ t1.perBlock = t.perBlock ∧
    t1.occupied = t.occupied ∧ t.header.records < t1.records.length ∧
    (∀ r ∈ t1.records,
      r.key.length = t.header.keysize ∧ r.value.length = t.header.valsize) ∧
    t.blocks.length ≤ t1.blocks.length ∧
    t1.perBlock * t1.blocks.length ≤ t1.records.length ∧
    (t.records.length = t.perBlock * t.blocks.length →
      t1.records.length = t1.perBlock * t1.blocks.length ∧
      t.header.records + 1 ≤ t1.perBlock * t1.blocks.length) ∧
    t1.records = t.putView := by
  by_cases hc : t.records.length ≤ t.header.records + 1
  · rw [if_pos hc] at hg
    obtain ⟨h1, h2, h3, h4, h5, _, h7⟩ := add_block_ok D t t1 file file1 hg
    have hcov := hwf.cover
    have hfit := hwf.fits
    have hper := hwf.perblk
    have hlen : t1.records.length = t.perBlock * t.blocks.length + t.perBlock := by
      rw [h7, List.length_append, List.length_take, List.length_replicate]
      omega
    refine ⟨h1, h2, h3, h5, ?_, by omega, ?_, by omega, ?_, ?_,
      by rw [h7]; unfold BlockTable.putView; rw [if_pos hc]⟩
    · rw [occupied_eq, occupied_eq, h3, h7, List.take_append_of_le_length
        (by rw [List.length_take]; omega), List.take_take]
      congr 1
      omega
    · intro r hr
      rw [h7] at hr
      rcases List.mem_append.mp hr with h | h
      · exact hwf.sizes r (List.mem_of_mem_take h)
      · rw [List.mem_replicate] at h
        rw [h.2]
        simp [zeroRecord]
    · rw [hlen, h5, h4, Nat.mul_succ]
    · intro _
      rw [hlen, h5, h4, Nat.mul_succ]
      exact ⟨rfl, by omega⟩
  · rw [if_neg hc] at hg
    simp only [Prod.mk.injEq, true_and] at hg
    obtain ⟨rfl, rfl⟩ := hg
    refine ⟨rfl, rfl, rfl, rfl, rfl, by omega, hwf.sizes, le_refl _, hwf.cover, ?_,
      by unfold BlockTable.putView; rw [if_neg hc]⟩
    intro h
    exact ⟨h, by omega⟩

/-- When the replacement loop ends with a slot, that slot lies in the scanned
run and holds the key. -/
theorem replaceLoop_some {γ : Type} (f : γ → record → Except Err (Bool × ByteSlice) × γ)
    (key : ByteSlice) : ∀ (rs : List record) (j0 : Nat) (g g' : γ) (j : Nat) (b : ByteSlice),
    replaceLoop f key rs j0 g = (Except.ok (some (j, b)), g') →
    j0 ≤ j ∧ ∃ r, rs[j - j0]? = some r ∧ r.key = key
  | [], j0, g, g', j, b, h => by simp [replaceLoop] at h
  | r :: rest, j0, g, g', j, b, h => by
    unfold replaceLoop at h
    split at h
    · rename_i he
      split at h
      · simp at h
      · simp only [Prod.mk.injEq, Except.ok.injEq, Option.some.injEq] at h
        obtain ⟨⟨rfl, _⟩, _⟩ := h
        refine ⟨le_refl _, r, by simp, ((Eq_iff _ _).mp he).symm⟩
      · obtain ⟨h1, r', h2, h3⟩ := replaceLoop_some f key rest (j0 + 1) _ g' j b h
        refine ⟨by omega, r', ?_, h3⟩
        have : j - j0 = (j - (j0 + 1)) + 1 := by omega
        rw [this, List.getElem?_cons_succ]
        exact h2
    · simp at h


/-- The view after an insertion: the first `n + 1` slots are the first `n` old
ones with the new record put in at index `i`. -/
theorem insert_take (ks vs : Nat) (all : List record) (n i : Nat) (new : record)
    (hu : ∀ r ∈ all, r.key.length = ks ∧ r.value.length = vs)
    (hi : i ≤ n) (hn : n < all.length) :
    ((shiftUp all i (all.length - 1)).set i new).take (n + 1)
      = (all.take n).take i ++ new :: (all.take n).drop i := by
  have hlen1 : (all.take n).length = n := by rw [List.length_take]; omega
  have hlen2 : ((all.take n).take i).length = i := by rw [List.length_take, hlen1]; omega
  apply List.ext_getElem?
  intro p
  by_cases h1 : p < i
  · rw [List.getElem?_take_of_lt (by omega), List.getElem?_set_ne (by omega),
      shiftUp_getElem? ks vs i _ all hu (by omega), if_neg (by omega),
      List.getElem?_append_left (by omega), List.getElem?_take_of_lt h1,
      List.getElem?_take_of_lt (by omega)]
  · rw [List.getElem?_append_right (by omega), hlen2]
    by_cases h2 : p = i
    · subst h2
      rw [List.getElem?_take_of_lt (by omega),
        List.getElem?_set_self (by rw [shiftUp_length]; omega)]
      simp
    · by_cases h3 : p < n + 1
      · rw [List.getElem?_take_of_lt h3, List.getElem?_set_ne (by omega),
          shiftUp_getElem? ks vs i _ all hu (by omega), if_pos (by omega)]
        have hpi : p - i = (p - i - 1) + 1 := by omega
        rw [hpi, List.getElem?_cons_succ, List.getElem?_drop,
          List.getElem?_take_of_lt (by omega)]
        congr 1
        omega
      · rw [List.getElem?_eq_none (by rw [List.length_take]; omega),
          List.getElem?_eq_none (by
            rw [List.length_cons, List.length_drop, hlen1]; omega)]

theorem set_take (all : List record) (n j : Nat) (new : record) (hj : j < n) :
    (all.set j new).take n = (all.take n).set j new := by
  apply List.ext_getElem?
  intro p
  rw [List.getElem?_take, List.getElem?_set, List.getElem?_set, List.getElem?_take,
    List.length_take]
  by_cases h1 : p < n
  · rw [if_pos h1, if_pos h1]
    by_cases h2 : j = p
    · rw [if_pos h2, if_pos h2]
      by_cases h3 : j < all.length
      · rw [if_pos h3, if_pos (by omega)]
      · rw [if_neg h3, if_neg (by omega)]
    · rw [if_neg h2, if_neg h2]
  · rw [if_neg h1, if_neg h1]
    by_cases h2 : j = p
    · omega
    · rw [if_neg h2]

/-- What a successful `put` does to a well-formed sorted table: either the loop
over the equal-key run picked a slot, which is overwritten in place, or the new
record is shifted in at the lower-bound index. -/
theorem put_spec {δ γ : Type} (D : BlockDevice δ)
    (f : γ → record → Except Err (Bool × ByteSlice) × γ)
    (t t' : BlockTable) (file file' : δ) (g g' : γ) (key value : ByteSlice)
    (hwf : t.WF) (hs : SortedKeys t.occupied)
    (hput : BlockTable.put D f t file g key value = (Except.ok (), t', file', g')) :
    key.length = t.header.keysize ∧ value.length ≤ t.header.valsize ∧
    t'.header.keysize = t.header.keysize ∧ t'.header.valsize = t.header.valsize ∧
    t'.perBlock = t.perBlock ∧ t.blocks.length ≤ t'.blocks.length ∧
    t'.perBlock * t'.blocks.length ≤ t'.records.length ∧
    (∀ r ∈ t'.records,
      r.key.length = t.header.keysize ∧ r.value.length = t.header.valsize) ∧
    (t.records.length = t.perBlock * t.blocks.length →
      t'.records.length = t'.perBlock * t'.blocks.length ∧
      t.header.records + 1 ≤ t'.perBlock * t'.blocks.length) ∧
    t.header.records < t'.records.length ∧
    ((∃ j bytes spot, (∃ x ∈ t.occupied, x.key = key) ∧
        replaceLoop f key (t.occupied.drop (countLt t.occupied key))
          (countLt t.occupied key) g = (Except.ok (some (j, bytes)), g') ∧
        t.occupied[j]? = some spot ∧ spot.key = key ∧
        t'.header.records = t.header.records ∧
        t'.occupied = t.occupied.set j ⟨key, copy spot.value bytes⟩) ∨
     ((if decide (∃ x ∈ t.occupied, x.key = key) = true then
          replaceLoop f key (t.occupied.drop (countLt t.occupied key))
            (countLt t.occupied key) g
        else (Except.ok none, g)) = (Except.ok none, g') ∧
      t'.header.records = (t.header.records + 1) % 2 ^ 32 ∧
      ∃ spot : record, spot.value.length = t.header.valsize ∧
        t'.records.take (t.header.records + 1)
          = t.occupied.take (countLt t.occupied key)
            ++ ⟨key, copy spot.value value⟩ :: t.occupied.drop (countLt t.occupied key) ∧
        t.putView[countLt t.occupied key]? = some spot)) := by
  unfold BlockTable.put at hput
  split at hput
  · simp at hput
  rename_i hklen
  split at hput
  · simp at hput
  rename_i hvlen
  simp only at hput
  split at hput
  · simp at hput
  rename_i u t1 file1 hgrow
  cases u
  obtain ⟨g1, g2, g3, g4, g5, g6, g7, g8, g9, g10, g11⟩ :=
    grow_ok D t t1 file file1 hwf hgrow
  have hocc1 : List.take t1.header.records t1.records = t.occupied := by
    rw [← g5]; rfl
  have hocclen : t.occupied.length = t.header.records := by
    rw [occupied_eq, List.length_take]
    have := hwf.cover; have := hwf.fits
    omega
  have hi := countLt_le_length t.occupied key
  rw [if_neg (by omega), hocc1, find_sorted _ _ hs] at hput
  simp only at hput
  have hkl : key.length = t.header.keysize := by omega
  refine ⟨hkl, by omega, ?_⟩
  split at hput
  · simp at hput
  · -- a slot of the run is replaced
    rename_i j bytes g2' hloop
    split at hput
    · simp at hput
    rename_i spot hspot
    have hex : ∃ x ∈ t.occupied, x.key = key := by
      by_contra hno
      simp [hno] at hloop
    simp only [hex, decide_True, if_true] at hloop
    obtain ⟨hj0, r, hr, hrk⟩ := replaceLoop_some f key _ _ _ _ _ _ hloop
    rw [List.getElem?_drop] at hr
    have hjidx : countLt t.occupied key + (j - countLt t.occupied key) = j := by omega
    rw [hjidx] at hr
    have hjlt : j < t.header.records := by
      have := (List.getElem?_eq_some.mp hr).1
      omega
    have hspot' : t.occupied[j]? = some spot := by
      rw [← hocc1, List.getElem?_take_of_lt (by omega)]
      exact hspot
    have hrs : r = spot := by
      rw [hr] at hspot'; exact Option.some.inj hspot'
    subst hrs
    have hsz := g7 r (List.getElem?_mem hspot)
    simp only [Prod.mk.injEq] at hput
    obtain ⟨hres, ht', hf', hg'⟩ := hput
    have hsave := save_frame D _ _ _ _ _ (Prod.ext hres (Prod.ext ht' hf') :
      BlockTable.save D _ file1 = (Except.ok (), t', file'))
    simp only at hsave
    obtain ⟨s1, s2, s3, s4, s5⟩ := hsave
    replace s4 : t'.perBlock = t1.perBlock := s4
    have hck : copy r.key key = key := copy_eq_of_length _ _ (by rw [hsz.1, hkl])
    rw [hck] at s2
    refine ⟨by rw [s1, g1], by rw [s1, g2], by rw [s4, g4], by rw [s3]; exact g8, ?_, ?_, ?_,
      ?_, Or.inl ⟨j, bytes, r, hex, ?_, hspot', hrk, by rw [s1, g3], ?_⟩⟩
    · rw [s4, s3, s2, List.length_set]; exact g9
    · intro x hx
      rw [s2] at hx
      rcases List.mem_or_eq_of_mem_set hx with h | h
      · exact g7 x h
      · subst h
        exact ⟨hkl, by rw [copy_length]; exact hsz.2⟩
    · intro hns
      rw [s4, s3, s2, List.length_set]
      exact g10 hns
    · rw [s2, List.length_set]; exact g6
    · rw [← hg']; exact hloop
    · rw [occupied_eq, s1, s2, g3, set_take _ _ _ _ hjlt]
      rw [← g3, hocc1]
  · -- the record is inserted
    rename_i g2' hloop
    split at hput
    · simp at hput
    rename_i spot hspot
    simp only [Prod.mk.injEq] at hput
    obtain ⟨hres, ht', hf', hg'⟩ := hput
    have hsave := save_frame D _ _ _ _ _ (Prod.ext hres (Prod.ext ht' hf') :
      BlockTable.save D _ file1 = (Except.ok (), t', file'))
    simp only at hsave
    obtain ⟨s1, s2, s3, s4, s5⟩ := hsave
    replace s4 : t'.perBlock = t1.perBlock := s4
    have hspot1 : t1.records[countLt t.occupied key]? = some spot := by
      rw [shiftUp_getElem? _ _ _ _ _ g7 (by omega), if_neg (by omega)] at hspot
      exact hspot
    have hsz := g7 spot (List.getElem?_mem hspot1)
    have hck : copy spot.key key = key := copy_eq_of_length _ _ (by rw [hsz.1, hkl])
    rw [hck] at s2
    refine ⟨by rw [s1, g1], by rw [s1, g2], by rw [s4, g4], by rw [s3]; exact g8, ?_, ?_, ?_,
      ?_, Or.inr ⟨?_, by rw [s1, g3], spot, hsz.2, ?_, by rw [← g11]; exact hspot1⟩⟩
    · rw [s4, s3, s2, List.length_set, shiftUp_length]; exact g9
    · intro x hx
      rw [s2] at hx
      rcases List.mem_or_eq_of_mem_set hx with h | h
      · obtain ⟨n, hn⟩ := List.mem_iff_getElem?.mp h
        rw [shiftUp_getElem? _ _ _ _ _ g7 (by omega)] at hn
        split at hn
        · exact g7 x (List.getElem?_mem hn)
        · exact g7 x (List.getElem?_mem hn)
      · subst h
        exact ⟨hkl, by rw [copy_length]; exact hsz.2⟩
    · intro hns
      rw [s4, s3, s2, List.length_set, shiftUp_length]
      exact g10 hns
    · rw [s2, List.length_set, shiftUp_length]; exact g6
    · rw [← hg']; exact hloop
    · rw [s2, insert_take _ _ _ _ _ _ g7 (by omega) g6]
      have : List.take t.header.records t1.records = t.occupied := by rw [← g3]; exact hocc1
      rw [this]


/-- `put_spec` for the closure of `BlockTable.Put`, which always replaces: a key
that is present is overwritten at the first index of its run, a key that is
absent is inserted at the lower-bound index. -/
theorem Put_spec {δ : Type} (D : BlockDevice δ) (t t' : BlockTable) (file file' : δ)
    (key value : ByteSlice) (hwf : t.WF) (hs : SortedKeys t.occupied)
    (hput : BlockTable.Put D t file key value = (Except.ok (), t', file')) :
    key.length = t.header.keysize ∧ value.length ≤ t.header.valsize ∧
    t'.header.keysize = t.header.keysize ∧ t'.header.valsize = t.header.valsize ∧
    t'.perBlock = t.perBlock ∧ t.blocks.length ≤ t'.blocks.length ∧
    t'.perBlock * t'.blocks.length ≤ t'.records.length ∧
    (∀ r ∈ t'.records,
      r.key.length = t.header.keysize ∧ r.value.length = t.header.valsize) ∧
    (t.records.length = t.perBlock * t.blocks.length →
      t'.records.length = t'.perBlock * t'.blocks.length ∧
      t.header.records + 1 ≤ t'.perBlock * t'.blocks.length) ∧
    t.header.records < t'.records.length ∧
    ((∃ x ∈ t.occupied, x.key = key) →
      t'.header.records = t.header.records ∧
      ∃ spot, t.occupied[countLt t.occupied key]? = some spot ∧ spot.key = key ∧
        t'.occupied = t.occupied.set (countLt t.occupied key) ⟨key, copy spot.value value⟩) ∧
    ((¬ ∃ x ∈ t.occupied, x.key = key) →
      t'.header.records = (t.header.records + 1) % 2 ^ 32 ∧
      ∃ spot : record, spot.value.length = t.header.valsize ∧
        t'.records.take (t.header.records + 1)
          = t.occupied.take (countLt t.occupied key)
            ++ ⟨key, copy spot.value value⟩ :: t.occupied.drop (countLt t.occupied key) ∧
        t.putView[countLt t.occupied key]? = some spot) := by
  unfold BlockTable.Put at hput
  simp only [Prod.mk.injEq] at hput
  obtain ⟨h1, h2, h3⟩ := hput
  have hput' : BlockTable.put D (fun (u : Unit) (_ : record) => (Except.ok (true, value), u))
      t file () key value = (Except.ok (), t', file', ()) :=
    Prod.ext h1 (Prod.ext h2 (Prod.ext h3 rfl))
  obtain ⟨p1, p2, p3, p4, p5, p6, p7, p8, p9, p10, p11⟩ :=
    put_spec D _ t t' file file' () () key value hwf hs hput'
  refine ⟨p1, p2, p3, p4, p5, p6, p7, p8, p9, p10, ?_, ?_⟩
  · intro hex
    obtain ⟨hi, hik, _⟩ := countLt_first_index t.occupied key hs hex
    have hdrop : t.occupied.drop (countLt t.occupied key)
        = t.occupied[countLt t.occupied key] :: t.occupied.drop (countLt t.occupied key + 1) :=
      List.drop_eq_getElem_cons hi
    have hloop : replaceLoop (fun (u : Unit) (_ : record) => (Except.ok (true, value), u)) key
        (t.occupied.drop (countLt t.occupied key)) (countLt t.occupied key) ()
        = (Except.ok (some (countLt t.occupied key, value)), ()) := by
      rw [hdrop]
      simp [replaceLoop, hik, ByteSlice.Eq]
    rcases p11 with ⟨j, bytes, spot, _, hl, hsp, hk, hrec, hocc⟩ | ⟨hl, _⟩
    · rw [hloop] at hl
      simp only [Prod.mk.injEq, Except.ok.injEq, Option.some.injEq, and_true] at hl
      obtain ⟨rfl, rfl⟩ := hl
      exact ⟨hrec, spot, hsp, hk, hocc⟩
    · simp only [hex, decide_True, if_true] at hl
      rw [hloop] at hl
      simp at hl
  · intro hno
    rcases p11 with ⟨j, bytes, spot, hex, _⟩ | ⟨_, hrec, hsp⟩
    · exact absurd hex hno
    · exact ⟨hrec, hsp⟩

/-- Sortedness only looks at the keys. -/
theorem sortedKeys_set_same_key (rs : List record) (j : Nat) (spot : record) (w : ByteSlice)
    (hj : rs[j]? = some spot) (hs : SortedKeys rs) :
    SortedKeys (rs.set j ⟨spot.key, w⟩) := by
  have hmap : (rs.set j ⟨spot.key, w⟩).map (fun r => r.key) = rs.map (fun r => r.key) := by
    apply List.ext_getElem?
    intro n
    rw [List.getElem?_map, List.getElem?_map, List.getElem?_set]
    by_cases hn : j = n
    · subst hn
      rw [if_pos rfl, if_pos (List.getElem?_eq_some.mp hj).1, hj]
      rfl
    · rw [if_neg hn]
  unfold SortedKeys at hs ⊢
  have h1 := (List.pairwise_map (f := fun r : record => r.key)
    (R := fun a b => ByteSlice.Lt b a = false) (l := rs)).mpr hs
  rw [← hmap] at h1
  exact List.pairwise_map.mp h1

/-- Inserting at the lower-bound index keeps a sorted slice sorted. -/
theorem sortedKeys_insert (rs : List record) (new : record) (hs : SortedKeys rs) :
    SortedKeys (rs.take (countLt rs new.key) ++ new :: rs.drop (countLt rs new.key)) := by
  unfold SortedKeys
  rw [List.pairwise_append]
  refine ⟨List.Pairwise.sublist (List.take_sublist _ _) hs, ?_, ?_⟩
  · rw [List.pairwise_cons]
    refine ⟨?_, List.Pairwise.sublist (List.drop_sublist _ _) hs⟩
    intro b hb
    obtain ⟨n, hn, rfl⟩ := List.getElem_of_mem hb
    rw [List.getElem_drop]
    rw [List.length_drop] at hn
    cases h : ByteSlice.Lt rs[countLt rs new.key + n].key new.key with
    | false => rfl
    | true =>
      have := (lt_countLt_iff rs new.key hs _ (by omega)).mpr h
      omega
  · intro a ha b hb
    obtain ⟨n, hn, rfl⟩ := List.getElem_of_mem ha
    rw [List.getElem_take]
    rw [List.length_take] at hn
    have hlt := (lt_countLt_iff rs new.key hs n (by omega)).mp (by omega)
    rcases List.mem_cons.mp hb with h | h
    · subst h
      exact Lt_asymm _ _ hlt
    · obtain ⟨m, hm, rfl⟩ := List.getElem_of_mem h
      rw [List.getElem_drop]
      rw [List.length_drop] at hm
      exact sortedKeys_getElem rs hs n _ (by omega) (by omega) (by omega)


/-! ### BlockTable.Remove -/

/-- The view after a removal: the first `n - 1` slots are the first `n` old ones
without the one at index `i`. -/
theorem remove_take (ks vs : Nat) (all : List record) (n i : Nat)
    (hu : ∀ r ∈ all, r.key.length = ks ∧ r.value.length = vs)
    (hi : i < n) (hn : n ≤ all.length) :
    (shiftDown all all.length i).take (n - 1)
      = (all.take n).take i ++ (all.take n).drop (i + 1) := by
  have hlen1 : (all.take n).length = n := by rw [List.length_take]; omega
  have hlen2 : ((all.take n).take i).length = i := by rw [List.length_take, hlen1]; omega
  apply List.ext_getElem?
  intro p
  by_cases h0 : p < n - 1
  · rw [List.getElem?_take_of_lt h0, shiftDown_getElem? ks vs all.length i all hu (by omega)]
    by_cases h1 : p < i
    · rw [if_neg (by omega), List.getElem?_append_left (by omega),
        List.getElem?_take_of_lt h1, List.getElem?_take_of_lt (by omega)]
    · rw [if_pos (by omega), List.getElem?_append_right (by omega), hlen2,
        List.getElem?_drop, List.getElem?_take_of_lt (by omega)]
      congr 1
      omega
  · rw [List.getElem?_eq_none (by rw [List.length_take]; omega),
      List.getElem?_eq_none (by
        rw [List.length_append, hlen2, List.length_drop, hlen1]; omega)]

/-- The table `remove_block` leaves behind on a chain of at least two blocks. -/
theorem remove_block_eq {δ : Type} (D : BlockDevice δ) (t : BlockTable) (file : δ)
    (freed : block) (hlen : ¬ t.blocks.length ≤ 1) (hfreed : t.blocks.getLast? = some freed) :
    BlockTable.remove_block D t file =
      ((D.Free file freed.key).1,
        { key := t.key,
          header := { t.header with
            next := if t.blocks.dropLast.length = 1 then 0 else t.header.next,
            blocks := uint32_dec t.header.blocks },
          blocks := (if t.blocks.dropLast.length = 1 then t.blocks.dropLast
            else setLastNext t.blocks.dropLast 0),
          records := t.records },
        (D.Free file freed.key).2) := by
  unfold BlockTable.remove_block
  rw [if_neg hlen, hfreed]
  simp only
  cases hF : D.Free file freed.key with
  | mk r1 f1 =>
    cases r1 with
    | error e => rfl
    | ok u => rfl

theorem getLast?_of_two_le (bs : List block) (h : ¬ bs.length ≤ 1) :
    ∃ freed, bs.getLast? = some freed := by
  cases bs with
  | nil => simp at h
  | cons b rest => exact ⟨(b :: rest).getLast (by simp), List.getLast?_eq_getLast _ (by simp)⟩

/-- `remove_block` leaves the record fields of the header, the view, the head
block's data length and the table key alone; on success the chain is one block
shorter. -/
theorem remove_block_frame {δ : Type} (D : BlockDevice δ) (t t' : BlockTable)
    (file file' : δ) (r : Except Err Unit)
    (h : BlockTable.remove_block D t file = (r, t', file')) :
    t'.header.keysize = t.header.keysize ∧ t'.header.valsize = t.header.valsize ∧
    t'.header.records = t.header.records ∧ t'.records = t.records ∧
    t'.perBlock = t.perBlock ∧ t'.key = t.key ∧
    (r = Except.ok () → t'.blocks.length + 1 = t.blocks.length ∧ 1 ≤ t'.blocks.length) := by
  by_cases hlen : t.blocks.length ≤ 1
  · have heq : BlockTable.remove_block D t file = (Except.error Err.LastBlock, t, file) := by
      unfold BlockTable.remove_block
      rw [if_pos hlen]
    rw [heq] at h
    simp only [Prod.mk.injEq] at h
    obtain ⟨rfl, rfl, _⟩ := h
    exact ⟨rfl, rfl, rfl, rfl, rfl, rfl, fun hc => by simp at hc⟩
  · obtain ⟨freed, hfreed⟩ := getLast?_of_two_le t.blocks hlen
    rw [remove_block_eq D t file freed hlen hfreed] at h
    simp only [Prod.mk.injEq] at h
    obtain ⟨_, rfl, _⟩ := h
    have hdl : t.blocks.dropLast.length + 1 = t.blocks.length := by
      rw [List.length_dropLast]; omega
    have hbl : (if t.blocks.dropLast.length = 1 then t.blocks.dropLast
        else setLastNext t.blocks.dropLast 0).length = t.blocks.dropLast.length := by
      split
      · rfl
      · exact setLastNext_length _ _
    have hdh : t.blocks.dropLast.head? = t.blocks.head? := by
      cases hb : t.blocks with
      | nil => rfl
      | cons b0 rest =>
        cases rest with
        | nil => rw [hb] at hlen; simp at hlen
        | cons b1 rest => simp [List.dropLast]
    have hbh : (if t.blocks.dropLast.length = 1 then t.blocks.dropLast
        else setLastNext t.blocks.dropLast 0).head?.map (fun b => b.datalen)
          = t.blocks.head?.map (fun b => b.datalen) := by
      rw [← hdh]
      split
      · rfl
      · exact setLastNext_head_datalen _ _
    have hp := perBlock_congr t
      { key := t.key,
        header := { t.header with
          next := if t.blocks.dropLast.length = 1 then 0 else t.header.next,
          blocks := uint32_dec t.header.blocks },
        blocks := (if t.blocks.dropLast.length = 1 then t.blocks.dropLast
          else setLastNext t.blocks.dropLast 0),
        records := t.records } hbh (by dsimp only) (by dsimp only)
    dsimp only
    refine ⟨rfl, rfl, rfl, rfl, hp, rfl, fun _ => ?_⟩
    simp only [hbl]
    exact ⟨hdl, by omega⟩

theorem writeBlocks_ok {δ : Type} (D : BlockDevice δ)
    (hw : ∀ d p b, (D.WriteBlock d p b).1 = Except.ok ()) (length : Nat) (records : List record) :
    ∀ (bs : List block) (j : Nat) (file : δ),
      (writeBlocks D length records bs j file).1 = Except.ok ()
  | [], _, _ => rfl
  | blk :: rest, j, file => by
    unfold writeBlocks
    have := hw file blk.key
      (blockBytes blk.header (slotBytes blk.datalen ((records.drop (j * length)).take length)))
    split
    · rename_i e f1 heq
      rw [heq] at this
      simp at this
    · exact writeBlocks_ok D hw length records rest (j + 1) _

/-- On a device whose writes succeed, `save` succeeds on a non-empty chain. -/
theorem save_ok {δ : Type} (D : BlockDevice δ)
    (hw : ∀ d p b, (D.WriteBlock d p b).1 = Except.ok ())
    (t : BlockTable) (file : δ) (hne : 1 ≤ t.blocks.length) :
    (BlockTable.save D t file).1 = Except.ok () := by
  unfold BlockTable.save
  split
  · rename_i hb
    rw [hb] at hne
    simp at hne
  · simp only
    have := writeBlocks_ok D hw
    split
    · rename_i e f1 heq
      have h := this _ _ _ _ _ ▸ congrArg Prod.fst heq
      simp at h
    · rfl

/-- On a device whose `Free` succeeds, `remove_block` succeeds on a chain of at
least two blocks. -/
theorem remove_block_ok {δ : Type} (D : BlockDevice δ)
    (hf : ∀ d p, (D.Free d p).1 = Except.ok ())
    (t : BlockTable) (file : δ) (h2 : 2 ≤ t.blocks.length) :
    (BlockTable.remove_block D t file).1 = Except.ok () := by
  unfold BlockTable.remove_block
  rw [if_neg (by omega)]
  have hl : ∃ freed, t.blocks.getLast? = some freed := by
    match hb : t.blocks, h2 with
    | b0 :: b1 :: rest, _ => simp [List.getLast?]
  obtain ⟨freed, hfreed⟩ := hl
  rw [hfreed]
  simp only
  have := hf file freed.key
  split
  · rename_i e f1 heq
    rw [heq] at this
    simp at this
  · rfl

theorem perBlock_pos_blocks (t : BlockTable) (h : 0 < t.perBlock) : 1 ≤ t.blocks.length := by
  unfold BlockTable.perBlock at h
  split at h
  · omega
  · rename_i hb; rw [hb]; simp

theorem records_per_blk_eq (t : BlockTable) (h : 0 < t.perBlock) :
    t.records_per_blk = Except.ok t.perBlock := by
  unfold BlockTable.perBlock at h ⊢
  unfold BlockTable.records_per_blk
  cases hb : t.blocks with
  | nil => rw [hb] at h; simp at h
  | cons blk rest =>
    rw [hb] at h
    simp only at h ⊢
    have : t.header.keysize + t.header.valsize ≠ 0 := by
      intro h0
      rw [h0, Nat.div_zero] at h
      omega
    rw [if_neg this]

/-- The table `remove_index` works on after the shift and the decrement. -/
theorem remove_index_eq {δ : Type} (D : BlockDevice δ) (t : BlockTable) (file : δ) (i : Nat)
    (hper : 0 < t.perBlock) :
    BlockTable.remove_index D t file i =
      (if uint32_dec t.header.records / t.perBlock + 1 < t.blocks.length then
        match BlockTable.remove_block D
          { key := t.key,
            header := { t.header with records := uint32_dec t.header.records },
            blocks := t.blocks,
            records := shiftDown t.records t.records.length i } file with
        | (.error e, self, file) => (.error e, self, file)
        | (.ok _, self, file) => self.save D file
       else BlockTable.save D
          { key := t.key,
            header := { t.header with records := uint32_dec t.header.records },
            blocks := t.blocks,
            records := shiftDown t.records t.records.length i } file) := by
  have h1 : BlockTable.records_per_blk
      { key := t.key,
        header := { t.header with records := uint32_dec t.header.records },
        blocks := t.blocks,
        records := shiftDown t.records t.records.length i } = Except.ok t.perBlock :=
    records_per_blk_eq _ hper
  unfold BlockTable.remove_index
  simp only
  rw [h1]
  simp only
  rw [if_neg (by omega)]

/-- Whatever `remove_index` returns, the table it leaves has one record fewer and
its occupied records are the old ones without the one at index `i`. -/
theorem remove_index_spec {δ : Type} (D : BlockDevice δ) (t t' : BlockTable)
    (file file' : δ) (r : Except Err Unit) (i : Nat) (hwf : t.WF)
    (hi : i < t.header.records)
    (h : BlockTable.remove_index D t file i = (r, t', file')) :
    t'.header.records + 1 = t.header.records ∧
    t'.occupied = t.occupied.take i ++ t.occupied.drop (i + 1) := by
  have hcov := hwf.cover
  have hfit := hwf.fits
  have hrec : uint32_dec t.header.records = t.header.records - 1 := by
    unfold uint32_dec
    rw [if_neg (by omega)]
  have hocc : (shiftDown t.records t.records.length i).take (t.header.records - 1)
      = t.occupied.take i ++ t.occupied.drop (i + 1) :=
    remove_take _ _ _ _ _ hwf.sizes hi (by omega)
  have key : ∀ s : BlockTable,
      s.header.records = uint32_dec t.header.records →
      s.records = shiftDown t.records t.records.length i →
      s.header.records + 1 = t.header.records ∧
      s.occupied = t.occupied.take i ++ t.occupied.drop (i + 1) := by
    intro s h1 h2
    rw [occupied_eq, h1, h2, hrec, hocc]
    exact ⟨by omega, rfl⟩
  rw [remove_index_eq D t file i hwf.perblk] at h
  split at h
  · cases hrb : BlockTable.remove_block D
        { key := t.key,
          header := { t.header with records := uint32_dec t.header.records },
          blocks := t.blocks,
          records := shiftDown t.records t.records.length i } file with
    | mk r1 rest =>
      obtain ⟨s1, f1⟩ := rest
      obtain ⟨_, _, f3, f4, _⟩ := remove_block_frame D _ _ _ _ _ hrb
      rw [hrb] at h
      cases r1 with
      | error e =>
        simp only [Prod.mk.injEq] at h
        obtain ⟨_, rfl, _⟩ := h
        exact key s1 f3 f4
      | ok u =>
        simp only at h
        obtain ⟨s1', s2', _⟩ := save_frame D _ _ _ _ _ h
        exact key t' (by rw [s1', f3]) (by rw [s2', f4])
  · obtain ⟨s1', s2', _⟩ := save_frame D _ _ _ _ _ h
    exact key t' (by rw [s1']) (by rw [s2'])

/-- On a device that does not fail, `remove_index` succeeds. -/
theorem remove_index_ok {δ : Type} (D : BlockDevice δ)
    (hf : ∀ d p, (D.Free d p).1 = Except.ok ())
    (hw : ∀ d p b, (D.WriteBlock d p b).1 = Except.ok ())
    (t : BlockTable) (file : δ) (i : Nat) (hwf : t.WF) :
    (BlockTable.remove_index D t file i).1 = Except.ok () := by
  rw [remove_index_eq D t file i hwf.perblk]
  split
  · rename_i hlt
    have hrb := remove_block_ok D hf
      { key := t.key,
        header := { t.header with records := uint32_dec t.header.records },
        blocks := t.blocks,
        records := shiftDown t.records t.records.length i } file
      (Nat.lt_of_le_of_lt (Nat.le_add_left 1 _) hlt)
    cases hrb' : BlockTable.remove_block D
        { key := t.key,
          header := { t.header with records := uint32_dec t.header.records },
          blocks := t.blocks,
          records := shiftDown t.records t.records.length i } file with
    | mk r1 rest =>
      obtain ⟨s1, f1⟩ := rest
      rw [hrb'] at hrb
      simp only at hrb
      subst hrb
      simp only
      obtain ⟨_, _, _, _, _, _, f7⟩ := remove_block_frame D _ _ _ _ _ hrb'
      exact save_ok D hw _ _ (f7 rfl).2
  · exact save_ok D hw _ _ (perBlock_pos_blocks t hwf.perblk)

/-! ### Consequences for `Put`, `Get`, `Has`, `Remove` -/

theorem occupied_length (t : BlockTable) (hwf : t.WF) :
    t.occupied.length = t.header.records := by
  rw [occupied_eq, List.length_take]
  have := hwf.cover; have := hwf.fits
  omega

/-- A successful `Put` on a well-formed sorted table leaves the occupied records
sorted (also when the `uint32` record counter wraps). -/
theorem Put_sorted {δ : Type} (D : BlockDevice δ) (t t' : BlockTable) (file file' : δ)
    (key value : ByteSlice) (hwf : t.WF) (hs : SortedKeys t.occupied)
    (hput : BlockTable.Put D t file key value = (Except.ok (), t', file')) :
    SortedKeys t'.occupied := by
  obtain ⟨_, _, _, _, _, _, _, _, _, _, hpres, habs⟩ := Put_spec D t t' file file' key value hwf hs hput
  by_cases hex : ∃ x ∈ t.occupied, x.key = key
  · obtain ⟨_, spot, hsp, hk, hocc⟩ := hpres hex
    have h1 := sortedKeys_set_same_key t.occupied _ spot (copy spot.value value) hsp hs
    rw [hk] at h1
    rw [hocc]
    exact h1
  · obtain ⟨hrec, spot, _, hocc, _⟩ := habs hex
    have hle : t'.header.records ≤ t.header.records + 1 := by
      rw [hrec]; exact Nat.mod_le _ _
    have : t'.occupied = (t'.records.take (t.header.records + 1)).take t'.header.records := by
      rw [occupied_eq, List.take_take, Nat.min_eq_left hle]
    rw [this, hocc]
    exact List.Pairwise.sublist (List.take_sublist _ _)
      (sortedKeys_insert t.occupied ⟨key, copy spot.value value⟩ hs)

/-- An occupied record of a well-formed table is at the same index of the view
`put` works on. -/
theorem putView_of_occupied (t : BlockTable) (j : Nat) (spot : record) (hwf : t.WF)
    (h : t.occupied[j]? = some spot) : t.putView[j]? = some spot := by
  have hj : j < t.header.records := by
    have := (List.getElem?_eq_some.mp h).1
    rw [occupied_eq, List.length_take] at this
    omega
  rw [occupied_eq, List.getElem?_take_of_lt hj] at h
  have hfit := hwf.fits
  have hcov := hwf.cover
  unfold BlockTable.putView
  split
  · rw [List.getElem?_append_left (by rw [List.length_take]; omega),
      List.getElem?_take_of_lt (by omega)]
    exact h
  · exact h

/-- The occupied records after a successful `Put` without counter wrap-around:
the slot at the lower-bound index holds the key and a value that starts with
the bytes put over the bytes the slot held. -/
theorem Put_slot {δ : Type} (D : BlockDevice δ) (t t' : BlockTable) (file file' : δ)
    (key value : ByteSlice) (hwf : t.WF) (hs : SortedKeys t.occupied)
    (hroom : t.header.records + 1 < 2 ^ 32)
    (hput : BlockTable.Put D t file key value = (Except.ok (), t', file')) :
    countLt t'.occupied key = countLt t.occupied key ∧
    ∃ spot : record, spot.value.length = t.header.valsize ∧
      t'.occupied[countLt t.occupied key]? = some ⟨key, copy spot.value value⟩ ∧
      ((∃ x ∈ t.occupied, x.key = key) →
        t.occupied[countLt t.occupied key]? = some spot ∧ spot.key = key) ∧
      t.putView[countLt t.occupied key]? = some spot := by
  obtain ⟨_, _, _, _, _, _, _, _, _, _, hpres, habs⟩ := Put_spec D t t' file file' key value hwf hs hput
  have hlen := occupied_length t hwf
  have hi := countLt_le_length t.occupied key
  by_cases hex : ∃ x ∈ t.occupied, x.key = key
  · obtain ⟨_, spot, hsp, hk, hocc⟩ := hpres hex
    have hilt := (List.getElem?_eq_some.mp hsp).1
    have hvl : spot.value.length = t.header.valsize :=
      (hwf.sizes spot (List.mem_of_mem_take (List.getElem?_mem hsp))).2
    refine ⟨?_, spot, hvl, ?_, fun _ => ⟨hsp, hk⟩, putView_of_occupied t _ spot hwf hsp⟩
    · rw [hocc]
      unfold countLt
      have hmap : (t.occupied.set (countLt t.occupied key) ⟨key, copy spot.value value⟩).map
          (fun r => ByteSlice.Lt r.key key) = t.occupied.map (fun r => ByteSlice.Lt r.key key) := by
        apply List.ext_getElem?
        intro n
        rw [List.getElem?_map, List.getElem?_map, List.getElem?_set]
        by_cases hn : countLt t.occupied key = n
        · rw [if_pos hn, if_pos hilt, ← hn, hsp]
          simp [hk]
        · rw [if_neg hn]
      have h1 := List.countP_map (fun b : Bool => b) (fun r : record => ByteSlice.Lt r.key key)
        (t.occupied.set (List.countP (fun r => ByteSlice.Lt r.key key) t.occupied)
          ⟨key, copy spot.value value⟩)
      have h2 := List.countP_map (fun b : Bool => b) (fun r : record => ByteSlice.Lt r.key key)
        t.occupied
      unfold countLt at hmap
      rw [hmap] at h1
      rw [h2] at h1
      exact h1.symm
    · rw [hocc, List.getElem?_set_self hilt]
  · obtain ⟨hrec, spot, hvl, hocc, hview⟩ := habs hex
    rw [Nat.mod_eq_of_lt hroom] at hrec
    have hocc' : t'.occupied = t.occupied.take (countLt t.occupied key)
        ++ ⟨key, copy spot.value value⟩ :: t.occupied.drop (countLt t.occupied key) := by
      rw [occupied_eq, hrec]; exact hocc
    refine ⟨?_, spot, hvl, ?_, fun h => absurd h hex, hview⟩
    · rw [hocc']
      unfold countLt
      rw [List.countP_append, List.countP_cons]
      simp only [Lt_irrefl, Bool.false_eq_true, if_false, Nat.add_zero]
      rw [← List.countP_append, List.take_append_drop]
    · rw [hocc', List.getElem?_append_right (by rw [List.length_take]; omega)]
      have : countLt t.occupied key - (t.occupied.take (countLt t.occupied key)).length = 0 := by
        rw [List.length_take]; omega
      rw [this]
      simp

/-- `Has` and `Get` on a well-formed sorted table whose slot at the lower-bound
index of `key` holds `key`. -/
theorem Has_Get_of_slot (t : BlockTable) (key w : ByteSlice)
    (hlen : t.header.records ≤ t.records.length) (hs : SortedKeys t.occupied)
    (hslot : t.occupied[countLt t.occupied key]? = some ⟨key, w⟩) :
    t.Has key = Except.ok true ∧ t.Get key = Except.ok w := by
  have hex : ∃ x ∈ t.occupied, x.key = key := ⟨_, List.getElem?_mem hslot, rfl⟩
  have hfind := find_sorted t.occupied key hs
  rw [occupied_eq] at hfind hslot
  constructor
  · unfold BlockTable.Has
    rw [if_neg (by omega), hfind]
    simp [hex, occupied_eq] at *
    exact hex
  · unfold BlockTable.Get
    rw [if_neg (by omega), hfind]
    simp only
    have : decide (∃ x ∈ List.take t.header.records t.records, x.key = key) = true := by
      simpa [occupied_eq] using hex
    rw [this]
    simp only [Bool.not_true, Bool.false_eq_true, if_false]
    rw [hslot]


/-! ### The contract of BlockTable -/

theorem copy_copy (dst src : ByteSlice) (h : src.length ≤ dst.length) :
    copy (copy dst src) src = copy dst src := by
  have e : copy dst src = src ++ dst.drop src.length := by
    unfold copy; rw [List.take_of_length_le h]
  rw [e]
  unfold copy
  rw [List.take_of_length_le (by rw [List.length_append]; omega), List.drop_left' rfl]

/-- C1, as amended: on a well-formed table whose occupied records are sorted
(and whose `uint32` record counter does not wrap), after a successful
`Put(k, v)` the table has `k`, and `Get(k)` returns the `valsize` bytes of the
slot, which begin with `v`; they are exactly `v` when `v` has `valsize` bytes,
and the bytes after `len(v)` are those the slot held before: the slot `spot` at
the lower-bound index of `k` in the record view `put` works on, which is the
record with the key `k` when there was one. -/
theorem Put_then_Has_Get {δ : Type} (D : BlockDevice δ) (t t' : BlockTable) (file file' : δ)
    (k v : ByteSlice) (hwf : t.WF) (hs : SortedKeys t.occupied)
    (hroom : t.header.records + 1 < 2 ^ 32)
    (hput : BlockTable.Put D t file k v = (Except.ok (), t', file')) :
    k.length = t.header.keysize ∧ v.length ≤ t.header.valsize ∧
    t'.Has k = Except.ok true ∧
    ∃ w spot, t'.Get k = Except.ok w ∧ w.length = t.header.valsize ∧ w.take v.length = v ∧
      (v.length = t.header.valsize → w = v) ∧
      t.putView[countLt t.occupied k]? = some spot ∧
      ((∃ x ∈ t.occupied, x.key = k) →
        t.occupied[countLt t.occupied k]? = some spot ∧ spot.key = k) ∧
      w = v ++ spot.value.drop v.length := by
  obtain ⟨p1, p2, _, _, _, _, _, _, _, p10, hpres, habs⟩ :=
    Put_spec D t t' file file' k v hwf hs hput
  have hsorted := Put_sorted D t t' file file' k v hwf hs hput
  obtain ⟨hc, spot, hvl, hslot, hold, hview⟩ :=
    Put_slot D t t' file file' k v hwf hs hroom hput
  have hlen : t'.header.records ≤ t'.records.length := by
    by_cases hex : ∃ x ∈ t.occupied, x.key = k
    · rw [(hpres hex).1]; omega
    · rw [(habs hex).1, Nat.mod_eq_of_lt hroom]; omega
  rw [← hc] at hslot
  obtain ⟨hhas, hget⟩ := Has_Get_of_slot t' k _ hlen hsorted hslot
  refine ⟨p1, p2, hhas, copy spot.value v, spot, hget, ?_, ?_, ?_, hview, hold, ?_⟩
  · rw [copy_length]; exact hvl
  · exact copy_take _ _ (by omega)
  · intro hv
    exact copy_eq_of_length _ _ (by omega)
  · unfold copy
    rw [List.take_of_length_le (by omega)]

/-- Witness for C1 as amended: `Put(0002, 7)` on the three-record table. -/
theorem Put_then_Has_Get_witness :
    exState3.1.WF ∧ SortedKeys exState3.1.occupied ∧
    exState4.1.Has [0, 0, 0, 2] = Except.ok true ∧
    ∃ w spot, exState4.1.Get [0, 0, 0, 2] = Except.ok w ∧
      w.length = exState3.1.header.valsize ∧
      w.take [7].length = [7] ∧ ([7].length = exState3.1.header.valsize → w = [7]) ∧
      exState3.1.putView[countLt exState3.1.occupied [0, 0, 0, 2]]? = some spot ∧
      ((∃ x ∈ exState3.1.occupied, x.key = [0, 0, 0, 2]) →
        exState3.1.occupied[countLt exState3.1.occupied [0, 0, 0, 2]]? = some spot ∧
        spot.key = [0, 0, 0, 2]) ∧
      w = [7] ++ spot.value.drop [7].length :=
  ⟨⟨by decide, by decide, by decide, by decide, by decide, by decide⟩, by decide,
    (Put_then_Has_Get memDevice exState3.1 exState4.1 exState3.2 exState4.2 [0, 0, 0, 2] [7]
      ⟨by decide, by decide, by decide, by decide, by decide, by decide⟩ (by decide)
      (by decide) (by decide)).2.2⟩

/-- Counterexample to C1 as stated: the sorted table holds `0002 ↦ 2222`; the
one-byte value `7` is accepted (`1 ≤ valsize = 4`), the `Put` succeeds, and
`Get(0002)` returns `7 2 2 2`, not `7`. -/
theorem Put_Get_short_value_counterexample :
    exState3.1.WF ∧ SortedKeys exState3.1.occupied ∧
    [0, 0, 0, 2].length = exState3.1.header.keysize ∧
    [7].length ≤ exState3.1.header.valsize ∧
    BlockTable.Put memDevice exState3.1 exState3.2 [0, 0, 0, 2] [7]
      = (Except.ok (), exState4.1, exState4.2) ∧
    exState4.1.Get [0, 0, 0, 2] = Except.ok [7, 2, 2, 2] ∧
    exState4.1.Get [0, 0, 0, 2] ≠ Except.ok [7] :=
  ⟨⟨by decide, by decide, by decide, by decide, by decide, by decide⟩, by decide, by decide,
    by decide, by decide, by decide, by decide⟩

/-- Where the data-model invariants hold (`records ≤ R * blocks`): on such a
table whose occupied records are sorted ascending by key, the occupied records are sorted again after every
successful `Put` and after every successful `Remove`: for `i < j < records`
the key at `i` is not above the key at `j`. -/
theorem BlockTable_sorted_preserved {δ : Type} (D : BlockDevice δ) (t t' : BlockTable)
    (file file' : δ) (k v : ByteSlice) (hwf : t.WF) (hs : SortedKeys t.occupied)
    (hop : BlockTable.Put D t file k v = (Except.ok (), t', file') ∨
           BlockTable.Remove D t file k = (Except.ok (), t', file')) :
    SortedKeys t'.occupied ∧
    ∀ i j (a b : record), i < j → j < t'.header.records →
      t'.records[i]? = some a → t'.records[j]? = some b → ByteSlice.Lt b.key a.key = false := by
  have hsorted : SortedKeys t'.occupied := by
    rcases hop with hput | hrem
    · exact Put_sorted D t t' file file' k v hwf hs hput
    · unfold BlockTable.Remove at hrem
      have hcov := hwf.cover
      have hfit := hwf.fits
      rw [if_neg (by omega)] at hrem
      have hfind := find_sorted t.occupied k hs
      rw [occupied_eq] at hfind
      rw [hfind] at hrem
      simp only at hrem
      split at hrem
      · simp at hrem
      · rename_i hok
        have hex : ∃ x ∈ t.occupied, x.key = k := by
          by_contra hno
          rw [occupied_eq] at hno
          simp [hno] at hok
        obtain ⟨hi, _, _⟩ := countLt_first_index t.occupied k hs hex
        rw [occupied_length t hwf] at hi
        obtain ⟨_, hocc⟩ := remove_index_spec D t t' file file' _ _ hwf hi hrem
        rw [hocc]
        have hsub : (t.occupied.take (countLt t.occupied k)
            ++ t.occupied.drop (countLt t.occupied k + 1)).Sublist t.occupied := by
          conv_rhs => rw [← List.take_append_drop (countLt t.occupied k) t.occupied]
          exact List.Sublist.append (List.Sublist.refl _) (List.drop_sublist_drop_left _ (by omega))
        exact List.Pairwise.sublist hsub hs
  refine ⟨hsorted, ?_⟩
  intro i j a b hij hj ha hb
  have ha' : t'.occupied[i]? = some a := by
    rw [occupied_eq, List.getElem?_take_of_lt (by omega)]; exact ha
  have hb' : t'.occupied[j]? = some b := by
    rw [occupied_eq, List.getElem?_take_of_lt hj]; exact hb
  obtain ⟨hi1, hi2⟩ := List.getElem?_eq_some.mp ha'
  obtain ⟨hj1, hj2⟩ := List.getElem?_eq_some.mp hb'
  have := sortedKeys_getElem t'.occupied hsorted i j hi1 hj1 (by omega)
  rw [hi2, hj2] at this
  exact this

/-- Sortedness on a well-formed table at a concrete input: the insertion of
`0002` between `0001` and `0003`. -/
theorem BlockTable_sorted_preserved_witness :
    exState2.1.WF ∧ SortedKeys exState2.1.occupied ∧ SortedKeys exState3.1.occupied :=
  ⟨⟨by decide, by decide, by decide, by decide, by decide, by decide⟩, by decide,
    (BlockTable_sorted_preserved memDevice exState2.1 exState3.1 exState2.2 exState3.2
      [0, 0, 0, 2] [2, 2, 2, 2]
      ⟨by decide, by decide, by decide, by decide, by decide, by decide⟩ (by decide)
      (Or.inl (by decide))).1⟩


/-- Where the data-model invariants hold (`records ≤ R * blocks`): on such a
sorted table (whose `uint32` record counter does not wrap), a successful `Put(k, v)` of a key that is not
yet present increases `header.records` by exactly one and puts `k` at the
lower-bound index `i`, the number of old records with a smaller key: the
records below `i` are unchanged, every old record at `j ≥ i` is at `j + 1`
with its key and value, and the slot `i` holds `k` with a value that begins
with `v`. -/
theorem Put_insert_shift {δ : Type} (D : BlockDevice δ) (t t' : BlockTable) (file file' : δ)
    (k v : ByteSlice) (hwf : t.WF) (hs : SortedKeys t.occupied)
    (hnew : ¬ ∃ x ∈ t.occupied, x.key = k)
    (hroom : t.header.records + 1 < 2 ^ 32)
    (hput : BlockTable.Put D t file k v = (Except.ok (), t', file')) :
    t'.header.records = t.header.records + 1 ∧
    countLt t.occupied k ≤ t.header.records ∧
    ∃ w : ByteSlice, w.length = t.header.valsize ∧ w.take v.length = v ∧
      t'.occupied = t.occupied.take (countLt t.occupied k)
        ++ ⟨k, w⟩ :: t.occupied.drop (countLt t.occupied k) ∧
      (∀ j, j < countLt t.occupied k → t'.occupied[j]? = t.occupied[j]?) ∧
      t'.occupied[countLt t.occupied k]? = some ⟨k, w⟩ ∧
      (∀ j, countLt t.occupied k ≤ j → t'.occupied[j + 1]? = t.occupied[j]?) := by
  obtain ⟨_, p2, _, _, _, _, _, _, _, _, _, habs⟩ := Put_spec D t t' file file' k v hwf hs hput
  obtain ⟨hrec, spot, hvl, hocc, _⟩ := habs hnew
  rw [Nat.mod_eq_of_lt hroom] at hrec
  have hlen := occupied_length t hwf
  have hi := countLt_le_length t.occupied k
  have hocc' : t'.occupied = t.occupied.take (countLt t.occupied k)
      ++ ⟨k, copy spot.value v⟩ :: t.occupied.drop (countLt t.occupied k) := by
    rw [occupied_eq, hrec]; exact hocc
  have htl : (t.occupied.take (countLt t.occupied k)).length = countLt t.occupied k := by
    rw [List.length_take]; omega
  refine ⟨hrec, by omega, copy spot.value v, by rw [copy_length]; exact hvl,
    copy_take _ _ (by omega), hocc', ?_, ?_, ?_⟩
  · intro j hj
    rw [hocc', List.getElem?_append_left (by omega), List.getElem?_take_of_lt hj]
  · rw [hocc', List.getElem?_append_right (by omega), htl, Nat.sub_self]
    simp
  · intro j hj
    rw [hocc', List.getElem?_append_right (by omega), htl]
    have : j + 1 - countLt t.occupied k = (j - countLt t.occupied k) + 1 := by omega
    rw [this, List.getElem?_cons_succ, List.getElem?_drop]
    congr 1
    omega

/-- The insertion on a well-formed table at a concrete input: `Put(0002, 2222)`
into the table holding `0001` and `0003`, which also grows the chain by one
block. -/
theorem Put_insert_shift_witness :
    exState2.1.WF ∧ SortedKeys exState2.1.occupied ∧
    (¬ ∃ x ∈ exState2.1.occupied, x.key = [0, 0, 0, 2]) ∧
    exState3.1.header.records = exState2.1.header.records + 1 ∧
    countLt exState2.1.occupied [0, 0, 0, 2] ≤ exState2.1.header.records :=
  ⟨⟨by decide, by decide, by decide, by decide, by decide, by decide⟩, by decide, by decide,
    (Put_insert_shift memDevice exState2.1 exState3.1 exState2.2 exState3.2
      [0, 0, 0, 2] [2, 2, 2, 2]
      ⟨by decide, by decide, by decide, by decide, by decide, by decide⟩ (by decide)
      (by decide) (by decide) (by decide)).1,
    (Put_insert_shift memDevice exState2.1 exState3.1 exState2.2 exState3.2
      [0, 0, 0, 2] [2, 2, 2, 2]
      ⟨by decide, by decide, by decide, by decide, by decide, by decide⟩ (by decide)
      (by decide) (by decide) (by decide)).2.1⟩

/-- Where the view is the one of the chain: on a well-formed sorted table whose
view spans exactly its chain (and whose `uint32` record counter does not wrap), when
`Put(k, v)` succeeds twice in a row the second one finds `k`, overwrites the
first record of its run in place and shifts nothing: `header.records` and the
occupied records are what they were after the first `Put`, and the stored
value begins with `v`. -/
theorem Put_idempotent {δ : Type} (D : BlockDevice δ) (t t1 t2 : BlockTable)
    (file file1 file2 : δ) (k v : ByteSlice) (hwf : t.WF)
    (hview : t.records.length = t.perBlock * t.blocks.length)
    (hs : SortedKeys t.occupied) (hroom : t.header.records + 1 < 2 ^ 32)
    (hput1 : BlockTable.Put D t file k v = (Except.ok (), t1, file1))
    (hput2 : BlockTable.Put D t1 file1 k v = (Except.ok (), t2, file2)) :
    t2.header.records = t1.header.records ∧ t2.occupied = t1.occupied ∧
    ∃ w, t2.Get k = Except.ok w ∧ w.take v.length = v := by
  obtain ⟨p1, p2, p3, p4, p5, p6, p7, p8, p9, p10, hpres, habs⟩ :=
    Put_spec D t t1 file file1 k v hwf hs hput1
  have hsorted1 := Put_sorted D t t1 file file1 k v hwf hs hput1
  obtain ⟨hc, spot, hvl, hslot, _⟩ := Put_slot D t t1 file file1 k v hwf hs hroom hput1
  have hrec1 : t1.header.records ≤ t.header.records + 1 := by
    by_cases hex : ∃ x ∈ t.occupied, x.key = k
    · rw [(hpres hex).1]; omega
    · rw [(habs hex).1, Nat.mod_eq_of_lt hroom]
  have hwf1 : t1.WF := by
    obtain ⟨q1, q2⟩ := p9 hview
    refine ⟨by rw [p3, p4]; exact hwf.recsize, by rw [p5]; exact hwf.perblk, p7, by omega, ?_,
      by omega⟩
    intro r hr
    rw [p3, p4]
    exact p8 r hr
  rw [← hc] at hslot
  have hex1 : ∃ x ∈ t1.occupied, x.key = k := ⟨_, List.getElem?_mem hslot, rfl⟩
  obtain ⟨_, _, _, _, _, _, _, _, _, r10, hpres2, _⟩ :=
    Put_spec D t1 t2 file1 file2 k v hwf1 hsorted1 hput2
  obtain ⟨hrec2, spot2, hsp2, _, hocc2⟩ := hpres2 hex1
  rw [hslot] at hsp2
  have hspot2 : spot2 = ⟨k, copy spot.value v⟩ := (Option.some.inj hsp2).symm
  have hocc : t2.occupied = t1.occupied := by
    rw [hocc2, hspot2]
    simp only
    rw [copy_copy _ _ (by omega)]
    apply List.ext_getElem?
    intro n
    rw [List.getElem?_set]
    by_cases hn : countLt t1.occupied k = n
    · rw [if_pos hn, if_pos (List.getElem?_eq_some.mp hslot).1, ← hn, hslot]
    · rw [if_neg hn]
  have hsorted2 : SortedKeys t2.occupied := by rw [hocc]; exact hsorted1
  have hslot2 : t2.occupied[countLt t2.occupied k]? = some ⟨k, copy spot.value v⟩ := by
    rw [hocc]; exact hslot
  obtain ⟨_, hget⟩ := Has_Get_of_slot t2 k _ (by omega) hsorted2 hslot2
  exact ⟨hrec2, hocc, _, hget, copy_take _ _ (by omega)⟩

/-- A repeated `Put` on a table whose view spans its chain, at a concrete input:
`Put(0002, 7)` twice on the three-record table. -/
theorem Put_idempotent_witness :
    exState3.1.WF ∧ SortedKeys exState3.1.occupied ∧
    exState5.1.header.records = exState4.1.header.records ∧
    exState5.1.occupied = exState4.1.occupied :=
  ⟨⟨by decide, by decide, by decide, by decide, by decide, by decide⟩, by decide,
    (Put_idempotent memDevice exState3.1 exState4.1 exState5.1 exState3.2 exState4.2 exState5.2
      [0, 0, 0, 2] [7]
      ⟨by decide, by decide, by decide, by decide, by decide, by decide⟩ (by decide)
      (by decide) (by decide) (by decide) (by decide)).1,
    (Put_idempotent memDevice exState3.1 exState4.1 exState5.1 exState3.2 exState4.2 exState5.2
      [0, 0, 0, 2] [7]
      ⟨by decide, by decide, by decide, by decide, by decide, by decide⟩ (by decide)
      (by decide) (by decide) (by decide) (by decide)).2.1⟩

/-- C5: `Remove(key)` on a well-formed sorted table. When no occupied record
has the key it fails with `KeyNotFound` and leaves the table and the device as
they were. Otherwise it succeeds whenever the device does not fail, and a
successful `Remove` decrements `header.records` by exactly one and deletes
exactly the record at the first index of the equal-key run: the records before
it stay, the records after it move one slot left, keys and values intact. -/
theorem Remove_contract {δ : Type} (D : BlockDevice δ) (t : BlockTable) (file : δ)
    (key : ByteSlice) (hwf : t.WF) (hs : SortedKeys t.occupied) :
    ((¬ ∃ x ∈ t.occupied, x.key = key) →
      BlockTable.Remove D t file key = (Except.error Err.KeyNotFound, t, file)) ∧
    ((∃ x ∈ t.occupied, x.key = key) →
      ((∀ d p, (D.Free d p).1 = Except.ok ()) →
        (∀ d p b, (D.WriteBlock d p b).1 = Except.ok ()) →
        (BlockTable.Remove D t file key).1 = Except.ok ()) ∧
      (∃ h : countLt t.occupied key < t.occupied.length,
        t.occupied[countLt t.occupied key].key = key ∧
        ∀ j (hj : j < t.occupied.length), t.occupied[j].key = key → countLt t.occupied key ≤ j) ∧
      ∀ t' file', BlockTable.Remove D t file key = (Except.ok (), t', file') →
        t'.header.records + 1 = t.header.records ∧
        t'.occupied = t.occupied.take (countLt t.occupied key)
          ++ t.occupied.drop (countLt t.occupied key + 1)) := by
  have hcov := hwf.cover
  have hfit := hwf.fits
  have hfind := find_sorted t.occupied key hs
  rw [occupied_eq] at hfind
  constructor
  · intro hno
    unfold BlockTable.Remove
    rw [if_neg (by omega), hfind]
    rw [occupied_eq] at hno
    simp [hno]
  · intro hex
    have hfirst := countLt_first_index t.occupied key hs hex
    have hi : countLt t.occupied key < t.header.records := by
      rw [← occupied_length t hwf]; exact hfirst.1
    have heq : BlockTable.Remove D t file key
        = BlockTable.remove_index D t file (countLt t.occupied key) := by
      unfold BlockTable.Remove
      rw [if_neg (by omega), hfind]
      rw [occupied_eq] at hex
      simp [hex, occupied_eq]
    refine ⟨?_, hfirst, ?_⟩
    · intro hf hw
      rw [heq]
      exact remove_index_ok D hf hw t file _ hwf
    · intro t' file' hrem
      rw [heq] at hrem
      exact remove_index_spec D t t' file file' _ _ hwf hi hrem

/-- Witness for C5: `Remove(0002)` on the three-record table succeeds and leaves
`0001, 0003`; `Remove(0009)` fails with `KeyNotFound`. -/
theorem Remove_contract_witness :
    exState3.1.WF ∧ SortedKeys exState3.1.occupied ∧
    BlockTable.Remove memDevice exState3.1 exState3.2 [0, 0, 0, 9]
      = (Except.error Err.KeyNotFound, exState3.1, exState3.2) ∧
    exRemoved.1 = Except.ok () ∧
    exRemoved.2.1.occupied = [⟨[0, 0, 0, 1], [1, 1, 1, 1]⟩, ⟨[0, 0, 0, 3], [3, 3, 3, 3]⟩] :=
  ⟨⟨by decide, by decide, by decide, by decide, by decide, by decide⟩, by decide,
    (Remove_contract memDevice exState3.1 exState3.2 [0, 0, 0, 9]
      ⟨by decide, by decide, by decide, by decide, by decide, by decide⟩ (by decide)).1
      (by decide),
    ((Remove_contract memDevice exState3.1 exState3.2 [0, 0, 0, 2]
      ⟨by decide, by decide, by decide, by decide, by decide, by decide⟩ (by decide)).2
      (by decide)).1 (fun _ _ => rfl) (fun _ _ _ => rfl),
    by decide⟩


/-! ### HashBucket.Split -/

/-- The table `NewBlockTable` returns. -/
theorem NewBlockTable_ok {δ : Type} (D : BlockDevice δ) (file file' : δ) (ks vs : Nat)
    (bt : BlockTable) (h : NewBlockTable D file ks vs = (Except.ok bt, file')) :
    bt.header.keysize = ks ∧ bt.header.valsize = vs ∧ bt.header.records = 0 ∧
    bt.blocks.length = 1 ∧
    bt.records = List.replicate bt.perBlock (zeroRecord ks vs) := by
  unfold NewBlockTable at h
  split at h
  · simp at h
  split at h
  · simp at h
  rename_i blk file1 hal
  simp only at h
  split at h
  · simp at h
  rename_i file2 hwr
  split at h
  · simp at h
  rename_i length hlen
  obtain ⟨hl, _⟩ := records_per_blk_ok _ _ hlen
  simp only [Prod.mk.injEq, Except.ok.injEq] at h
  obtain ⟨rfl, _⟩ := h
  refine ⟨rfl, rfl, rfl, rfl, ?_⟩
  dsimp only
  rw [hl]
  rfl

/-- A successful `growLoop` keeps the header fields of the records, the slot
widths and the occupied prefix, and ends with at least `n` slots; it does
nothing when the view already has `n` slots. -/
theorem growLoop_ok {δ : Type} (D : BlockDevice δ) (ks vs n : Nat) :
    ∀ (fuel : Nat) (bt bt' : BlockTable) (file file' : δ),
    growLoop D fuel bt file n = (Except.ok (), bt', file') →
    bt.header.keysize = ks → bt.header.valsize = vs →
    (∀ r ∈ bt.records, r.key.length = ks ∧ r.value.length = vs) →
    bt'.header.keysize = ks ∧ bt'.header.valsize = vs ∧
    bt'.header.records = bt.header.records ∧ bt'.perBlock = bt.perBlock ∧
    (∀ r ∈ bt'.records, r.key.length = ks ∧ r.value.length = vs) ∧
    n ≤ bt'.records.length ∧
    (n ≤ bt.records.length → bt' = bt ∧ file' = file)
  | 0, bt, bt', file, file', h, hk, hv, hu => by
    unfold growLoop at h
    split at h
    · simp at h
    · rename_i hn
      simp only [Prod.mk.injEq, true_and] at h
      obtain ⟨rfl, rfl⟩ := h
      exact ⟨hk, hv, rfl, rfl, hu, by omega, fun _ => ⟨rfl, rfl⟩⟩
  | fuel + 1, bt, bt', file, file', h, hk, hv, hu => by
    unfold growLoop at h
    split at h
    · rename_i hn
      split at h
      · simp at h
      · rename_i u bt1 file1 hadd
        cases u
        obtain ⟨a1, a2, a3, a4, a5, _, a7⟩ := add_block_ok D bt bt1 file file1 hadd
        have hu1 : ∀ r ∈ bt1.records, r.key.length = ks ∧ r.value.length = vs := by
          intro r hr
          rw [a7] at hr
          rcases List.mem_append.mp hr with h1 | h1
          · exact hu r (List.mem_of_mem_take h1)
          · rw [List.mem_replicate] at h1
            rw [h1.2, hk, hv]
            simp [zeroRecord]
        obtain ⟨b1, b2, b3, b4, b5, b6, _⟩ :=
          growLoop_ok D ks vs n fuel bt1 bt' file1 file' h (by rw [a1, hk]) (by rw [a2, hv]) hu1
        exact ⟨b1, b2, by rw [b3, a3], by rw [b4, a5], b5, b6, fun hc => by omega⟩
    · rename_i hn
      simp only [Prod.mk.injEq, true_and] at h
      obtain ⟨rfl, rfl⟩ := h
      exact ⟨hk, hv, rfl, rfl, hu, by omega, fun _ => ⟨rfl, rfl⟩⟩

/-- `shrinkLoop` leaves the record fields of the header and the view alone. -/
theorem shrinkLoop_frame {δ : Type} (D : BlockDevice δ) (needed : Nat) :
    ∀ (fuel : Nat) (bt bt' : BlockTable) (file file' : δ) (r : Except Err Unit),
    shrinkLoop D fuel bt file needed = (r, bt', file') →
    bt'.header.keysize = bt.header.keysize ∧ bt'.header.valsize = bt.header.valsize ∧
    bt'.header.records = bt.header.records ∧ bt'.records = bt.records ∧
    bt'.perBlock = bt.perBlock
  | 0, bt, bt', file, file', r, h => by
    unfold shrinkLoop at h
    split at h
    all_goals
      simp only [Prod.mk.injEq] at h
      obtain ⟨_, rfl, _⟩ := h
      exact ⟨rfl, rfl, rfl, rfl, rfl⟩
  | fuel + 1, bt, bt', file, file', r, h => by
    unfold shrinkLoop at h
    split at h
    · split at h
      · rename_i e bt1 file1 hrb
        obtain ⟨f1, f2, f3, f4, f5, _⟩ := remove_block_frame D _ _ _ _ _ hrb
        simp only [Prod.mk.injEq] at h
        obtain ⟨_, rfl, _⟩ := h
        exact ⟨f1, f2, f3, f4, f5⟩
      · rename_i u bt1 file1 hrb
        obtain ⟨f1, f2, f3, f4, f5, _⟩ := remove_block_frame D _ _ _ _ _ hrb
        obtain ⟨g1, g2, g3, g4, g5⟩ := shrinkLoop_frame D needed fuel bt1 bt' file1 file' r h
        exact ⟨by rw [g1, f1], by rw [g2, f2], by rw [g3, f3], by rw [g4, f4], by rw [g5, f5]⟩
    · simp only [Prod.mk.injEq] at h
      obtain ⟨_, rfl, _⟩ := h
      exact ⟨rfl, rfl, rfl, rfl, rfl⟩


theorem take_set_succ (all : List record) (i : Nat) (r : record) (hi : i < all.length) :
    (all.set i r).take (i + 1) = all.take i ++ [r] := by
  apply List.ext_getElem?
  intro n
  have hl : (all.take i).length = i := by rw [List.length_take]; omega
  by_cases h1 : n < i
  · rw [List.getElem?_take_of_lt (by omega), List.getElem?_set_ne (by omega),
      List.getElem?_append_left (by omega), List.getElem?_take_of_lt h1]
  · rw [List.getElem?_append_right (by omega), hl]
    by_cases h2 : n = i
    · subst h2
      rw [List.getElem?_take_of_lt (by omega), List.getElem?_set_self hi]
      simp
    · rw [List.getElem?_eq_none (by rw [List.length_take, List.length_set]; omega),
        List.getElem?_eq_none (by rw [List.length_singleton]; omega)]

/-- The copy loop of `write_bucket` writes, from slot `i` on, the records the
pointers view. When the pointers view the slots being written they have to
be increasing and at or after the slot written. -/
theorem writeLoop_ok (ks vs : Nat) (heap : Option (List record)) :
    ∀ (ptrs : List Nat) (all all' : List record) (i : Nat),
    writeLoop heap all ptrs i = (Except.ok (), all') →
    (∀ r ∈ all, r.key.length = ks ∧ r.value.length = vs) →
    (∀ r ∈ heap.getD all, r.key.length = ks ∧ r.value.length = vs) →
    (heap = none → ptrs.Pairwise (fun a b => a < b) ∧ ∀ q ∈ ptrs, i ≤ q) →
    all'.length = all.length ∧
    (∀ r ∈ all', r.key.length = ks ∧ r.value.length = vs) ∧
    all'.take (i + ptrs.length) = all.take i ++ ptrs.filterMap (fun q => (heap.getD all)[q]?)
  | [], all, all', i, h, hu, _, _ => by
    simp only [writeLoop, Prod.mk.injEq, true_and] at h
    subst h
    exact ⟨rfl, hu, by simp⟩
  | p :: ps, all, all', i, h, hu, hh, hal => by
    unfold writeLoop at h
    split at h
    · rename_i rec dst hrec hdst
      have hilt : i < all.length := (List.getElem?_eq_some.mp hdst).1
      have hrs := hh rec (List.getElem?_mem hrec)
      have hds := hu dst (List.getElem?_mem hdst)
      rw [copy_eq_of_length _ _ (by rw [hrs.1, hds.1]),
        copy_eq_of_length _ _ (by rw [hrs.2, hds.2])] at h
      have hu1 : ∀ r ∈ all.set i ⟨rec.key, rec.value⟩,
          r.key.length = ks ∧ r.value.length = vs := by
        intro r hr
        rcases List.mem_or_eq_of_mem_set hr with h1 | h1
        · exact hu r h1
        · subst h1; exact hrs
      have hmem : ∀ q ∈ ps, (heap.getD (all.set i ⟨rec.key, rec.value⟩))[q]?
          = (heap.getD all)[q]? := by
        intro q hq
        cases heap with
        | some hp => rfl
        | none =>
          obtain ⟨hpw, hge⟩ := hal rfl
          have hpq : p < q := (List.pairwise_cons.mp hpw).1 q hq
          have hip : i ≤ p := hge p (List.mem_cons_self _ _)
          simp only [Option.getD_none]
          rw [List.getElem?_set_ne (by omega)]
      have hh1 : ∀ r ∈ heap.getD (all.set i ⟨rec.key, rec.value⟩),
          r.key.length = ks ∧ r.value.length = vs := by
        cases heap with
        | some hp => exact hh
        | none => exact hu1
      have hal1 : heap = none → ps.Pairwise (fun a b => a < b) ∧ ∀ q ∈ ps, i + 1 ≤ q := by
        intro hn
        obtain ⟨hpw, hge⟩ := hal hn
        refine ⟨(List.pairwise_cons.mp hpw).2, ?_⟩
        intro q hq
        have hpq : p < q := (List.pairwise_cons.mp hpw).1 q hq
        have hip : i ≤ p := hge p (List.mem_cons_self _ _)
        omega
      obtain ⟨k1, k2, k3⟩ := writeLoop_ok ks vs heap ps _ all' (i + 1) h hu1 hh1 hal1
      refine ⟨by rw [k1, List.length_set], k2, ?_⟩
      have harith : i + (p :: ps).length = i + 1 + ps.length := by
        rw [List.length_cons]; omega
      rw [harith, k3, take_set_succ _ _ _ hilt, List.filterMap_cons_some hrec,
        List.append_assoc, List.singleton_append]
      congr 2
      exact List.filterMap_congr hmem
    · simp at h

/-- The pointers the partition loop of `Split` collects: those of the records
that stay and those of the records that leave, each list increasing. -/
theorem partitionLoop_spec (stay : ByteSlice → Bool) (occ : List record) :
    ∀ (rs : List record) (p : Nat), occ.drop p = rs →
    (partitionLoop stay rs p).1.filterMap (fun q => occ[q]?) = rs.filter (fun r => stay r.key) ∧
    (partitionLoop stay rs p).2.filterMap (fun q => occ[q]?)
      = rs.filter (fun r => !stay r.key) ∧
    (∀ q ∈ (partitionLoop stay rs p).1, p ≤ q ∧ q < occ.length) ∧
    (∀ q ∈ (partitionLoop stay rs p).2, p ≤ q ∧ q < occ.length) ∧
    (partitionLoop stay rs p).1.Pairwise (fun a b => a < b) ∧
    (partitionLoop stay rs p).2.Pairwise (fun a b => a < b)
  | [], p, _ => by simp [partitionLoop]
  | r :: rest, p, h => by
    have hp : occ[p]? = some r := by
      have := congrArg (fun l => l[0]?) h
      simp only [List.getElem?_drop, Nat.add_zero, List.getElem?_cons_zero] at this
      exact this
    have hplt : p < occ.length := (List.getElem?_eq_some.mp hp).1
    have hrest : occ.drop (p + 1) = rest := by
      have := congrArg List.tail h
      simp only [List.tail_drop, List.tail_cons] at this
      exact this
    obtain ⟨i1, i2, i3, i4, i5, i6⟩ := partitionLoop_spec stay occ rest (p + 1) hrest
    unfold partitionLoop
    by_cases hst : stay r.key = true
    · rw [if_pos hst]
      simp only
      refine ⟨?_, ?_, ?_, ?_, ?_, i6⟩
      · rw [List.filterMap_cons_some hp, i1, List.filter_cons_of_pos (by simpa using hst)]
      · rw [i2, List.filter_cons_of_neg (by simp [hst])]
      · intro q hq
        rcases List.mem_cons.mp hq with h1 | h1
        · subst h1; exact ⟨le_refl _, hplt⟩
        · have := i3 q h1; exact ⟨by omega, this.2⟩
      · intro q hq
        have := i4 q hq; exact ⟨by omega, this.2⟩
      · rw [List.pairwise_cons]
        refine ⟨fun q hq => ?_, i5⟩
        have := i3 q hq; omega
    · rw [if_neg hst]
      simp only
      refine ⟨?_, ?_, ?_, ?_, i5, ?_⟩
      · rw [i1, List.filter_cons_of_neg (by simpa using hst)]
      · rw [List.filterMap_cons_some hp, i2, List.filter_cons_of_pos (by simp [hst])]
      · intro q hq
        have := i3 q hq; exact ⟨by omega, this.2⟩
      · intro q hq
        rcases List.mem_cons.mp hq with h1 | h1
        · subst h1; exact ⟨le_refl _, hplt⟩
        · have := i4 q h1; exact ⟨by omega, this.2⟩
      · rw [List.pairwise_cons]
        refine ⟨fun q hq => ?_, i6⟩
        have := i4 q hq; omega


theorem filterMap_length_of_lt (occ : List record) : ∀ (ptrs : List Nat),
    (∀ q ∈ ptrs, q < occ.length) → (ptrs.filterMap (fun q => occ[q]?)).length = ptrs.length
  | [], _ => rfl
  | p :: ps, h => by
    have hp : p < occ.length := h p (List.mem_cons_self _ _)
    rw [List.filterMap_cons_some (List.getElem?_eq_getElem hp), List.length_cons,
      List.length_cons, filterMap_length_of_lt occ ps (fun q hq => h q (List.mem_cons_of_mem _ hq))]

/-- What a successful `write_bucket` leaves: the records the pointers view, in
the order of the pointers, as the occupied records. -/
theorem write_bucket_spec {δ : Type} (D : BlockDevice δ) (ks vs : Nat)
    (bt bt' : BlockTable) (file file' : δ) (heap : Option (List record)) (ptrs : List Nat)
    (h : write_bucket D bt file heap ptrs = (Except.ok (), bt', file'))
    (hk : bt.header.keysize = ks) (hv : bt.header.valsize = vs)
    (hu : ∀ r ∈ bt.records, r.key.length = ks ∧ r.value.length = vs)
    (hh : ∀ hp, heap = some hp → ∀ r ∈ hp, r.key.length = ks ∧ r.value.length = vs)
    (hal : heap = none → ptrs.Pairwise (fun a b => a < b) ∧ ptrs.length ≤ bt.records.length)
    (hlen : ptrs.length < 2 ^ 32) :
    bt'.header.records = ptrs.length ∧ bt'.header.keysize = ks ∧ bt'.header.valsize = vs ∧
    bt'.occupied = ptrs.filterMap (fun q => (heap.getD bt.records)[q]?) := by
  unfold write_bucket at h
  split at h
  · simp at h
  rename_i u bt1 file1 hgrow
  cases u
  obtain ⟨g1, g2, g3, g4, g5, g6, g7⟩ :=
    growLoop_ok D ks vs ptrs.length _ bt bt1 file file1 hgrow hk hv hu
  split at h
  · simp at h
  rename_i u2 all1 hwrite
  cases u2
  have hmem : heap.getD bt1.records = heap.getD bt.records := by
    cases heap with
    | some hp => rfl
    | none =>
      obtain ⟨_, hle⟩ := hal rfl
      rw [(g7 hle).1]
  have hh1 : ∀ r ∈ heap.getD bt1.records, r.key.length = ks ∧ r.value.length = vs := by
    cases heap with
    | some hp => exact hh hp rfl
    | none => exact g5
  obtain ⟨w1, w2, w3⟩ := writeLoop_ok ks vs heap ptrs bt1.records all1 0 hwrite g5 hh1
    (fun hn => ⟨(hal hn).1, fun q _ => Nat.zero_le q⟩)
  simp only at h
  split at h
  · simp at h
  split at h
  · simp at h
  split at h
  · simp at h
  rename_i per hper hper0 u3 bt2 file2 hshrink
  obtain ⟨s1, s2, s3, s4, _⟩ := shrinkLoop_frame D _ _ _ _ _ _ _ hshrink
  obtain ⟨v1, v2, _⟩ := save_frame D _ _ _ _ _ h
  simp only at s1 s2 s3 s4
  have hrec : bt'.header.records = ptrs.length := by
    rw [v1, s3, Nat.mod_eq_of_lt hlen]
  refine ⟨hrec, by rw [v1, s1, g1], by rw [v1, s2, g2], ?_⟩
  rw [occupied_eq, hrec, v2, s4]
  have := w3
  rw [Nat.zero_add, List.take_zero, List.nil_append, hmem] at this
  exact this

/-- What a successful `Split` leaves in the two buckets: the occupied records
of `self` are the former occupied records that stay, those of the new bucket
the ones that leave, and the two counts add up to the former count. -/
theorem Split_spec {δ κ : Type} (D : BlockDevice δ) (K : KVStore κ)
    (self self' other : HashBucket) (file file' : δ) (kv : κ) (stay : ByteSlice → Bool)
    (hwf : self.bt.WF) (hvs : self.bt.header.valsize = K.Size)
    (h : HashBucket.Split D K self file kv stay = (Except.ok other, self', file')) :
    self'.bt.occupied = self.bt.occupied.filter (fun r => stay r.key) ∧
    other.bt.occupied = self.bt.occupied.filter (fun r => !stay r.key) ∧
    self'.bt.header.records + other.bt.header.records = self.bt.header.records := by
  have hcov := hwf.cover
  have hfit := hwf.fits
  have hrange := hwf.range
  have hocclen : (List.take self.bt.header.records self.bt.records).length
      = self.bt.header.records := occupied_length self.bt hwf
  show sbtOcc self' = _ ∧ sbtOcc other = _ ∧ _
  unfold sbtOcc
  obtain ⟨i1, i2, i3, i4, i5, i6⟩ :=
    partitionLoop_spec stay (List.take self.bt.header.records self.bt.records)
      (List.take self.bt.header.records self.bt.records) 0 (List.drop_zero _)
  have hget : ∀ (ptrs : List Nat),
      (∀ q ∈ ptrs, 0 ≤ q ∧ q < (List.take self.bt.header.records self.bt.records).length) →
      ptrs.filterMap (fun q => self.bt.records[q]?)
        = ptrs.filterMap (fun q => (List.take self.bt.header.records self.bt.records)[q]?) := by
    intro ptrs hq
    apply List.filterMap_congr
    intro q hqm
    rw [List.getElem?_take_of_lt (by have := (hq q hqm).2; omega)]
  have hl1 := filterMap_length_of_lt (List.take self.bt.header.records self.bt.records) _
    (fun q hq => (i3 q hq).2)
  have hl2 := filterMap_length_of_lt (List.take self.bt.header.records self.bt.records) _
    (fun q hq => (i4 q hq).2)
  rw [i1] at hl1
  rw [i2] at hl2
  have hsum := List.length_eq_length_filter_add
    (l := List.take self.bt.header.records self.bt.records) (fun r => stay r.key)
  have hle1 : ((partitionLoop stay (List.take self.bt.header.records self.bt.records) 0).1).length
      ≤ self.bt.header.records := by
    rw [← hl1]; exact (List.length_filter_le _ _).trans (le_of_eq hocclen)
  have hle2 : ((partitionLoop stay (List.take self.bt.header.records self.bt.records) 0).2).length
      ≤ self.bt.header.records := by
    rw [← hl2]; exact (List.length_filter_le _ _).trans (le_of_eq hocclen)
  unfold HashBucket.Split at h
  rw [if_neg (by omega)] at h
  simp only at h
  split at h
  · simp at h
  rename_i other0 file0 hnew
  split at h
  · simp at h
  rename_i u1 obt file1 hw1
  cases u1
  split at h
  · simp at h
  rename_i u2 sbt file2 hw2
  cases u2
  simp only [Prod.mk.injEq, Except.ok.injEq] at h
  obtain ⟨rfl, rfl, _⟩ := h
  -- the new bucket
  unfold NewHashBucket at hnew
  split at hnew
  · simp at hnew
  split at hnew
  · simp at hnew
  rename_i nbt file3 hnbt
  simp only [Prod.mk.injEq, Except.ok.injEq] at hnew
  obtain ⟨rfl, rfl⟩ := hnew
  obtain ⟨n1, n2, n3, n4, n5⟩ := NewBlockTable_ok D _ _ _ _ _ hnbt
  have hun : ∀ r ∈ nbt.records,
      r.key.length = self.bt.header.keysize ∧ r.value.length = self.bt.header.valsize := by
    intro r hr
    rw [n5, List.mem_replicate] at hr
    rw [hr.2, hvs]
    simp [zeroRecord]
  obtain ⟨o1, _, _, o4⟩ := write_bucket_spec D _ _ nbt obt _ _ (some self.bt.records) _ hw1
    n1 (by rw [n2, hvs]) hun (fun hp hhp => by
      simp only [Option.some.injEq] at hhp
      subst hhp
      exact hwf.sizes) (fun hc => by simp at hc) (by omega)
  obtain ⟨m1, _, _, m4⟩ := write_bucket_spec D _ _ self.bt sbt _ _ none _ hw2
    rfl rfl hwf.sizes (fun hp hhp => by simp at hhp) (fun _ => ⟨i5, by omega⟩) (by omega)
  simp only [Option.getD_some, Option.getD_none] at o4 m4
  rw [occupied_eq] at o4 m4
  rw [hget _ i4, i2] at o4
  rw [hget _ i3, i1] at m4
  refine ⟨m4, o4, ?_⟩
  rw [m1, o1, ← hl1, ← hl2]
  exact hsum.symm.trans hocclen

/-! ### Split succeeds on a device that does not fail -/

theorem allocBlock_succ {δ : Type} (D : BlockDevice δ)
    (hA : ∀ d, ∃ k, (D.Allocate d).1 = Except.ok k) (bsz : Nat)
    (hbs : ∀ d, D.BlockSize d = bsz) (file : δ) :
    ∃ k f', allocBlock D file
      = (Except.ok { key := k, header := new_header 0 0 false, datalen := bsz - BLOCKHEADER }, f') := by
  obtain ⟨k, hk⟩ := hA file
  cases h : D.Allocate file with
  | mk r f1 =>
    rw [h] at hk
    simp only at hk
    subst hk
    refine ⟨k, f1, ?_⟩
    unfold allocBlock
    rw [h]
    simp only
    rw [hbs]

/-- `add_block` succeeds when the device does not fail and a device block has
room for the record slots of a block. -/
theorem add_block_succ {δ : Type} (D : BlockDevice δ)
    (hA : ∀ d, ∃ k, (D.Allocate d).1 = Except.ok k)
    (hW : ∀ d p b, (D.WriteBlock d p b).1 = Except.ok ()) (bsz : Nat)
    (hbs : ∀ d, D.BlockSize d = bsz) (t : BlockTable) (file : δ) (hper : 0 < t.perBlock)
    (hfit : t.perBlock * (t.header.keysize + t.header.valsize) ≤ bsz - BLOCKHEADER) :
    (t.add_block D file).1 = Except.ok () := by
  obtain ⟨k, f1, hal⟩ := allocBlock_succ D hA bsz hbs file
  have hlen := perBlock_pos_blocks t hper
  have hne : t.blocks ≠ [] := fun hn => by rw [hn] at hlen; simp at hlen
  unfold BlockTable.add_block
  rw [hal]
  simp only
  rw [if_neg (by omega)]
  have hbl : (if t.blocks.length = 1 then t.blocks
      else setLastNext t.blocks k).length = t.blocks.length := by
    split
    · rfl
    · exact setLastNext_length _ _
  have hbh : (if t.blocks.length = 1 then t.blocks
      else setLastNext t.blocks k).head?.map (fun b => b.datalen)
        = t.blocks.head?.map (fun b => b.datalen) := by
    split
    · rfl
    · exact setLastNext_head_datalen _ _
  have hbne : (if t.blocks.length = 1 then t.blocks
      else setLastNext t.blocks k) ≠ [] := by
    intro h0
    have := congrArg List.length h0
    rw [hbl, List.length_nil] at this
    omega
  split
  · rename_i e hrec
    exfalso
    unfold BlockTable._records at hrec
    have hp : BlockTable.perBlock
        { key := t.key,
          header := { t.header with next := if t.blocks.length = 1 then k else t.header.next,
                                    blocks := (t.header.blocks + 1) % 2 ^ 32 },
          blocks := (if t.blocks.length = 1 then t.blocks else setLastNext t.blocks k)
            ++ [{ key := k, header := { new_header 0 0 false with flags := true },
                  datalen := bsz - BLOCKHEADER }],
          records := t.records } = t.perBlock := by
      apply perBlock_congr
      · show ((if t.blocks.length = 1 then t.blocks else setLastNext t.blocks k)
            ++ [_]).head?.map _ = _
        rw [head?_append_of_ne_nil _ _ hbne, hbh]
      · rfl
      · rfl
    rw [records_per_blk_eq _ (by rw [hp]; exact hper), hp] at hrec
    simp only at hrec
    rw [if_neg (by show ¬ bsz - BLOCKHEADER < _; omega)] at hrec
    simp at hrec
  · rename_i records hrec
    apply save_ok D hW
    show 1 ≤ ((if t.blocks.length = 1 then t.blocks else setLastNext t.blocks k) ++ [_]).length
    rw [List.length_append]
    simp

theorem fst_ok_exists {α β : Type} (r : Except Err Unit × α × β) (h : r.1 = Except.ok ()) :
    ∃ a b, r = (Except.ok (), a, b) := by
  obtain ⟨r1, a, b⟩ := r
  simp only at h
  subst h
  exact ⟨a, b, rfl⟩

/-- The growing loop of `write_bucket` succeeds on a device that does not fail:
the fuel `n + 1` is enough, since every block adds at least one slot. -/
theorem growLoop_succ {δ : Type} (D : BlockDevice δ)
    (hA : ∀ d, ∃ k, (D.Allocate d).1 = Except.ok k)
    (hW : ∀ d p b, (D.WriteBlock d p b).1 = Except.ok ()) (bsz : Nat)
    (hbs : ∀ d, D.BlockSize d = bsz) (n : Nat) :
    ∀ (fuel : Nat) (bt : BlockTable) (file : δ), 0 < bt.perBlock →
    bt.perBlock * (bt.header.keysize + bt.header.valsize) ≤ bsz - BLOCKHEADER →
    bt.perBlock * bt.blocks.length ≤ bt.records.length →
    n < fuel + bt.perBlock * bt.blocks.length →
    ∃ bt' file', growLoop D fuel bt file n = (Except.ok (), bt', file') ∧
      n ≤ bt'.records.length ∧ bt'.perBlock = bt.perBlock ∧
      (n ≤ bt.records.length → bt' = bt)
  | 0, bt, file, hper, hfit, hcov, hfuel => by
    unfold growLoop
    rw [if_neg (by omega)]
    exact ⟨bt, file, rfl, by omega, rfl, fun _ => rfl⟩
  | fuel + 1, bt, file, hper, hfit, hcov, hfuel => by
    unfold growLoop
    by_cases hlt : bt.records.length < n
    · rw [if_pos hlt]
      obtain ⟨bt1, f1, hadd⟩ := fst_ok_exists _ (add_block_succ D hA hW bsz hbs bt file hper hfit)
      rw [hadd]
      simp only
      obtain ⟨a1, a2, a3, a4, a5, _, a7⟩ := add_block_ok D bt bt1 file f1 hadd
      have hlen1 : bt1.records.length = bt.perBlock * bt.blocks.length + bt.perBlock := by
        rw [a7, List.length_append, List.length_take, List.length_replicate]
        omega
      obtain ⟨bt2, f2, g1, g2, g3, _⟩ := growLoop_succ D hA hW bsz hbs n fuel bt1 f1
        (by rw [a5]; exact hper) (by rw [a5, a1, a2]; exact hfit)
        (by rw [a5, a4, hlen1, Nat.mul_succ])
        (by rw [a5, a4, Nat.mul_succ]; omega)
      exact ⟨bt2, f2, g1, g2, by rw [g3, a5], fun h => absurd h (by omega)⟩
    · rw [if_neg hlt]
      exact ⟨bt, file, rfl, by omega, rfl, fun _ => rfl⟩

/-- The copy loop of `write_bucket` succeeds when every pointer is in range and
the slots to write exist. -/
theorem writeLoop_succ (heap : Option (List record)) :
    ∀ (ptrs : List Nat) (all : List record) (i : Nat),
    (∀ q ∈ ptrs, q < (heap.getD all).length) → i + ptrs.length ≤ all.length →
    ∃ all', writeLoop heap all ptrs i = (Except.ok (), all')
  | [], all, i, _, _ => ⟨all, rfl⟩
  | p :: ps, all, i, hq, hlen => by
    unfold writeLoop
    have hp : p < (heap.getD all).length := hq p (List.mem_cons_self _ _)
    have hi : i < all.length := by
      rw [List.length_cons] at hlen
      omega
    rw [List.getElem?_eq_getElem hp, List.getElem?_eq_getElem hi]
    simp only
    apply writeLoop_succ heap ps _ (i + 1)
    · intro q hqm
      have := hq q (List.mem_cons_of_mem _ hqm)
      cases heap with
      | some hp' => exact this
      | none =>
        simp only [Option.getD_none, List.length_set] at this ⊢
        exact this
    · rw [List.length_set]
      rw [List.length_cons] at hlen
      omega

/-- The shrinking loop of `write_bucket` succeeds on a device that does not
fail, and leaves a block in the chain. -/
theorem shrinkLoop_succ {δ : Type} (D : BlockDevice δ)
    (hF : ∀ d p, (D.Free d p).1 = Except.ok ()) (needed : Nat) (hn : 1 ≤ needed) :
    ∀ (fuel : Nat) (bt : BlockTable) (file : δ), 1 ≤ bt.blocks.length →
    bt.blocks.length ≤ fuel + needed →
    ∃ bt' file', shrinkLoop D fuel bt file needed = (Except.ok (), bt', file') ∧
      1 ≤ bt'.blocks.length
  | 0, bt, file, h1, hf => by
    unfold shrinkLoop
    rw [if_neg (by omega)]
    exact ⟨bt, file, rfl, h1⟩
  | fuel + 1, bt, file, h1, hf => by
    unfold shrinkLoop
    by_cases hlt : needed < bt.blocks.length
    · rw [if_pos hlt]
      obtain ⟨bt1, f1, hrm⟩ := fst_ok_exists _ (remove_block_ok D hF bt file (by omega))
      rw [hrm]
      simp only
      obtain ⟨_, _, _, _, _, _, hb⟩ := remove_block_frame D bt bt1 file f1 _ hrm
      obtain ⟨hb1, hb2⟩ := hb rfl
      exact shrinkLoop_succ D hF needed hn fuel bt1 f1 hb2 (by omega)
    · rw [if_neg hlt]
      exact ⟨bt, file, rfl, h1⟩
/-- `write_bucket` succeeds on a device that does not fail. -/
theorem write_bucket_succ {δ : Type} (D : BlockDevice δ)
    (hA : ∀ d, ∃ k, (D.Allocate d).1 = Except.ok k)
    (hF : ∀ d p, (D.Free d p).1 = Except.ok ())
    (hW : ∀ d p b, (D.WriteBlock d p b).1 = Except.ok ()) (bsz : Nat)
    (hbs : ∀ d, D.BlockSize d = bsz) (bt : BlockTable) (file : δ)
    (heap : Option (List record)) (ptrs : List Nat) (hper : 0 < bt.perBlock)
    (hfit : bt.perBlock * (bt.header.keysize + bt.header.valsize) ≤ bsz - BLOCKHEADER)
    (hcov : bt.perBlock * bt.blocks.length ≤ bt.records.length)
    (hq : ∀ q ∈ ptrs, q < (heap.getD bt.records).length)
    (hnone : heap = none → ptrs.length ≤ bt.records.length) :
    ∃ bt' file', write_bucket D bt file heap ptrs = (Except.ok (), bt', file') := by
  obtain ⟨bt1, f1, hgrow, g1, g2, g3⟩ := growLoop_succ D hA hW bsz hbs ptrs.length
    (ptrs.length + 1) bt file hper hfit hcov (by omega)
  have hq1 : ∀ q ∈ ptrs, q < (heap.getD bt1.records).length := by
    cases heap with
    | some hp => exact hq
    | none =>
      rw [g3 (hnone rfl)]
      exact hq
  obtain ⟨all1, hwrite⟩ := writeLoop_succ heap ptrs bt1.records 0 hq1 (by omega)
  have hper1 : 0 < bt1.perBlock := by rw [g2]; exact hper
  have hrp : BlockTable.records_per_blk
      { key := bt1.key,
        header := { bt1.header with records := ptrs.length % 2 ^ 32 },
        blocks := bt1.blocks,
        records := all1 } = Except.ok bt1.perBlock :=
    records_per_blk_eq _ hper1
  have hb1 := perBlock_pos_blocks bt1 hper1
  obtain ⟨bt2, f2, hshrink, hb2⟩ := shrinkLoop_succ D hF
    (ptrs.length % 2 ^ 32 / bt1.perBlock + 1) (Nat.le_add_left 1 _) bt1.blocks.length
    { key := bt1.key,
      header := { bt1.header with records := ptrs.length % 2 ^ 32 },
      blocks := bt1.blocks,
      records := all1 } f1 hb1 (Nat.le_add_right _ _)
  obtain ⟨bt3, f3, hsave⟩ := fst_ok_exists _ (save_ok D hW bt2 f2 hb2)
  refine ⟨bt3, f3, ?_⟩
  unfold write_bucket
  rw [hgrow]
  simp only
  rw [hwrite]
  simp only
  rw [hrp]
  simp only
  rw [if_neg (by omega), hshrink]
  exact hsave

/-- `NewBlockTable` succeeds on a device that does not fail. -/
theorem NewBlockTable_succ {δ : Type} (D : BlockDevice δ)
    (hA : ∀ d, ∃ k, (D.Allocate d).1 = Except.ok k)
    (hW : ∀ d p b, (D.WriteBlock d p b).1 = Except.ok ()) (bsz : Nat)
    (hbs : ∀ d, D.BlockSize d = bsz) (file : δ) (ks vs : Nat) (hks : ks ≤ 8)
    (hrec : ks + vs ≠ 0) :
    ∃ bt file', NewBlockTable D file ks vs = (Except.ok bt, file') ∧
      bt.perBlock = (bsz - BLOCKHEADER) / (ks + vs) := by
  obtain ⟨k, f1, hal⟩ := allocBlock_succ D hA bsz hbs file
  unfold NewBlockTable
  rw [if_neg (by omega), hal]
  simp only
  have hw := hW f1 k (blockBytes { new_header ks vs false with blocks := 1 }
    (slotBytes (bsz - BLOCKHEADER) []))
  cases hwr : D.WriteBlock f1 k (blockBytes { new_header ks vs false with blocks := 1 }
    (slotBytes (bsz - BLOCKHEADER) [])) with
  | mk r f2 =>
    rw [hwr] at hw
    simp only at hw
    subst hw
    simp only
    unfold BlockTable.records_per_blk
    simp only
    rw [if_neg (by show ¬ ks + vs = 0; exact hrec)]
    exact ⟨_, _, rfl, rfl⟩

/-- `Split` succeeds on a device that does not fail. -/
theorem Split_succ {δ κ : Type} (D : BlockDevice δ) (K : KVStore κ)
    (hA : ∀ d, ∃ k, (D.Allocate d).1 = Except.ok k)
    (hF : ∀ d p, (D.Free d p).1 = Except.ok ())
    (hW : ∀ d p b, (D.WriteBlock d p b).1 = Except.ok ()) (bsz : Nat)
    (hbs : ∀ d, D.BlockSize d = bsz)
    (self : HashBucket) (file : δ) (kv : κ) (stay : ByteSlice → Bool)
    (hwf : self.bt.WF) (hks : self.bt.header.keysize = 8)
    (hvs : self.bt.header.valsize = K.Size)
    (hfit : self.bt.perBlock * (self.bt.header.keysize + self.bt.header.valsize)
      ≤ bsz - BLOCKHEADER) :
    ∃ other self' file', HashBucket.Split D K self file kv stay
      = (Except.ok other, self', file') := by
  have hcov := hwf.cover
  have hfits := hwf.fits
  have hper := hwf.perblk
  have hocclen : (List.take self.bt.header.records self.bt.records).length
      = self.bt.header.records := occupied_length self.bt hwf
  obtain ⟨i1, i2, i3, i4, i5, i6⟩ :=
    partitionLoop_spec stay (List.take self.bt.header.records self.bt.records)
      (List.take self.bt.header.records self.bt.records) 0 (List.drop_zero _)
  have hl1 := filterMap_length_of_lt (List.take self.bt.header.records self.bt.records) _
    (fun q hq => (i3 q hq).2)
  have hl2 := filterMap_length_of_lt (List.take self.bt.header.records self.bt.records) _
    (fun q hq => (i4 q hq).2)
  rw [i1] at hl1
  rw [i2] at hl2
  have hle1 : ((partitionLoop stay (List.take self.bt.header.records self.bt.records) 0).1).length
      ≤ self.bt.header.records := by
    rw [← hl1]; exact (List.length_filter_le _ _).trans (le_of_eq hocclen)
  have hrec : self.bt.header.keysize + K.Size ≠ 0 := by omega
  obtain ⟨nbt, f0, hnew, hnper⟩ := NewBlockTable_succ D hA hW bsz hbs file
    self.bt.header.keysize K.Size (by omega) hrec
  obtain ⟨n1, n2, n3, n4, n5⟩ := NewBlockTable_ok D _ _ _ _ _ hnew
  have hrle : self.bt.header.keysize + K.Size ≤ bsz - BLOCKHEADER := by
    rw [hvs] at hfit
    calc self.bt.header.keysize + K.Size
        ≤ self.bt.perBlock * (self.bt.header.keysize + K.Size) := Nat.le_mul_of_pos_left _ hper
      _ ≤ bsz - BLOCKHEADER := hfit
  have hnpos : 0 < nbt.perBlock := by
    rw [hnper]
    exact Nat.div_pos hrle (by omega)
  obtain ⟨obt, f1, hw1⟩ := write_bucket_succ D hA hF hW bsz hbs nbt f0 (some self.bt.records)
    (partitionLoop stay (List.take self.bt.header.records self.bt.records) 0).2 hnpos
    (by rw [hnper, n1, n2]; exact Nat.div_mul_le_self _ _)
    (by rw [n5, List.length_replicate, n4, Nat.mul_one])
    (fun q hq => by
      have := (i4 q hq).2
      rw [List.length_take] at this
      simp only [Option.getD_some]
      omega)
    (fun hc => by simp at hc)
  obtain ⟨sbt, f2, hw2⟩ := write_bucket_succ D hA hF hW bsz hbs self.bt f1 none
    (partitionLoop stay (List.take self.bt.header.records self.bt.records) 0).1 hper hfit hcov
    (fun q hq => by
      have := (i3 q hq).2
      rw [List.length_take] at this
      simp only [Option.getD_none]
      omega)
    (fun _ => by omega)
  refine ⟨⟨obt⟩, ⟨sbt⟩, f2, ?_⟩
  unfold HashBucket.Split
  rw [if_neg (by omega)]
  simp only
  unfold NewHashBucket
  rw [if_neg (by rw [hks]; simp), hnew]
  simp only
  rw [hw1]
  simp only
  rw [hw2]

/-- C7 (HashBucketSplitPartition): for every bucket whose table satisfies the
data-model invariants and whose slots have the handle width of the store, and
every predicate `stay`. `Split(stay)` succeeds whenever the device does not
fail (its blocks have one size, which has room for the record slots of a
block, and the hashes have 8 bytes). After a successful `Split(stay)` the
occupied records of `self` are exactly the former records whose hash satisfies
`stay`, those of the new bucket are exactly the former records whose hash does
not, each pair byte for byte and in the former order, and the two record
counts add up to the former count. -/
theorem Split_partition {δ κ : Type} (D : BlockDevice δ) (K : KVStore κ)
    (self : HashBucket) (file : δ) (kv : κ) (stay : ByteSlice → Bool)
    (hwf : self.bt.WF) (hvs : self.bt.header.valsize = K.Size) :
    ((∀ d, ∃ k, (D.Allocate d).1 = Except.ok k) →
      (∀ d p, (D.Free d p).1 = Except.ok ()) →
      (∀ d p b, (D.WriteBlock d p b).1 = Except.ok ()) →
      ∀ bsz, (∀ d, D.BlockSize d = bsz) → self.bt.header.keysize = 8 →
        self.bt.perBlock * (self.bt.header.keysize + self.bt.header.valsize)
          ≤ bsz - BLOCKHEADER →
        ∃ other self' file', HashBucket.Split D K self file kv stay
          = (Except.ok other, self', file')) ∧
    ∀ self' other file',
      HashBucket.Split D K self file kv stay = (Except.ok other, self', file') →
      self'.bt.occupied = self.bt.occupied.filter (fun r => stay r.key) ∧
      other.bt.occupied = self.bt.occupied.filter (fun r => !stay r.key) ∧
      self'.bt.header.records + other.bt.header.records = self.bt.header.records :=
  ⟨fun hA hF hW bsz hbs hks hfit =>
      Split_succ D K hA hF hW bsz hbs self file kv stay hwf hks hvs hfit,
    fun self' other file' h => Split_spec D K self self' other file file' kv stay hwf hvs h⟩

set_option maxRecDepth 100000 in
/-- Witness for C7: the bucket with the ten hashes 10, ..., 100 on the device
with five records to a block, split at 40: the new bucket takes seven records
and grows to two blocks, the bucket keeps three and shrinks to one block. -/
theorem Split_partition_witness :
    exFive10.1.bt.WF ∧ exFive10.1.bt.header.valsize = inlineKV.Size ∧
    exFive10.1.bt.header.records = 10 ∧ exFive10.1.bt.blocks.length = 3 ∧
    (∃ other self' file', HashBucket.Split memDevice79 inlineKV exFive10.1 exFive10.2 () exStayLow
      = (Except.ok other, self', file')) ∧
    exFiveCut = (Except.ok exFiveCutOther, exFiveCut.2.1, exFiveCut.2.2) ∧
    exFiveCutOther.bt.blocks.length = 2 ∧ exFiveCut.2.1.bt.blocks.length = 1 ∧
    exFiveCutOther.bt.occupied.map (fun r => r.key.getLastD 0) = [40, 50, 60, 70, 80, 90, 100] ∧
    exFiveCut.2.1.bt.occupied = exFive10.1.bt.occupied.filter (fun r => exStayLow r.key) ∧
    exFiveCutOther.bt.occupied = exFive10.1.bt.occupied.filter (fun r => !exStayLow r.key) ∧
    exFiveCut.2.1.bt.header.records + exFiveCutOther.bt.header.records
      = exFive10.1.bt.header.records :=
  ⟨⟨by decide, by decide, by decide, by decide, by decide, by decide⟩, by decide, by decide,
    by decide,
    (Split_partition memDevice79 inlineKV exFive10.1 exFive10.2 () exStayLow
      ⟨by decide, by decide, by decide, by decide, by decide, by decide⟩ (by decide)).1
      (fun _ => ⟨_, rfl⟩) (fun _ _ => rfl) (fun _ _ _ => rfl) 79 (fun _ => rfl) (by decide)
      (by decide),
    by decide, by decide, by decide, by decide,
    (Split_partition memDevice79 inlineKV exFive10.1 exFive10.2 () exStayLow
      ⟨by decide, by decide, by decide, by decide, by decide, by decide⟩ (by decide)).2
      exFiveCut.2.1 exFiveCutOther exFiveCut.2.2 (by decide)⟩


/-! ### HashBucket.Put, Has and Get -/

theorem inlineKV_lawful : inlineKV.Lawful := by
  refine ⟨?_, ?_, ?_, ?_, ?_, ?_⟩
  · intro kv k v h kv' hp
    simp only [inlineKV, Prod.mk.injEq] at hp ⊢
    obtain ⟨hp, _⟩ := hp
    split at hp
    · rename_i hl
      simp only [Except.ok.injEq] at hp
      subst hp
      rw [if_pos (by rw [List.length_append]; omega), List.take_left' hl.1,
        List.drop_left' hl.1]
    · simp at hp
  · intro kv k v h kv' hp
    simp only [inlineKV, Prod.mk.injEq] at hp ⊢
    obtain ⟨hp, _⟩ := hp
    split at hp
    · rename_i hl
      simp only [Except.ok.injEq] at hp
      subst hp
      rw [List.length_append]; omega
    · simp at hp
  · intro kv k v h kv' h' r _ hg
    exact hg
  · intro kv h k v h2 kv' hp
    simp only [inlineKV, Prod.mk.injEq] at hp ⊢
    obtain ⟨hp, _⟩ := hp
    split at hp
    · rename_i hl
      simp only [Except.ok.injEq] at hp
      subst hp
      rw [if_pos (by rw [List.length_append]; omega), List.take_left' hl.1,
        List.drop_left' hl.1]
    · simp at hp
  · intro kv h k v h2 kv' hp
    simp only [inlineKV, Prod.mk.injEq] at hp ⊢
    obtain ⟨hp, _⟩ := hp
    split at hp
    · rename_i hl
      simp only [Except.ok.injEq] at hp
      subst hp
      rw [List.length_append]; omega
    · simp at hp
  · intro kv h k v h2 kv' h' _ _ _
    rfl

/-- The replacement loop with the closure of `HashBucket.Put` ends without a
slot only when every record of the equal-hash run resolves to another key;
the store and `updated` are then untouched. -/
theorem replaceLoop_putDecide_none {κ : Type} (K : KVStore κ) (hash key value bytes : ByteSlice) :
    ∀ (rs : List record) (j : Nat) (g g' : κ × Bool),
    replaceLoop (putDecide K key value bytes) hash rs j g = (Except.ok none, g') →
    g' = g ∧ ∀ r ∈ rs.takeWhile (fun r => ByteSlice.Eq hash r.key),
      ∃ k2 v2, K.Get g.1 r.value = Except.ok (k2, v2) ∧ k2 ≠ key
  | [], j, g, g', h => by
    simp only [replaceLoop, Prod.mk.injEq, true_and] at h
    exact ⟨h.symm, by simp⟩
  | r :: rest, j, g, g', h => by
    unfold replaceLoop at h
    by_cases he : ByteSlice.Eq hash r.key = true
    · rw [if_pos he] at h
      cases hget : K.Get g.1 r.value with
      | error e =>
        simp [putDecide, hget] at h
      | ok kv2 =>
        obtain ⟨k2, v2⟩ := kv2
        by_cases hk : ByteSlice.Eq key k2 = true
        · cases hupd : K.Update g.1 bytes key value with
          | mk ru kvu =>
            cases ru with
            | error e => simp [putDecide, hget, hk, hupd] at h
            | ok nb => simp [putDecide, hget, hk, hupd] at h
        · have hd : putDecide K key value bytes g r = (Except.ok (false, []), g) := by
            simp [putDecide, hget, hk]
          rw [hd] at h
          simp only at h
          obtain ⟨h1, h2⟩ := replaceLoop_putDecide_none K hash key value bytes rest (j + 1) g g' h
          refine ⟨h1, ?_⟩
          intro x hx
          simp only [List.takeWhile_cons, he, if_true] at hx
          rcases List.mem_cons.mp hx with hx1 | hx1
          · subst hx1
            exact ⟨k2, v2, hget, fun hc => hk ((Eq_iff _ _).mpr hc.symm)⟩
          · exact h2 x hx1
    · rw [if_neg he] at h
      simp only [Prod.mk.injEq, true_and] at h
      refine ⟨h.symm, ?_⟩
      simp [List.takeWhile_cons, he]

/-- The replacement loop with the closure of `HashBucket.Put` ends with a slot
exactly at the first record of the equal-hash run that resolves to `key`; the
handle written is the one `kv.Update` returned and `updated` is set. -/
theorem replaceLoop_putDecide_some {κ : Type} (K : KVStore κ) (hash key value bytes : ByteSlice) :
    ∀ (rs : List record) (j : Nat) (g g' : κ × Bool) (j' : Nat) (nb : ByteSlice),
    replaceLoop (putDecide K key value bytes) hash rs j g = (Except.ok (some (j', nb)), g') →
    ∃ m r v0 kv2, j' = j + m ∧ rs[m]? = some r ∧
      (∀ q r', q ≤ m → rs[q]? = some r' → r'.key = hash) ∧
      (∀ q r', q < m → rs[q]? = some r' →
        ∃ k2 v2, K.Get g.1 r'.value = Except.ok (k2, v2) ∧ k2 ≠ key) ∧
      K.Get g.1 r.value = Except.ok (key, v0) ∧
      K.Update g.1 bytes key value = (Except.ok nb, kv2) ∧ g' = (kv2, true)
  | [], j, g, g', j', nb, h => by simp [replaceLoop] at h
  | r :: rest, j, g, g', j', nb, h => by
    unfold replaceLoop at h
    by_cases he : ByteSlice.Eq hash r.key = true
    · rw [if_pos he] at h
      have hrk : r.key = hash := ((Eq_iff _ _).mp he).symm
      cases hget : K.Get g.1 r.value with
      | error e =>
        simp [putDecide, hget] at h
      | ok kv2 =>
        obtain ⟨k2, v2⟩ := kv2
        by_cases hk : ByteSlice.Eq key k2 = true
        · have hkk : k2 = key := ((Eq_iff _ _).mp hk).symm
          cases hupd : K.Update g.1 bytes key value with
          | mk ru kvu =>
            cases ru with
            | error e => simp [putDecide, hget, hk, hupd] at h
            | ok nb' =>
              have hd : putDecide K key value bytes g r
                  = (Except.ok (true, nb'), (kvu, true)) := by
                simp [putDecide, hget, hk, hupd]
              rw [hd] at h
              simp only [Prod.mk.injEq, Except.ok.injEq, Option.some.injEq] at h
              obtain ⟨⟨rfl, rfl⟩, rfl⟩ := h
              refine ⟨0, r, v2, kvu, rfl, by simp, ?_, ?_, by rw [hget, hkk], rfl, rfl⟩
              · intro q r' hq hr'
                have : q = 0 := by omega
                subst this
                simp only [List.getElem?_cons_zero, Option.some.injEq] at hr'
                rw [← hr']; exact hrk
              · intro q r' hq; omega
        · have hd : putDecide K key value bytes g r = (Except.ok (false, []), g) := by
            simp [putDecide, hget, hk]
          rw [hd] at h
          simp only at h
          obtain ⟨m, r1, v0, kvu, h1, h2, h3, h4, h5, h6, h7⟩ :=
            replaceLoop_putDecide_some K hash key value bytes rest (j + 1) g g' j' nb h
          refine ⟨m + 1, r1, v0, kvu, by omega, by simpa using h2, ?_, ?_, h5, h6, h7⟩
          · intro q r' hq hr'
            cases q with
            | zero =>
              simp only [List.getElem?_cons_zero, Option.some.injEq] at hr'
              rw [← hr']; exact hrk
            | succ q =>
              simp only [List.getElem?_cons_succ] at hr'
              exact h3 q r' (by omega) hr'
          · intro q r' hq hr'
            cases q with
            | zero =>
              simp only [List.getElem?_cons_zero, Option.some.injEq] at hr'
              rw [← hr']
              exact ⟨k2, v2, hget, fun hc => hk ((Eq_iff _ _).mpr hc.symm)⟩
            | succ q =>
              simp only [List.getElem?_cons_succ] at hr'
              exact h4 q r' (by omega) hr'
    · rw [if_neg he] at h
      simp at h


/-- A scan of `Has`/`Get` over a run succeeds at the first record that resolves to
`key`, when the records before it resolve to other keys (or to `key` with the
same value). -/
theorem scan_found {κ : Type} (K : KVStore κ) (kv : κ) (key value : ByteSlice) :
    ∀ (run : List record) (m : Nat) (r : record),
    run[m]? = some r → K.Get kv r.value = Except.ok (key, value) →
    (∀ q r', q < m → run[q]? = some r' →
      ∃ k2 v2, K.Get kv r'.value = Except.ok (k2, v2) ∧ (k2 = key → v2 = value)) →
    hasLoop K kv key run = Except.ok true ∧ getLoop K kv key run = Except.ok value
  | [], m, r, h, _, _ => by simp at h
  | x :: rest, 0, r, h, hg, _ => by
    simp only [List.getElem?_cons_zero, Option.some.injEq] at h
    subst h
    simp [hasLoop, getLoop, hg, ByteSlice.Eq]
  | x :: rest, m + 1, r, h, hg, hbefore => by
    simp only [List.getElem?_cons_succ] at h
    obtain ⟨k2, v2, hx, himp⟩ := hbefore 0 x (by omega) (by simp)
    by_cases hk : k2 = key
    · subst hk
      have hv := himp rfl
      subst hv
      simp [hasLoop, getLoop, hx, ByteSlice.Eq]
    · have hne : ByteSlice.Eq key k2 = false := by
        simp only [ByteSlice.Eq, decide_eq_false_iff_not]
        exact fun hc => hk hc.symm
      obtain ⟨i1, i2⟩ := scan_found K kv key value rest m r h hg
        (fun q r' hq hr' => hbefore (q + 1) r' (by omega) (by simpa using hr'))
      unfold hasLoop getLoop
      rw [hx]
      simp only [hne, Bool.false_eq_true, if_false]
      exact ⟨i1, i2⟩

/-- The prefix of a list on which a predicate holds is a prefix of `takeWhile`. -/
theorem getElem?_takeWhile_of_run (p : record → Bool) :
    ∀ (l : List record) (m : Nat),
    (∀ q r', q ≤ m → l[q]? = some r' → p r' = true) →
    ∀ q, q ≤ m → (l.takeWhile p)[q]? = l[q]?
  | [], _, _, q, _ => by simp
  | x :: rest, m, h, q, hq => by
    have hx : p x = true := h 0 x (by omega) (by simp)
    simp only [List.takeWhile_cons, hx, if_true]
    cases q with
    | zero => simp
    | succ q =>
      simp only [List.getElem?_cons_succ]
      exact getElem?_takeWhile_of_run p rest (m - 1)
        (fun q' r' hq' hr' => h (q' + 1) r' (by omega) (by simpa using hr')) q (by omega)

/-- In a sorted slice every record with the key lies in the run that starts at
the lower-bound index. -/
theorem mem_run_of_key (rs : List record) (hash : ByteSlice) (hs : SortedKeys rs)
    (r : record) (hr : r ∈ rs) (hk : r.key = hash) :
    r ∈ (rs.drop (countLt rs hash)).takeWhile (fun r => ByteSlice.Eq hash r.key) := by
  obtain ⟨hi, hik, hmin⟩ := countLt_first_index rs hash hs ⟨r, hr, hk⟩
  obtain ⟨n, hn, rfl⟩ := List.getElem_of_mem hr
  have hin : countLt rs hash ≤ n := hmin n hn hk
  have hrun : ∀ q r', q ≤ n - countLt rs hash → (rs.drop (countLt rs hash))[q]? = some r' →
      (fun r => ByteSlice.Eq hash r.key) r' = true := by
    intro q r' hq hr'
    rw [List.getElem?_drop] at hr'
    obtain ⟨hlt, hget⟩ := List.getElem?_eq_some.mp hr'
    have h1 := sortedKeys_getElem rs hs _ _ hi hlt (Nat.le_add_right _ q)
    have h2 := sortedKeys_getElem rs hs _ n hlt hn (by omega)
    rw [hik] at h1
    rw [hk] at h2
    simp only [Eq_iff]
    rw [← hget]
    exact Lt_total _ _ h2 h1
  have := getElem?_takeWhile_of_run _ _ _ hrun (n - countLt rs hash) (le_refl _)
  rw [List.getElem?_drop] at this
  have hidx : countLt rs hash + (n - countLt rs hash) = n := by omega
  rw [hidx, List.getElem?_eq_getElem hn] at this
  exact List.getElem?_mem this

theorem countLt_set_same_key (rs : List record) (j : Nat) (spot : record) (w k : ByteSlice)
    (hj : rs[j]? = some spot) : countLt (rs.set j ⟨spot.key, w⟩) k = countLt rs k := by
  have hmap : (rs.set j ⟨spot.key, w⟩).map (fun r => ByteSlice.Lt r.key k)
      = rs.map (fun r => ByteSlice.Lt r.key k) := by
    apply List.ext_getElem?
    intro n
    rw [List.getElem?_map, List.getElem?_map, List.getElem?_set]
    by_cases hn : j = n
    · subst hn
      rw [if_pos rfl, if_pos (List.getElem?_eq_some.mp hj).1, hj]
      rfl
    · rw [if_neg hn]
  have h1 := List.countP_map (fun b : Bool => b) (fun r : record => ByteSlice.Lt r.key k)
    (rs.set j ⟨spot.key, w⟩)
  have h2 := List.countP_map (fun b : Bool => b) (fun r : record => ByteSlice.Lt r.key k) rs
  rw [hmap] at h1
  rw [h2] at h1
  exact h1.symm

theorem countLt_insert (rs : List record) (k w : ByteSlice) :
    countLt (rs.take (countLt rs k) ++ ⟨k, w⟩ :: rs.drop (countLt rs k)) k = countLt rs k := by
  unfold countLt
  rw [List.countP_append, List.countP_cons]
  simp only [Lt_irrefl, Bool.false_eq_true, if_false, Nat.add_zero]
  rw [← List.countP_append, List.take_append_drop]

/-! ### Big-endian fields and the CRC register -/

theorem beBytes_length : ∀ (w x : Nat), (beBytes w x).length = w
  | 0, _ => rfl
  | w + 1, x => by simp [beBytes, beBytes_length w x]

theorem foldl_beBytes : ∀ (w x acc : Nat),
    (beBytes w x).foldl (fun acc x => acc * 256 + x) acc = acc * 256 ^ w + x % 256 ^ w
  | 0, x, acc => by simp [beBytes, Nat.mod_one]
  | w + 1, x, acc => by
    simp only [beBytes, List.foldl_cons]
    rw [foldl_beBytes w x, Nat.mod_pow_succ]
    ring

theorem beValue_beBytes (w x : Nat) : beValue (beBytes w x) = x % 256 ^ w := by
  unfold beValue
  rw [foldl_beBytes]
  simp

theorem Int32_ByteSlice32 (x : Nat) (h : x < 2 ^ 32) : ByteSlice.Int32 (ByteSlice32 x) = x := by
  unfold ByteSlice.Int32 ByteSlice32
  rw [beValue_beBytes]
  norm_num
  omega

theorem Int64_ByteSlice64 (x : Nat) : ByteSlice.Int64 (ByteSlice64 x) = x % 2 ^ 64 := by
  unfold ByteSlice.Int64 ByteSlice64
  rw [beValue_beBytes]
  norm_num

theorem crcShift_lt (s : Nat) (h : s < 2 ^ 32) : crcShift s < 2 ^ 32 := by
  unfold crcShift
  have h1 : s >>> 1 < 2 ^ 32 := by
    rw [Nat.shiftRight_eq_div_pow]
    omega
  split
  · exact Nat.xor_lt_two_pow h1 (by unfold crcPoly; norm_num)
  · exact h1

theorem shiftRight_one_xor (a b : Nat) : (a ^^^ b) >>> 1 = (a >>> 1) ^^^ (b >>> 1) := by
  apply Nat.eq_of_testBit_eq
  intro i
  simp [Nat.testBit_shiftRight, Nat.testBit_xor]

theorem crcShift_xor (a b : Nat) : crcShift (a ^^^ b) = crcShift a ^^^ crcShift b := by
  unfold crcShift
  rw [Nat.xor_mod_two_eq, shiftRight_one_xor]
  rcases Nat.mod_two_eq_zero_or_one a with ha | ha <;>
    rcases Nat.mod_two_eq_zero_or_one b with hb | hb
  · have : (a + b) % 2 = 0 := by omega
    simp [ha, hb, this]
  · have : (a + b) % 2 = 1 := by omega
    simp [ha, hb, this, Nat.xor_assoc]
  · have : (a + b) % 2 = 1 := by omega
    simp only [ha, hb, this, if_true, if_false, Nat.zero_ne_one]
    apply Nat.eq_of_testBit_eq
    intro i
    simp only [Nat.testBit_xor]
    cases (a >>> 1).testBit i <;> cases (b >>> 1).testBit i <;> cases crcPoly.testBit i <;> rfl
  · have : (a + b) % 2 = 0 := by omega
    simp only [ha, hb, this, if_true, if_false, Nat.zero_ne_one]
    apply Nat.eq_of_testBit_eq
    intro i
    simp only [Nat.testBit_xor]
    cases (a >>> 1).testBit i <;> cases (b >>> 1).testBit i <;> cases crcPoly.testBit i <;> rfl

theorem crcShift_eq_zero (s : Nat) (h : s < 2 ^ 32) (h0 : crcShift s = 0) : s = 0 := by
  unfold crcShift at h0
  rw [Nat.shiftRight_eq_div_pow] at h0
  split at h0
  · rw [Nat.xor_eq_zero] at h0
    unfold crcPoly at h0
    omega
  · omega

theorem crcShift_inj (a b : Nat) (ha : a < 2 ^ 32) (hb : b < 2 ^ 32)
    (h : crcShift a = crcShift b) : a = b := by
  have h1 : crcShift (a ^^^ b) = 0 := by rw [crcShift_xor, h, Nat.xor_self]
  exact Nat.xor_eq_zero.mp (crcShift_eq_zero _ (Nat.xor_lt_two_pow ha hb) h1)

theorem crcIter_lt : ∀ (n s : Nat), s < 2 ^ 32 → Nat.iterate crcShift n s < 2 ^ 32
  | 0, _, h => h
  | n + 1, s, h => by
    rw [Function.iterate_succ_apply]
    exact crcIter_lt n _ (crcShift_lt s h)

theorem crcIter_inj : ∀ (n a b : Nat), a < 2 ^ 32 → b < 2 ^ 32 →
    Nat.iterate crcShift n a = Nat.iterate crcShift n b → a = b
  | 0, _, _, _, _, h => h
  | n + 1, a, b, ha, hb, h => by
    rw [Function.iterate_succ_apply, Function.iterate_succ_apply] at h
    exact crcShift_inj a b ha hb (crcIter_inj n _ _ (crcShift_lt a ha) (crcShift_lt b hb) h)

theorem byte_lt (b : Nat) : b % 256 < 2 ^ 32 := by omega

theorem crcByte_lt (s b : Nat) (h : s < 2 ^ 32) : crcByte s b < 2 ^ 32 :=
  crcIter_lt 8 _ (Nat.xor_lt_two_pow h (byte_lt b))

theorem crcByte_inj_state (a b x : Nat) (ha : a < 2 ^ 32) (hb : b < 2 ^ 32)
    (h : crcByte a x = crcByte b x) : a = b :=
  Nat.xor_left_inj.mp
    (crcIter_inj 8 _ _ (Nat.xor_lt_two_pow ha (byte_lt x)) (Nat.xor_lt_two_pow hb (byte_lt x)) h)

theorem crcByte_inj_byte (s x y : Nat) (hs : s < 2 ^ 32)
    (h : crcByte s x = crcByte s y) : x % 256 = y % 256 :=
  Nat.xor_right_inj.mp
    (crcIter_inj 8 _ _ (Nat.xor_lt_two_pow hs (byte_lt x)) (Nat.xor_lt_two_pow hs (byte_lt y)) h)

theorem crcFold_lt : ∀ (bs : ByteSlice) (s : Nat), s < 2 ^ 32 → bs.foldl crcByte s < 2 ^ 32
  | [], _, h => h
  | b :: bs, s, h => by
    rw [List.foldl_cons]
    exact crcFold_lt bs _ (crcByte_lt s b h)

theorem crcFold_inj : ∀ (bs : ByteSlice) (a b : Nat), a < 2 ^ 32 → b < 2 ^ 32 →
    bs.foldl crcByte a = bs.foldl crcByte b → a = b
  | [], _, _, _, _, h => h
  | x :: bs, a, b, ha, hb, h => by
    rw [List.foldl_cons, List.foldl_cons] at h
    exact crcByte_inj_state a b x ha hb
      (crcFold_inj bs _ _ (crcByte_lt a x ha) (crcByte_lt b x hb) h)

theorem ChecksumIEEE_lt (bs : ByteSlice) : ChecksumIEEE bs < 2 ^ 32 :=
  Nat.xor_lt_two_pow (crcFold_lt bs _ (by norm_num)) (by norm_num)

/-- Two messages that differ in one byte only have different checksums. -/
theorem ChecksumIEEE_ne (pre suf : ByteSlice) (x y : Nat) (hxy : x % 256 ≠ y % 256) :
    ChecksumIEEE (pre ++ x :: suf) ≠ ChecksumIEEE (pre ++ y :: suf) := by
  intro h
  unfold ChecksumIEEE at h
  rw [Nat.xor_left_inj, List.foldl_append, List.foldl_append, List.foldl_cons,
    List.foldl_cons] at h
  have hs : pre.foldl crcByte 0xFFFFFFFF < 2 ^ 32 := crcFold_lt pre _ (by norm_num)
  exact hxy (crcByte_inj_byte _ x y hs
    (crcFold_inj suf _ _ (crcByte_lt _ x hs) (crcByte_lt _ y hs) h))

theorem flip_mod_ne (x k : Nat) (hk : k < 8) : (x ^^^ 2 ^ k) % 256 ≠ x % 256 := by
  intro h
  have h1 := congrArg (fun v => Nat.testBit v k) h
  have e : (256 : Nat) = 2 ^ 8 := by norm_num
  simp only [e, Nat.testBit_mod_two_pow, hk, decide_True, Bool.true_and, Nat.testBit_xor,
    Nat.testBit_two_pow_self] at h1
  cases hb : x.testBit k <;> simp [hb] at h1

/-! ### The control block -/

theorem copyAt_mid (bytes A M Z src : ByteSlice) (lo hi : Nat)
    (hb : bytes = A ++ (M ++ Z)) (hA : A.length = lo) (hM : lo + M.length = hi) :
    copyAt bytes lo hi src = A ++ (copy M src ++ Z) := by
  subst hb hA hM
  unfold copyAt
  have t1 : (A ++ (M ++ Z)).take A.length = A := List.take_left' rfl
  have t2 : (A ++ (M ++ Z)).take (A.length + M.length) = A ++ M := by
    rw [← List.append_assoc]
    exact List.take_left' (by simp)
  have t3 : (A ++ (M ++ Z)).drop (A.length + M.length) = Z := by
    rw [← List.append_assoc]
    exact List.drop_left' (by simp)
  rw [t1, t2, t3, List.drop_left' rfl, List.append_assoc]

theorem payload_length (c : ctrlblk) (h : CONTROLSIZE ≤ c.blksize) :
    c.payload.length = c.blksize - 4 := by
  unfold ctrlblk.payload ByteSlice32 ByteSlice64
  unfold CONTROLSIZE at *
  simp only [List.length_append, beBytes_length, copy_length, List.length_replicate]
  omega

theorem Bytes_eq (c : ctrlblk) (h : CONTROLSIZE ≤ c.blksize) :
    c.Bytes = .ok (ByteSlice32 (ChecksumIEEE c.payload) ++ c.payload) := by
  have hz : List.replicate c.blksize 0
      = List.replicate 4 0 ++ (List.replicate 4 0 ++ (List.replicate 8 0
          ++ (List.replicate 4 0 ++ List.replicate (c.blksize - CONTROLSIZE) 0))) := by
    simp only [← List.replicate_add]
    congr 1
    unfold CONTROLSIZE at *
    omega
  have h1 := copyAt_mid (List.replicate c.blksize 0) (List.replicate 4 0) (List.replicate 4 0)
    (List.replicate 8 0 ++ (List.replicate 4 0 ++ List.replicate (c.blksize - CONTROLSIZE) 0))
    (ByteSlice32 c.blksize) 4 8 hz (by simp) (by simp)
  rw [copy_eq_of_length _ _ (by simp [ByteSlice32, beBytes_length])] at h1
  have h2 := copyAt_mid _ (List.replicate 4 0 ++ ByteSlice32 c.blksize) (List.replicate 8 0)
    (List.replicate 4 0 ++ List.replicate (c.blksize - CONTROLSIZE) 0)
    (ByteSlice64 c.free_head) 8 16 (h1.trans (by simp))
    (by simp [ByteSlice32, beBytes_length]) (by simp)
  rw [copy_eq_of_length _ _ (by simp [ByteSlice64, beBytes_length])] at h2
  have h3 := copyAt_mid _
    (List.replicate 4 0 ++ ByteSlice32 c.blksize ++ ByteSlice64 c.free_head)
    (List.replicate 4 0) (List.replicate (c.blksize - CONTROLSIZE) 0)
    (ByteSlice32 c.free_len) 16 20 (h2.trans (by simp))
    (by simp [ByteSlice32, ByteSlice64, beBytes_length]) (by simp)
  rw [copy_eq_of_length _ _ (by simp [ByteSlice32, beBytes_length])] at h3
  have h4 := copyAt_mid _
    (List.replicate 4 0 ++ ByteSlice32 c.blksize ++ ByteSlice64 c.free_head
      ++ ByteSlice32 c.free_len)
    (List.replicate (c.blksize - CONTROLSIZE) 0) [] c.userdata 20 c.blksize
    (h3.trans (by simp)) (by simp [ByteSlice32, ByteSlice64, beBytes_length])
    (by simp; unfold CONTROLSIZE at *; omega)
  have hlen3 : (copyAt (copyAt (copyAt (List.replicate c.blksize 0) 4 8 (ByteSlice32 c.blksize))
      8 16 (ByteSlice64 c.free_head)) 16 20 (ByteSlice32 c.free_len)).length = c.blksize := by
    rw [h3]
    simp [ByteSlice32, ByteSlice64, beBytes_length]
    unfold CONTROLSIZE at *
    omega
  have h4p : copyAt (copyAt (copyAt (copyAt (List.replicate c.blksize 0) 4 8
      (ByteSlice32 c.blksize)) 8 16 (ByteSlice64 c.free_head)) 16 20 (ByteSlice32 c.free_len))
      20 c.blksize c.userdata = List.replicate 4 0 ++ c.payload := by
    rw [h4]
    simp [ctrlblk.payload]
  unfold ctrlblk.Bytes
  rw [if_neg (by omega)]
  simp only [hlen3, h4p]
  have h5 := copyAt_mid (List.replicate 4 0 ++ c.payload) [] (List.replicate 4 0) c.payload
    (ByteSlice32 (ChecksumIEEE c.payload)) 0 4 (by simp) rfl (by simp)
  rw [copy_eq_of_length _ _ (by simp [ByteSlice32, beBytes_length])] at h5
  rw [List.drop_left' (by simp), h5]
  rfl

theorem load_bad (bytes : ByteSlice) (h4 : 4 ≤ bytes.length)
    (h : ChecksumIEEE (bytes.drop 4) ≠ ByteSlice.Int32 (bytes.take 4)) :
    load_ctrlblk bytes = .error .BadChecksum := by
  unfold load_ctrlblk
  rw [if_neg (by omega), if_pos h]

theorem load_eq (k b1 b2 b3 u : ByteSlice) (hk : k.length = 4) (h1 : b1.length = 4)
    (h2 : b2.length = 8) (h3 : b3.length = 4)
    (hc : ChecksumIEEE (b1 ++ (b2 ++ (b3 ++ u))) = ByteSlice.Int32 k) :
    load_ctrlblk (k ++ (b1 ++ (b2 ++ (b3 ++ u))))
      = .ok { blksize := ByteSlice.Int32 b1, free_head := ByteSlice.Int64 b2,
              free_len := ByteSlice.Int32 b3, userdata := u } := by
  unfold load_ctrlblk
  have e4 : (k ++ (b1 ++ (b2 ++ (b3 ++ u)))).take 4 = k := List.take_left' hk
  have d4 : (k ++ (b1 ++ (b2 ++ (b3 ++ u)))).drop 4 = b1 ++ (b2 ++ (b3 ++ u)) :=
    List.drop_left' hk
  have e8 : (k ++ (b1 ++ (b2 ++ (b3 ++ u)))).take 8 = k ++ b1 := by
    rw [← List.append_assoc]
    exact List.take_left' (by simp [hk, h1])
  have e16 : (k ++ (b1 ++ (b2 ++ (b3 ++ u)))).take 16 = k ++ b1 ++ b2 := by
    rw [← List.append_assoc, ← List.append_assoc]
    exact List.take_left' (by simp [hk, h1, h2])
  have e20 : (k ++ (b1 ++ (b2 ++ (b3 ++ u)))).take 20 = k ++ b1 ++ b2 ++ b3 := by
    rw [← List.append_assoc, ← List.append_assoc, ← List.append_assoc]
    exact List.take_left' (by simp [hk, h1, h2, h3])
  have d20 : (k ++ (b1 ++ (b2 ++ (b3 ++ u)))).drop 20 = u := by
    rw [← List.append_assoc, ← List.append_assoc, ← List.append_assoc]
    exact List.drop_left' (by simp [hk, h1, h2, h3])
  rw [if_neg (by simp [hk]), e4, d4, if_neg (by simpa using hc),
    if_neg (by simp only [List.length_append, hk, h1, h2, h3, CONTROLSIZE]; omega), e8, e16,
    e20, d20,
    List.drop_left' hk, List.drop_left' (by simp [hk, h1]),
    List.drop_left' (by simp [hk, h1, h2])]

theorem load_Bytes (c : ctrlblk) :
    load_ctrlblk (ByteSlice32 (ChecksumIEEE c.payload) ++ c.payload)
      = .ok { blksize := c.blksize % 2 ^ 32, free_head := c.free_head % 2 ^ 64,
              free_len := c.free_len % 2 ^ 32,
              userdata := copy (List.replicate (c.blksize - CONTROLSIZE) 0) c.userdata } := by
  have := load_eq (ByteSlice32 (ChecksumIEEE c.payload)) (ByteSlice32 c.blksize)
    (ByteSlice64 c.free_head) (ByteSlice32 c.free_len)
    (copy (List.replicate (c.blksize - CONTROLSIZE) 0) c.userdata)
    (beBytes_length _ _) (beBytes_length _ _) (beBytes_length _ _) (beBytes_length _ _)
    (Int32_ByteSlice32 _ (ChecksumIEEE_lt _)).symm
  rw [Int64_ByteSlice64] at this
  unfold ByteSlice.Int32 ByteSlice32 at this
  rw [beValue_beBytes, beValue_beBytes] at this
  norm_num at this
  exact this

/-- C12 (ControlBlockRoundTrip): for every control block whose block size is a
positive multiple of 4096 below 2^32, with a 64-bit free_head, a 32-bit free_len
and user data of blksize - 20 bytes, `Bytes` produces blksize bytes that hold the
three fields big-endian at 4..8, 8..16 and 16..20, the user data from byte 20 on
and the IEEE CRC32 of bytes 4.. at bytes 0..4, and `load_ctrlblk` of these bytes
succeeds with the same four fields. -/
theorem ControlBlockRoundTrip (c : ctrlblk) (hpos : 0 < c.blksize)
    (hmul : c.blksize % 4096 = 0) (hb : c.blksize < 2 ^ 32) (hh : c.free_head < 2 ^ 64)
    (hl : c.free_len < 2 ^ 32) (hu : c.userdata.length = c.blksize - CONTROLSIZE) :
    ∃ bytes, c.Bytes = .ok bytes ∧ bytes.length = c.blksize ∧ load_ctrlblk bytes = .ok c ∧
      bytes.take 4 = ByteSlice32 (ChecksumIEEE (bytes.drop 4)) ∧
      (bytes.take 8).drop 4 = ByteSlice32 c.blksize ∧
      (bytes.take 16).drop 8 = ByteSlice64 c.free_head ∧
      (bytes.take 20).drop 16 = ByteSlice32 c.free_len ∧
      bytes.drop 20 = c.userdata := by
  have h20 : CONTROLSIZE ≤ c.blksize := by unfold CONTROLSIZE; omega
  have hcopy : copy (List.replicate (c.blksize - CONTROLSIZE) 0) c.userdata = c.userdata :=
    copy_eq_of_length _ _ (by simp [hu])
  have hk : (ByteSlice32 (ChecksumIEEE c.payload)).length = 4 := beBytes_length _ _
  have hp : c.payload = ByteSlice32 c.blksize ++ (ByteSlice64 c.free_head
      ++ (ByteSlice32 c.free_len ++ c.userdata)) := by
    unfold ctrlblk.payload
    rw [hcopy]
  refine ⟨_, Bytes_eq c h20, ?_, ?_, ?_, ?_, ?_, ?_, ?_⟩
  · rw [List.length_append, payload_length c h20, hk]
    unfold CONTROLSIZE at h20
    omega
  · rw [load_Bytes c, hcopy, Nat.mod_eq_of_lt hb, Nat.mod_eq_of_lt hh, Nat.mod_eq_of_lt hl]
  · rw [List.take_left' hk, List.drop_left' hk]
  · generalize ByteSlice32 (ChecksumIEEE c.payload) = k at hk ⊢
    rw [hp, ← List.append_assoc, List.take_left' (by simp [hk, ByteSlice32, beBytes_length]),
      List.drop_left' hk]
  · generalize ByteSlice32 (ChecksumIEEE c.payload) = k at hk ⊢
    rw [hp, ← List.append_assoc, ← List.append_assoc,
      List.take_left' (by simp [hk, ByteSlice32, ByteSlice64, beBytes_length]),
      List.drop_left' (by simp [hk, ByteSlice32, beBytes_length])]
  · generalize ByteSlice32 (ChecksumIEEE c.payload) = k at hk ⊢
    rw [hp, ← List.append_assoc, ← List.append_assoc, ← List.append_assoc,
      List.take_left' (by simp [hk, ByteSlice32, ByteSlice64, beBytes_length]),
      List.drop_left' (by simp [hk, ByteSlice32, ByteSlice64, beBytes_length])]
  · generalize ByteSlice32 (ChecksumIEEE c.payload) = k at hk ⊢
    rw [hp, ← List.append_assoc, ← List.append_assoc, ← List.append_assoc,
      List.drop_left' (by simp [hk, ByteSlice32, ByteSlice64, beBytes_length])]

/-- Witness for C12: a control block of 4096 bytes with a free list of three
blocks headed at offset 8192. -/
theorem ControlBlockRoundTrip_witness :
    ∃ bytes, ctrlblk.Bytes ⟨4096, 8192, 3, List.replicate 4076 7⟩ = .ok bytes ∧
      bytes.length = 4096 ∧
      load_ctrlblk bytes = .ok ⟨4096, 8192, 3, List.replicate 4076 7⟩ ∧
      bytes.take 4 = ByteSlice32 (ChecksumIEEE (bytes.drop 4)) ∧
      (bytes.take 8).drop 4 = ByteSlice32 4096 ∧
      (bytes.take 16).drop 8 = ByteSlice64 8192 ∧
      (bytes.take 20).drop 16 = ByteSlice32 3 ∧
      bytes.drop 20 = List.replicate 4076 7 :=
  ControlBlockRoundTrip ⟨4096, 8192, 3, List.replicate 4076 7⟩ (by decide) (by decide)
    (by decide) (by decide) (by decide) (List.length_replicate _ _)

theorem flip_load (K P : ByteSlice) (hK : K.length = 4)
    (hc : ChecksumIEEE P = ByteSlice.Int32 K) (i k : Nat) (hi : 4 ≤ i)
    (hi2 : i < 4 + P.length) (hk : k < 8) :
    load_ctrlblk (flipBit (K ++ P) i k) = .error .BadChecksum := by
  have hj : i - 4 < P.length := by omega
  obtain ⟨pre, x, suf, hP, hpre⟩ : ∃ pre x suf, P = pre ++ x :: suf ∧ pre.length = i - 4 :=
    ⟨P.take (i - 4), P[i - 4], P.drop (i - 4 + 1),
      by rw [← List.drop_eq_getElem_cons hj, List.take_append_drop],
      by rw [List.length_take]; omega⟩
  subst hP
  have hget : (K ++ (pre ++ x :: suf))[i]? = some x := by
    rw [List.getElem?_append_right (by omega), hK,
      List.getElem?_append_right (by omega), hpre, Nat.sub_self]
    simp
  have hset : (K ++ (pre ++ x :: suf)).set i (x ^^^ 2 ^ k)
      = K ++ (pre ++ (x ^^^ 2 ^ k) :: suf) := by
    rw [List.set_append_right _ _ (by omega), hK, List.set_append_right _ _ (by omega), hpre,
      Nat.sub_self]
    rfl
  unfold flipBit
  rw [hget]
  simp only
  rw [hset]
  apply load_bad
  · simp [hK]
  · rw [List.drop_left' hK, List.take_left' hK, ← hc]
    exact ChecksumIEEE_ne _ _ _ _ (flip_mod_ne _ k hk)

/-- C13: for every control block of at least 20 bytes (so for every valid one),
`Bytes` produces an encoded block, and flipping any single bit of a byte at a
position from 4 to the end of that block makes `load_ctrlblk` fail with the
bad-checksum error. -/
theorem bit_flip_BadChecksum (c : ctrlblk) (hsz : CONTROLSIZE ≤ c.blksize) :
    ∃ bytes, c.Bytes = .ok bytes ∧ bytes.length = c.blksize ∧
      ∀ i k, 4 ≤ i → i < c.blksize → k < 8 →
        load_ctrlblk (flipBit bytes i k) = .error .BadChecksum := by
  have hk : (ByteSlice32 (ChecksumIEEE c.payload)).length = 4 := beBytes_length _ _
  have hlen := payload_length c hsz
  unfold CONTROLSIZE at hsz
  refine ⟨_, Bytes_eq c hsz, ?_, ?_⟩
  · rw [List.length_append, hlen, hk]
    omega
  · intro i k hi hi2 hk8
    exact flip_load _ _ hk (Int32_ByteSlice32 _ (ChecksumIEEE_lt _)).symm i k hi (by omega) hk8

/-- Witness for C13: the control block of a new 4096-byte file. -/
theorem bit_flip_BadChecksum_witness :
    ∃ bytes, ctrlblk.Bytes ⟨4096, 0, 0, List.replicate 4076 0⟩ = .ok bytes ∧
      bytes.length = 4096 ∧
      ∀ i k, 4 ≤ i → i < 4096 → k < 8 →
        load_ctrlblk (flipBit bytes i k) = .error .BadChecksum :=
  bit_flip_BadChecksum ⟨4096, 0, 0, List.replicate 4076 0⟩ (by decide)

/-! ### Reading and writing blocks of a BlockFile -/

theorem ext_byteAt (a b : ByteSlice) (hl : a.length = b.length)
    (h : ∀ k, k < a.length → byteAt a k = byteAt b k) : a = b := by
  apply List.ext_getElem hl
  intro k h1 h2
  have := h k h1
  unfold byteAt at this
  rw [List.getElem?_eq_getElem h1, List.getElem?_eq_getElem h2] at this
  exact this

theorem byteAt_drop (f : ByteSlice) (p k : Nat) : byteAt (f.drop p) k = byteAt f (p + k) := by
  unfold byteAt
  rw [List.getElem?_drop]

theorem byteAt_copy_zero (n : Nat) (src : ByteSlice) (k : Nat) (hk : k < n) :
    byteAt (copy (List.replicate n 0) src) k = byteAt src k := by
  unfold byteAt copy
  rw [List.length_replicate]
  by_cases h : k < src.length
  · rw [List.getElem?_append_left (by rw [List.length_take]; omega),
      List.getElem?_take_of_lt hk]
  · rw [List.getElem?_append_right (by rw [List.length_take]; omega),
      List.getElem?_eq_none (l := src) (by omega)]
    rw [List.length_take, List.drop_replicate]
    cases hh : (List.replicate (n - src.length) 0)[k - min n src.length]? with
    | none => rfl
    | some x =>
      have := List.getElem?_mem hh
      rw [List.mem_replicate] at this
      rw [this.2]
      rfl

theorem pread_eq (f : ByteSlice) (p n : Nat) (hn : 0 < n) (hp : p < f.length) :
    pread f (p : Int) n = .ok (copy (List.replicate n 0) (f.drop p)) := by
  unfold pread
  rw [if_neg (by omega), if_neg (by omega), Int.toNat_ofNat, if_neg (by omega)]

theorem pread_inv (f : ByteSlice) (p n : Nat) (hn : 0 < n) (b : ByteSlice)
    (h : pread f (p : Int) n = .ok b) :
    p < f.length ∧ b = copy (List.replicate n 0) (f.drop p) := by
  unfold pread at h
  rw [if_neg (by omega), if_neg (by omega), Int.toNat_ofNat] at h
  split at h
  · simp at h
  · exact ⟨by omega, (Except.ok.inj h).symm⟩

theorem pread_length (f : ByteSlice) (p n : Nat) (hn : 0 < n) (b : ByteSlice)
    (h : pread f (p : Int) n = .ok b) : b.length = n := by
  rw [(pread_inv f p n hn b h).2, copy_length, List.length_replicate]

/-- A read sees the same bytes in any file that is at least as long and agrees
on the bytes of the extent. -/
theorem pread_congr (f g : ByteSlice) (p n : Nat) (hn : 0 < n) (hlen : f.length ≤ g.length)
    (h : ∀ k, k < n → byteAt g (p + k) = byteAt f (p + k)) (b : ByteSlice)
    (hr : pread f (p : Int) n = .ok b) : pread g (p : Int) n = .ok b := by
  obtain ⟨h1, h2⟩ := pread_inv f p n hn b hr
  rw [pread_eq g p n hn (by omega), h2]
  congr 1
  apply ext_byteAt
  · rw [copy_length, copy_length]
  · intro k hk
    rw [copy_length, List.length_replicate] at hk
    rw [byteAt_copy_zero n _ k hk, byteAt_copy_zero n _ k hk, byteAt_drop, byteAt_drop, h k hk]

theorem pwrite_length (f : ByteSlice) (p : Nat) (blk : ByteSlice) :
    (pwrite f p blk).length = max f.length (p + blk.length) := by
  unfold pwrite
  simp only [List.length_append, List.length_take, List.length_replicate, List.length_drop]
  omega

theorem pwrite_prefix_length (f : ByteSlice) (p : Nat) :
    ((f ++ List.replicate (p - f.length) 0).take p).length = p := by
  simp only [List.length_append, List.length_take, List.length_replicate]
  omega

theorem byteAt_pwrite (f : ByteSlice) (p : Nat) (blk : ByteSlice) (k : Nat)
    (hk : k < p ∨ p + blk.length ≤ k) : byteAt (pwrite f p blk) k = byteAt f k := by
  unfold byteAt pwrite
  rcases hk with hk | hk
  · rw [List.append_assoc, List.getElem?_append_left (by rw [pwrite_prefix_length]; exact hk),
      List.getElem?_take_of_lt hk]
    by_cases h : k < f.length
    · rw [List.getElem?_append_left h]
    · rw [List.getElem?_append_right (by omega), List.getElem?_eq_none (l := f) (by omega)]
      cases hh : (List.replicate (p - f.length) 0)[k - f.length]? with
      | none => rfl
      | some x =>
        have := List.getElem?_mem hh
        rw [List.mem_replicate] at this
        rw [this.2]
        rfl
  · rw [List.getElem?_append_right
        (by rw [List.length_append, pwrite_prefix_length]; exact hk),
      List.length_append, pwrite_prefix_length, List.getElem?_drop]
    congr 2
    omega

theorem pread_pwrite_same (f : ByteSlice) (p : Nat) (blk : ByteSlice) (hn : 0 < blk.length) :
    pread (pwrite f p blk) (p : Int) blk.length = .ok blk := by
  rw [pread_eq _ p _ hn (by rw [pwrite_length]; omega)]
  congr 1
  unfold pwrite
  rw [List.append_assoc, List.drop_left' (pwrite_prefix_length f p)]
  unfold copy
  rw [List.length_replicate, List.take_left' rfl, List.drop_eq_nil_of_le, List.append_nil]
  rw [List.length_replicate, List.length_append]
  omega

theorem pread_pwrite_other (f : ByteSlice) (n i j : Nat) (blk b : ByteSlice)
    (hn : 0 < n) (hblk : blk.length = n) (hij : i ≠ j)
    (h : pread f ((n * i : Nat) : Int) n = .ok b) :
    pread (pwrite f (n * j) blk) ((n * i : Nat) : Int) n = .ok b := by
  apply pread_congr f _ (n * i) n hn (by rw [pwrite_length]; omega) _ b h
  intro k hk
  apply byteAt_pwrite
  rw [hblk]
  rcases Nat.lt_or_gt_of_ne hij with h1 | h1
  · left
    have : n * (i + 1) ≤ n * j := Nat.mul_le_mul_left n h1
    rw [Nat.mul_add, Nat.mul_one] at this
    omega
  · right
    have : n * (j + 1) ≤ n * i := Nat.mul_le_mul_left n h1
    rw [Nat.mul_add, Nat.mul_one] at this
    omega

theorem mul_cast_inj (n i j : Nat) (hn : 0 < n) (hij : i ≠ j) :
    ((n * i : Nat) : Int) ≠ ((n * j : Nat) : Int) := by
  intro h
  exact hij (Nat.eq_of_mul_eq_mul_left hn (Int.ofNat.inj h))

theorem coherent_of_read {β : Type} (B : Buffer β) (hB : B.Lawful) (s : BlockFile β)
    (hc : s.Coherent B) (p : Int) (n : Nat) :
    BlockFile.Coherent B { s with buf := (B.Read s.buf p n).2 } := by
  intro i b h
  exact hc i b (hB.read_sub _ _ _ _ _ _ h)

theorem coherent_of_update {β : Type} (B : Buffer β) (hB : B.Lawful) (s : BlockFile β)
    (hc : s.Coherent B) (hn : 0 < s.ctrl.blksize) (j : Nat) (blk : ByteSlice)
    (hblk : blk.length = s.ctrl.blksize) (c : β) (g : ByteSlice)
    (hsub : ∀ q m b, (B.Read c q m).1 = some b → (B.Read s.buf q m).1 = some b)
    (hj : pread g ((s.ctrl.blksize * j : Nat) : Int) s.ctrl.blksize = .ok blk)
    (hg : ∀ i b, i ≠ j → pread s.file ((s.ctrl.blksize * i : Nat) : Int) s.ctrl.blksize = .ok b →
      pread g ((s.ctrl.blksize * i : Nat) : Int) s.ctrl.blksize = .ok b) :
    BlockFile.Coherent B
      { s with file := g, buf := B.Update c ((s.ctrl.blksize * j : Nat) : Int) blk } := by
  intro i b h
  by_cases hij : i = j
  · subst hij
    have h1 : (B.Read (B.Update c ((s.ctrl.blksize * i : Nat) : Int) blk)
        ((s.ctrl.blksize * i : Nat) : Int) blk.length).1 = some b := by
      rw [hblk]
      exact h
    rw [hB.update_same _ _ _ _ h1]
    exact hj
  · exact hg i b hij (hc i b (hsub _ _ _
      (hB.update_other _ _ _ _ _ _ (Or.inl (mul_cast_inj _ i j hn hij)) h)))

/-- Writing a whole block at a block offset of a file in use succeeds, the block
is then what a read of that offset finds, every other block reads as before,
and the control state is untouched. -/
theorem WriteBlock_spec {β : Type} (B : Buffer β) (hB : B.Lawful) (s : BlockFile β)
    (hs : s.Good B) (j : Nat) (blk : ByteSlice) (hblk : blk.length = s.ctrl.blksize) :
    ∃ s1, s.WriteBlock B ((s.ctrl.blksize * j : Nat) : Int) blk = (.ok (), s1) ∧
      s1.Good B ∧ s1.ctrl = s.ctrl ∧
      pread s1.file ((s.ctrl.blksize * j : Nat) : Int) s.ctrl.blksize = .ok blk ∧
      (∀ i b, i ≠ j → pread s.file ((s.ctrl.blksize * i : Nat) : Int) s.ctrl.blksize = .ok b →
        pread s1.file ((s.ctrl.blksize * i : Nat) : Int) s.ctrl.blksize = .ok b) ∧
      s.file.length ≤ s1.file.length ∧
      s1.file.length ≤ max s.file.length (s.ctrl.blksize * j + s.ctrl.blksize) := by
  have hn : 0 < s.ctrl.blksize := lt_of_lt_of_le (by decide) hs.lo
  have hmod : blk.length % 2 ^ 32 = s.ctrl.blksize := by
    rw [hblk]
    exact Nat.mod_eq_of_lt hs.hi
  unfold BlockFile.WriteBlock
  rw [if_neg (by rw [hs.opened]; simp), hmod]
  simp only
  split
  · rename_i heq
    have hb : (B.Read s.buf ((s.ctrl.blksize * j : Nat) : Int) s.ctrl.blksize).1 = some blk := by
      revert heq
      cases (B.Read s.buf ((s.ctrl.blksize * j : Nat) : Int) s.ctrl.blksize).1 with
      | none => simp
      | some b =>
        intro heq
        simp only at heq
        rw [(Eq_iff _ _).mp heq]
    refine ⟨_, rfl, ⟨hs.opened, coherent_of_read B hB s hs.coh _ _, hs.lo, hs.hi⟩, rfl,
      hs.coh j blk hb, fun i b _ h => h, le_refl _, le_max_left _ _⟩
  · rw [if_neg (by omega), Int.toNat_ofNat]
    have hj : pread (pwrite s.file (s.ctrl.blksize * j) blk)
        ((s.ctrl.blksize * j : Nat) : Int) s.ctrl.blksize = .ok blk := by
      have := pread_pwrite_same s.file (s.ctrl.blksize * j) blk (by omega)
      rw [hblk] at this
      exact this
    refine ⟨_, rfl, ⟨hs.opened, ?_, hs.lo, hs.hi⟩, rfl, hj,
      fun i b hij h => pread_pwrite_other s.file _ i j blk b hn hblk hij h, ?_, ?_⟩
    · exact coherent_of_update B hB s hs.coh hn j blk hblk _ _
        (fun q m b h => hB.read_sub _ _ _ _ _ _ h) hj
        (fun i b hij h => pread_pwrite_other s.file _ i j blk b hn hblk hij h)
    · show s.file.length ≤ (pwrite s.file (s.ctrl.blksize * j) blk).length
      rw [pwrite_length]
      exact le_max_left _ _
    · show (pwrite s.file (s.ctrl.blksize * j) blk).length ≤ _
      rw [pwrite_length, hblk]

/-- Reading a block at a block offset of a file in use returns the bytes of the
file, whether or not the cache holds them, and leaves file and control state. -/
theorem ReadBlock_spec {β : Type} (B : Buffer β) (hB : B.Lawful) (s : BlockFile β)
    (hs : s.Good B) (j : Nat) (b : ByteSlice)
    (hr : pread s.file ((s.ctrl.blksize * j : Nat) : Int) s.ctrl.blksize = .ok b) :
    ∃ s1, s.ReadBlock B ((s.ctrl.blksize * j : Nat) : Int) = (.ok b, s1) ∧
      s1.Good B ∧ s1.ctrl = s.ctrl ∧ s1.file = s.file := by
  have hn : 0 < s.ctrl.blksize := lt_of_lt_of_le (by decide) hs.lo
  unfold BlockFile.ReadBlock
  rw [if_neg (by rw [hs.opened]; simp)]
  split
  · rename_i x c heq
    have hx : (B.Read s.buf ((s.ctrl.blksize * j : Nat) : Int) s.ctrl.blksize).1 = some x := by
      rw [heq]
    have hc : c = (B.Read s.buf ((s.ctrl.blksize * j : Nat) : Int) s.ctrl.blksize).2 := by
      rw [heq]
    have := hs.coh j x hx
    rw [hr] at this
    rw [Except.ok.inj this, hc]
    exact ⟨_, rfl, ⟨hs.opened, coherent_of_read B hB s hs.coh _ _, hs.lo, hs.hi⟩, rfl, rfl⟩
  · rename_i c heq
    have hc : c = (B.Read s.buf ((s.ctrl.blksize * j : Nat) : Int) s.ctrl.blksize).2 := by
      rw [heq]
    rw [hr]
    simp only
    refine ⟨_, rfl, ⟨hs.opened, ?_, hs.lo, hs.hi⟩, rfl, rfl⟩
    have := coherent_of_update B hB s hs.coh hn j b
      (pread_length _ _ _ hn b hr) c s.file
      (fun q m b h => hB.read_sub _ _ _ _ _ _ (by rw [← hc]; exact h)) hr (fun i b _ h => h)
    exact this


/-! ### The control block of a BlockFile -/

theorem ByteSlice32_length (x : Nat) : (ByteSlice32 x).length = 4 := beBytes_length 4 x

theorem ByteSlice64_length (x : Nat) : (ByteSlice64 x).length = 8 := beBytes_length 8 x

theorem Block_eq (c : ctrlblk) (h : CONTROLSIZE ≤ c.blksize) :
    c.Block = .ok (ByteSlice32 (ChecksumIEEE c.payload) ++ c.payload) := by
  unfold ctrlblk.Block
  rw [Bytes_eq c h]
  simp only
  rw [copy_eq_of_length]
  rw [List.length_replicate, List.length_append, payload_length c h, ByteSlice32_length]
  unfold CONTROLSIZE at h
  omega

theorem Block_length (c : ctrlblk) (h : CONTROLSIZE ≤ c.blksize) :
    (ByteSlice32 (ChecksumIEEE c.payload) ++ c.payload).length = c.blksize := by
  rw [List.length_append, payload_length c h, ByteSlice32_length]
  unfold CONTROLSIZE at h
  omega

/-- Writing the control block of a file in use succeeds: block 0 then holds the
encoded control block, every other block reads as before. -/
theorem write_ctrlblk_spec {β : Type} (B : Buffer β) (hB : B.Lawful) (s : BlockFile β)
    (hs : s.Good B) :
    ∃ s1, s.write_ctrlblk B = (.ok (), s1) ∧ s1.Good B ∧ s1.ctrl = s.ctrl ∧
      pread s1.file 0 s.ctrl.blksize
        = .ok (ByteSlice32 (ChecksumIEEE s.ctrl.payload) ++ s.ctrl.payload) ∧
      (∀ i b, i ≠ 0 → pread s.file ((s.ctrl.blksize * i : Nat) : Int) s.ctrl.blksize = .ok b →
        pread s1.file ((s.ctrl.blksize * i : Nat) : Int) s.ctrl.blksize = .ok b) ∧
      s.file.length ≤ s1.file.length ∧
      s1.file.length ≤ max s.file.length s.ctrl.blksize := by
  have h := WriteBlock_spec B hB s hs 0 _ (Block_length s.ctrl hs.lo)
  simp only [Nat.mul_zero, Nat.cast_zero, Nat.zero_add] at h
  unfold BlockFile.write_ctrlblk
  rw [Block_eq s.ctrl hs.lo]
  exact h

theorem uint32_sub_eq (x y : Nat) (h : y ≤ x) : uint32_sub x y = x - y := by
  unfold uint32_sub
  rw [if_pos h]

theorem copy_zero_eq (m : Nat) (data : ByteSlice) (h : data.length ≤ m) :
    copy (List.replicate m 0) data = data ++ List.replicate (m - data.length) 0 := by
  unfold copy
  rw [List.length_replicate, List.take_of_length_le h, List.drop_replicate]

theorem ControlData_eq {β : Type} (s : BlockFile β) (h : CONTROLSIZE ≤ s.ctrl.blksize)
    (hu : s.ctrl.userdata.length = s.ctrl.blksize - CONTROLSIZE) :
    s.ControlData = .ok s.ctrl.userdata := by
  unfold BlockFile.ControlData
  rw [uint32_sub_eq _ _ h, if_neg (by omega), copy_eq_of_length _ _ (by simp [hu])]

/-- C14: on an open BlockFile whose cache agrees with the file, `SetControlData`
fails with TooLarge exactly when the data is longer than blksize - 20, and then
changes nothing; otherwise it succeeds, the stored user data is the data padded
with zero bytes to blksize - 20, `ControlData` returns these bytes, and after
`Close` and `Open` (which reads block 0 back and loads it) it returns them
again: also through any other handle on the file that has the same block size
and a cache that agrees with the file, such as a new handle, whose control
block in memory holds no user data. -/
theorem SetControlData_contract {β : Type} (B : Buffer β) (hB : B.Lawful) (s : BlockFile β)
    (hs : s.Good B) (hsize : s.file.length < 2 ^ 63) (data : ByteSlice) :
    ((s.SetControlData B data).1 = .error .TooLarge
      ↔ data.length > s.ctrl.blksize - CONTROLSIZE) ∧
    (data.length > s.ctrl.blksize - CONTROLSIZE →
      s.SetControlData B data = (.error .TooLarge, s)) ∧
    (data.length ≤ s.ctrl.blksize - CONTROLSIZE → ∃ s1 s2 s3,
      s.SetControlData B data = (.ok (), s1) ∧
      s1.ctrl.userdata
        = data ++ List.replicate (s.ctrl.blksize - CONTROLSIZE - data.length) 0 ∧
      s1.ControlData
        = .ok (data ++ List.replicate (s.ctrl.blksize - CONTROLSIZE - data.length) 0) ∧
      s1.Close = (.ok (), s2) ∧ s2.Open B = (.ok (), s3) ∧
      s3.ControlData
        = .ok (data ++ List.replicate (s.ctrl.blksize - CONTROLSIZE - data.length) 0) ∧
      ∀ h : BlockFile β, h.file = s2.file → h.ctrl.blksize = s.ctrl.blksize →
        h.Coherent B →
        ∃ h3, h.Open B = (.ok (), h3) ∧
          h3.ControlData
            = .ok (data ++ List.replicate (s.ctrl.blksize - CONTROLSIZE - data.length) 0)) := by
  have hsub := uint32_sub_eq _ _ hs.lo
  have hlarge : data.length > s.ctrl.blksize - CONTROLSIZE →
      s.SetControlData B data = (.error .TooLarge, s) := by
    intro h
    unfold BlockFile.SetControlData
    rw [hsub, if_pos h]
  have hsmall : data.length ≤ s.ctrl.blksize - CONTROLSIZE → ∃ s1 s2 s3,
      s.SetControlData B data = (.ok (), s1) ∧
      s1.ctrl.userdata
        = data ++ List.replicate (s.ctrl.blksize - CONTROLSIZE - data.length) 0 ∧
      s1.ControlData
        = .ok (data ++ List.replicate (s.ctrl.blksize - CONTROLSIZE - data.length) 0) ∧
      s1.Close = (.ok (), s2) ∧ s2.Open B = (.ok (), s3) ∧
      s3.ControlData
        = .ok (data ++ List.replicate (s.ctrl.blksize - CONTROLSIZE - data.length) 0) ∧
      ∀ h : BlockFile β, h.file = s2.file → h.ctrl.blksize = s.ctrl.blksize →
        h.Coherent B →
        ∃ h3, h.Open B = (.ok (), h3) ∧
          h3.ControlData
            = .ok (data ++ List.replicate (s.ctrl.blksize - CONTROLSIZE - data.length) 0) := by
    intro h
    have hgood : BlockFile.Good B { s with ctrl := { s.ctrl with
        userdata := copy (List.replicate (s.ctrl.blksize - CONTROLSIZE) 0) data } } :=
      ⟨hs.opened, hs.coh, hs.lo, hs.hi⟩
    obtain ⟨s1, hw, hg1, hc1, hr1, _, hlen1, hlen2⟩ := write_ctrlblk_spec B hB _ hgood
    have hud : s1.ctrl.userdata
        = data ++ List.replicate (s.ctrl.blksize - CONTROLSIZE - data.length) 0 := by
      rw [hc1]
      exact copy_zero_eq _ _ h
    have hbs : s1.ctrl.blksize = s.ctrl.blksize := by rw [hc1]
    have hudlen : s1.ctrl.userdata.length = s1.ctrl.blksize - CONTROLSIZE := by
      rw [hud, hbs, List.length_append, List.length_replicate]
      omega
    have hcd : s1.ControlData
        = .ok (data ++ List.replicate (s.ctrl.blksize - CONTROLSIZE - data.length) 0) := by
      rw [ControlData_eq s1 hg1.lo hudlen, hud]
    -- a handle on the file reads block 0 back and loads it
    have hpos : 0 < s1.file.length := by
      have hr0 : pread s1.file ((0 : Nat) : Int) s1.ctrl.blksize
          = .ok (ByteSlice32 (ChecksumIEEE s1.ctrl.payload) ++ s1.ctrl.payload) := by
        rw [hc1]
        exact hr1
      exact (pread_inv s1.file 0 _ (lt_of_lt_of_le (by decide) hg1.lo) _ hr0).1
    have hlt : s1.file.length < 2 ^ 64 := by
      have : s.ctrl.blksize < 2 ^ 32 := hs.hi
      have h3 : s1.file.length ≤ max s.file.length s.ctrl.blksize := hlen2
      have h4 : max s.file.length s.ctrl.blksize < 2 ^ 64 := by
        apply max_lt
        · omega
        · omega
      omega
    have hb1 : s1.ctrl.blksize % 2 ^ 32 = s1.ctrl.blksize := Nat.mod_eq_of_lt hg1.hi
    have hcopy : copy (List.replicate (s1.ctrl.blksize - CONTROLSIZE) 0) s1.ctrl.userdata
        = s1.ctrl.userdata := copy_eq_of_length _ _ (by simp [hudlen])
    have hre : ∀ h : BlockFile β, h.file = s1.file → h.ctrl.blksize = s.ctrl.blksize →
        h.Coherent B →
        ∃ h3, h.Open B = (.ok (), h3) ∧
          h3.ControlData
            = .ok (data ++ List.replicate (s.ctrl.blksize - CONTROLSIZE - data.length) 0) := by
      intro h hf hb hcoh
      have hg2 : BlockFile.Good B { h with opened := true } :=
        ⟨rfl, hcoh, by show CONTROLSIZE ≤ h.ctrl.blksize; rw [hb]; exact hs.lo,
          by show h.ctrl.blksize < 2 ^ 32; rw [hb]; exact hs.hi⟩
      have hr2 : pread h.file ((h.ctrl.blksize * 0 : Nat) : Int) h.ctrl.blksize
          = .ok (ByteSlice32 (ChecksumIEEE s1.ctrl.payload) ++ s1.ctrl.payload) := by
        rw [Nat.mul_zero, hf, hb, hc1]
        exact hr1
      obtain ⟨s3, hrd, hg3, hc3, hf3⟩ := ReadBlock_spec B hB _ hg2 0 _ hr2
      simp only [Nat.mul_zero, Nat.cast_zero] at hrd
      refine ⟨{ s3 with ctrl := ⟨s1.ctrl.blksize % 2 ^ 32, s1.ctrl.free_head % 2 ^ 64,
        s1.ctrl.free_len % 2 ^ 32,
        copy (List.replicate (s1.ctrl.blksize - CONTROLSIZE) 0) s1.ctrl.userdata⟩ }, ?_, ?_⟩
      · unfold BlockFile.Open BlockFile.open BlockFile.Size
        simp only [Bool.true_eq_false, if_false]
        rw [if_neg (by rw [hf, Nat.mod_eq_of_lt hlt]; omega)]
        unfold BlockFile.read_ctrlblk
        rw [hrd]
        simp only
        rw [load_Bytes]
      · rw [ControlData_eq _
          (by show CONTROLSIZE ≤ s1.ctrl.blksize % 2 ^ 32; rw [hb1]; exact hg1.lo)
          (by show (copy _ _).length = s1.ctrl.blksize % 2 ^ 32 - CONTROLSIZE
              rw [hb1, hcopy, hudlen])]
        show Except.ok (copy _ _) = _
        rw [hcopy, hud]
    have hcoh1 : BlockFile.Coherent B { s1 with opened := false } := hg1.coh
    obtain ⟨s3, ho3, hcd3⟩ := hre { s1 with opened := false } rfl hbs hcoh1
    refine ⟨s1, { s1 with opened := false }, s3, ?_, hud, hcd, ?_, ho3, hcd3, hre⟩
    · unfold BlockFile.SetControlData
      rw [hsub, if_neg (by omega)]
      exact hw
    · unfold BlockFile.Close
      rw [if_neg (by rw [hg1.opened]; simp)]
  refine ⟨⟨fun h => ?_, fun h => by rw [hlarge h]⟩, hlarge, hsmall⟩
  by_contra hn
  obtain ⟨s1, _, _, h1, _⟩ := hsmall (by omega)
  rw [h1] at h
  simp at h

theorem noCache_lawful : noCache.Lawful :=
  ⟨fun _ _ _ _ _ _ h => h, fun _ _ _ _ h => by simp [noCache] at h,
    fun _ _ _ _ _ _ _ h => h⟩

theorem listCache_lawful : listCache.Lawful := by
  refine ⟨fun _ _ _ _ _ _ h => h, fun c p blk b h => ?_, fun c p blk q m b hne h => ?_⟩
  · simp only [listCache, List.lookup_cons, beq_self_eq_true] at h
    exact (Option.some.inj h).symm
  · simp only [listCache, List.lookup_cons] at h ⊢
    have : ((q, m) == (p, blk.length)) = false := by
      rw [beq_eq_false_iff_ne]
      intro he
      rcases hne with h1 | h1
      · exact h1 (Prod.mk.inj he).1
      · exact h1 (Prod.mk.inj he).2
    rw [this] at h
    exact h

theorem exEmptyFile_good : exEmptyFile.Good noCache :=
  ⟨rfl, fun _ _ h => by simp [noCache] at h, by decide, by decide⟩

/-- Witness for C14: ten bytes 0..9 set as control data of a new file, read back
through the same handle and through the handle `NewBlockFile` returns for the
file. -/
theorem SetControlData_contract_witness :
    ∃ s1 s2 s3,
      exEmptyFile.SetControlData noCache [0, 1, 2, 3, 4, 5, 6, 7, 8, 9] = (.ok (), s1) ∧
      s1.ctrl.userdata = [0, 1, 2, 3, 4, 5, 6, 7, 8, 9]
        ++ List.replicate (exEmptyFile.ctrl.blksize - CONTROLSIZE
          - [0, 1, 2, 3, 4, 5, 6, 7, 8, 9].length) 0 ∧
      s1.ControlData = .ok ([0, 1, 2, 3, 4, 5, 6, 7, 8, 9]
        ++ List.replicate (exEmptyFile.ctrl.blksize - CONTROLSIZE
          - [0, 1, 2, 3, 4, 5, 6, 7, 8, 9].length) 0) ∧
      s1.Close = (.ok (), s2) ∧ s2.Open noCache = (.ok (), s3) ∧
      s3.ControlData = .ok ([0, 1, 2, 3, 4, 5, 6, 7, 8, 9]
        ++ List.replicate (exEmptyFile.ctrl.blksize - CONTROLSIZE
          - [0, 1, 2, 3, 4, 5, 6, 7, 8, 9].length) 0) ∧
      ∃ fresh h3, NewBlockFile s2.file () = .ok fresh ∧
        fresh.ctrl.userdata = List.replicate (uint32_sub BLOCKSIZE CONTROLSIZE) 0 ∧
        fresh.Open noCache = (.ok (), h3) ∧
        h3.ControlData = .ok ([0, 1, 2, 3, 4, 5, 6, 7, 8, 9]
          ++ List.replicate (exEmptyFile.ctrl.blksize - CONTROLSIZE
            - [0, 1, 2, 3, 4, 5, 6, 7, 8, 9].length) 0) :=
  match (SetControlData_contract noCache noCache_lawful exEmptyFile exEmptyFile_good (by decide)
    [0, 1, 2, 3, 4, 5, 6, 7, 8, 9]).2.2 (by decide) with
  | ⟨s1, s2, s3, h1, h2, h3, h4, h5, h6, h7⟩ =>
    ⟨s1, s2, s3, h1, h2, h3, h4, h5, h6,
      match h7 ⟨false, (), s2.file, ⟨BLOCKSIZE, 0, 0,
          List.replicate (uint32_sub BLOCKSIZE CONTROLSIZE) 0⟩⟩ rfl rfl
          (fun _ _ h => by simp [noCache] at h) with
      | ⟨h3, g1, g2⟩ => ⟨_, h3, rfl, rfl, g1, g2⟩⟩

theorem ReadBlock_noCache (s : BlockFile Unit) (p : Int) (ho : s.opened = true) :
    s.ReadBlock noCache p =
      match pread s.file p s.ctrl.blksize with
      | .error e => (.error e, s)
      | .ok block => (.ok block, s) := by
  unfold BlockFile.ReadBlock
  rw [if_neg (by rw [ho]; simp)]
  rfl

theorem Open_nonempty {β : Type} (B : Buffer β) (s : BlockFile β)
    (h : s.file.length % 2 ^ 64 ≠ 0) :
    s.Open B = BlockFile.read_ctrlblk B { s with opened := true } := by
  unfold BlockFile.Open BlockFile.open BlockFile.Size
  simp only [Bool.true_eq_false, if_false]
  rw [if_neg h]

theorem Open_nonempty_mk {β : Type} (B : Buffer β) (o : Bool) (buf : β) (file : ByteSlice)
    (c : ctrlblk) (h : file.length % 2 ^ 64 ≠ 0) :
    BlockFile.Open B { opened := o, buf := buf, file := file, ctrl := c }
      = BlockFile.read_ctrlblk B { opened := true, buf := buf, file := file, ctrl := c } :=
  Open_nonempty B _ h

theorem read_ctrlblk_eq {β : Type} (B : Buffer β) (s s1 : BlockFile β) (bytes : ByteSlice)
    (cb : ctrlblk) (hr : s.ReadBlock B 0 = (.ok bytes, s1)) (hl : load_ctrlblk bytes = .ok cb) :
    s.read_ctrlblk B = (.ok (), { s1 with ctrl := cb }) := by
  unfold BlockFile.read_ctrlblk
  rw [hr]
  simp only
  rw [hl]

theorem exForged_length : exForged.length = 4096 := by
  simp only [exForged, exForgedPayload, List.length_append, ByteSlice32_length,
    ByteSlice64_length, List.length_replicate]

theorem load_exForged : load_ctrlblk exForged
    = .ok { blksize := 8192, free_head := 0, free_len := 0,
            userdata := List.replicate 4076 0 } := by
  have := load_eq (ByteSlice32 (ChecksumIEEE exForgedPayload)) (ByteSlice32 8192)
    (ByteSlice64 0) (ByteSlice32 0) (List.replicate 4076 0)
    (ByteSlice32_length _) (ByteSlice32_length _) (ByteSlice64_length _) (ByteSlice32_length _)
    (Int32_ByteSlice32 _ (ChecksumIEEE_lt _)).symm
  rw [Int32_ByteSlice32 _ (by norm_num), Int32_ByteSlice32 _ (by norm_num),
    Int64_ByteSlice64] at this
  exact this

theorem ReadBlock_exForged (c : ctrlblk) (hc : c.blksize = 4096) :
    BlockFile.ReadBlock noCache { opened := true, buf := (), file := exForged, ctrl := c } 0
      = (.ok exForged, { opened := true, buf := (), file := exForged, ctrl := c }) := by
  have := pread_eq exForged 0 4096 (by decide) (by rw [exForged_length]; decide)
  rw [List.drop_zero, copy_eq_of_length _ _
    (by rw [exForged_length]; exact List.length_replicate _ _)] at this
  rw [ReadBlock_noCache _ _ rfl]
  show (match pread exForged 0 c.blksize with
    | .error e => _
    | .ok block => _) = _
  rw [hc]
  simp only [Nat.cast_zero] at this
  rw [this]

theorem Open_exForged (c : ctrlblk) (hc : c.blksize = 4096) :
    BlockFile.Open noCache { opened := false, buf := (), file := exForged, ctrl := c }
      = (.ok (), { opened := true, buf := (), file := exForged,
                   ctrl := { blksize := 8192, free_head := 0, free_len := 0,
                             userdata := List.replicate 4076 0 } }) := by
  have h0 : exForged.length % 2 ^ 64 ≠ 0 := by
    rw [exForged_length]
    decide
  rw [Open_nonempty_mk noCache false () exForged c h0]
  exact read_ctrlblk_eq noCache _ _ _ _ (ReadBlock_exForged c hc) load_exForged

/-- For C19, the claim fails: a BlockFile constructed with the block size 4096 opens
a file whose block 0 has a valid checksum and records the block size 8192, and
installs 8192 as its block size. -/
theorem Open_installs_other_blksize :
    NewBlockFile exForged () = .ok exForgedFile ∧ exForgedFile.ctrl.blksize = 4096 ∧
    (exForgedFile.Open noCache).1 = .ok () ∧
    (exForgedFile.Open noCache).2.ctrl.blksize = 8192 := by
  have h : exForgedFile.Open noCache
      = (.ok (), { opened := true, buf := (), file := exForged,
                   ctrl := { blksize := 8192, free_head := 0, free_len := 0,
                             userdata := List.replicate 4076 0 } }) :=
    Open_exForged exForgedFile.ctrl rfl
  refine ⟨rfl, rfl, ?_, ?_⟩
  · rw [h]
  · rw [h]

/-- C19, amended: `read_ctrlblk` installs the control block that block 0 encodes
whenever its checksum is valid; the block size of the file is then the value
recorded at bytes 4..8 of block 0, which is not compared with the block size
the BlockFile had before. -/
theorem read_ctrlblk_installs {β : Type} (B : Buffer β) (s s1 : BlockFile β)
    (bytes : ByteSlice) (hr : s.ReadBlock B 0 = (.ok bytes, s1))
    (hlen : CONTROLSIZE ≤ bytes.length)
    (hsum : ChecksumIEEE (bytes.drop 4) = ByteSlice.Int32 (bytes.take 4)) :
    ∃ s2, s.read_ctrlblk B = (.ok (), s2) ∧
      s2.ctrl.blksize = ByteSlice.Int32 ((bytes.take 8).drop 4) ∧
      s2.ctrl.free_head = ByteSlice.Int64 ((bytes.take 16).drop 8) ∧
      s2.ctrl.free_len = ByteSlice.Int32 ((bytes.take 20).drop 16) ∧
      s2.ctrl.userdata = bytes.drop 20 := by
  unfold CONTROLSIZE at hlen
  unfold BlockFile.read_ctrlblk
  rw [hr]
  simp only
  unfold load_ctrlblk
  rw [if_neg (by omega), if_neg (by simpa using hsum), if_neg (by unfold CONTROLSIZE; omega)]
  exact ⟨_, rfl, rfl, rfl, rfl, rfl⟩

/-- Witness for C19: the forged block of 4096 bytes that records 8192. -/
theorem read_ctrlblk_installs_witness :
    ∃ s2, BlockFile.read_ctrlblk noCache
        { opened := true, buf := (), file := exForged, ctrl := exForgedFile.ctrl }
        = (.ok (), s2) ∧
      s2.ctrl.blksize = ByteSlice.Int32 ((exForged.take 8).drop 4) ∧
      s2.ctrl.free_head = ByteSlice.Int64 ((exForged.take 16).drop 8) ∧
      s2.ctrl.free_len = ByteSlice.Int32 ((exForged.take 20).drop 16) ∧
      s2.ctrl.userdata = exForged.drop 20 :=
  read_ctrlblk_installs noCache _ _ exForged (ReadBlock_exForged _ rfl)
    (by rw [exForged_length]; decide)
    (by
      unfold exForged
      rw [List.drop_left' (ByteSlice32_length _), List.take_left' (ByteSlice32_length _),
        Int32_ByteSlice32 _ (ChecksumIEEE_lt _)])

theorem exCachedFile_good : exCachedFile.Good listCache := by
  refine ⟨rfl, ?_, by decide, by decide⟩
  intro i b h
  simp only [exCachedFile, listCache, List.lookup_cons, List.lookup_nil] at h ⊢
  split at h
  · rename_i heq
    rw [beq_iff_eq, Prod.mk.injEq] at heq
    have hi : i = 1 := by omega
    subst hi
    have := pread_eq (List.replicate 12288 1) 4096 4096 (by decide)
      (by rw [List.length_replicate]; decide)
    rw [List.drop_replicate, copy, List.length_replicate, List.take_replicate,
      List.length_replicate, List.drop_replicate] at this
    simp only [Nat.reduceSub, Nat.min_def, Nat.reduceLeDiff, if_true, List.replicate_zero,
      List.append_nil] at this
    rw [← Option.some.inj h]
    exact this
  · simp at h

/-- For C17, the code at a failing input: the file has three blocks of 4096
bytes, the cache holds the block at offset 4096 (and agrees with the file);
`ReadBlocks(4096, 2)` returns the 4096 cached bytes, not the 8192 bytes at
[4096, 12288). -/
theorem ReadBlocks_returns_cached_block :
    exCachedFile.Good listCache ∧
    pread exCachedFile.file 4096 (4096 * 2) = .ok (List.replicate 8192 1) ∧
    (exCachedFile.ReadBlocks listCache 4096 2).1 = .ok (List.replicate 4096 1) ∧
    (List.replicate 4096 (1 : Nat)).length = 4096 := by
  refine ⟨exCachedFile_good, ?_, rfl, List.length_replicate _ _⟩
  have := pread_eq (List.replicate 12288 1) 4096 8192 (by decide)
    (by rw [List.length_replicate]; decide)
  rw [List.drop_replicate, copy, List.length_replicate, List.take_replicate,
    List.length_replicate, List.drop_replicate] at this
  simp only [Nat.reduceSub, Nat.min_def, Nat.reduceLeDiff, if_true, List.replicate_zero,
    List.append_nil] at this
  exact this

/-! ### The free list of a BlockFile -/

theorem uint64_cast (x : Nat) (h : x < 2 ^ 64) : uint64 (x : Int) = x := by
  unfold uint64
  have : ((x : Int) % 2 ^ 64) = (x : Int) := Int.emod_eq_of_lt (by omega) (by omega)
  rw [this, Int.toNat_ofNat]

theorem int64_cast (x : Nat) (h : x < 2 ^ 63) : int64 x = (x : Int) := by
  unfold int64
  have h1 : x % 2 ^ 64 = x := Nat.mod_eq_of_lt (by omega)
  rw [h1, if_pos h]

theorem Int64_link (n head : Nat) (hn : 8 ≤ n) (hh : head < 2 ^ 64) :
    ByteSlice.Int64 ((copy (List.replicate n 0) (ByteSlice64 head)).take 8) = head := by
  have := copy_take (List.replicate n 0) (ByteSlice64 head)
    (by rw [ByteSlice64_length, List.length_replicate]; exact hn)
  rw [ByteSlice64_length] at this
  rw [this, Int64_ByteSlice64, Nat.mod_eq_of_lt hh]

theorem good_ctrl {β : Type} (B : Buffer β) (s : BlockFile β) (hs : s.Good B) (c : ctrlblk)
    (hc : c.blksize = s.ctrl.blksize) : BlockFile.Good B { s with ctrl := c } := by
  refine ⟨hs.opened, ?_, ?_, ?_⟩
  · intro i b h
    have := hs.coh i b
    simp only [hc] at h ⊢
    exact this h
  · show CONTROLSIZE ≤ c.blksize
    rw [hc]
    exact hs.lo
  · show c.blksize < 2 ^ 32
    rw [hc]
    exact hs.hi

/-- `Free` of a block offset other than 0 on a file in use: the block then holds
the former head of the free list, the head is the freed offset, every block
other than this one and block 0 reads as before. -/
theorem Free_spec {β : Type} (B : Buffer β) (hB : B.Lawful) (s : BlockFile β)
    (hs : s.Good B) (j : Nat) (hj : 0 < j) (hlt : s.ctrl.blksize * j < 2 ^ 64) :
    ∃ s1, s.Free B ((s.ctrl.blksize * j : Nat) : Int) = (.ok (), s1) ∧ s1.Good B ∧
      s1.ctrl = { s.ctrl with free_head := s.ctrl.blksize * j,
                              free_len := (s.ctrl.free_len + 1) % 2 ^ 32 } ∧
      pread s1.file ((s.ctrl.blksize * j : Nat) : Int) s.ctrl.blksize
        = .ok (copy (List.replicate s.ctrl.blksize 0) (ByteSlice64 s.ctrl.free_head)) ∧
      (∀ i b, i ≠ j → i ≠ 0 →
        pread s.file ((s.ctrl.blksize * i : Nat) : Int) s.ctrl.blksize = .ok b →
        pread s1.file ((s.ctrl.blksize * i : Nat) : Int) s.ctrl.blksize = .ok b) ∧
      s.file.length ≤ s1.file.length ∧
      s1.file.length
        ≤ max (max s.file.length (s.ctrl.blksize * j + s.ctrl.blksize)) s.ctrl.blksize := by
  obtain ⟨s', hw, hg', hc', hr', ho', hl1, hl2⟩ := WriteBlock_spec B hB s hs j
    (copy (List.replicate s.ctrl.blksize 0) (ByteSlice64 s.ctrl.free_head))
    (by rw [copy_length, List.length_replicate])
  have hb' : s'.ctrl.blksize = s.ctrl.blksize := by rw [hc']
  have hg'' := good_ctrl B s' hg'
    { s'.ctrl with free_head := uint64 ((s.ctrl.blksize * j : Nat) : Int),
                   free_len := (s'.ctrl.free_len + 1) % 2 ^ 32 } rfl
  obtain ⟨s1, hw1, hg1, hc1, hr1, ho1, hl3, hl4⟩ := write_ctrlblk_spec B hB _ hg''
  refine ⟨s1, ?_, hg1, ?_, ?_, ?_, ?_, ?_⟩
  · unfold BlockFile.Free
    simp only
    rw [hw]
    exact hw1
  · rw [hc1, uint64_cast _ hlt, hc']
  · have := ho1 j _ (by omega) (by simp only [hb']; exact hr')
    simp only [hb'] at this
    exact this
  · intro i b hij hi0 h
    have := ho1 i b hi0 (by simp only [hb']; exact ho' i b hij h)
    simp only [hb'] at this
    exact this
  · exact le_trans hl1 hl3
  · simp only [hb'] at hl4
    exact le_trans hl4 (max_le_max hl2 (le_refl _))

theorem pop_tail {β : Type} (x : Except Err Unit × BlockFile β) (pos : Int) (s1 : BlockFile β)
    (h : x = (.ok (), s1)) :
    (match x with
      | (.error e, self) => ((.error e : Except Err Int), self)
      | (.ok _, self) => (.ok pos, self)) = (.ok pos, s1) := by
  subst h
  rfl

/-- `Allocate` on a file in use whose free list is not empty and is headed by a
block offset other than 0: the head is returned, the new head is the link
stored in that block, and the file keeps its length. -/
theorem pop_spec {β : Type} (B : Buffer β) (hB : B.Lawful) (s : BlockFile β)
    (hs : s.Good B) (j : Nat) (hj : 0 < j) (hlen : s.ctrl.free_len ≠ 0)
    (hhead : s.ctrl.free_head = s.ctrl.blksize * j) (hlt : s.ctrl.blksize * j < 2 ^ 63)
    (blk : ByteSlice)
    (hr : pread s.file ((s.ctrl.blksize * j : Nat) : Int) s.ctrl.blksize = .ok blk) :
    ∃ s1, s.Allocate B = (.ok ((s.ctrl.blksize * j : Nat) : Int), s1) ∧ s1.Good B ∧
      s1.ctrl = { s.ctrl with free_head := ByteSlice.Int64 (blk.take 8),
                              free_len := uint32_dec s.ctrl.free_len } ∧
      (∀ i b, i ≠ 0 →
        pread s.file ((s.ctrl.blksize * i : Nat) : Int) s.ctrl.blksize = .ok b →
        pread s1.file ((s.ctrl.blksize * i : Nat) : Int) s.ctrl.blksize = .ok b) ∧
      s1.file.length = s.file.length := by
  have hn : 0 < s.ctrl.blksize := lt_of_lt_of_le (by decide) hs.lo
  obtain ⟨s', hrd, hg', hc', hf'⟩ := ReadBlock_spec B hB s hs j blk hr
  have hb' : s'.ctrl.blksize = s.ctrl.blksize := by rw [hc']
  have hg'' := good_ctrl B s' hg'
    { s'.ctrl with free_head := ByteSlice.Int64 (blk.take 8),
                   free_len := uint32_dec s'.ctrl.free_len } rfl
  obtain ⟨s1, hw1, hg1, hc1, hr1, ho1, hl3, hl4⟩ := write_ctrlblk_spec B hB _ hg''
  have hblk : blk.length = s.ctrl.blksize := pread_length _ _ _ hn blk hr
  have hpos := (pread_inv _ _ _ hn blk hr).1
  refine ⟨s1, ?_, hg1, ?_, ?_, ?_⟩
  · unfold BlockFile.Allocate
    rw [if_neg hlen]
    unfold BlockFile.pop_free
    have h8 : ¬ blk.length < 8 := by
      have := hs.lo
      unfold CONTROLSIZE at this
      omega
    rw [if_neg (by intro h; exact hlen h.2), hhead, int64_cast _ hlt]
    simp only [hrd, if_neg h8]
    exact pop_tail _ _ _ hw1
  · rw [hc1, hc']
  · intro i b hi0 h
    have := ho1 i b hi0 (by simp only [hb', hf']; exact h)
    simp only [hb'] at this
    exact this
  · simp only [hb', hf'] at hl3 hl4
    have : s.ctrl.blksize * 1 ≤ s.ctrl.blksize * j := Nat.mul_le_mul_left _ hj
    have h2 : max s.file.length s.ctrl.blksize = s.file.length := by
      apply max_eq_left
      omega
    rw [h2] at hl4
    omega

theorem pread_append_zero (f : ByteSlice) (p n k : Nat) (hn : 0 < n) (b : ByteSlice)
    (h : pread f (p : Int) n = .ok b) : pread (f ++ List.replicate k 0) (p : Int) n = .ok b := by
  apply pread_congr f _ p n hn (by rw [List.length_append]; omega) _ b h
  intro i _
  unfold byteAt
  by_cases hi : p + i < f.length
  · rw [List.getElem?_append_left hi]
  · rw [List.getElem?_append_right (by omega), List.getElem?_eq_none (l := f) (by omega)]
    cases hh : (List.replicate k 0)[p + i - f.length]? with
    | none => rfl
    | some x =>
      have := List.getElem?_mem hh
      rw [List.mem_replicate] at this
      rw [this.2]
      rfl

/-- `Allocate` on a file in use whose free list is empty: the file grows by one
block of zero bytes and the former length is returned. -/
theorem alloc_spec {β : Type} (B : Buffer β) (s : BlockFile β)
    (hs : s.Good B) (hlen : s.ctrl.free_len = 0)
    (hlt : s.file.length + s.ctrl.blksize < 2 ^ 63) :
    s.Allocate B = (.ok (s.file.length : Int),
        { s with file := s.file ++ List.replicate s.ctrl.blksize 0 }) ∧
      BlockFile.Good B { s with file := s.file ++ List.replicate s.ctrl.blksize 0 } := by
  have hn : 0 < s.ctrl.blksize := lt_of_lt_of_le (by decide) hs.lo
  constructor
  · unfold BlockFile.Allocate
    rw [if_pos hlen]
    unfold BlockFile.alloc BlockFile.Size
    rw [if_neg (by rw [hs.opened]; simp)]
    simp only
    have h1 : uint64 1 = 1 := uint64_cast 1 (by norm_num)
    have h2 : s.file.length % 2 ^ 64 = s.file.length := Nat.mod_eq_of_lt (by omega)
    have h3 : s.ctrl.blksize * 1 % 2 ^ 64 = s.ctrl.blksize := by
      rw [Nat.mul_one]
      exact Nat.mod_eq_of_lt (by omega)
    rw [h1, h2, h3, int64_cast _ hlt, int64_cast _ (by omega)]
    unfold BlockFile.resize
    rw [if_neg (by omega), Int.toNat_ofNat, List.take_of_length_le (by omega),
      Nat.add_sub_cancel_left]
  · refine ⟨hs.opened, ?_, hs.lo, hs.hi⟩
    intro i b h
    exact pread_append_zero _ _ _ _ hn b (hs.coh i b h)

theorem chain_congr (f g : ByteSlice) (n : Nat) : ∀ (F : List Nat) (head : Nat),
    (∀ i b, i ∈ F → 0 < i → pread f ((n * i : Nat) : Int) n = .ok b →
      pread g ((n * i : Nat) : Int) n = .ok b) →
    FreeChain f n head F → FreeChain g n head F
  | [], _, _, h => h
  | j :: rest, head, hp, h => by
    obtain ⟨h1, h2, blk, h3, h4⟩ := h
    exact ⟨h1, h2, blk, hp j blk (List.mem_cons_self _ _) h2 h3,
      chain_congr f g n rest _ (fun i b hi => hp i b (List.mem_cons_of_mem _ hi)) h4⟩

theorem chain_head_lt (f : ByteSlice) (n m : Nat) (F : List Nat) (head : Nat)
    (h : FreeChain f n head F) (hF : ∀ j ∈ F, j < m) : head ≤ n * m := by
  cases F with
  | nil =>
    have : head = 0 := h
    omega
  | cons j rest =>
    rw [h.1]
    exact Nat.mul_le_mul_left n (le_of_lt (hF j (List.mem_cons_self _ _)))

theorem inv_alloc {β : Type} (B : Buffer β) (s : BlockFile β) (live : List Int) (m : Nat)
    (h : FreeInv B s live [] m) (hlt : s.ctrl.blksize * (m + 1) < 2 ^ 63) :
    ∃ s1, s.Allocate B = (.ok ((s.ctrl.blksize * m : Nat) : Int), s1) ∧
      s1.ctrl = s.ctrl ∧
      FreeInv B s1 (((s.ctrl.blksize * m : Nat) : Int) :: live) [] (m + 1) := by
  have hn : 0 < s.ctrl.blksize := lt_of_lt_of_le (by decide) h.good.lo
  have hfl : s.ctrl.free_len = 0 := h.len.symm
  have hsz := h.size
  have hm : 0 < m := by
    have := h.count
    omega
  obtain ⟨ha, hg⟩ := alloc_spec B s h.good hfl
    (by rw [hsz]; rw [Nat.mul_add, Nat.mul_one] at hlt; exact hlt)
  rw [hsz] at ha
  refine ⟨_, ha, rfl, hg, ?_, ?_, h.chain, h.len, h.nodupF, ?_, ?_, ?_⟩
  · show (s.file ++ List.replicate s.ctrl.blksize 0).length = _
    rw [List.length_append, List.length_replicate, hsz, Nat.mul_add, Nat.mul_one]
  · have := h.count
    simp only [List.length_nil, List.length_cons] at this ⊢
    omega
  · rw [List.nodup_cons]
    refine ⟨?_, h.nodupL⟩
    intro hmem
    obtain ⟨j, hj, _, hjm, _⟩ := h.liveOk _ hmem
    have : s.ctrl.blksize * m = s.ctrl.blksize * j := Int.ofNat.inj hj
    have := Nat.eq_of_mul_eq_mul_left hn this
    omega
  · intro p hp
    rcases List.mem_cons.mp hp with hp | hp
    · exact ⟨m, hp, hm, by omega, List.not_mem_nil _⟩
    · obtain ⟨j, hj, hj0, hjm, hjF⟩ := h.liveOk p hp
      exact ⟨j, hj, hj0, by omega, hjF⟩
  · intro j hj
    exact absurd hj (List.not_mem_nil _)

theorem inv_pop {β : Type} (B : Buffer β) (hB : B.Lawful) (s : BlockFile β) (live : List Int)
    (j : Nat) (F : List Nat) (m : Nat)
    (h : FreeInv B s live (j :: F) m) (hlt : s.ctrl.blksize * m < 2 ^ 63) :
    ∃ s1, s.Allocate B = (.ok ((s.ctrl.blksize * j : Nat) : Int), s1) ∧
      s1.ctrl.blksize = s.ctrl.blksize ∧ s1.file.length = s.file.length ∧
      uint32_dec s.ctrl.free_len = s1.ctrl.free_len ∧
      FreeInv B s1 (((s.ctrl.blksize * j : Nat) : Int) :: live) F m := by
  have hn : 0 < s.ctrl.blksize := lt_of_lt_of_le (by decide) h.good.lo
  obtain ⟨hhead, hj0, blk, hblk, hrest⟩ := h.chain
  have hjm : j < m := h.freeOk j (List.mem_cons_self _ _)
  have hfl : s.ctrl.free_len = F.length + 1 := by
    rw [← h.len]
    rfl
  have hjlt : s.ctrl.blksize * j < 2 ^ 63 :=
    lt_of_le_of_lt (Nat.mul_le_mul_left _ (le_of_lt hjm)) hlt
  obtain ⟨s1, ha, hg1, hc1, ho1, hl1⟩ := pop_spec B hB s h.good j hj0 (by omega) hhead hjlt blk hblk
  have hb1 : s1.ctrl.blksize = s.ctrl.blksize := by rw [hc1]
  have hnd := List.nodup_cons.mp h.nodupF
  refine ⟨s1, ha, hb1, hl1, by rw [hc1], hg1, ?_, ?_, ?_, ?_, hnd.2, ?_, ?_, ?_⟩
  · rw [hl1, hb1]
    exact h.size
  · have := h.count
    simp only [List.length_cons] at this ⊢
    omega
  · rw [hb1, hc1]
    exact chain_congr _ _ _ F _ (fun i b _ hi0 hr => ho1 i b (by omega) hr) hrest
  · rw [hc1]
    show F.length = uint32_dec s.ctrl.free_len
    rw [hfl]
    unfold uint32_dec
    rw [if_neg (by omega)]
    omega
  · rw [List.nodup_cons]
    refine ⟨?_, h.nodupL⟩
    intro hmem
    obtain ⟨j1, hj1, _, _, hj1F⟩ := h.liveOk _ hmem
    have : s.ctrl.blksize * j = s.ctrl.blksize * j1 := Int.ofNat.inj hj1
    have := Nat.eq_of_mul_eq_mul_left hn this
    subst this
    exact hj1F (List.mem_cons_self _ _)
  · intro p hp
    rw [hb1]
    rcases List.mem_cons.mp hp with hp | hp
    · exact ⟨j, hp, hj0, hjm, hnd.1⟩
    · obtain ⟨j1, hj1, hj10, hj1m, hj1F⟩ := h.liveOk p hp
      exact ⟨j1, hj1, hj10, hj1m, fun hx => hj1F (List.mem_cons_of_mem _ hx)⟩
  · intro i hi
    exact h.freeOk i (List.mem_cons_of_mem _ hi)

theorem inv_free {β : Type} (B : Buffer β) (hB : B.Lawful) (s : BlockFile β) (live : List Int)
    (F : List Nat) (m : Nat) (p : Int)
    (h : FreeInv B s live F m) (hp : p ∈ live) (hlt : s.ctrl.blksize * m < 2 ^ 63)
    (hm : m < 2 ^ 32) :
    ∃ s1 j, p = ((s.ctrl.blksize * j : Nat) : Int) ∧ s.Free B p = (.ok (), s1) ∧
      s1.ctrl.blksize = s.ctrl.blksize ∧ s1.ctrl.free_len = s.ctrl.free_len + 1 ∧
      FreeInv B s1 (live.erase p) (j :: F) m := by
  have hn : 0 < s.ctrl.blksize := lt_of_lt_of_le (by decide) h.good.lo
  obtain ⟨j, hpj, hj0, hjm, hjF⟩ := h.liveOk p hp
  have hjle : s.ctrl.blksize * j + s.ctrl.blksize ≤ s.ctrl.blksize * m := by
    have := Nat.mul_le_mul_left s.ctrl.blksize (show j + 1 ≤ m by omega)
    rw [Nat.mul_add, Nat.mul_one] at this
    exact this
  have hnle : s.ctrl.blksize ≤ s.ctrl.blksize * m := by omega
  obtain ⟨s1, hf, hg1, hc1, hr1, ho1, hl1, hl2⟩ := Free_spec B hB s h.good j hj0 (by omega)
  have hb1 : s1.ctrl.blksize = s.ctrl.blksize := by rw [hc1]
  have hcount := h.count
  have hlive : 0 < live.length := List.length_pos_of_mem hp
  have hflen : (s.ctrl.free_len + 1) % 2 ^ 32 = s.ctrl.free_len + 1 := by
    apply Nat.mod_eq_of_lt
    rw [← h.len]
    omega
  have hhead : s.ctrl.free_head < 2 ^ 64 := by
    have := chain_head_lt _ _ m F _ h.chain h.freeOk
    omega
  subst hpj
  refine ⟨s1, j, rfl, hf, hb1, by rw [hc1]; exact hflen, hg1, ?_, ?_, ?_, ?_, ?_, ?_, ?_, ?_⟩
  · rw [hb1]
    have := h.size
    rw [this] at hl1 hl2
    have h2 : max (max (s.ctrl.blksize * m) (s.ctrl.blksize * j + s.ctrl.blksize))
        s.ctrl.blksize = s.ctrl.blksize * m := by
      rw [max_eq_left hjle, max_eq_left hnle]
    rw [h2] at hl2
    omega
  · rw [List.length_cons, List.length_erase_of_mem hp]
    omega
  · rw [hb1, hc1]
    refine ⟨rfl, hj0, _, hr1, ?_⟩
    rw [Int64_link _ _ (by have := h.good.lo; unfold CONTROLSIZE at this; omega) hhead]
    exact chain_congr _ _ _ F _
      (fun i b hi hi0 hr => ho1 i b (fun e => hjF (e ▸ hi)) (by omega) hr) h.chain
  · rw [hc1, List.length_cons, h.len]
    exact hflen.symm
  · exact List.nodup_cons.mpr ⟨hjF, h.nodupF⟩
  · exact h.nodupL.erase _
  · intro q hq
    rw [hb1]
    have hq1 := (List.Nodup.mem_erase_iff h.nodupL).mp hq
    obtain ⟨j1, hj1, hj10, hj1m, hj1F⟩ := h.liveOk q hq1.2
    refine ⟨j1, hj1, hj10, hj1m, ?_⟩
    intro hx
    rcases List.mem_cons.mp hx with hx | hx
    · subst hx
      exact hq1.1 hj1
    · exact hj1F hx
  · intro i hi
    rcases List.mem_cons.mp hi with hi | hi
    · subst hi
      exact hjm
    · exact h.freeOk i hi

theorem offset_bound (n k : Nat) (hn : n < 2 ^ 32) (hk : k ≤ 2 ^ 31) : n * k < 2 ^ 63 :=
  calc n * k ≤ 4294967295 * 2147483648 := Nat.mul_le_mul (by omega) (by omega)
    _ < 2 ^ 63 := by norm_num

/-- Every admissible sequence of `Allocate` and `Free` calls runs without error
and keeps the allocator state. -/
theorem runOps_inv {β : Type} (B : Buffer β) (hB : B.Lawful) :
    ∀ (ops : List FileOp) (s : BlockFile β) (live : List Int) (F : List Nat) (m : Nat),
      FreeInv B s live F m → m + ops.length < 2 ^ 31 →
      runOps B ops s live = none ∨
        ∃ s1 live1 F1 m1, runOps B ops s live = some (.ok (s1, live1)) ∧
          s1.ctrl.blksize = s.ctrl.blksize ∧ FreeInv B s1 live1 F1 m1
  | [], s, live, F, m, h, _ => Or.inr ⟨s, live, F, m, rfl, rfl, h⟩
  | .allocate :: ops, s, live, F, m, h, hb => by
    rw [List.length_cons] at hb
    cases F with
    | nil =>
      obtain ⟨s1, ha, hc1, h1⟩ := inv_alloc B s live m h
        (offset_bound _ _ h.good.hi (by omega))
      unfold runOps
      rw [ha]
      simp only
      rcases runOps_inv B hB ops s1 _ [] (m + 1) h1 (by omega) with hr | ⟨s2, l2, F2, m2, hr, hb2, h2⟩
      · exact Or.inl hr
      · exact Or.inr ⟨s2, l2, F2, m2, hr, by rw [hb2, hc1], h2⟩
    | cons j F =>
      obtain ⟨s1, ha, hb1, _, _, h1⟩ := inv_pop B hB s live j F m h
        (offset_bound _ _ h.good.hi (by omega))
      unfold runOps
      rw [ha]
      simp only
      rcases runOps_inv B hB ops s1 _ F m h1 (by omega) with hr | ⟨s2, l2, F2, m2, hr, hb2, h2⟩
      · exact Or.inl hr
      · exact Or.inr ⟨s2, l2, F2, m2, hr, by rw [hb2, hb1], h2⟩
  | .free p :: ops, s, live, F, m, h, hb => by
    rw [List.length_cons] at hb
    unfold runOps
    by_cases hp : p ∈ live
    · rw [if_pos hp]
      obtain ⟨s1, j, _, hf, hb1, _, h1⟩ := inv_free B hB s live F m p h hp
        (offset_bound _ _ h.good.hi (by omega)) (by omega)
      rw [hf]
      simp only
      rcases runOps_inv B hB ops s1 _ (j :: F) m h1 (by omega) with hr | ⟨s2, l2, F2, m2, hr, hb2, h2⟩
      · exact Or.inl hr
      · exact Or.inr ⟨s2, l2, F2, m2, hr, by rw [hb2, hb1], h2⟩
    · rw [if_neg hp]
      exact Or.inl rfl

/-- A BlockFile opened on an empty file with an empty cache: one block, the
control block, and an empty free list. -/
theorem fresh_inv {β : Type} (B : Buffer β) (hB : B.Lawful) (c0 : β)
    (hc0 : ∀ p n, (B.Read c0 p n).1 = none) (size : Nat) (hpos : 0 < size)
    (hmul : size % 4096 = 0) (h32 : size < 2 ^ 32) :
    ∃ t s0, NewBlockFileCustomBlockSize [] c0 size = .ok t ∧ t.Open B = (.ok (), s0) ∧
      s0.ctrl.blksize = size ∧ FreeInv B s0 [] [] 1 := by
  have h20 : CONTROLSIZE ≤ size := by
    unfold CONTROLSIZE
    omega
  have hg : BlockFile.Good B
      { opened := true, buf := c0, file := [],
        ctrl := { blksize := size, free_head := 0, free_len := 0,
                  userdata := List.replicate (uint32_sub size CONTROLSIZE) 0 } } :=
    ⟨rfl, fun i b h => by rw [hc0] at h; simp at h, h20, h32⟩
  obtain ⟨ha, hg1⟩ := alloc_spec B _ hg rfl (by show 0 + size < 2 ^ 63; omega)
  obtain ⟨s0, hw, hg0, hc0', hr0, _, hl1, hl2⟩ := write_ctrlblk_spec B hB _ hg1
  refine ⟨{ opened := false, buf := c0, file := [],
            ctrl := { blksize := size, free_head := 0, free_len := 0,
                      userdata := List.replicate (uint32_sub size CONTROLSIZE) 0 } },
    s0, ?_, ?_, by rw [hc0'], hg0, ?_, rfl, ?_, ?_, List.nodup_nil, List.nodup_nil, ?_, ?_⟩
  · unfold NewBlockFileCustomBlockSize
    rw [if_neg (by simpa using hmul)]
  · unfold BlockFile.Open BlockFile.open BlockFile.Size
    simp only [Bool.true_eq_false, if_false, List.length_nil, Nat.zero_mod, if_true]
    rw [ha]
    exact hw
  · rw [hc0']
    have h1 : size ≤ s0.file.length := by
      have : (([] : ByteSlice) ++ List.replicate size 0).length ≤ s0.file.length := hl1
      rw [List.nil_append, List.length_replicate] at this
      exact this
    have h2 : s0.file.length ≤ max (([] : ByteSlice) ++ List.replicate size 0).length size := hl2
    rw [List.nil_append, List.length_replicate, max_self] at h2
    show s0.file.length = size * 1
    omega
  · rw [hc0']
    exact rfl
  · rw [hc0']
    rfl
  · intro p hp
    exact absurd hp (List.not_mem_nil _)
  · intro j hj
    exact absurd hj (List.not_mem_nil _)

/-- C11 (AllocateNeverCollides): a BlockFile whose block size is a positive
multiple of 4096 below 2^32 is opened on an empty file with an empty cache that
never returns stale bytes. Every sequence of fewer than 2^31 - 1 `Allocate` and
`Free` calls in which each `Free` is applied to a live offset then runs without
error, and afterwards the live offsets are pairwise distinct, the free list
threaded from free_head through the file has no duplicates, its length is
free_len, and no offset on it is live. -/
theorem AllocateNeverCollides {β : Type} (B : Buffer β) (hB : B.Lawful) (c0 : β)
    (hc0 : ∀ p n, (B.Read c0 p n).1 = none) (size : Nat) (hpos : 0 < size)
    (hmul : size % 4096 = 0) (h32 : size < 2 ^ 32) :
    ∃ t s0, NewBlockFileCustomBlockSize [] c0 size = .ok t ∧ t.Open B = (.ok (), s0) ∧
      ∀ ops : List FileOp, ops.length + 1 < 2 ^ 31 →
        runOps B ops s0 [] = none ∨
        ∃ s live F, runOps B ops s0 [] = some (.ok (s, live)) ∧ live.Nodup ∧
          FreeChain s.file s.ctrl.blksize s.ctrl.free_head F ∧ F.Nodup ∧
          F.length = s.ctrl.free_len ∧
          ∀ j ∈ F, ((s.ctrl.blksize * j : Nat) : Int) ∉ live := by
  obtain ⟨t, s0, ht, ho, _, hinv⟩ := fresh_inv B hB c0 hc0 size hpos hmul h32
  refine ⟨t, s0, ht, ho, fun ops hops => ?_⟩
  rcases runOps_inv B hB ops s0 [] [] 1 hinv (by omega) with hr | ⟨s, live, F, m, hr, _, h⟩
  · exact Or.inl hr
  · refine Or.inr ⟨s, live, F, hr, h.nodupL, h.chain, h.nodupF, h.len, ?_⟩
    intro j hj hmem
    obtain ⟨j1, hj1, _, _, hj1F⟩ := h.liveOk _ hmem
    have hn : 0 < s.ctrl.blksize := lt_of_lt_of_le (by decide) h.good.lo
    have := Nat.eq_of_mul_eq_mul_left hn (Int.ofNat.inj hj1)
    subst this
    exact hj1F hj

/-- Witness for C11: a new file with 4096-byte blocks and no cache. -/
theorem AllocateNeverCollides_witness :
    ∃ t s0, NewBlockFileCustomBlockSize [] () 4096 = .ok t ∧
      BlockFile.Open noCache t = (.ok (), s0) ∧
      ∀ ops : List FileOp, ops.length + 1 < 2 ^ 31 →
        runOps noCache ops s0 [] = none ∨
        ∃ s live F, runOps noCache ops s0 [] = some (.ok (s, live)) ∧ live.Nodup ∧
          FreeChain s.file s.ctrl.blksize s.ctrl.free_head F ∧ F.Nodup ∧
          F.length = s.ctrl.free_len ∧
          ∀ j ∈ F, ((s.ctrl.blksize * j : Nat) : Int) ∉ live :=
  AllocateNeverCollides noCache noCache_lawful () (fun _ _ => rfl) 4096 (by decide) (by decide)
    (by decide)

theorem Free_step {β : Type} (B : Buffer β) (hB : B.Lawful) (s : BlockFile β) (n : Nat)
    (hs : s.Good B) (hn : s.ctrl.blksize = n) (j : Nat) (hj : 0 < j) (hlt : n * j < 2 ^ 63)
    (hfl : s.ctrl.free_len + 1 < 2 ^ 32) :
    ∃ s1, s.Free B ((n * j : Nat) : Int) = (.ok (), s1) ∧ s1.Good B ∧
      s1.ctrl.blksize = n ∧ s1.ctrl.free_head = n * j ∧
      s1.ctrl.free_len = s.ctrl.free_len + 1 ∧
      pread s1.file ((n * j : Nat) : Int) n
        = .ok (copy (List.replicate n 0) (ByteSlice64 s.ctrl.free_head)) ∧
      (∀ i b, i ≠ j → i ≠ 0 → pread s.file ((n * i : Nat) : Int) n = .ok b →
        pread s1.file ((n * i : Nat) : Int) n = .ok b) := by
  subst hn
  obtain ⟨s1, hf, hg1, hc1, hr1, ho1, _, _⟩ := Free_spec B hB s hs j hj (by omega)
  refine ⟨s1, hf, hg1, by rw [hc1], by rw [hc1], ?_, hr1, ho1⟩
  rw [hc1]
  exact Nat.mod_eq_of_lt hfl

theorem pop_step {β : Type} (B : Buffer β) (hB : B.Lawful) (s : BlockFile β) (n : Nat)
    (hs : s.Good B) (hn : s.ctrl.blksize = n) (j : Nat) (hj : 0 < j)
    (hlen : s.ctrl.free_len ≠ 0) (hhead : s.ctrl.free_head = n * j) (hlt : n * j < 2 ^ 63)
    (link : Nat) (hlink : link < 2 ^ 64)
    (hr : pread s.file ((n * j : Nat) : Int) n
      = .ok (copy (List.replicate n 0) (ByteSlice64 link))) :
    ∃ s1, s.Allocate B = (.ok ((n * j : Nat) : Int), s1) ∧ s1.Good B ∧
      s1.ctrl.blksize = n ∧ s1.ctrl.free_head = link ∧
      s1.ctrl.free_len + 1 = s.ctrl.free_len ∧
      (∀ i b, i ≠ 0 → pread s.file ((n * i : Nat) : Int) n = .ok b →
        pread s1.file ((n * i : Nat) : Int) n = .ok b) ∧
      s1.file.length = s.file.length := by
  subst hn
  obtain ⟨s1, ha, hg1, hc1, ho1, hl1⟩ := pop_spec B hB s hs j hj hlen hhead hlt _ hr
  have h8 : 8 ≤ s.ctrl.blksize := by
    have := hs.lo
    unfold CONTROLSIZE at this
    omega
  refine ⟨s1, ha, hg1, by rw [hc1], ?_, ?_, ho1, hl1⟩
  · rw [hc1]
    exact Int64_link _ _ h8 hlink
  · rw [hc1]
    show uint32_dec s.ctrl.free_len + 1 = s.ctrl.free_len
    unfold uint32_dec
    rw [if_neg hlen]
    omega

theorem inv_allocate {β : Type} (B : Buffer β) (hB : B.Lawful) (s : BlockFile β)
    (live : List Int) (F : List Nat) (m : Nat) (h : FreeInv B s live F m)
    (hm : m + 1 ≤ 2 ^ 31) :
    ∃ x s1 F1 m1, s.Allocate B = (.ok x, s1) ∧ s1.ctrl.blksize = s.ctrl.blksize ∧
      m1 ≤ m + 1 ∧ FreeInv B s1 (x :: live) F1 m1 := by
  cases F with
  | nil =>
    obtain ⟨s1, ha, hc1, h1⟩ := inv_alloc B s live m h (offset_bound _ _ h.good.hi hm)
    exact ⟨_, s1, [], m + 1, ha, by rw [hc1], le_refl _, h1⟩
  | cons j F =>
    obtain ⟨s1, ha, hb1, _, _, h1⟩ := inv_pop B hB s live j F m h
      (offset_bound _ _ h.good.hi (by omega))
    exact ⟨_, s1, F, m, ha, hb1, by omega, h1⟩

/-- C10 (FreeListLIFO): on an open BlockFile whose cache never returns stale bytes
and agrees with the file, for three distinct block offsets a, b, c other than 0
(and free_len + 3 below 2^32): `Free(a); Free(b); Free(c)` succeed and leave
free_len three higher, the next three `Allocate()` return c, b, a without
changing the length of the file, and free_len is back to its former value.
Moreover, when the file is in a state of the allocator (block 0 is the control
block, every other block live or on the free list), `Allocate`, `Allocate`,
`Free(first)`, `Allocate` returns the freed offset. -/
theorem FreeListLIFO {β : Type} (B : Buffer β) (hB : B.Lawful) (s : BlockFile β)
    (hs : s.Good B) (ia ib ic : Nat) (ha : 0 < ia) (hb : 0 < ib) (hc : 0 < ic)
    (hab : ia ≠ ib) (hac : ia ≠ ic) (hbc : ib ≠ ic)
    (hla : s.ctrl.blksize * ia < 2 ^ 63) (hlb : s.ctrl.blksize * ib < 2 ^ 63)
    (hlc : s.ctrl.blksize * ic < 2 ^ 63) (hfl : s.ctrl.free_len + 3 < 2 ^ 32)
    (hfh : s.ctrl.free_head < 2 ^ 64) :
    (∃ s1 s2 s3 s4 s5 s6,
      s.Free B ((s.ctrl.blksize * ia : Nat) : Int) = (.ok (), s1) ∧
      s1.Free B ((s.ctrl.blksize * ib : Nat) : Int) = (.ok (), s2) ∧
      s2.Free B ((s.ctrl.blksize * ic : Nat) : Int) = (.ok (), s3) ∧
      s3.ctrl.free_len = s.ctrl.free_len + 3 ∧
      s3.Allocate B = (.ok ((s.ctrl.blksize * ic : Nat) : Int), s4) ∧
      s4.Allocate B = (.ok ((s.ctrl.blksize * ib : Nat) : Int), s5) ∧
      s5.Allocate B = (.ok ((s.ctrl.blksize * ia : Nat) : Int), s6) ∧
      s6.ctrl.free_len = s.ctrl.free_len ∧ s6.ctrl.free_head = s.ctrl.free_head ∧
      s4.file.length = s3.file.length ∧ s5.file.length = s3.file.length ∧
      s6.file.length = s3.file.length) ∧
    (∀ live F m, FreeInv B s live F m → m + 3 ≤ 2 ^ 31 →
      ∃ x y s1 s2 s3 s4, s.Allocate B = (.ok x, s1) ∧ s1.Allocate B = (.ok y, s2) ∧
        s2.Free B x = (.ok (), s3) ∧ s3.Allocate B = (.ok x, s4)) := by
  constructor
  · obtain ⟨s1, hf1, hg1, hn1, hh1, hl1, hr1, ho1⟩ :=
      Free_step B hB s _ hs rfl ia ha hla (by omega)
    obtain ⟨s2, hf2, hg2, hn2, hh2, hl2, hr2, ho2⟩ :=
      Free_step B hB s1 _ hg1 hn1 ib hb hlb (by omega)
    obtain ⟨s3, hf3, hg3, hn3, hh3, hl3, hr3, ho3⟩ :=
      Free_step B hB s2 _ hg2 hn2 ic hc hlc (by omega)
    rw [hh2] at hr3
    rw [hh1] at hr2
    obtain ⟨s4, ha4, hg4, hn4, hh4, hl4, ho4, hz4⟩ :=
      pop_step B hB s3 _ hg3 hn3 ic hc (by omega) hh3 hlc _ (by omega) hr3
    have hr2' := ho4 ib _ (by omega) (ho3 ib _ hbc (by omega) hr2)
    obtain ⟨s5, ha5, hg5, hn5, hh5, hl5, ho5, hz5⟩ :=
      pop_step B hB s4 _ hg4 hn4 ib hb (by omega) hh4 hlb _ (by omega) hr2'
    have hr1' := ho5 ia _ (by omega)
      (ho4 ia _ (by omega) (ho3 ia _ hac (by omega) (ho2 ia _ hab (by omega) hr1)))
    obtain ⟨s6, ha6, hg6, hn6, hh6, hl6, ho6, hz6⟩ :=
      pop_step B hB s5 _ hg5 hn5 ia ha (by omega) hh5 hla _ hfh hr1'
    exact ⟨s1, s2, s3, s4, s5, s6, hf1, hf2, hf3, by omega, ha4, ha5, ha6, by omega, hh6,
      hz4, by omega, by omega⟩
  · intro live F m h hm
    obtain ⟨x, s1, F1, m1, ha1, hb1, hm1, h1⟩ := inv_allocate B hB s live F m h (by omega)
    obtain ⟨y, s2, F2, m2, ha2, hb2, hm2, h2⟩ := inv_allocate B hB s1 _ F1 m1 h1 (by omega)
    obtain ⟨s3, j, hx, hf3, hb3, _, h3⟩ := inv_free B hB s2 _ F2 m2 x h2
      (List.mem_cons_of_mem _ (List.mem_cons_self _ _))
      (offset_bound _ _ h2.good.hi (by omega)) (by omega)
    obtain ⟨s4, ha4, _, _, _, _⟩ := inv_pop B hB s3 _ j F2 m2 h3
      (offset_bound _ _ h3.good.hi (by omega))
    rw [hb3, ← hx] at ha4
    exact ⟨x, y, s1, s2, s3, s4, ha1, ha2, hf3, ha4⟩

/-- Witness for C10: the blocks at 4096, 8192 and 12288 of a file of four blocks. -/
theorem FreeListLIFO_witness :
    ∃ s1 s2 s3 s4 s5 s6,
      exFourBlocks.Free noCache ((exFourBlocks.ctrl.blksize * 1 : Nat) : Int) = (.ok (), s1) ∧
      s1.Free noCache ((exFourBlocks.ctrl.blksize * 2 : Nat) : Int) = (.ok (), s2) ∧
      s2.Free noCache ((exFourBlocks.ctrl.blksize * 3 : Nat) : Int) = (.ok (), s3) ∧
      s3.ctrl.free_len = exFourBlocks.ctrl.free_len + 3 ∧
      s3.Allocate noCache = (.ok ((exFourBlocks.ctrl.blksize * 3 : Nat) : Int), s4) ∧
      s4.Allocate noCache = (.ok ((exFourBlocks.ctrl.blksize * 2 : Nat) : Int), s5) ∧
      s5.Allocate noCache = (.ok ((exFourBlocks.ctrl.blksize * 1 : Nat) : Int), s6) ∧
      s6.ctrl.free_len = exFourBlocks.ctrl.free_len ∧
      s6.ctrl.free_head = exFourBlocks.ctrl.free_head ∧
      s4.file.length = s3.file.length ∧ s5.file.length = s3.file.length ∧
      s6.file.length = s3.file.length :=
  (FreeListLIFO noCache noCache_lawful exFourBlocks
    ⟨rfl, fun _ _ h => by simp [noCache] at h, by decide, by decide⟩ 1 2 3
    (by decide) (by decide) (by decide) (by decide) (by decide) (by decide)
    (by decide) (by decide) (by decide) (by decide) (by decide)).1

/-! ### Shrinking the chain -/

theorem save_getLast {δ : Type} (D : BlockDevice δ) (t t' : BlockTable) (file file' : δ)
    (r : Except Err Unit) (h : BlockTable.save D t file = (r, t', file')) :
    (t.blocks.length = 1 → ∀ tail, t'.blocks.getLast? = some tail → tail.header = t.header) ∧
    (2 ≤ t.blocks.length → t'.blocks.getLast? = t.blocks.getLast?) := by
  unfold BlockTable.save at h
  split at h
  · rename_i hb
    simp only [Prod.mk.injEq] at h
    obtain ⟨_, rfl, _⟩ := h
    rw [hb]
    simp
  · rename_i b0 rest hb
    simp only at h
    have ht : t'.blocks = { b0 with header := t.header } :: rest := by
      split at h
      all_goals
        simp only [Prod.mk.injEq] at h
        obtain ⟨_, rfl, _⟩ := h
        rfl
    rw [ht, hb]
    constructor
    · intro h1 tail htail
      have : rest = [] := by
        cases rest with
        | nil => rfl
        | cons x xs => simp at h1
      subst this
      simp only [List.getLast?_singleton, Option.some.injEq] at htail
      rw [← htail]
    · intro h2
      cases rest with
      | nil => simp at h2
      | cons x xs => simp [List.getLast?_cons_cons]

theorem setLastNext_getLast (bs : List block) (x : Int) (hne : bs ≠ []) :
    ∃ l, (setLastNext bs x).getLast? = some l ∧ l.header.next = x := by
  unfold setLastNext
  cases hl : bs.getLast? with
  | none =>
    rw [List.getLast?_eq_none_iff] at hl
    exact absurd hl hne
  | some last =>
    simp only
    refine ⟨{ last with header := { last.header with next := x } }, ?_, rfl⟩
    simp

/-- What a successful `remove_index` does to the chain. -/
theorem remove_index_chain {δ : Type} (D : BlockDevice δ) (t t' : BlockTable)
    (file file' : δ) (i : Nat) (hwf : t.WF) (hi : i < t.header.records)
    (h : BlockTable.remove_index D t file i = (.ok (), t', file')) :
    ((t.header.records - 1) / t.perBlock + 1 < t.blocks.length →
      t'.blocks.length + 1 = t.blocks.length ∧
      t'.header.blocks = uint32_dec t.header.blocks ∧
      (∃ tail, t'.blocks.getLast? = some tail ∧ tail.header.next = 0) ∧
      ∃ freed file1 t2, t.blocks.getLast? = some freed ∧
        D.Free file freed.key = (.ok (), file1) ∧
        BlockTable.save D t2 file1 = (.ok (), t', file')) ∧
    (¬ (t.header.records - 1) / t.perBlock + 1 < t.blocks.length →
      t'.blocks.length = t.blocks.length ∧ t'.header.blocks = t.header.blocks ∧
      ∃ t1, BlockTable.save D t1 file = (.ok (), t', file')) := by
  have hrec : uint32_dec t.header.records = t.header.records - 1 := by
    unfold uint32_dec
    rw [if_neg (by omega)]
  rw [remove_index_eq D t file i hwf.perblk, hrec] at h
  constructor
  · intro hc
    rw [if_pos hc] at h
    have hlen : ¬ t.blocks.length ≤ 1 := by
      have := Nat.zero_le ((t.header.records - 1) / t.perBlock)
      omega
    obtain ⟨freed, hfreed⟩ := getLast?_of_two_le t.blocks hlen
    split at h
    · simp at h
    · rename_i u t2 file1 heq
      have e := (remove_block_eq D
        { key := t.key, header := { t.header with records := t.header.records - 1 },
          blocks := t.blocks, records := shiftDown t.records t.records.length i }
        file freed hlen hfreed).symm.trans heq
      simp only [Prod.mk.injEq] at e
      obtain ⟨e1, e2, e3⟩ := e
      have hF : D.Free file freed.key = (.ok (), file1) := by
        rw [← e1, ← e3]
      subst e2
      cases u
      · obtain ⟨hh, _, hl, _, _⟩ := save_frame D _ _ _ _ _ h
        obtain ⟨hg1, hg2⟩ := save_getLast D _ _ _ _ _ h
        have hdl : t.blocks.dropLast.length + 1 = t.blocks.length := by
          rw [List.length_dropLast]
          omega
        refine ⟨?_, ?_, ?_, freed, file1, _, hfreed, hF, h⟩
        · rw [hl]
          show (if t.blocks.dropLast.length = 1 then t.blocks.dropLast
            else setLastNext t.blocks.dropLast 0).length + 1 = _
          split
          · exact hdl
          · rw [setLastNext_length]
            exact hdl
        · rw [hh]
        · by_cases h1 : t.blocks.dropLast.length = 1
          · simp only [h1, if_true] at hg1 hl
            have hne : t'.blocks ≠ [] := by
              intro he
              rw [he] at hl
              simp at hl
            refine ⟨t'.blocks.getLast hne, List.getLast?_eq_getLast _ hne, ?_⟩
            rw [hg1 trivial _ (List.getLast?_eq_getLast _ hne)]
          · simp only [h1, if_false] at hg2
            have h2 : 2 ≤ (setLastNext t.blocks.dropLast 0).length := by
              rw [setLastNext_length]
              omega
            rw [hg2 h2]
            exact setLastNext_getLast _ _ (by
              intro he
              rw [he] at hdl
              simp at hdl
              omega)
  · intro hc
    rw [if_neg hc] at h
    obtain ⟨hh, _, hl, _, _⟩ := save_frame D _ _ _ _ _ h
    exact ⟨hl, by rw [hh], _, h⟩

theorem WriteBlock_ctrl {β : Type} (B : Buffer β) (s : BlockFile β) (p : Int) (b : ByteSlice) :
    (s.WriteBlock B p b).2.ctrl = s.ctrl := by
  unfold BlockFile.WriteBlock
  split
  · rfl
  · simp only
    split
    · rfl
    · split <;> rfl

theorem writeBlocks_ctrl {β : Type} (B : Buffer β) (length : Nat) (records : List record) :
    ∀ (bs : List block) (j : Nat) (s : BlockFile β),
      (writeBlocks (BlockFile.device B) length records bs j s).2.ctrl = s.ctrl
  | [], _, _ => rfl
  | blk :: rest, j, s => by
    unfold writeBlocks
    have h := WriteBlock_ctrl B s blk.key
      (blockBytes blk.header (slotBytes blk.datalen ((records.drop (j * length)).take length)))
    split
    · rename_i e s1 heq
      have : s1 = (BlockFile.WriteBlock B s blk.key (blockBytes blk.header
          (slotBytes blk.datalen ((records.drop (j * length)).take length)))).2 := by
        show s1 = ((BlockFile.device B).WriteBlock s blk.key _).2
        rw [heq]
      rw [this]
      exact h
    · rename_i u s1 heq
      have : s1 = (BlockFile.WriteBlock B s blk.key (blockBytes blk.header
          (slotBytes blk.datalen ((records.drop (j * length)).take length)))).2 := by
        show s1 = ((BlockFile.device B).WriteBlock s blk.key _).2
        rw [heq]
      rw [writeBlocks_ctrl B length records rest (j + 1) s1, this]
      exact h

theorem save_ctrl {β : Type} (B : Buffer β) (t t' : BlockTable) (s s' : BlockFile β)
    (r : Except Err Unit) (h : BlockTable.save (BlockFile.device B) t s = (r, t', s')) :
    s'.ctrl = s.ctrl := by
  unfold BlockTable.save at h
  split at h
  · simp only [Prod.mk.injEq] at h
    rw [← h.2.2]
  · simp only at h
    split at h
    · rename_i e s1 heq
      simp only [Prod.mk.injEq] at h
      rw [← h.2.2]
      have e2 := congrArg (fun x => x.2.ctrl) heq
      simp only [writeBlocks_ctrl] at e2
      exact e2.symm
    · rename_i u s1 heq
      simp only [Prod.mk.injEq] at h
      rw [← h.2.2]
      have e2 := congrArg (fun x => x.2.ctrl) heq
      simp only [writeBlocks_ctrl] at e2
      exact e2.symm

theorem write_ctrlblk_ctrl {β : Type} (B : Buffer β) (s : BlockFile β) :
    (s.write_ctrlblk B).2.ctrl = s.ctrl := by
  unfold BlockFile.write_ctrlblk
  split
  · rfl
  · exact WriteBlock_ctrl B s 0 _

/-- A successful `Free` makes the freed offset the head of the free list. -/
theorem Free_head {β : Type} (B : Buffer β) (s s' : BlockFile β) (pos : Int)
    (h : s.Free B pos = (.ok (), s')) :
    s'.ctrl.free_head = uint64 pos ∧ s'.ctrl.free_len = (s.ctrl.free_len + 1) % 2 ^ 32 ∧
      s'.ctrl.blksize = s.ctrl.blksize := by
  unfold BlockFile.Free at h
  simp only at h
  have hw := WriteBlock_ctrl B s pos
    (copy (List.replicate s.ctrl.blksize 0) (ByteSlice64 s.ctrl.free_head))
  split at h
  · simp at h
  · rename_i u s1 heq
    rw [heq] at hw
    simp only at hw
    have := write_ctrlblk_ctrl B
      { s1 with ctrl := { s1.ctrl with free_head := uint64 pos,
                                       free_len := (s1.ctrl.free_len + 1) % 2 ^ 32 } }
    rw [h] at this
    simp only at this
    rw [this, hw]
    exact ⟨rfl, rfl, rfl⟩

theorem Remove_eq_remove_index {δ : Type} (D : BlockDevice δ) (t t' : BlockTable)
    (file file' : δ) (key : ByteSlice) (hwf : t.WF) (hs : SortedKeys t.occupied)
    (h : BlockTable.Remove D t file key = (.ok (), t', file')) :
    countLt t.occupied key < t.header.records ∧
      BlockTable.remove_index D t file (countLt t.occupied key) = (.ok (), t', file') := by
  have hcov := hwf.cover
  have hfit := hwf.fits
  have hfind := find_sorted t.occupied key hs
  rw [occupied_eq] at hfind
  by_cases hex : ∃ x ∈ t.occupied, x.key = key
  · have hfirst := countLt_first_index t.occupied key hs hex
    have hi : countLt t.occupied key < t.header.records := by
      rw [← occupied_length t hwf]
      exact hfirst.1
    refine ⟨hi, ?_⟩
    rw [← h]
    unfold BlockTable.Remove
    rw [if_neg (by omega), hfind]
    rw [occupied_eq] at hex
    simp [hex, occupied_eq]
  · exfalso
    unfold BlockTable.Remove at h
    rw [if_neg (by omega), hfind] at h
    rw [occupied_eq] at hex
    simp [hex] at h

/-- C15 (RemoveShrinks): let a `remove_index`, or a `Remove` on a sorted table,
succeed on a table that satisfies the data-model invariants and whose
`header.blocks` is the length of its chain. When `records/R + 1 < blocks` holds
with the decremented record count, the chain has one block fewer,
`header.blocks` is one less, the new tail's next pointer is 0, and the device's
`Free` was called, successfully, with the offset of the former tail block
before the chain was saved; on a BlockFile that offset is then the head of the
free list and free_len is one higher. Otherwise the chain and `header.blocks`
are unchanged and the device only sees the writes of `save`; on a BlockFile the
free list is unchanged. -/
theorem RemoveShrinks :
    (∀ {δ : Type} (D : BlockDevice δ) (t t' : BlockTable) (file file' : δ),
      t.WF → t.header.blocks = t.blocks.length →
      ((∃ i, i < t.header.records ∧ t.remove_index D file i = (.ok (), t', file')) ∨
        (SortedKeys t.occupied ∧ ∃ key, t.Remove D file key = (.ok (), t', file'))) →
      (t.shrinks →
        t'.blocks.length + 1 = t.blocks.length ∧ t'.header.blocks + 1 = t.header.blocks ∧
        (∃ tail, t'.blocks.getLast? = some tail ∧ tail.header.next = 0) ∧
        ∃ freed file1 t2, t.blocks.getLast? = some freed ∧
          D.Free file freed.key = (.ok (), file1) ∧
          BlockTable.save D t2 file1 = (.ok (), t', file')) ∧
      (¬ t.shrinks →
        t'.blocks.length = t.blocks.length ∧ t'.header.blocks = t.header.blocks ∧
        ∃ t1, BlockTable.save D t1 file = (.ok (), t', file'))) ∧
    (∀ {β : Type} (B : Buffer β) (t t' : BlockTable) (s s' : BlockFile β),
      t.WF → t.header.blocks = t.blocks.length →
      ((∃ i, i < t.header.records ∧
          t.remove_index (BlockFile.device B) s i = (.ok (), t', s')) ∨
        (SortedKeys t.occupied ∧
          ∃ key, t.Remove (BlockFile.device B) s key = (.ok (), t', s'))) →
      (t.shrinks → ∃ freed, t.blocks.getLast? = some freed ∧
        s'.ctrl.free_head = uint64 freed.key ∧
        s'.ctrl.free_len = (s.ctrl.free_len + 1) % 2 ^ 32) ∧
      (¬ t.shrinks → s'.ctrl = s.ctrl)) := by
  have gen : ∀ {δ : Type} (D : BlockDevice δ) (t t' : BlockTable) (file file' : δ),
      t.WF → t.header.blocks = t.blocks.length →
      ((∃ i, i < t.header.records ∧ t.remove_index D file i = (.ok (), t', file')) ∨
        (SortedKeys t.occupied ∧ ∃ key, t.Remove D file key = (.ok (), t', file'))) →
      (t.shrinks →
        t'.blocks.length + 1 = t.blocks.length ∧ t'.header.blocks + 1 = t.header.blocks ∧
        (∃ tail, t'.blocks.getLast? = some tail ∧ tail.header.next = 0) ∧
        ∃ freed file1 t2, t.blocks.getLast? = some freed ∧
          D.Free file freed.key = (.ok (), file1) ∧
          BlockTable.save D t2 file1 = (.ok (), t', file')) ∧
      (¬ t.shrinks →
        t'.blocks.length = t.blocks.length ∧ t'.header.blocks = t.header.blocks ∧
        ∃ t1, BlockTable.save D t1 file = (.ok (), t', file')) := by
    intro δ D t t' file file' hwf hb hrem
    obtain ⟨i, hi, h⟩ : ∃ i, i < t.header.records ∧
        t.remove_index D file i = (.ok (), t', file') := by
      rcases hrem with h | ⟨hs, key, h⟩
      · exact h
      · exact ⟨_, Remove_eq_remove_index D t t' file file' key hwf hs h⟩
    obtain ⟨h1, h2⟩ := remove_index_chain D t t' file file' i hwf hi h
    refine ⟨fun hc => ?_, h2⟩
    obtain ⟨a, b, c, d⟩ := h1 hc
    refine ⟨a, ?_, c, d⟩
    rw [b]
    unfold uint32_dec
    have : 0 < t.blocks.length := perBlock_pos_blocks t hwf.perblk
    rw [if_neg (by omega)]
    omega
  refine ⟨gen, ?_⟩
  intro β B t t' s s' hwf hb hrem
  obtain ⟨h1, h2⟩ := gen (BlockFile.device B) t t' s s' hwf hb hrem
  constructor
  · intro hc
    obtain ⟨_, _, _, freed, s1, t2, hfreed, hF, hsave⟩ := h1 hc
    obtain ⟨e1, e2, _⟩ := Free_head B s s1 freed.key hF
    have := save_ctrl B _ _ _ _ _ hsave
    exact ⟨freed, hfreed, by rw [this, e1], by rw [this, e2]⟩
  · intro hc
    obtain ⟨_, _, t1, hsave⟩ := h2 hc
    exact save_ctrl B _ _ _ _ _ hsave

/-- Witness for C15: removing one of the three records of a two-block table on
the in-memory device drops the tail block. -/
theorem RemoveShrinks_witness :
    exState3.1.shrinks ∧
    exRemoved.2.1.blocks.length + 1 = exState3.1.blocks.length ∧
    exRemoved.2.1.header.blocks + 1 = exState3.1.header.blocks ∧
    (∃ tail, exRemoved.2.1.blocks.getLast? = some tail ∧ tail.header.next = 0) ∧
    ∃ freed file1 t2, exState3.1.blocks.getLast? = some freed ∧
      memDevice.Free exState3.2 freed.key = (.ok (), file1) ∧
      BlockTable.save memDevice t2 file1 = (.ok (), exRemoved.2.1, exRemoved.2.2) :=
  ⟨by decide,
    (RemoveShrinks.1 memDevice exState3.1 exRemoved.2.1 exState3.2 exRemoved.2.2
      ⟨by decide, by decide, by decide, by decide, by decide, by decide⟩ (by decide)
      (Or.inr ⟨by decide, [0, 0, 0, 2], by decide⟩)).1 (by decide)⟩

/-! ### The length of the chain under Put and Remove -/

theorem add_block_header_blocks {δ : Type} (D : BlockDevice δ) (t t' : BlockTable)
    (file file' : δ) (h : BlockTable.add_block D t file = (Except.ok (), t', file')) :
    t'.header.blocks = (t.header.blocks + 1) % 2 ^ 32 := by
  unfold BlockTable.add_block at h
  split at h
  · simp at h
  · simp only at h
    split at h
    · simp at h
    · split at h
      · simp at h
      · have hs := save_frame D _ _ _ _ _ h
        rw [hs.1]

/-- A successful `put` leaves the chain as its growth step left it. -/
theorem put_chain {δ γ : Type} (D : BlockDevice δ)
    (f : γ → record → Except Err (Bool × ByteSlice) × γ)
    (t t' : BlockTable) (file file' : δ) (g g' : γ) (key value : ByteSlice)
    (hput : BlockTable.put D f t file g key value = (Except.ok (), t', file', g')) :
    ∃ t1 file1,
      (if t.records.length ≤ t.header.records + 1 then t.add_block D file
        else (Except.ok (), t, file)) = (Except.ok (), t1, file1) ∧
      t'.blocks.length = t1.blocks.length ∧ t'.header.blocks = t1.header.blocks := by
  unfold BlockTable.put at hput
  split at hput
  · simp at hput
  split at hput
  · simp at hput
  simp only at hput
  split at hput
  · simp at hput
  rename_i u t1 file1 hgrow
  cases u
  refine ⟨t1, file1, hgrow, ?_⟩
  split at hput
  · simp at hput
  split at hput
  · simp at hput
  split at hput
  · simp at hput
  · split at hput
    · simp at hput
    simp only [Prod.mk.injEq] at hput
    obtain ⟨hres, ht', hf', _⟩ := hput
    have hsave := save_frame D _ _ _ _ _ (Prod.ext hres (Prod.ext ht' hf') :
      BlockTable.save D _ file1 = (Except.ok (), t', file'))
    exact ⟨hsave.2.2.1, by rw [hsave.1]⟩
  · split at hput
    · simp at hput
    simp only [Prod.mk.injEq] at hput
    obtain ⟨hres, ht', hf', _⟩ := hput
    have hsave := save_frame D _ _ _ _ _ (Prod.ext hres (Prod.ext ht' hf') :
      BlockTable.save D _ file1 = (Except.ok (), t', file'))
    exact ⟨hsave.2.2.1, by rw [hsave.1]⟩

theorem Put_chain {δ : Type} (D : BlockDevice δ) (t t' : BlockTable) (file file' : δ)
    (key value : ByteSlice)
    (hput : BlockTable.Put D t file key value = (Except.ok (), t', file')) :
    (t.records.length ≤ t.header.records + 1 →
      t'.blocks.length = t.blocks.length + 1 ∧
      t'.header.blocks = (t.header.blocks + 1) % 2 ^ 32) ∧
    (¬ t.records.length ≤ t.header.records + 1 →
      t'.blocks.length = t.blocks.length ∧ t'.header.blocks = t.header.blocks) := by
  unfold BlockTable.Put at hput
  split at hput
  rename_i r t2 file2 g2 heq
  simp only [Prod.mk.injEq] at hput
  obtain ⟨rfl, rfl, rfl⟩ := hput
  obtain ⟨t1, file1, hg, h1, h2⟩ := put_chain D _ t _ file _ _ _ key value heq
  constructor
  · intro hc
    rw [if_pos hc] at hg
    obtain ⟨_, _, _, hl, _⟩ := add_block_ok D t t1 file file1 hg
    exact ⟨by rw [h1, hl], by rw [h2, add_block_header_blocks D t t1 file file1 hg]⟩
  · intro hc
    rw [if_neg hc] at hg
    simp only [Prod.mk.injEq] at hg
    obtain ⟨_, rfl, _⟩ := hg
    exact ⟨h1, h2⟩

theorem shiftDown_sizes (ks vs : Nat) : ∀ (fuel i : Nat) (all : List record),
    (∀ r ∈ all, r.key.length = ks ∧ r.value.length = vs) →
    ∀ r ∈ shiftDown all fuel i, r.key.length = ks ∧ r.value.length = vs
  | 0, _, all, h => h
  | fuel + 1, i, all, h => by
    unfold shiftDown
    split
    · split
      · rename_i cur next hcur hnext
        apply shiftDown_sizes ks vs fuel (i + 1)
        intro r hr
        rcases List.mem_or_eq_of_mem_set hr with h1 | h1
        · exact h r h1
        · subst h1
          have hc := h cur (List.getElem?_mem hcur)
          exact ⟨by rw [copy_length]; exact hc.1, by rw [copy_length]; exact hc.2⟩
      · exact h
    · exact h

/-- A successful `Remove` that does not shrink the chain keeps the table in
order. -/
theorem Remove_keeps {δ : Type} (D : BlockDevice δ) (t t' : BlockTable) (file file' : δ)
    (key : ByteSlice) (hwf : t.WF) (hs : SortedKeys t.occupied) (hn : ¬ t.shrinks)
    (h : BlockTable.Remove D t file key = (.ok (), t', file')) :
    t'.WF ∧ SortedKeys t'.occupied ∧ t'.perBlock = t.perBlock ∧
      t'.header.records + 1 = t.header.records ∧ t'.blocks.length = t.blocks.length ∧
      t'.header.blocks = t.header.blocks ∧ t'.records.length = t.records.length := by
  obtain ⟨hi, hri⟩ := Remove_eq_remove_index D t t' file file' key hwf hs h
  obtain ⟨hrec, hocc⟩ := remove_index_spec D t t' file file' _ _ hwf hi hri
  obtain ⟨_, h2⟩ := remove_index_chain D t t' file file' _ hwf hi hri
  obtain ⟨hl, hb, t1, hsave⟩ := h2 hn
  have hrec' : uint32_dec t.header.records = t.header.records - 1 := by
    unfold uint32_dec
    rw [if_neg (by omega)]
  have heq := remove_index_eq D t file (countLt t.occupied key) hwf.perblk
  unfold BlockTable.shrinks at hn
  rw [hrec', if_neg hn] at heq
  rw [heq] at hri
  obtain ⟨s1, s2, s3, s4, s5⟩ := save_frame D _ _ _ _ _ hri
  simp only at s1 s2
  replace s4 : t'.perBlock = t.perBlock := s4
  have hsub : (t.occupied.take (countLt t.occupied key)
      ++ t.occupied.drop (countLt t.occupied key + 1)).Sublist t.occupied := by
    conv_rhs => rw [← List.take_append_drop (countLt t.occupied key) t.occupied]
    exact List.Sublist.append (List.Sublist.refl _)
      (List.drop_sublist_drop_left _ (Nat.le_succ _))
  refine ⟨⟨?_, ?_, ?_, ?_, ?_, ?_⟩, ?_, s4, hrec, hl, hb, ?_⟩
  · rw [s1]
    exact hwf.recsize
  · rw [s4]
    exact hwf.perblk
  · rw [s4, hl, s2, shiftDown_length]
    exact hwf.cover
  · rw [s4, hl]
    have := hwf.fits
    omega
  · intro r hr
    rw [s2] at hr
    rw [s1]
    exact shiftDown_sizes _ _ _ _ _ hwf.sizes r hr
  · have := hwf.range
    omega
  · rw [hocc]
    exact List.Pairwise.sublist hsub hs
  · rw [s2, shiftDown_length]

/-- A successful `Put` of a key that is not in the table keeps the table in
order, adds one record, and grows the chain by one block exactly when the
table was one record short of full. -/
theorem Put_fresh {δ : Type} (D : BlockDevice δ) (t t' : BlockTable) (file file' : δ)
    (key value : ByteSlice) (hf : t.Fresh) (habs : ¬ ∃ x ∈ t.occupied, x.key = key)
    (hroom : t.header.records + 1 < 2 ^ 32) (hbl : t.blocks.length + 1 < 2 ^ 32)
    (hput : BlockTable.Put D t file key value = (Except.ok (), t', file')) :
    t'.Fresh ∧ t'.perBlock = t.perBlock ∧ t'.header.records = t.header.records + 1 ∧
    (t.perBlock * t.blocks.length ≤ t.header.records + 1 →
      t'.blocks.length = t.blocks.length + 1) ∧
    (¬ t.perBlock * t.blocks.length ≤ t.header.records + 1 →
      t'.blocks.length = t.blocks.length) ∧
    (∀ k, (∃ x ∈ t'.occupied, x.key = k) ↔ (k = key ∨ ∃ x ∈ t.occupied, x.key = k)) := by
  obtain ⟨p1, p2, p3, p4, p5, p6, p7, p8, p9, p10, _, p12⟩ :=
    Put_spec D t t' file file' key value hf.wf hf.sorted hput
  obtain ⟨q1, q2⟩ := p9 hf.view
  obtain ⟨r1, spot, _, r2, _⟩ := p12 habs
  have hrec : t'.header.records = t.header.records + 1 := by
    rw [r1]
    exact Nat.mod_eq_of_lt hroom
  obtain ⟨c1, c2⟩ := Put_chain D t t' file file' key value hput
  rw [hf.view] at c1 c2
  have hocc : t'.occupied = t.occupied.take (countLt t.occupied key)
      ++ ⟨key, copy spot.value value⟩ :: t.occupied.drop (countLt t.occupied key) := by
    rw [occupied_eq, hrec]
    exact r2
  refine ⟨⟨⟨?_, ?_, p7, ?_, ?_, ?_⟩, Put_sorted D t t' file file' key value hf.wf hf.sorted hput,
    q1, ?_⟩, p5, hrec, fun h => (c1 h).1, fun h => (c2 h).1, ?_⟩
  · rw [p3, p4]
    exact hf.wf.recsize
  · rw [p5]
    exact hf.wf.perblk
  · rw [hrec]
    exact q2
  · intro r hr
    rw [p3, p4]
    exact p8 r hr
  · rw [hrec]
    exact hroom
  · by_cases h : t.perBlock * t.blocks.length ≤ t.header.records + 1
    · obtain ⟨e1, e2⟩ := c1 h
      rw [e2, e1, hf.hblocks]
      exact Nat.mod_eq_of_lt hbl
    · obtain ⟨e1, e2⟩ := c2 h
      rw [e2, e1]
      exact hf.hblocks
  · intro k
    rw [hocc]
    constructor
    · rintro ⟨x, hx, hk⟩
      rcases List.mem_append.mp hx with h | h
      · exact Or.inr ⟨x, List.mem_of_mem_take h, hk⟩
      · rcases List.mem_cons.mp h with h | h
        · subst h
          exact Or.inl hk.symm
        · exact Or.inr ⟨x, List.mem_of_mem_drop h, hk⟩
    · rintro (h | ⟨x, hx, hk⟩)
      · exact ⟨_, List.mem_append_right _ (List.mem_cons_self _ _), h.symm⟩
      · refine ⟨x, ?_, hk⟩
        rw [← List.take_append_drop (countLt t.occupied key) t.occupied] at hx
        rcases List.mem_append.mp hx with h | h
        · exact List.mem_append_left _ h
        · exact List.mem_append_right _ (List.mem_cons_of_mem _ h)

/-- Distinct keys put one after the other into a table that is not yet over one
block: the chain has one block while fewer than `R` records are held and two
from then on, up to `R + 1` records. -/
theorem putAll_chain {δ : Type} (D : BlockDevice δ) (R : Nat) (hR : 2 ≤ R)
    (hR32 : R + 2 < 2 ^ 32) :
    ∀ (kvs : List (ByteSlice × ByteSlice)) (t t' : BlockTable) (file file' : δ),
      t.Fresh → t.perBlock = R → (kvs.map Prod.fst).Nodup →
      (∀ kv ∈ kvs, ¬ ∃ x ∈ t.occupied, x.key = kv.1) →
      t.header.records + kvs.length ≤ R + 1 →
      (t.blocks.length = if t.header.records < R then 1 else 2) →
      putAll D kvs t file = (.ok (), t', file') →
      t'.Fresh ∧ t'.perBlock = R ∧ t'.header.records = t.header.records + kvs.length ∧
        (t'.blocks.length = if t'.header.records < R then 1 else 2)
  | [], t, t', file, file', hf, hp, _, _, _, hq, h => by
    unfold putAll at h
    simp only [Prod.mk.injEq] at h
    obtain ⟨_, rfl, _⟩ := h
    exact ⟨hf, hp, rfl, hq⟩
  | kv :: rest, t, t', file, file', hf, hp, hnd, habs, hlen, hq, h => by
    unfold putAll at h
    rw [List.length_cons] at hlen
    rw [List.map_cons, List.nodup_cons] at hnd
    split at h
    · simp at h
    · rename_i u t1 file1 hput
      cases u
      have hb2 : t.blocks.length ≤ 2 := by
        rw [hq]
        split <;> omega
      obtain ⟨f1, p1, r1, g1, g2, k1⟩ := Put_fresh D t t1 file file1 kv.1 kv.2 hf
        (habs kv (List.mem_cons_self _ _)) (by omega) (by omega) hput
      have hq1 : t1.blocks.length = if t1.header.records < R then 1 else 2 := by
        rw [r1]
        by_cases hlt : t.header.records < R
        · rw [if_pos hlt] at hq
          rw [hq, hp, Nat.mul_one] at g1 g2
          by_cases h1 : t.header.records + 1 < R
          · rw [if_pos h1, g2 (by omega)]
          · rw [if_neg h1, g1 (by omega)]
        · rw [if_neg hlt] at hq
          rw [hq, hp] at g1 g2
          rw [if_neg (by omega), g2 (by omega)]
      have := putAll_chain D R hR hR32 rest t1 t' file1 file' f1 (by rw [p1, hp]) hnd.2
        (by
          intro kv' hkv' hex
          rcases (k1 kv'.1).mp hex with h1 | h1
          · exact hnd.1 (by rw [← h1]; exact List.mem_map_of_mem _ hkv')
          · exact habs kv' (List.mem_cons_of_mem _ hkv') h1)
        (by omega) hq1 h
      obtain ⟨a, b, c, d⟩ := this
      exact ⟨a, b, by rw [c, r1, List.length_cons]; omega, d⟩

theorem NewBlockTable_blocks {δ : Type} (D : BlockDevice δ) (file file' : δ) (ks vs : Nat)
    (bt : BlockTable) (h : NewBlockTable D file ks vs = (Except.ok bt, file')) :
    bt.header.blocks = 1 := by
  unfold NewBlockTable at h
  split at h
  · simp at h
  split at h
  · simp at h
  simp only at h
  split at h
  · simp at h
  split at h
  · simp at h
  simp only [Prod.mk.injEq, Except.ok.injEq] at h
  obtain ⟨rfl, _⟩ := h
  rfl

theorem NewBlockTable_fresh {δ : Type} (D : BlockDevice δ) (file file' : δ) (ks vs : Nat)
    (bt : BlockTable) (h : NewBlockTable D file ks vs = (Except.ok bt, file'))
    (hR : 2 ≤ bt.perBlock) : bt.Fresh ∧ bt.header.records = 0 ∧ bt.blocks.length = 1 := by
  obtain ⟨h1, h2, h3, h4, h5⟩ := NewBlockTable_ok D file file' ks vs bt h
  have hb := NewBlockTable_blocks D file file' ks vs bt h
  have hlen : bt.records.length = bt.perBlock := by
    rw [h5, List.length_replicate]
  have hocc : bt.occupied = [] := by
    rw [occupied_eq, h3]
    rfl
  refine ⟨⟨⟨?_, by omega, ?_, ?_, ?_, ?_⟩, ?_, ?_, ?_⟩, h3, h4⟩
  · by_contra h0
    have hz : bt.header.keysize + bt.header.valsize = 0 := by omega
    have := perBlock_eq bt
    rw [hz, Nat.div_zero] at this
    omega
  · rw [h4, hlen, Nat.mul_one]
  · rw [h3]
    exact Nat.zero_le _
  · intro r hr
    rw [h5] at hr
    rw [(List.mem_replicate.mp hr).2, h1, h2]
    exact ⟨List.length_replicate _ _, List.length_replicate _ _⟩
  · rw [h3]
    norm_num
  · rw [hocc]
    exact List.Pairwise.nil
  · rw [h4, hlen, Nat.mul_one]
  · rw [hb, h4]

/-- C16, amended: on a freshly created BlockTable with `R >= 2` records to a block,
after `R + 1` distinct keys were put the chain has exactly 2 blocks; a first
`Remove` leaves `R` records and still 2 blocks; the `Remove` after it, which
leaves `R - 1` records, makes the chain 1 block long and passes the offset of
the dropped block to the device's `Free`; on a BlockFile that offset is then
free_head. -/
theorem fill_then_remove :
    (∀ {δ : Type} (D : BlockDevice δ) (file file0 file1 file2 file3 : δ) (ks vs : Nat)
      (t0 t1 t2 t3 : BlockTable) (kvs : List (ByteSlice × ByteSlice)) (r1 r2 : ByteSlice),
      NewBlockTable D file ks vs = (.ok t0, file0) → 2 ≤ t0.perBlock →
      t0.perBlock + 2 < 2 ^ 32 → kvs.length = t0.perBlock + 1 → (kvs.map Prod.fst).Nodup →
      putAll D kvs t0 file0 = (.ok (), t1, file1) →
      t1.Remove D file1 r1 = (.ok (), t2, file2) →
      t2.Remove D file2 r2 = (.ok (), t3, file3) →
      t1.header.records = t0.perBlock + 1 ∧ t1.blocks.length = 2 ∧
      t2.header.records = t0.perBlock ∧ t2.blocks.length = 2 ∧
      t3.header.records + 1 = t0.perBlock ∧ t3.blocks.length = 1 ∧
      ∃ freed file' t', t2.blocks.getLast? = some freed ∧
        D.Free file2 freed.key = (.ok (), file') ∧
        BlockTable.save D t' file' = (.ok (), t3, file3)) ∧
    (∀ {β : Type} (B : Buffer β) (s s0 s1 s2 s3 : BlockFile β) (ks vs : Nat)
      (t0 t1 t2 t3 : BlockTable) (kvs : List (ByteSlice × ByteSlice)) (r1 r2 : ByteSlice),
      NewBlockTable (BlockFile.device B) s ks vs = (.ok t0, s0) → 2 ≤ t0.perBlock →
      t0.perBlock + 2 < 2 ^ 32 → kvs.length = t0.perBlock + 1 → (kvs.map Prod.fst).Nodup →
      putAll (BlockFile.device B) kvs t0 s0 = (.ok (), t1, s1) →
      t1.Remove (BlockFile.device B) s1 r1 = (.ok (), t2, s2) →
      t2.Remove (BlockFile.device B) s2 r2 = (.ok (), t3, s3) →
      t3.blocks.length = 1 ∧
      ∃ freed, t2.blocks.getLast? = some freed ∧ s3.ctrl.free_head = uint64 freed.key) := by
  have gen : ∀ {δ : Type} (D : BlockDevice δ) (file file0 file1 file2 file3 : δ) (ks vs : Nat)
      (t0 t1 t2 t3 : BlockTable) (kvs : List (ByteSlice × ByteSlice)) (r1 r2 : ByteSlice),
      NewBlockTable D file ks vs = (.ok t0, file0) → 2 ≤ t0.perBlock →
      t0.perBlock + 2 < 2 ^ 32 → kvs.length = t0.perBlock + 1 → (kvs.map Prod.fst).Nodup →
      putAll D kvs t0 file0 = (.ok (), t1, file1) →
      t1.Remove D file1 r1 = (.ok (), t2, file2) →
      t2.Remove D file2 r2 = (.ok (), t3, file3) →
      t1.header.records = t0.perBlock + 1 ∧ t1.blocks.length = 2 ∧
      t2.header.records = t0.perBlock ∧ t2.blocks.length = 2 ∧
      t3.header.records + 1 = t0.perBlock ∧ t3.blocks.length = 1 ∧
      ∃ freed file' t', t2.blocks.getLast? = some freed ∧
        D.Free file2 freed.key = (.ok (), file') ∧
        BlockTable.save D t' file' = (.ok (), t3, file3) := by
    intro δ D file file0 file1 file2 file3 ks vs t0 t1 t2 t3 kvs r1 r2 hnew hR hR32 hlen hnd
      hput hrem1 hrem2
    obtain ⟨hf0, hrec0, hbl0⟩ := NewBlockTable_fresh D file file0 ks vs t0 hnew hR
    have hocc0 : t0.occupied = [] := by
      rw [occupied_eq, hrec0]
      rfl
    obtain ⟨hf1, hp1, hrec1, hbl1⟩ := putAll_chain D t0.perBlock hR hR32 kvs t0 t1 file0 file1
      hf0 rfl hnd (by intro kv _ hex; rw [hocc0] at hex; simp at hex) (by omega)
      (by rw [hrec0, hbl0, if_pos (by omega)]) hput
    rw [hrec0, Nat.zero_add, hlen] at hrec1
    rw [hrec1, if_neg (by omega)] at hbl1
    have hRpos : 0 < t0.perBlock := by omega
    have hns1 : ¬ t1.shrinks := by
      unfold BlockTable.shrinks
      rw [hrec1, hp1, hbl1, Nat.add_sub_cancel, Nat.div_self hRpos]
      omega
    obtain ⟨hwf2, hs2, hp2, hrec2, hbl2, _, _⟩ :=
      Remove_keeps D t1 t2 file1 file2 r1 hf1.wf hf1.sorted hns1 hrem1
    have hrec2' : t2.header.records = t0.perBlock := by omega
    have hsh2 : t2.shrinks := by
      unfold BlockTable.shrinks
      rw [hrec2', hp2, hp1, hbl2, hbl1, Nat.div_eq_of_lt (by omega)]
      omega
    obtain ⟨hi, hri⟩ := Remove_eq_remove_index D t2 t3 file2 file3 r2 hwf2 hs2 hrem2
    obtain ⟨hrec3, _⟩ := remove_index_spec D t2 t3 file2 file3 _ _ hwf2 hi hri
    obtain ⟨h1, _⟩ := remove_index_chain D t2 t3 file2 file3 _ hwf2 hi hri
    obtain ⟨hl3, _, _, hfree⟩ := h1 hsh2
    exact ⟨hrec1, hbl1, hrec2', by rw [hbl2, hbl1], by omega, by omega, hfree⟩
  refine ⟨gen, ?_⟩
  intro β B s s0 s1 s2 s3 ks vs t0 t1 t2 t3 kvs r1 r2 hnew hR hR32 hlen hnd hput hrem1 hrem2
  obtain ⟨_, _, _, _, _, hl3, freed, s', t', hfreed, hF, hsave⟩ :=
    gen (BlockFile.device B) s s0 s1 s2 s3 ks vs t0 t1 t2 t3 kvs r1 r2 hnew hR hR32 hlen hnd
      hput hrem1 hrem2
  obtain ⟨e1, _, _⟩ := Free_head B s2 s' freed.key hF
  have := save_ctrl B _ _ _ _ _ hsave
  exact ⟨hl3, freed, hfreed, by rw [this, e1]⟩

/-- Witness for C16: four keys put into the new table on the in-memory device
(three records to a block), then two of them removed. -/
theorem fill_then_remove_witness :
    exFull.2.1.header.records = exTable0.perBlock + 1 ∧ exFull.2.1.blocks.length = 2 ∧
    exLess.2.1.header.records = exTable0.perBlock ∧ exLess.2.1.blocks.length = 2 ∧
    exShrunk.2.1.header.records + 1 = exTable0.perBlock ∧ exShrunk.2.1.blocks.length = 1 ∧
    ∃ freed file' t', exLess.2.1.blocks.getLast? = some freed ∧
      memDevice.Free exLess.2.2 freed.key = (.ok (), file') ∧
      BlockTable.save memDevice t' file' = (.ok (), exShrunk.2.1, exShrunk.2.2) :=
  fill_then_remove.1 memDevice ⟨0, []⟩ exDev0 exFull.2.2 exLess.2.2 exShrunk.2.2 4 4
    exTable0 exFull.2.1 exLess.2.1 exShrunk.2.1 [exKV 1, exKV 3, exKV 2, exKV 4]
    [0, 0, 0, 4] [0, 0, 0, 3] (by decide) (by decide) (by decide) (by decide) (by decide)
    (by decide) (by decide) (by decide)

/-- For C16, the claim fails: on the in-memory device with three records to a block,
after four distinct keys were put into a new table and one was removed, the
table holds `R = 3` records and its chain still has 2 blocks. -/
theorem fill_remove_keeps_two_blocks :
    NewBlockTable memDevice ⟨0, []⟩ 4 4 = (.ok exTable0, exDev0) ∧ exTable0.perBlock = 3 ∧
    exFull.1 = .ok () ∧ exFull.2.1.header.records = 4 ∧ exFull.2.1.blocks.length = 2 ∧
    exLess.1 = .ok () ∧ exLess.2.1.header.records = 3 ∧ exLess.2.1.blocks.length = 2 ∧
    exLess.2.1.header.blocks = 2 := by
  decide

/-- For C20, the code at a failing input: on the in-memory device with three records
to a block, `Put` of four keys, `Remove` of two (the second drops the tail
block) and `Put` of two more all succeed, and leave 4 records in a chain of
1 block: `header.records > R * header.blocks`. -/
theorem capacity_exceeded :
    NewBlockTable memDevice ⟨0, []⟩ 4 4 = (.ok exTable0, exDev0) ∧ exTable0.perBlock = 3 ∧
    exFull.1 = .ok () ∧ exLess.1 = .ok () ∧ exShrunk.1 = .ok () ∧ exOver.1 = .ok () ∧
    exShrunk.2.1.blocks.length = 1 ∧ exShrunk.2.1.records.length = 6 ∧
    exOver.2.1.perBlock = 3 ∧ exOver.2.1.header.records = 4 ∧
    exOver.2.1.header.blocks = 1 ∧ exOver.2.1.blocks.length = 1 ∧
    ¬ exOver.2.1.header.records ≤ exOver.2.1.perBlock * exOver.2.1.header.blocks := by
  decide

/-! ### Reading a BlockTable back -/

/-- For C18, the claim fails: the head block at offset 43 claims two blocks and has
the next pointer 0; `ReadBlockTable` succeeds, and the second block of the
chain it returns is the block at offset 0. -/
theorem ReadBlockTable_reads_offset_zero :
    (ReadBlockTable memDevice exBrokenDev 43).1.toOption.map
      (fun t => (t.header.blocks, t.header.next, t.blocks.map (fun b => b.key)))
      = some (2, 0, [43, 0]) := by
  decide

/-- The chain walk on a head block that claims two blocks and whose next pointer
is 0: the block at offset 0 is read through the device; a failure of that read
is the failure of the call, and otherwise the block found at offset 0 is the
second block of the chain. -/
theorem blocks_follows_zero {δ : Type} (D : BlockDevice δ) (file file1 : δ) (key : Int)
    (blk0 : block) (d0 : ByteSlice)
    (h0 : readBlock D file key = (.ok (blk0, d0), file1))
    (hn : blk0.header.blocks = 2) (hnext : blk0.header.next = 0) :
    (∀ e file2, D.ReadBlock file1 0 = (.error e, file2) →
      blocks D file key = (.error e, file2) ∧ ReadBlockTable D file key = (.error e, file2)) ∧
    (∀ bytes file2, D.ReadBlock file1 0 = (.ok bytes, file2) →
      blocks D file key = (.ok [(blk0, d0),
        ({ key := 0, header := parseHeader bytes, datalen := bytes.length - BLOCKHEADER },
          bytes.drop BLOCKHEADER)], file2)) := by
  constructor
  · intro e file2 hr
    have hb : blocks D file key = (.error e, file2) := by
      unfold blocks
      rw [h0]
      simp only [hn]
      unfold blocksLoop readBlock
      rw [hnext, hr]
    refine ⟨hb, ?_⟩
    unfold ReadBlockTable
    rw [hb]
  · intro bytes file2 hr
    unfold blocks
    rw [h0]
    simp only [hn]
    unfold blocksLoop readBlock
    rw [hnext, hr]
    simp only
    unfold blocksLoop
    rfl

/-- The chain walk on the device whose head block at 43 points to offset 0. -/
theorem blocks_follows_zero_witness :
    blocks memDevice exBrokenDev 43
      = (.ok [(⟨43, exBrokenHead, 24⟩, List.replicate 24 0),
              (⟨0, parseHeader (List.replicate 43 9),
                (List.replicate 43 9).length - BLOCKHEADER⟩,
                (List.replicate 43 9).drop BLOCKHEADER)], exBrokenDev) :=
  (blocks_follows_zero memDevice exBrokenDev exBrokenDev 43 ⟨43, exBrokenHead, 24⟩
    (List.replicate 24 0) (by decide) (by decide) (by decide)).2 (List.replicate 43 9)
    exBrokenDev (by decide)

/-! ### The contract of HashBucket.Put -/

/-- What a successful `HashBucket.Put` does: either the first record of the run
for `hash` whose stored key is `key` gets the handle `kv.Update` returned, or no
record of the run has that key and a record with the handle `kv.Put` returned
is inserted at the head of the run. -/
theorem HashBucket_Put_spec {δ κ : Type} (D : BlockDevice δ) (K : KVStore κ) (hK : K.Lawful)
    (b b' : HashBucket) (file file' : δ) (kv kv' : κ) (hash key value : ByteSlice) (upd : Bool)
    (hwf : b.bt.WF) (hs : SortedKeys b.bt.occupied) (hvs : b.bt.header.valsize = K.Size)
    (hroom : b.bt.header.records + 1 < 2 ^ 32)
    (hput : b.Put D K file kv hash key value = (.ok upd, b', file', kv')) :
    ∃ bytes kv1, K.Put kv key value = (.ok bytes, kv1) ∧
      b'.bt.header.records ≤ b'.bt.records.length ∧
      ((upd = true ∧ ∃ m spot v0 newbytes,
          b.bt.occupied[countLt b.bt.occupied hash + m]? = some spot ∧ spot.key = hash ∧
          (∀ q r', q < m → b.bt.occupied[countLt b.bt.occupied hash + q]? = some r' →
            r'.key = hash ∧ ∃ k2 v2, K.Get kv1 r'.value = .ok (k2, v2) ∧ k2 ≠ key) ∧
          K.Get kv1 spot.value = .ok (key, v0) ∧
          K.Update kv1 bytes key value = (.ok newbytes, kv') ∧
          b'.bt.header.records = b.bt.header.records ∧
          b'.bt.occupied
            = b.bt.occupied.set (countLt b.bt.occupied hash + m) ⟨hash, newbytes⟩) ∨
       (upd = false ∧ kv' = kv1 ∧
          (∀ r ∈ b.bt.occupied, r.key = hash →
            ∃ k2 v2, K.Get kv1 r.value = .ok (k2, v2) ∧ k2 ≠ key) ∧
          b'.bt.header.records = b.bt.header.records + 1 ∧
          b'.bt.occupied = b.bt.occupied.take (countLt b.bt.occupied hash)
            ++ ⟨hash, bytes⟩ :: b.bt.occupied.drop (countLt b.bt.occupied hash))) := by
  unfold HashBucket.Put at hput
  split at hput
  · simp at hput
  rename_i bytes kv1 hkp
  split at hput
  · simp at hput
  rename_i u bt1 file1 g hput1
  cases u
  split at hput
  · simp at hput
  rename_i u2 bt2 file2 hsave
  simp only [Prod.mk.injEq, Except.ok.injEq] at hput
  obtain ⟨hupd, hb', _, hkv'⟩ := hput
  subst hb'
  obtain ⟨s1, s2, _, _, _⟩ := save_frame D _ _ _ _ _ hsave
  have hocc2 : bt2.occupied = bt1.occupied := by
    rw [occupied_eq, occupied_eq, s1, s2]
  obtain ⟨p1, p2, p3, p4, p5, p6, p7, p8, p9, p10, p11⟩ :=
    put_spec D (putDecide K key value bytes) b.bt bt1 file file1 (kv1, false) g hash bytes
      hwf hs hput1
  have hblen : bytes.length = b.bt.header.valsize := by
    rw [hvs]
    exact hK.put_size _ _ _ _ _ hkp
  refine ⟨bytes, kv1, hkp, ?_, ?_⟩
  · show bt2.header.records ≤ bt2.records.length
    rw [s1, s2]
    rcases p11 with ⟨_, _, _, _, _, _, _, h5, _⟩ | ⟨_, h5, _⟩
    · rw [h5]
      omega
    · rw [h5, Nat.mod_eq_of_lt hroom]
      omega
  rcases p11 with ⟨j, bytes', spot, hex, hloop, hspot, hspk, hrec, hocc⟩ | ⟨hloop, hrec, spot, hsl, hocc, _⟩
  · left
    obtain ⟨m, r, v0, kv2, hj, hr, hkeys, hbefore, hget, hupdate, hg⟩ :=
      replaceLoop_putDecide_some K hash key value bytes _ _ _ _ _ _ hloop
    rw [List.getElem?_drop] at hr
    subst hj
    have hrs : r = spot := by
      rw [hr] at hspot
      exact Option.some.inj hspot
    subst hrs
    have hsz : r.value.length = b.bt.header.valsize := by
      have hmem : r ∈ b.bt.records := List.mem_of_mem_take (List.getElem?_mem hr)
      exact (hwf.sizes r hmem).2
    have hnl : bytes'.length = r.value.length := by
      rw [hsz, hvs]
      exact hK.update_size _ _ _ _ _ _ hupdate
    rw [copy_eq_of_length _ _ hnl.symm] at hocc
    refine ⟨by rw [← hupd, hg], m, r, v0, bytes', hr, hspk, ?_, hget, ?_, ?_, ?_⟩
    · intro q r' hq hr'
      have hd : (b.bt.occupied.drop (countLt b.bt.occupied hash))[q]? = some r' := by
        rw [List.getElem?_drop]
        exact hr'
      exact ⟨hkeys q r' (by omega) hd, hbefore q r' hq hd⟩
    · rw [← hkv', hg]
      exact hupdate
    · show bt2.header.records = _
      rw [s1]
      exact hrec
    · show bt2.occupied = _
      rw [hocc2]
      exact hocc
  · right
    have hg : g = (kv1, false) ∧ ∀ r ∈ b.bt.occupied, r.key = hash →
        ∃ k2 v2, K.Get kv1 r.value = .ok (k2, v2) ∧ k2 ≠ key := by
      by_cases hex : ∃ x ∈ b.bt.occupied, x.key = hash
      · simp only [hex, decide_True, if_true] at hloop
        obtain ⟨h1, h2⟩ := replaceLoop_putDecide_none K hash key value bytes _ _ _ _ hloop
        exact ⟨h1, fun r hr hk => h2 r (mem_run_of_key _ _ hs r hr hk)⟩
      · simp only [hex, decide_False, Bool.false_eq_true, if_false, Prod.mk.injEq,
          true_and] at hloop
        exact ⟨hloop.symm, fun r hr hk => absurd ⟨r, hr, hk⟩ hex⟩
    have hrec' : bt1.header.records = b.bt.header.records + 1 := by
      rw [hrec]
      exact Nat.mod_eq_of_lt hroom
    rw [copy_eq_of_length _ _ (by rw [hsl, hblen])] at hocc
    refine ⟨by rw [← hupd, hg.1], by rw [← hkv', hg.1], hg.2, ?_, ?_⟩
    · show bt2.header.records = _
      rw [s1]
      exact hrec'
    · show bt2.occupied = _
      rw [hocc2, occupied_eq, hrec']
      exact hocc

/-- `Has` and `Get` scan the run for `hash` from its first record: when the record
`m` places into the run refers to `key` and `value`, and every record before it
in the run is readable and, if it refers to `key`, refers to `value` as well,
then `Has` is true and `Get` returns `value`. -/
theorem HashBucket_scan {κ : Type} (K : KVStore κ) (b : HashBucket) (kv : κ)
    (hash key value : ByteSlice) (m : Nat) (r : record)
    (hlen : b.bt.header.records ≤ b.bt.records.length) (hs : SortedKeys b.bt.occupied)
    (hr : b.bt.occupied[countLt b.bt.occupied hash + m]? = some r)
    (hkeys : ∀ q r', q ≤ m → b.bt.occupied[countLt b.bt.occupied hash + q]? = some r' →
      r'.key = hash)
    (hget : K.Get kv r.value = .ok (key, value))
    (hbefore : ∀ q r', q < m → b.bt.occupied[countLt b.bt.occupied hash + q]? = some r' →
      ∃ k2 v2, K.Get kv r'.value = .ok (k2, v2) ∧ (k2 = key → v2 = value)) :
    b.Has K kv hash key = .ok true ∧ b.Get K kv hash key = .ok value := by
  have hex : ∃ x ∈ b.bt.occupied, x.key = hash :=
    ⟨r, List.getElem?_mem hr, hkeys m r (le_refl _) hr⟩
  have hfind := find_sorted b.bt.occupied hash hs
  have hdec : decide (∃ x ∈ b.bt.occupied, x.key = hash) = true := by
    simpa using hex
  rw [hdec] at hfind
  have hrun : ∀ q, q ≤ m →
      ((b.bt.occupied.drop (countLt b.bt.occupied hash)).takeWhile
        (fun r => ByteSlice.Eq hash r.key))[q]?
        = b.bt.occupied[countLt b.bt.occupied hash + q]? := by
    intro q hq
    rw [getElem?_takeWhile_of_run _ _ m _ q hq, List.getElem?_drop]
    intro q' r' hq' hr'
    rw [List.getElem?_drop] at hr'
    simp only [Eq_iff]
    exact (hkeys q' r' hq' hr').symm
  have hscan := scan_found K kv key value
    ((b.bt.occupied.drop (countLt b.bt.occupied hash)).takeWhile
      (fun r => ByteSlice.Eq hash r.key)) m r
    (by rw [hrun m (le_refl _)]; exact hr) hget
    (by
      intro q r' hq hr'
      rw [hrun q (by omega)] at hr'
      exact hbefore q r' hq hr')
  have hfa : record_slice.find_all (b.bt.records.take b.bt.header.records) hash
      = some ((b.bt.occupied.drop (countLt b.bt.occupied hash)).takeWhile
          (fun r => ByteSlice.Eq hash r.key)) := by
    unfold record_slice.find_all
    rw [← occupied_eq, hfind]
    rfl
  constructor
  · unfold HashBucket.Has
    rw [if_neg (by omega), hfa]
    exact hscan.1
  · unfold HashBucket.Get
    rw [if_neg (by omega), hfa]
    exact hscan.2

/-- Where the data-model invariants hold: over a store that returns, for the
handles it issued, the key and value they were issued for, and on a bucket
whose table satisfies the data-model invariants (`records ≤ R * blocks`) with sorted records and handles of the store's width: after a
successful `Put(hash, key, value)`, `Has(hash, key)` is true and
`Get(hash, key)` returns `value`, whatever other keys the bucket holds under the
same hash. -/
theorem HashBucket_Put_then_Has_Get {δ κ : Type} (D : BlockDevice δ) (K : KVStore κ)
    (hK : K.Lawful) (b b' : HashBucket) (file file' : δ) (kv kv' : κ)
    (hash key value : ByteSlice) (upd : Bool)
    (hwf : b.bt.WF) (hs : SortedKeys b.bt.occupied) (hvs : b.bt.header.valsize = K.Size)
    (hroom : b.bt.header.records + 1 < 2 ^ 32)
    (hput : b.Put D K file kv hash key value = (.ok upd, b', file', kv')) :
    b'.Has K kv' hash key = .ok true ∧ b'.Get K kv' hash key = .ok value := by
  obtain ⟨bytes, kv1, hkp, hlen, h⟩ :=
    HashBucket_Put_spec D K hK b b' file file' kv kv' hash key value upd hwf hs hvs hroom hput
  have hpg := hK.put_get _ _ _ _ _ hkp
  rcases h with ⟨_, m, spot, v0, nb, hspot, hspk, hbefore, hget, hupdate, hrec, hocc⟩ |
    ⟨_, hkv, _, hrec, hocc⟩
  · have hlt := (List.getElem?_eq_some.mp hspot).1
    have hs' : SortedKeys b'.bt.occupied := by
      rw [hocc]
      have := sortedKeys_set_same_key _ _ _ nb hspot hs
      rw [hspk] at this
      exact this
    have hc : countLt b'.bt.occupied hash = countLt b.bt.occupied hash := by
      rw [hocc]
      have := countLt_set_same_key b.bt.occupied _ spot nb hash hspot
      rw [hspk] at this
      exact this
    apply HashBucket_scan K b' kv' hash key value m ⟨hash, nb⟩ hlen hs'
    · rw [hc, hocc, List.getElem?_set, if_pos rfl, if_pos hlt]
    · intro q r' hq hr'
      rw [hc, hocc, List.getElem?_set] at hr'
      by_cases hqm : q = m
      · subst hqm
        rw [if_pos rfl, if_pos hlt] at hr'
        rw [← Option.some.inj hr']
      · rw [if_neg (by omega)] at hr'
        exact (hbefore q r' (by omega) hr').1
    · exact hK.update_get _ _ _ _ _ _ hupdate
    · intro q r' hq hr'
      rw [hc, hocc, List.getElem?_set, if_neg (by omega)] at hr'
      obtain ⟨_, k2, v2, hg2, hne⟩ := hbefore q r' hq hr'
      by_cases h1 : r'.value = nb
      · rw [h1]
        exact ⟨key, value, hK.update_get _ _ _ _ _ _ hupdate, fun _ => rfl⟩
      · have h2 : r'.value ≠ bytes := by
          intro he
          rw [he, hpg] at hg2
          exact hne (Prod.mk.inj (Except.ok.inj hg2)).1.symm
        refine ⟨k2, v2, ?_, fun he => absurd he hne⟩
        rw [hK.update_frame _ _ _ _ _ _ _ hupdate h2 h1]
        exact hg2
  · have hs' : SortedKeys b'.bt.occupied := by
      rw [hocc]
      exact sortedKeys_insert b.bt.occupied ⟨hash, bytes⟩ hs
    have hc : countLt b'.bt.occupied hash = countLt b.bt.occupied hash := by
      rw [hocc]
      exact countLt_insert _ _ _
    have hcl := countLt_le_length b.bt.occupied hash
    have hnew : b'.bt.occupied[countLt b'.bt.occupied hash + 0]? = some ⟨hash, bytes⟩ := by
      rw [hc, hocc, Nat.add_zero, List.getElem?_append_right (by rw [List.length_take]; omega),
        List.length_take, Nat.min_eq_left hcl, Nat.sub_self]
      simp
    apply HashBucket_scan K b' kv' hash key value 0 ⟨hash, bytes⟩ hlen hs' hnew
    · intro q r' hq hr'
      have hq0 : q = 0 := by omega
      subst hq0
      rw [hnew] at hr'
      rw [← Option.some.inj hr']
    · rw [hkv]
      exact hpg
    · intro q r' hq
      omega

/-- `Put` then `Has` and `Get` on a well-formed bucket at a concrete input: the
key 33 is put under a hash that already holds the key 11. -/
theorem HashBucket_Put_then_Has_Get_witness :
    exBucket3.1.Has inlineKV () exHashA [3, 3] = .ok true ∧
    exBucket3.1.Get inlineKV () exHashA [3, 3] = .ok [7, 7] :=
  HashBucket_Put_then_Has_Get memDevice inlineKV inlineKV_lawful exBucket2.1 exBucket3.1
    exBucket2.2 exBucket3.2 () () exHashA [3, 3] [7, 7] false
    ⟨by decide, by decide, by decide, by decide, by decide, by decide⟩ (by decide) (by decide)
    (by decide) (by decide)

/-- Where the data-model invariants hold: over a lawful store, on a bucket whose
table satisfies the data-model invariants (`records ≤ R * blocks`) with sorted
records and handles of the store's width, all of them
readable: a successful `Put(hash, key, value)` returns `updated = true` exactly
when some occupied record with that hash refers to a stored key equal to `key`.
Then the number of records is unchanged and one such record has its handle
replaced in place by a handle for `key` and `value`. Otherwise the number of
records grows by one: a record with a handle for `key` and `value` is inserted
at the lower-bound index of `hash` and every former record is still there. -/
theorem HashBucket_Put_updated {δ κ : Type} (D : BlockDevice δ) (K : KVStore κ)
    (hK : K.Lawful) (b b' : HashBucket) (file file' : δ) (kv kv' : κ)
    (hash key value : ByteSlice) (upd : Bool)
    (hwf : b.bt.WF) (hs : SortedKeys b.bt.occupied) (hvs : b.bt.header.valsize = K.Size)
    (hroom : b.bt.header.records + 1 < 2 ^ 32)
    (hread : ∀ rec ∈ b.bt.occupied, (K.Get kv rec.value).toBool = true)
    (hput : b.Put D K file kv hash key value = (.ok upd, b', file', kv')) :
    (upd = true ↔ ∃ rec ∈ b.bt.occupied, rec.key = hash ∧
      ∃ v0, K.Get kv rec.value = .ok (key, v0)) ∧
    (upd = true → b'.bt.header.records = b.bt.header.records ∧
      ∃ j spot v0 newbytes, b.bt.occupied[j]? = some spot ∧ spot.key = hash ∧
        K.Get kv spot.value = .ok (key, v0) ∧ K.Get kv' newbytes = .ok (key, value) ∧
        b'.bt.occupied = b.bt.occupied.set j ⟨hash, newbytes⟩) ∧
    (upd = false → b'.bt.header.records = b.bt.header.records + 1 ∧
      ∃ bytes, K.Get kv' bytes = .ok (key, value) ∧
        b'.bt.occupied = b.bt.occupied.take (countLt b.bt.occupied hash)
          ++ ⟨hash, bytes⟩ :: b.bt.occupied.drop (countLt b.bt.occupied hash)) := by
  obtain ⟨bytes, kv1, hkp, hlen, h⟩ :=
    HashBucket_Put_spec D K hK b b' file file' kv kv' hash key value upd hwf hs hvs hroom hput
  have hpg := hK.put_get _ _ _ _ _ hkp
  have hframe : ∀ rec ∈ b.bt.occupied, K.Get kv1 rec.value = K.Get kv rec.value := by
    intro rec hrec
    have := hread rec hrec
    cases hg : K.Get kv rec.value with
    | error e =>
      rw [hg] at this
      simp [Except.toBool] at this
    | ok r => exact hK.put_frame _ _ _ _ _ _ _ hkp hg
  rcases h with ⟨hu, m, spot, v0, nb, hspot, hspk, hbefore, hget, hupdate, hrec, hocc⟩ |
    ⟨hu, hkv, hnone, hrec, hocc⟩
  · have hmem := List.getElem?_mem hspot
    rw [hframe spot hmem] at hget
    refine ⟨⟨fun _ => ⟨spot, hmem, hspk, v0, hget⟩, fun _ => hu⟩, fun _ => ⟨hrec, _, spot, v0, nb,
      hspot, hspk, hget, hK.update_get _ _ _ _ _ _ hupdate, hocc⟩, fun hf => ?_⟩
    rw [hu] at hf
    exact absurd hf (by decide)
  · refine ⟨⟨fun ht => ?_, fun hex => ?_⟩, fun ht => ?_, fun _ => ⟨hrec, bytes, ?_, hocc⟩⟩
    · rw [hu] at ht
      exact absurd ht (by decide)
    · exfalso
      obtain ⟨rec, hmem, hk, v0, hg⟩ := hex
      obtain ⟨k2, v2, hg2, hne⟩ := hnone rec hmem hk
      rw [hframe rec hmem, hg] at hg2
      exact hne (Prod.mk.inj (Except.ok.inj hg2)).1.symm
    · rw [hu] at ht
      exact absurd ht (by decide)
    · rw [hkv]
      exact hpg

/-- The update on a well-formed bucket at a concrete input: the key 33 is put
again, with another value, into the bucket that holds the keys 11 and 33
under one hash. -/
theorem HashBucket_Put_updated_witness :
    exBucketUpdate.1 = .ok true ∧
    (∃ rec ∈ exBucket3.1.bt.occupied, rec.key = exHashA ∧
      ∃ v0, inlineKV.Get () rec.value = .ok ([3, 3], v0)) ∧
    exBucketUpdate.2.1.bt.header.records = exBucket3.1.bt.header.records :=
  ⟨by decide,
    (HashBucket_Put_updated memDevice inlineKV inlineKV_lawful exBucket3.1 exBucketUpdate.2.1
      exBucket3.2 exBucketUpdate.2.2.1 () () exHashA [3, 3] [8, 8] true
      ⟨by decide, by decide, by decide, by decide, by decide, by decide⟩ (by decide)
      (by decide) (by decide) (by decide) (by decide)).1.mp rfl,
    ((HashBucket_Put_updated memDevice inlineKV inlineKV_lawful exBucket3.1 exBucketUpdate.2.1
      exBucket3.2 exBucketUpdate.2.2.1 () () exHashA [3, 3] [8, 8] true
      ⟨by decide, by decide, by decide, by decide, by decide, by decide⟩ (by decide)
      (by decide) (by decide) (by decide) (by decide)).2.1 rfl).1⟩

/-! ### Order of the records after Split -/

/-- C21: for every bucket whose table satisfies the data-model invariants, whose
slots have the handle width of the store and whose occupied records are sorted
ascending by hash, after a successful `Split(stay)` the occupied records of
`self` and of the returned bucket are sorted ascending by hash, each list is
the former occupied records with some left out (the relative order is the
former one), and on both lists `find` is the lower-bound search again: it
returns the number of smaller hashes and whether the hash occurs. -/
theorem Split_preserves_order {δ κ : Type} (D : BlockDevice δ) (K : KVStore κ)
    (self self' other : HashBucket) (file file' : δ) (kv : κ) (stay : ByteSlice → Bool)
    (hwf : self.bt.WF) (hvs : self.bt.header.valsize = K.Size)
    (hs : SortedKeys self.bt.occupied)
    (h : HashBucket.Split D K self file kv stay = (Except.ok other, self', file')) :
    SortedKeys self'.bt.occupied ∧ SortedKeys other.bt.occupied ∧
    self'.bt.occupied.Sublist self.bt.occupied ∧
    other.bt.occupied.Sublist self.bt.occupied ∧
    ∀ hash : ByteSlice,
      record_slice.find self'.bt.occupied hash
        = some (countLt self'.bt.occupied hash, decide (∃ x ∈ self'.bt.occupied, x.key = hash)) ∧
      record_slice.find other.bt.occupied hash
        = some (countLt other.bt.occupied hash, decide (∃ x ∈ other.bt.occupied, x.key = hash)) := by
  obtain ⟨h1, h2, _⟩ := Split_spec D K self self' other file file' kv stay hwf hvs h
  have s1 : self'.bt.occupied.Sublist self.bt.occupied := by
    rw [h1]; exact List.filter_sublist _
  have s2 : other.bt.occupied.Sublist self.bt.occupied := by
    rw [h2]; exact List.filter_sublist _
  have o1 : SortedKeys self'.bt.occupied := List.Pairwise.sublist s1 hs
  have o2 : SortedKeys other.bt.occupied := List.Pairwise.sublist s2 hs
  exact ⟨o1, o2, s1, s2, fun hash => ⟨find_sorted _ hash o1, find_sorted _ hash o2⟩⟩

/-- Witness for C21: the sorted three-record bucket, two records under one
hash, split by that hash. -/
theorem Split_preserves_order_witness :
    exBucket3.1.bt.WF ∧ exBucket3.1.bt.header.valsize = inlineKV.Size ∧
    SortedKeys exBucket3.1.bt.occupied ∧
    exSplit = (Except.ok exOther, exSplit.2.1, exSplit.2.2) ∧
    (SortedKeys exSplit.2.1.bt.occupied ∧ SortedKeys exOther.bt.occupied ∧
    exSplit.2.1.bt.occupied.Sublist exBucket3.1.bt.occupied ∧
    exOther.bt.occupied.Sublist exBucket3.1.bt.occupied ∧
    ∀ hash : ByteSlice,
      record_slice.find exSplit.2.1.bt.occupied hash
        = some (countLt exSplit.2.1.bt.occupied hash,
            decide (∃ x ∈ exSplit.2.1.bt.occupied, x.key = hash)) ∧
      record_slice.find exOther.bt.occupied hash
        = some (countLt exOther.bt.occupied hash,
            decide (∃ x ∈ exOther.bt.occupied, x.key = hash))) :=
  ⟨⟨by decide, by decide, by decide, by decide, by decide, by decide⟩, by decide, by decide,
    by decide,
    Split_preserves_order memDevice inlineKV exBucket3.1 exSplit.2.1 exOther exBucket3.2
      exSplit.2.2 () exStay ⟨by decide, by decide, by decide, by decide, by decide, by decide⟩
      (by decide) (by decide) (by decide)⟩

example : exBucket3.1.bt.occupied.map (fun r => r.key) = [exHashB, exHashA, exHashA] := by decide
example : exSplit.2.1.bt.occupied.map (fun r => r.key) = [exHashA, exHashA] := by decide
example : exOther.bt.occupied.map (fun r => r.key) = [exHashB] := by decide

/-! ### KeysPerBlock -/

example : NewBlockDimensions 5 RECORDS 4096 8 0 [4, 4] = some ⟨1, 4096, 8, 0, [4, 4], 8⟩ := by
  decide
example : BlockDimensions.KeysPerBlock 5 ⟨1, 4096, 8, 0, [4, 4], 8⟩ = .ok 255 := by decide
example : NewBlockDimensions 5 RECORDS 12 8 0 [4, 4] = none := by decide
example : NewBlockDimensions 5 (EXTRAPTR ||| RECORDS ||| POINTERS) 4096 8 8 [4, 4] = none := by
  decide
/-- Without wraparound `calcRecordSize` is the sum of the fields. -/
theorem calcRecordSize_eq_sum (fields : List Nat) (h : fields.sum < 2 ^ 32) :
    calcRecordSize fields = fields.sum := by
  have key : ∀ (l : List Nat) (acc : Nat), acc + l.sum < 2 ^ 32 →
      l.foldl (fun sum v => uint32_add sum v) acc = acc + l.sum := by
    intro l
    induction l with
    | nil => intro acc _; simp
    | cons x xs ih =>
      intro acc hacc
      rw [List.sum_cons] at hacc
      rw [List.foldl_cons, List.sum_cons]
      have hx : uint32_add acc x = acc + x := by
        unfold uint32_add
        exact Nat.mod_eq_of_lt (by omega)
      rw [hx, ih (acc + x) (by omega)]
      omega
  have := key fields 0 (by omega)
  unfold calcRecordSize
  rw [this]
  omega

/-- The quotient of `uint32_div` when the divisor is positive and at most the dividend. -/
theorem uint32_div_pos (a b : Nat) (hb : 0 < b) (hab : b ≤ a) :
    ∃ n : Int, (uint32_div a b).map Int.ofNat = Except.ok n ∧ 1 ≤ n := by
  refine ⟨Int.ofNat (a / b), ?_, ?_⟩
  · unfold uint32_div
    rw [if_neg (by omega)]
    rfl
  · have := Nat.div_pos hab hb
    show (1 : Int) ≤ ((a / b : Nat) : Int)
    omega

/-- Where no sum of `Valid` leaves the range of `uint32`, dimensions that
`NewBlockDimensions` accepts have at least one key per block: `KeysPerBlock`
returns, with a result of at least 1. -/
theorem KeysPerBlock_pos_of_no_wrap (blockheader Mode BlockSize KeySize PointerSize : Nat)
    (RecordFields : List Nat) (dim : BlockDimensions)
    (hnew : NewBlockDimensions blockheader Mode BlockSize KeySize PointerSize RecordFields
      = some dim)
    (hsum : 2 * PointerSize + RecordFields.sum + KeySize + blockheader < 2 ^ 32) :
    ∃ n : Int, dim.KeysPerBlock blockheader = Except.ok n ∧ 1 ≤ n := by
  have hrs : calcRecordSize RecordFields = RecordFields.sum :=
    calcRecordSize_eq_sum _ (by omega)
  unfold NewBlockDimensions at hnew
  simp only at hnew
  split at hnew
  · simp at hnew
  rename_i hv
  simp only [Option.some.injEq] at hnew
  subst hnew
  replace hv : BlockDimensions.Valid blockheader
      ⟨Mode, BlockSize, KeySize, PointerSize, RecordFields, calcRecordSize RecordFields⟩
      = true := by simpa using hv
  unfold BlockDimensions.Valid at hv
  simp only [BlockDimensions.RecordSize, hrs] at hv
  unfold BlockDimensions.KeysPerBlock
  simp only [BlockDimensions.RecordSize, hrs]
  split at hv
  · simp at hv
  rename_i hk
  split at hv
  · rename_i hm
    rw [decide_eq_true_eq] at hv
    obtain ⟨h1, h2, h3⟩ := hv
    have e1 : Mode &&& (POINTERS ||| EQUAPTRS) ≠ (POINTERS ||| EQUAPTRS) := by
      rcases hm with hm | hm <;> rw [hm] <;> decide
    have e2 : Mode &&& EXTRAPTR ≠ EXTRAPTR := by
      rcases hm with hm | hm <;> rw [hm] <;> decide
    rw [if_neg e1, if_neg e2]
    apply uint32_div_pos
    · simp only [uint32_add]; omega
    · simp only [uint32_add, uint32_sub] at h3 ⊢
      split <;> split <;> omega
  split at hv
  · rename_i hm
    rw [decide_eq_true_eq] at hv
    obtain ⟨h1, h2, h3⟩ := hv
    have e1 : Mode &&& (POINTERS ||| EQUAPTRS) ≠ (POINTERS ||| EQUAPTRS) := by
      rcases hm with hm | hm <;> rw [hm] <;> decide
    have e2 : Mode &&& EXTRAPTR ≠ EXTRAPTR := by
      rcases hm with hm | hm <;> rw [hm] <;> decide
    rw [if_neg e1, if_neg e2]
    apply uint32_div_pos
    · simp only [uint32_add]; omega
    · simp only [uint32_add, uint32_mul, uint32_sub] at h3 ⊢
      split <;> split <;> omega
  split at hv
  · rename_i hm
    rw [decide_eq_true_eq] at hv
    obtain ⟨h1, h2, h3⟩ := hv
    have e1 : Mode &&& (POINTERS ||| EQUAPTRS) = (POINTERS ||| EQUAPTRS) := by
      rcases hm with hm | hm <;> rw [hm] <;> decide
    rw [if_pos e1]
    apply uint32_div_pos
    · simp only [uint32_add]; omega
    · simp only [uint32_add, uint32_sub] at h3 ⊢
      split <;> omega
  split at hv
  · rename_i hm
    rw [decide_eq_true_eq] at hv
    obtain ⟨h1, h2, h3⟩ := hv
    have e1 : Mode &&& (POINTERS ||| EQUAPTRS) ≠ (POINTERS ||| EQUAPTRS) := by
      rcases hm with hm | hm <;> rw [hm] <;> decide
    have e2 : Mode &&& EXTRAPTR = EXTRAPTR := by
      rcases hm with hm | hm <;> rw [hm] <;> decide
    rw [if_neg e1, if_pos e2]
    apply uint32_div_pos
    · simp only [uint32_add]; omega
    · simp only [uint32_add, uint32_sub] at h3 ⊢
      split <;> split <;> omega
  split at hv
  · rename_i hm
    rw [decide_eq_true_eq] at hv
    obtain ⟨h1, h2, h3⟩ := hv
    have e1 : Mode &&& (POINTERS ||| EQUAPTRS) ≠ (POINTERS ||| EQUAPTRS) := by
      rcases hm with hm | hm <;> rw [hm] <;> decide
    have e2 : Mode &&& EXTRAPTR ≠ EXTRAPTR := by
      rcases hm with hm | hm <;> rw [hm] <;> decide
    rw [if_neg e1, if_neg e2]
    apply uint32_div_pos
    · simp only [uint32_add]; omega
    · simp only [uint32_add, uint32_mul, uint32_sub] at h3 ⊢
      split <;> split <;> omega
  split at hv <;> simp at hv

/-- C22: on the dimensions `Mode = RECORDS`, `BlockSize = 4294967295`, `KeySize = 1`,
`PointerSize = 0`, `RecordFields = [4294967295]`, whatever the value of the
constant `BLOCKHEADER`: `NewBlockDimensions` returns the dimensions (`Valid` is true,
the sum `RecordSize + KeySize` having wrapped to 0), and `KeysPerBlock` divides
by zero. -/
theorem KeysPerBlock_divides_by_zero (blockheader : Nat) :
    NewBlockDimensions blockheader RECORDS 4294967295 1 0 [4294967295] = some exWrapped ∧
    exWrapped.Valid blockheader = true ∧
    exWrapped.KeysPerBlock blockheader = Except.error Err.Panic := by
  have hv : exWrapped.Valid blockheader = true := by
    unfold BlockDimensions.Valid
    rw [if_neg (by decide), if_pos (by decide), decide_eq_true_eq]
    refine ⟨by decide, by decide, ?_⟩
    have h0 : uint32_add exWrapped.RecordSize exWrapped.KeySize = 0 := by decide
    rw [h0]
    have : uint32_add 0 blockheader < 2 ^ 32 := Nat.mod_lt _ (by decide)
    show uint32_add 0 blockheader ≤ 4294967295
    omega
  have hk : exWrapped.KeysPerBlock blockheader = Except.error Err.Panic := by
    unfold BlockDimensions.KeysPerBlock
    rw [if_neg (by decide), if_neg (by decide)]
    have h0 : uint32_add (uint32_add exWrapped.RecordSize exWrapped.KeySize)
        exWrapped.PointerSize = 0 := by decide
    rw [h0]
    rfl
  refine ⟨?_, hv, hk⟩
  unfold NewBlockDimensions
  have hc : calcRecordSize [4294967295] = 4294967295 := by decide
  simp only [hc]
  rw [if_neg]
  · rfl
  · rw [show (⟨RECORDS, 4294967295, 1, 0, [4294967295], 4294967295⟩ : BlockDimensions)
      = exWrapped from rfl, hv]
    decide

example : NewBlockDimensions 5 RECORDS 4294967295 1 0 [4294967295] = some exWrapped := by decide
example : NewBlockDimensions 5 RECORDS 5 1 0 [4294967295]
    = some ⟨1, 5, 1, 0, [4294967295], 4294967295⟩ := by decide
example : BlockDimensions.KeysPerBlock 5 ⟨1, 5, 1, 0, [4294967295], 4294967295⟩
    = Except.error Err.Panic := by decide

/-! ### Put on a table whose view is stale -/

/-- For C2, the code at a failing input: on the in-memory device with three records to
a block, after `NewBlockTable`, `Put` of the keys 1, 3, 2, 4, `Remove` of 4 and
3 and `Put` of 5, 6, 7 (all successful) the occupied records 1, 2, 5, 6, 7 are
sorted; `Put(0008)` succeeds and leaves the occupied keys 1, 2, 5, 0, 0, 8,
which are not sorted. -/
theorem Put_breaks_sorted :
    NewBlockTable memDevice ⟨0, []⟩ 4 4 = (.ok exTable0, exDev0) ∧
    exFull.1 = .ok () ∧ exLess.1 = .ok () ∧ exShrunk.1 = .ok () ∧ exOver.1 = .ok () ∧
    exOver7.1 = .ok () ∧
    exOver7.2.1.occupied.map (fun r => r.key)
      = [[0, 0, 0, 1], [0, 0, 0, 2], [0, 0, 0, 5], [0, 0, 0, 6], [0, 0, 0, 7]] ∧
    SortedKeys exOver7.2.1.occupied ∧
    BlockTable.Put memDevice exOver7.2.1 exOver7.2.2 [0, 0, 0, 8] [8, 8, 8, 8]
      = (.ok (), exOver8.2.1, exOver8.2.2) ∧
    exOver8.2.1.occupied.map (fun r => r.key)
      = [[0, 0, 0, 1], [0, 0, 0, 2], [0, 0, 0, 5], [0, 0, 0, 0], [0, 0, 0, 0], [0, 0, 0, 8]] ∧
    ¬ SortedKeys exOver8.2.1.occupied := by
  decide

/-- For C3, the code at a failing input: on the sorted table with the keys 1, 2, 5, 6, 7
(reached as in `exOver7`) the key 8 is absent and its lower-bound index is 5;
`Put(0008, 8888)` succeeds, `header.records` goes from 5 to 6 and the key is at
index 5, but the records at the indices 3 and 4, below the insertion index,
are no longer the records 6 and 7: both slots are zero. -/
theorem Put_insert_loses_records :
    exOver7.1 = .ok () ∧ SortedKeys exOver7.2.1.occupied ∧
    (¬ ∃ x ∈ exOver7.2.1.occupied, x.key = [0, 0, 0, 8]) ∧
    countLt exOver7.2.1.occupied [0, 0, 0, 8] = 5 ∧
    exOver7.2.1.header.records = 5 ∧
    exOver8.1 = .ok () ∧ exOver8.2.1.header.records = 6 ∧
    exOver8.2.1.occupied[5]? = some ⟨[0, 0, 0, 8], [8, 8, 8, 8]⟩ ∧
    exOver7.2.1.occupied[3]? = some ⟨[0, 0, 0, 6], [6, 6, 6, 6]⟩ ∧
    exOver7.2.1.occupied[4]? = some ⟨[0, 0, 0, 7], [7, 7, 7, 7]⟩ ∧
    exOver8.2.1.occupied[3]? = some ⟨[0, 0, 0, 0], [0, 0, 0, 0]⟩ ∧
    exOver8.2.1.occupied[4]? = some ⟨[0, 0, 0, 0], [0, 0, 0, 0]⟩ ∧
    exOver8.2.1.occupied.take 5 ≠ exOver7.2.1.occupied.take 5 := by
  decide

/-- For C4, the code at a failing input: on the in-memory device with eight-byte keys
(two records to a block), after `NewBlockTable`, `Put` of the keys 1, 2, 3,
`Remove` of 3 and 2 and `Put` of 2 the table satisfies the data-model
invariants and is sorted; `Put(9, 9999)` twice succeeds twice, and
`header.records` is 3 after the first and 4 after the second. -/
theorem Put_twice_adds_record :
    exWide0.1 = .ok exWideTable ∧ exWideTable.perBlock = 2 ∧
    exWide3.1 = .ok () ∧ exWide2.1 = .ok () ∧ exWide1.1 = .ok () ∧ exWideStale.1 = .ok () ∧
    exWideStale.2.1.WF ∧ SortedKeys exWideStale.2.1.occupied ∧
    exWideStale.2.1.header.records = 2 ∧ exWideStale.2.1.blocks.length = 1 ∧
    exWideStale.2.1.records.length = 4 ∧
    BlockTable.Put memDevice exWideStale.2.1 exWideStale.2.2 (exKey8 9) [9, 9, 9, 9]
      = (.ok (), exWidePut1.2.1, exWidePut1.2.2) ∧
    BlockTable.Put memDevice exWidePut1.2.1 exWidePut1.2.2 (exKey8 9) [9, 9, 9, 9]
      = (.ok (), exWidePut2.2.1, exWidePut2.2.2) ∧
    exWidePut1.2.1.header.records = 3 ∧ exWidePut2.2.1.header.records = 4 ∧
    exWidePut2.2.1.occupied.map (fun r => r.key)
      = [exKey8 1, exKey8 2, exKey8 0, exKey8 9] := by
  refine ⟨by decide, by decide, by decide, by decide, by decide, by decide,
    ⟨by decide, by decide, by decide, by decide, by decide, by decide⟩, by decide, by decide,
    by decide, by decide, by decide, by decide, by decide, by decide, by decide⟩

/-! ### HashBucket.Put on a bucket whose view is stale -/

/-- For C8, the code at a failing input: on the in-memory device with five records to a
block, after `NewHashBucket`, `Put` of the hashes 10, ..., 100, `Split` keeping
all but 100 and `Put` of 110, ..., 150 (all successful) the bucket holds 14
sorted records in a view of 15 slots over a chain of 2 blocks;
`Put(hash 75, 75, 55)` succeeds, and then `Has(hash 75, 75)` is false and
`Get(hash 75, 75)` fails with `KeyNotFound`. -/
theorem HashBucket_Put_then_miss :
    inlineKV.Lawful ∧
    exFive10.1.bt.header.records = 10 ∧ exFiveSplit.1.isOk = true ∧
    exFive14.1.bt.header.records = 14 ∧ exFive14.1.bt.records.length = 15 ∧
    exFive14.1.bt.blocks.length = 2 ∧ SortedKeys exFive14.1.bt.occupied ∧
    exFivePut.1 = .ok false ∧
    HashBucket.Has inlineKV exFivePut.2.1 exFivePut.2.2.2 (exKey8 75) [7, 5] = .ok false ∧
    HashBucket.Get inlineKV exFivePut.2.1 exFivePut.2.2.2 (exKey8 75) [7, 5]
      = .error .KeyNotFound ∧
    exFivePut.2.1.bt.occupied.map (fun r => r.key.getLastD 0)
      = [10, 20, 30, 40, 50, 60, 70, 80, 90, 110, 0, 0, 0, 0, 75] := by
  refine ⟨inlineKV_lawful, by decide, by decide, by decide, by decide, by decide, by decide,
    by decide, by decide, by decide, by decide⟩

/-- For C9, the code at a failing input: after three `Put`s, `Split` keeping `exHashB`,
`Put(hash 3, 44, 66)` and `Put(hash 4, 55, 99)` (all successful) the bucket has
an occupied record with the hash 4 whose handle resolves to the key 55;
`Put(hash 4, 55, 88)` returns `updated = false`, and the number of occupied
records goes from 3 to 4. -/
theorem HashBucket_Put_not_updated :
    exSplitB.1.isOk = true ∧ exSplitB.2.1.bt.blocks.length = 1 ∧
    exSplitB.2.1.bt.records.length = 4 ∧
    exStale3.1.bt.header.records = 3 ∧ SortedKeys exStale3.1.bt.occupied ∧
    exStale3.1.bt.occupied[2]? = some ⟨exKey8 4, [5, 5, 9, 9]⟩ ∧
    inlineKV.Get () [5, 5, 9, 9] = .ok ([5, 5], [9, 9]) ∧
    HashBucket.Has inlineKV exStale3.1 () (exKey8 4) [5, 5] = .ok true ∧
    exStalePut.1 = .ok false ∧
    exStalePut.2.1.bt.header.records = 4 ∧
    exStalePut.2.1.bt.occupied.map (fun r => r.key.getLastD 0) = [1, 3, 0, 4] := by
  decide

/-! ### The chain walk of `blocks` -/

theorem readBlock_error {δ : Type} (D : BlockDevice δ) (file file' : δ) (key : Int) (e : Err)
    (h : readBlock D file key = (.error e, file')) :
    D.ReadBlock file key = (.error e, file') := by
  unfold readBlock at h
  split at h
  · rename_i e1 f1 hr
    simp only [Prod.mk.injEq, Except.error.injEq] at h
    rw [hr, h.1, h.2]
  · simp at h

theorem readBlock_ok {δ : Type} (D : BlockDevice δ) (file file' : δ) (key : Int)
    (b : block × ByteSlice) (h : readBlock D file key = (.ok b, file')) :
    b.1.key = key ∧ ReadFrom D b := by
  unfold readBlock at h
  split at h
  · simp at h
  · rename_i bytes f1 hr
    simp only [Prod.mk.injEq, Except.ok.injEq] at h
    obtain ⟨hb, hf⟩ := h
    subst hb
    exact ⟨rfl, file, bytes, f1, hr, rfl⟩

/-- A failure of the loop of `blocks` is the failure of a device read. -/
theorem blocksLoop_error {δ : Type} (D : BlockDevice δ) (e : Err) (file' : δ) :
    ∀ (n : Nat) (pblk : block) (file : δ), blocksLoop D n pblk file = (.error e, file') →
    ∃ f p, D.ReadBlock f p = (.error e, file')
  | 0, _, _, h => by simp [blocksLoop] at h
  | n + 1, pblk, file, h => by
    unfold blocksLoop at h
    split at h
    · rename_i e1 f1 hr
      simp only [Prod.mk.injEq, Except.error.injEq] at h
      rw [h.1, h.2] at hr
      exact ⟨file, _, readBlock_error D _ _ _ _ hr⟩
    · rename_i blk f1 hr
      split at h
      · rename_i e2 f2 hl
        simp only [Prod.mk.injEq, Except.error.injEq] at h
        rw [h.1, h.2] at hl
        exact blocksLoop_error D e file' n _ _ hl
      · simp at h

/-- What the loop of `blocks` returns: `n` blocks, each read through the device
at the `next` pointer of the block before it, whatever that pointer is. -/
theorem blocksLoop_ok {δ : Type} (D : BlockDevice δ) :
    ∀ (n : Nat) (pblk : block) (file file' : δ) (l : List (block × ByteSlice)),
    blocksLoop D n pblk file = (.ok l, file') →
    l.length = n ∧ FollowsNext pblk l ∧ ∀ b ∈ l, ReadFrom D b
  | 0, _, _, _, l, h => by
    simp only [blocksLoop, Prod.mk.injEq, Except.ok.injEq] at h
    rw [← h.1]
    exact ⟨rfl, trivial, by simp⟩
  | n + 1, pblk, file, file', l, h => by
    unfold blocksLoop at h
    split at h
    · simp at h
    · rename_i blk f1 hr
      split at h
      · simp at h
      · rename_i rest f2 hl
        simp only [Prod.mk.injEq, Except.ok.injEq] at h
        obtain ⟨h1, h2⟩ := h
        subst h1
        obtain ⟨r1, r2⟩ := readBlock_ok D _ _ _ _ hr
        obtain ⟨l1, l2, l3⟩ := blocksLoop_ok D n blk.1 f1 f2 rest hl
        refine ⟨by rw [List.length_cons, l1], ⟨r1, l2⟩, ?_⟩
        intro b hb
        rcases List.mem_cons.mp hb with hb | hb
        · rw [hb]; exact r2
        · exact l3 b hb

/-- Slicing record slots fails only with the panic of a slice beyond the data. -/
theorem sliceRecords_error (ks vs : Nat) (data : ByteSlice) (e : Err) :
    ∀ (n off : Nat), sliceRecords ks vs data n off = .error e → e = .Panic
  | 0, _, h => by simp [sliceRecords] at h
  | n + 1, off, h => by
    unfold sliceRecords at h
    split at h
    · simp only [Except.error.injEq] at h
      exact h.symm
    · split at h
      · rename_i e1 hr
        simp only [Except.error.injEq] at h
        rw [h] at hr
        exact sliceRecords_error ks vs data e n _ hr
      · simp at h

theorem viewOf_error (ks vs length : Nat) (e : Err) :
    ∀ (bs : List (block × ByteSlice)), viewOf ks vs length bs = .error e → e = .Panic
  | [], h => by simp [viewOf] at h
  | b :: rest, h => by
    unfold viewOf at h
    split at h
    · rename_i e1 hr
      simp only [Except.error.injEq] at h
      rw [h] at hr
      exact sliceRecords_error ks vs _ e _ _ hr
    · split at h
      · rename_i e2 hr
        simp only [Except.error.injEq] at h
        rw [h] at hr
        exact viewOf_error ks vs length e rest hr
      · simp at h

/-- C18, amended: `blocks`, and with it `ReadBlockTable`, follows the next pointers
from the head block without looking at them. A successful `blocks` returns the
head block read at `key` and `header.blocks - 1` further blocks, each read
through the device at the offset the next pointer of the block before it holds,
whatever that offset is: where the pointer is 0 the block read at offset 0 is
the next chain member. `blocks` fails only with the error of a failed device
read, and `ReadBlockTable` fails only with such an error or with the panic of
a zero record size or of record slots that do not fit the data read; a
successful `ReadBlockTable` has the chain `blocks` returned. -/
theorem blocks_follows_next {δ : Type} (D : BlockDevice δ) (file : δ) (key : Int) :
    (∀ e file', blocks D file key = (.error e, file') →
      ∃ f p, D.ReadBlock f p = (.error e, file')) ∧
    (∀ bs file', blocks D file key = (.ok bs, file') →
      ∃ b0 rest, bs = b0 :: rest ∧ b0.1.key = key ∧
        rest.length = b0.1.header.blocks - 1 ∧ FollowsNext b0.1 rest ∧
        (∀ b ∈ bs, ReadFrom D b) ∧
        ∀ i a b, bs[i]? = some a → bs[i + 1]? = some b → a.1.header.next = 0 → b.1.key = 0) ∧
    (∀ e file', ReadBlockTable D file key = (.error e, file') →
      (∃ f p, D.ReadBlock f p = (.error e, file')) ∨ e = .Panic) ∧
    (∀ t file', ReadBlockTable D file key = (.ok t, file') →
      ∃ bs, blocks D file key = (.ok bs, file') ∧ t.blocks = bs.map (fun b => b.1) ∧
        t.header.blocks - 1 = t.blocks.length - 1) := by
  have herr : ∀ e file', blocks D file key = (.error e, file') →
      ∃ f p, D.ReadBlock f p = (.error e, file') := by
    intro e file' h
    unfold blocks at h
    split at h
    · rename_i e1 f1 hr
      simp only [Prod.mk.injEq, Except.error.injEq] at h
      rw [h.1, h.2] at hr
      exact ⟨file, key, readBlock_error D _ _ _ _ hr⟩
    · rename_i b0 f1 hr
      split at h
      · rename_i e2 f2 hl
        simp only [Prod.mk.injEq, Except.error.injEq] at h
        rw [h.1, h.2] at hl
        exact blocksLoop_error D e file' _ _ _ hl
      · simp at h
  have hok : ∀ bs file', blocks D file key = (.ok bs, file') →
      ∃ b0 rest, bs = b0 :: rest ∧ b0.1.key = key ∧
        rest.length = b0.1.header.blocks - 1 ∧ FollowsNext b0.1 rest ∧
        (∀ b ∈ bs, ReadFrom D b) := by
    intro bs file' h
    unfold blocks at h
    split at h
    · simp at h
    · rename_i b0 f1 hr
      split at h
      · simp at h
      · rename_i rest f2 hl
        simp only [Prod.mk.injEq, Except.ok.injEq] at h
        obtain ⟨r1, r2⟩ := readBlock_ok D _ _ _ _ hr
        obtain ⟨l1, l2, l3⟩ := blocksLoop_ok D _ _ _ _ _ hl
        refine ⟨b0, rest, h.1.symm, r1, l1, l2, ?_⟩
        intro b hb
        rw [← h.1] at hb
        rcases List.mem_cons.mp hb with hb | hb
        · rw [hb]; exact r2
        · exact l3 b hb
  have hlink : ∀ (rest : List (block × ByteSlice)) (p : block × ByteSlice),
      FollowsNext p.1 rest →
      ∀ i a b, (p :: rest)[i]? = some a → (p :: rest)[i + 1]? = some b →
        b.1.key = a.1.header.next := by
    intro rest
    induction rest with
    | nil =>
      intro p _ i a b _ hb
      simp at hb
    | cons x xs ih =>
      intro p hf i a b ha hb
      cases i with
      | zero =>
        simp only [List.getElem?_cons_zero, Option.some.injEq] at ha
        simp only [Nat.zero_add, List.getElem?_cons_succ, List.getElem?_cons_zero,
          Option.some.injEq] at hb
        rw [← ha, ← hb]
        exact hf.1
      | succ j =>
        rw [List.getElem?_cons_succ] at ha hb
        exact ih x hf.2 j a b ha hb
  refine ⟨herr, ?_, ?_, ?_⟩
  · intro bs file' h
    obtain ⟨b0, rest, e1, e2, e3, e4, e5⟩ := hok bs file' h
    refine ⟨b0, rest, e1, e2, e3, e4, e5, ?_⟩
    intro i a b ha hb hz
    rw [e1] at ha hb
    rw [hlink rest b0 e4 i a b ha hb, hz]
  · intro e file' h
    unfold ReadBlockTable at h
    split at h
    · rename_i e1 f1 hb
      simp only [Prod.mk.injEq, Except.error.injEq] at h
      rw [h.1, h.2] at hb
      exact Or.inl (herr e file' hb)
    · rename_i bs f1 hb
      split at h
      · simp only [Prod.mk.injEq, Except.error.injEq] at h
        exact Or.inr h.1.symm
      · simp only at h
        split at h
        · simp only [Prod.mk.injEq, Except.error.injEq] at h
          exact Or.inr h.1.symm
        · split at h
          · rename_i e2 hv
            simp only [Prod.mk.injEq, Except.error.injEq] at h
            rw [h.1] at hv
            exact Or.inr (viewOf_error _ _ _ e _ hv)
          · simp at h
  · intro t file' h
    unfold ReadBlockTable at h
    split at h
    · simp at h
    · rename_i bs f1 hb
      split at h
      · simp at h
      · rename_i b0 rest0
        simp only at h
        split at h
        · simp at h
        · split at h
          · simp at h
          · rename_i recs hv
            simp only [Prod.mk.injEq, Except.ok.injEq] at h
            obtain ⟨h1, h2⟩ := h
            subst h1
            subst h2
            obtain ⟨c0, rest, e1, e2, e3, e4, e5⟩ := hok _ _ hb
            refine ⟨_, hb, rfl, ?_⟩
            simp only [List.cons.injEq] at e1
            obtain ⟨rfl, rfl⟩ := e1
            simp only [List.map_cons, List.length_cons, List.length_map]
            omega
/-- Witness for C18: the device whose head block at 43 claims two blocks and
points to offset 0; the chain `blocks` returns is the block at 43 and the
block read at offset 0. -/
theorem blocks_follows_next_witness :
    blocks memDevice exBrokenDev 43
      = (.ok [(⟨43, exBrokenHead, 24⟩, List.replicate 24 0),
              (⟨0, parseHeader (List.replicate 43 9),
                (List.replicate 43 9).length - BLOCKHEADER⟩,
                (List.replicate 43 9).drop BLOCKHEADER)], exBrokenDev) ∧
    ∃ b0 rest,
      [((⟨43, exBrokenHead, 24⟩ : block), List.replicate 24 0),
        (⟨0, parseHeader (List.replicate 43 9), (List.replicate 43 9).length - BLOCKHEADER⟩,
          (List.replicate 43 9).drop BLOCKHEADER)] = b0 :: rest ∧ b0.1.key = 43 ∧
      rest.length = b0.1.header.blocks - 1 ∧ FollowsNext b0.1 rest ∧
      (∀ b ∈ [((⟨43, exBrokenHead, 24⟩ : block), List.replicate 24 0),
        (⟨0, parseHeader (List.replicate 43 9), (List.replicate 43 9).length - BLOCKHEADER⟩,
          (List.replicate 43 9).drop BLOCKHEADER)], ReadFrom memDevice b) ∧
      ∀ i a b, [((⟨43, exBrokenHead, 24⟩ : block), List.replicate 24 0),
        (⟨0, parseHeader (List.replicate 43 9), (List.replicate 43 9).length - BLOCKHEADER⟩,
          (List.replicate 43 9).drop BLOCKHEADER)][i]? = some a →
        [((⟨43, exBrokenHead, 24⟩ : block), List.replicate 24 0),
        (⟨0, parseHeader (List.replicate 43 9), (List.replicate 43 9).length - BLOCKHEADER⟩,
          (List.replicate 43 9).drop BLOCKHEADER)][i + 1]? = some b →
        a.1.header.next = 0 → b.1.key = 0 :=
  ⟨by decide, (blocks_follows_next memDevice exBrokenDev 43).2.1 _ exBrokenDev (by decide)⟩

end FileStructures
